import Mathlib

/-!
# PISA count matrix and annotation model: a shallow embedding of
`src/bam_count.c` and `src/gtf.c`

The counting engine of `bam_count.c` is embedded as pure functions over an
explicit state.  The process-global `args` of the source is split in two:
the structure `args` holds the options fixed by `parse_args`, the structure
`state` holds what the main loop mutates (`features`, `barcodes` and the
three record counters).

Machine integers are natural numbers reduced modulo their width where the
source does arithmetic on them: `uint32_t` fields modulo `2^32`, `uint64_t`
counters modulo `2^64`.

Code of the repository that is not part of the two source files (the string
interner `dict.h`, the pools of `dna_pool.h`, `RE_type_map` of `read_anno.h`,
`str_split`) is modelled from the specification or taken as a parameter
(`Env`).

The annotation model of `gtf.c` is embedded as a tree of records (`gtf`) under
the contigs of a `gtf_spec`.  A run that stops on a fatal error or a failed
assertion is `none`.  The constants of `gtf.h` are a parameter (`gtf_h`), the
interval index of `region_index.h` is modelled from the specification.
-/

namespace PISA

/-! ## Collaborators -/

/-- Modelled from the spec: `enum exon_type` of `read_anno.h`, which is not in
the source files.  The six classes that `bam_count.c` names are constructors of
their own, `type_exon` and `type_exonic` are the two spliced-compatible classes
the specification names, and `type_other` stands for every further member of
the enumeration. -/
inductive exon_type where
  | type_unknown
  | type_exon
  | type_exonic
  | type_intron
  | type_exon_intron
  | type_antisense
  | type_ambiguous
  | type_intergenic
  | type_other (code : Nat)
deriving DecidableEq, Repr

/-- The functions of the repository that `bam_count.c` calls and whose code is
not in the source files, taken as parameters, together with the contents of
memory that `malloc` hands out uninitialised.

* `RE_type_map` maps the region-type character of a record to its class;
* `str_split` cuts the feature field into its tokens;
* `junk_count f c` and `junk_unspliced f c` are the values found in the
  uninitialised `count` and `unspliced` fields of the count cell allocated for
  feature id `f` and cell id `c` in UMI mode. -/
structure Env where
  RE_type_map : Char → exon_type
  str_split : String → List String
  junk_count : Nat → Nat → Nat
  junk_unspliced : Nat → Nat → Nat

/-- Modelled from the spec: the string interner of `dict.h`, "ordered mapping
name → id (int ≥ 0) with reverse lookup and an optional associated value slot
per id".  The id of an entry is its position in `data`. -/
structure dict (α : Type) where
  data : List (String × Option α)

/-- Position of the first entry named `s`. -/
def dict_find {α : Type} : List (String × Option α) → String → Option Nat
  | [], _ => none
  | e :: t, s => if e.1 = s then some 0 else (dict_find t s).map (· + 1)

/-- Modelled from the spec: `dict_init`. -/
def dict_init {α : Type} : dict α := ⟨[]⟩

/-- Modelled from the spec: `size()`. -/
def dict_size {α : Type} (d : dict α) : Nat := d.data.length

/-- Modelled from the spec: `query(s) → id | -1`; `none` stands for `-1`. -/
def dict_query {α : Type} (d : dict α) (s : String) : Option Nat := dict_find d.data s

/-- Modelled from the spec: `push(s) → id`, "returns the same id on
re-insertion"; a new name gets the next id and an empty value slot. -/
def dict_push {α : Type} (d : dict α) (s : String) : Nat × dict α :=
  match dict_query d s with
  | some i => (i, d)
  | none => (d.data.length, ⟨d.data ++ [(s, none)]⟩)

/-- Modelled from the spec: `name(id) → s`. -/
def dict_name {α : Type} (d : dict α) (i : Nat) : Option String := (d.data.get? i).map Prod.fst

/-- Modelled from the spec: `query_value(id) → v`; `none` stands for `NULL`. -/
def dict_query_value {α : Type} (d : dict α) (i : Nat) : Option α := (d.data.get? i).bind Prod.snd

/-- Replace the value slot at position `i`. -/
def assign_at {α : Type} : List (String × Option α) → Nat → α → List (String × Option α)
  | [], _, _ => []
  | e :: t, 0, v => (e.1, some v) :: t
  | e :: t, i + 1, v => e :: assign_at t i v

/-- Modelled from the spec: `assign_value(id, v)`. -/
def dict_assign_value {α : Type} (d : dict α) (i : Nat) (v : α) : dict α := ⟨assign_at d.data i v⟩

/-- Modelled from the spec: the string-deduplicating shape of the DNA pool of
`dna_pool.h`: "`push(s)` inserts if absent; `size()` reports distinct".  The
field `l` of the source is `data.length`. -/
structure PISA_dna_pool where
  data : List String
deriving DecidableEq, Repr

/-- Modelled from the spec: `PISA_dna_pool_init`, the empty pool. -/
def PISA_dna_pool_init : PISA_dna_pool := ⟨[]⟩

/-- Modelled from the spec: `PISA_dna_push`, idempotent insertion. -/
def PISA_dna_push (p : PISA_dna_pool) (s : String) : PISA_dna_pool :=
  if s ∈ p.data then p else ⟨p.data ++ [s]⟩

/-- The field `l` of a string pool. -/
def PISA_dna_pool.l (p : PISA_dna_pool) : Nat := p.data.length

/-- The `struct counts` of `bam_count.c`.  A pool pointer that is `NULL`, not yet
set, or already destroyed is `none`. -/
structure counts where
  count : Nat
  p : Option PISA_dna_pool
  unspliced : Nat
  up : Option PISA_dna_pool
deriving DecidableEq, Repr

/-- Modelled from the spec: an entry of the index-keyed shape of the DNA pool,
"entries hold `(idx, count, payload*)`"; `data` is the payload, which
`count_matrix_core` sets to a `struct counts` as soon as the entry is made.
The field `count` is the entry's own counter, the multiplicity of its key in
the pool ("deduplicating multiset"): 1 from the push that makes the entry.
Nothing in `bam_count.c` writes it. -/
structure PISA_dna where
  idx : Nat
  data : counts
  count : Nat := 1
deriving DecidableEq, Repr

/-- Modelled from the spec: the index-keyed shape of the DNA pool, the cell
entries of one feature.  The field `l` of the source is `data.length`. -/
structure PISA_idx_pool where
  data : List PISA_dna
deriving DecidableEq, Repr

/-- Modelled from the spec: `query(id) → entry?`. -/
def PISA_idx_query (v : PISA_idx_pool) (cell_id : Nat) : Option PISA_dna :=
  v.data.find? (fun e => e.idx = cell_id)

/-- Modelled from the spec: `push(id) → entry`, with the payload the caller
attaches to the fresh entry. -/
def PISA_idx_push (v : PISA_idx_pool) (cell_id : Nat) (c : counts) : PISA_idx_pool :=
  ⟨v.data ++ [{ idx := cell_id, data := c }]⟩

/-- Write through the entry pointer `c` returned by `PISA_idx_query`: the
payload of the first entry keyed `cell_id` is replaced by `f` of it. -/
def idx_modify (f : counts → counts) (cell_id : Nat) : List PISA_dna → List PISA_dna
  | [] => []
  | e :: t => if e.idx = cell_id then { e with data := f e.data } :: t
              else e :: idx_modify f cell_id t

/-! ## Records and options -/

/-- The fields of `bam1_core_t` that `bam_count.c` reads. -/
structure bam1_core_t where
  tid : Int
  qual : Nat
  flag : Nat
deriving DecidableEq, Repr

/-- An alignment record: its core fields and its auxiliary tags, each a two
letter name with the value that follows the one-byte type code. -/
structure bam1_t where
  core : bam1_core_t
  aux : List (String × String)
deriving DecidableEq, Repr

/-- Lookup of an auxiliary tag by name (`bam_aux_get` of htslib); `none`
stands for `NULL`.  The result is the value after the type byte, which the
source reads as `tag0+1`. -/
def bam_aux_get (b : bam1_t) (tag : String) : Option String :=
  (b.aux.find? (fun kv => kv.1 = tag)).map Prod.snd

/-- The byte `data[1]` of an auxiliary value: its first character, or the
terminating NUL of an empty value. -/
def data1 (v : String) : Char := v.data.headD (Char.ofNat 0)

/-- The flag bit `BAM_FUNMAP`. -/
def BAM_FUNMAP : Nat := 4

/-- The flag bit `BAM_FDUP`. -/
def BAM_FDUP : Nat := 1024

/-- The options of `struct args` that `parse_args` fixes before the main loop.
`n_type` of the source is `region_types.length`; the flags that only ever hold
0 or 1 are booleans. -/
structure args where
  whitelist_fname : Option String
  output_fname : Option String
  outdir : Option String
  tag : Option String
  anno_tag : String
  umi_tag : Option String
  mapq_thres : Int
  use_dup : Bool
  one_hit : Bool
  alias_file_cb : Bool
  region_type_tag : String
  region_types : List exon_type
  velocity : Bool

/-- The fields of `struct args` that the main loop, `update_counts` and
`write_outs` mutate. -/
structure state where
  features : dict PISA_idx_pool
  barcodes : dict Unit
  n_record : Nat
  n_record1 : Nat
  n_record2 : Nat

/-- One record as the main loop sees it: the record, `n_targets` of the header
of the file it came from, and the alias of that file (`NULL` is `none`). -/
structure bam_item where
  b : bam1_t
  n_targets : Int
  file_alias : Option String

/-! ## Machine integers -/

/-- Value of a `uint32_t` after an arithmetic result `n`. -/
def u32 (n : Nat) : Nat := n % 2 ^ 32

/-- Value of a `uint64_t` after an arithmetic result `n`. -/
def u64 (n : Nat) : Nat := n % 2 ^ 64

/-- The `int` that a `uint32_t` value converts to. -/
def to_int32 (n : Nat) : Int := if n < 2 ^ 31 then (n : Int) else (n : Int) - 2 ^ 32

/-! ## `count_matrix_core` -/

/-- Control flow of a block of `count_matrix_core`: the process aborts (a
failed `assert`, a `NULL` handed on), the function returns 1, or it goes on. -/
inductive flow (α : Type) where
  | abort
  | drop
  | next (x : α)

/-- Lines 242-250: the barcode string the record is counted under. -/
def read_cell_tag (a : args) (b : bam1_t) (tag : Option String) : flow (Option String) :=
  match a.tag with
  | some t =>
    match bam_aux_get b t with
    | none => .drop
    | some v => .next (some v)
  | none =>
    if a.alias_file_cb then
      match tag with
      | none => .abort
      | some s => .next (some s)
    else .next tag

/-- Lines 260-270: `none` when the record is dropped by the velocity
classification, otherwise the value of the local `unspliced`. -/
def velocity_class (env : Env) (a : args) (b : bam1_t) : Option Bool :=
  if a.velocity then
    match bam_aux_get b a.region_type_tag with
    | none => none
    | some data =>
      if env.RE_type_map (data1 data) = .type_unknown then none
      else if env.RE_type_map (data1 data) = .type_antisense then none
      else if env.RE_type_map (data1 data) = .type_ambiguous then none
      else if env.RE_type_map (data1 data) = .type_intergenic then none
      else if env.RE_type_map (data1 data) = .type_exon_intron
          ∨ env.RE_type_map (data1 data) = .type_intron then some true
      else some false
  else some false

/-- Lines 272-279: the cell id of the barcode and the barcodes table after the
lookup. -/
def resolve_cell (a : args) (barcodes : dict Unit) (tag : Option String) :
    flow (Nat × dict Unit) :=
  match tag with
  | none => .abort
  | some s =>
    match a.whitelist_fname with
    | some _ =>
      match dict_query barcodes s with
      | none => .drop
      | some cell_id => .next (cell_id, barcodes)
    | none => .next (dict_push barcodes s)

/-- Modelled from the spec: `PISA_dna_pool_init` for the index-keyed shape. -/
def PISA_idx_pool_init : PISA_idx_pool := ⟨[]⟩

/-- Lines 314-323: the count cell attached to a fresh entry. -/
def new_counts (env : Env) (a : args) (idx cell_id : Nat) : counts :=
  match a.umi_tag with
  | some _ =>
    { count := u32 (env.junk_count idx cell_id)
      p := some PISA_dna_pool_init
      unspliced := u32 (env.junk_unspliced idx cell_id)
      up := if a.velocity then some PISA_dna_pool_init else none }
  | none => { count := 0, p := none, unspliced := 0, up := none }

/-- Lines 326-343: the record is added to a count cell; `none` is a failed
assertion or a `NULL` pool. -/
def accumulate (a : args) (b : bam1_t) (unspliced : Bool) (c : counts) : Option counts :=
  match a.umi_tag with
  | some u =>
    match bam_aux_get b u with
    | none => none
    | some val =>
      match c.p with
      | none => none
      | some p =>
        if a.velocity ∧ unspliced then
          match c.up with
          | none => none
          | some up => some { c with p := some (PISA_dna_push p val), up := some (PISA_dna_push up val) }
        else some { c with p := some (PISA_dna_push p val) }
  | none =>
    if a.velocity ∧ unspliced then
      some { c with count := u32 (c.count + 1), unspliced := u32 (c.unspliced + 1) }
    else some { c with count := u32 (c.count + 1) }

/-- Lines 296-344, the body of the loop over the feature tokens, for the token
`val`. -/
def count_feature (env : Env) (a : args) (b : bam1_t) (cell_id : Nat) (unspliced : Bool)
    (features : dict PISA_idx_pool) (val : String) : Option (dict PISA_idx_pool) :=
  let r := match dict_query features val with
    | some i => (i, features)
    | none => dict_push features val
  let v := match dict_query_value r.2 r.1 with
    | some v => v
    | none => PISA_idx_pool_init
  let v1 := match PISA_idx_query v cell_id with
    | some _ => v
    | none => PISA_idx_push v cell_id (new_counts env a r.1 cell_id)
  match PISA_idx_query v1 cell_id with
  | none => none
  | some c =>
    match accumulate a b unspliced c.data with
    | none => none
    | some c1 => some (dict_assign_value r.2 r.1 ⟨idx_modify (fun _ => c1) cell_id v1.data⟩)

/-- Lines 296-344, the loop over the feature tokens. -/
def count_features (env : Env) (a : args) (b : bam1_t) (cell_id : Nat) (unspliced : Bool) :
    List String → dict PISA_idx_pool → Option (dict PISA_idx_pool)
  | [], features => some features
  | val :: rest, features =>
    match count_feature env a b cell_id unspliced features val with
    | none => none
    | some f => count_features env a b cell_id unspliced rest f

/-- The function `count_matrix_core` of the source: `none` when the process
aborts, otherwise the return code and the state left behind. -/
def count_matrix_core (env : Env) (a : args) (st : state) (b : bam1_t) (tag : Option String) :
    Option (Int × state) :=
  match read_cell_tag a b tag with
  | .abort => none
  | .drop => some (1, st)
  | .next tag1 =>
    match bam_aux_get b a.anno_tag with
    | none => some (1, st)
    | some anno =>
      if a.umi_tag.isSome ∧ (a.umi_tag.bind (bam_aux_get b)).isNone then some (1, st)
      else
        match velocity_class env a b with
        | none => some (1, st)
        | some unspliced =>
          match resolve_cell a st.barcodes tag1 with
          | .abort => none
          | .drop => some (1, st)
          | .next r =>
            if a.one_hit ∧ (env.str_split anno).length > 1 then
              some (1, { st with barcodes := r.2 })
            else
              match count_features env a b r.1 unspliced (env.str_split anno) st.features with
              | none => none
              | some f => some (0, { st with barcodes := r.2, features := f })

/-! ## The main loop of `count_matrix` -/

/-- Lines 594-609: the region-type whitelist; `true` when the record goes on. -/
def region_type_pass (env : Env) (a : args) (b : bam1_t) : Bool :=
  if a.region_types.length > 0 then
    match bam_aux_get b a.region_type_tag with
    | none => false
    | some data => a.region_types.any (fun t => t = env.RE_type_map (data1 data))
  else true

/-- Lines 590-609: `true` when no `continue` is taken, so that line 611 hands
the record to `count_matrix_core`. -/
def count_matrix_filter (env : Env) (a : args) (it : bam_item) : Bool :=
  if it.b.core.tid ≤ -1 ∨ it.b.core.tid > it.n_targets ∨ it.b.core.flag &&& BAM_FUNMAP ≠ 0 then false
  else if (it.b.core.qual : Int) < a.mapq_thres then false
  else if a.use_dup = false ∧ it.b.core.flag &&& BAM_FDUP ≠ 0 then false
  else region_type_pass env a it.b

/-- One turn of the loop of `count_matrix` (lines 583-611); `none` when the
process ends in `error` or aborts in `count_matrix_core`. -/
def count_matrix_step (env : Env) (a : args) (st : state) (it : bam_item) : Option state :=
  if a.alias_file_cb ∧ it.file_alias.isNone then none
  else if count_matrix_filter env a it then
    (count_matrix_core env a st it.b it.file_alias).map Prod.snd
  else some st

/-- The loop of `count_matrix` over the records of the input. -/
def count_matrix_loop (env : Env) (a : args) : state → List bam_item → Option state
  | st, [] => some st
  | st, it :: rest =>
    match count_matrix_step env a st it with
    | none => none
    | some st1 => count_matrix_loop env a st1 rest

/-- Modelled from the spec: `read(path)`, the bulk load of a file of names,
one a line; each line is pushed in turn. -/
def dict_read {α : Type} (d : dict α) (lines : List String) : dict α :=
  lines.foldl (fun acc s => (dict_push acc s).2) d

/-- The state `parse_args` leaves (lines 208-216): no feature, the barcodes of
the whitelist file when there is one, counters at zero. -/
def init_state (a : args) (whitelist : List String) : state :=
  { features := dict_init
    barcodes := match a.whitelist_fname with
      | some _ => dict_read dict_init whitelist
      | none => dict_init
    n_record := 0
    n_record1 := 0
    n_record2 := 0 }

/-! ## `update_counts` -/

/-- Lines 361-373: the pools of a count cell are collapsed into its counters.
The size `l` of a pool is a non-negative `int`, which the assignments
`int size = l; count->count = size` carry over unchanged. -/
def update_cell (a : args) (c : counts) : Option counts :=
  match a.umi_tag with
  | some _ =>
    match c.p with
    | none => none
    | some p =>
      if a.velocity then
        match c.up with
        | none => none
        | some up => some { c with count := p.l, p := none, unspliced := up.l, up := none }
      else some { c with count := p.l, p := none }
  | none => some c

/-- Lines 358-376: the loop over the cells of one feature, with the running
`n_record` and `n_record2`. -/
def update_cells (a : args) : List PISA_dna → Nat → Nat → Option (List PISA_dna × Nat × Nat)
  | [], n, n2 => some ([], n, n2)
  | e :: t, n, n2 =>
    match update_cell a e.data with
    | none => none
    | some c =>
      match update_cells a t (u64 (n + c.count)) (u64 (n2 + c.unspliced)) with
      | none => none
      | some r => some ({ e with data := c } :: r.1, r.2)

/-- Lines 354-377: the loop over the features. -/
def update_features (a : args) :
    List (String × Option PISA_idx_pool) → Nat → Nat →
      Option (List (String × Option PISA_idx_pool) × Nat × Nat)
  | [], n, n2 => some ([], n, n2)
  | e :: t, n, n2 =>
    match e.2 with
    | none => none
    | some v =>
      match update_cells a v.data n n2 with
      | none => none
      | some r =>
        match update_features a t r.2.1 r.2.2 with
        | none => none
        | some r1 => some ((e.1, some ⟨r.1⟩) :: r1.1, r1.2)

/-- The function `update_counts` of the source; `none` when it dereferences a
`NULL` pointer. -/
def update_counts (a : args) (st : state) : Option state :=
  match update_features a st.features.data st.n_record st.n_record2 with
  | none => none
  | some r => some { st with features := ⟨r.1⟩, n_record := r.2.1, n_record2 := r.2.2 }

/-! ## `write_outs` -/

/-- A matrix file: the three fields of its dimension line and its triplet
lines `(feature_index, barcode_index, value)`. -/
structure mex_file where
  dims : Nat × Nat × Nat
  lines : List (Nat × Nat × Nat)
deriving DecidableEq, Repr

/-- Line 490: `int spliced = count->count - count->unspliced`. -/
def spliced_of (c : counts) : Int := to_int32 (u32 (c.count + 2 ^ 32 - c.unspliced))

/-- Lines 487-498 for the first matrix file (`str`): the lines one feature
adds, `i` being the feature id. -/
def mex_lines_cells (a : args) (i : Nat) : List PISA_dna → List (Nat × Nat × Nat)
  | [] => []
  | e :: t =>
    if a.velocity then
      if spliced_of e.data > 0 then
        (i + 1, e.idx + 1, (spliced_of e.data).toNat) :: mex_lines_cells a i t
      else mex_lines_cells a i t
    else (i + 1, e.idx + 1, e.data.count) :: mex_lines_cells a i t

/-- Lines 487-498 for the unspliced file (`str2`). -/
def unspliced_lines_cells (i : Nat) : List PISA_dna → List (Nat × Nat × Nat)
  | [] => []
  | e :: t =>
    if e.data.unspliced > 0 then (i + 1, e.idx + 1, e.data.unspliced) :: unspliced_lines_cells i t
    else unspliced_lines_cells i t

/-- Lines 483-511 for the first matrix file: features from id `i` on; `none`
when a feature has no cell pool. -/
def mex_lines (a : args) : Nat → List (String × Option PISA_idx_pool) → Option (List (Nat × Nat × Nat))
  | _, [] => some []
  | i, e :: t =>
    match e.2 with
    | none => none
    | some v => (mex_lines a (i + 1) t).map (fun r => mex_lines_cells a i v.data ++ r)

/-- Lines 483-511 for the unspliced file. -/
def unspliced_lines : Nat → List (String × Option PISA_idx_pool) → Option (List (Nat × Nat × Nat))
  | _, [] => some []
  | i, e :: t =>
    match e.2 with
    | none => none
    | some v => (unspliced_lines (i + 1) t).map (fun r => unspliced_lines_cells i v.data ++ r)

/-- What the MEX branch of `write_outs` writes: the barcode and feature lists,
the first matrix file (`matrix.mtx`, or `spliced.mtx` in velocity mode) and, in
velocity mode, `unspliced.mtx`. -/
structure mex_outs where
  barcode_names : List String
  feature_names : List String
  mex : mex_file
  unspliced : Option mex_file
deriving DecidableEq, Repr

/-- The ways `write_outs` ends. -/
inductive write_result where
  | fatal (msg : String)
  | warned (msg : String)
  | crashed
  | written (mex : Option mex_outs)
deriving DecidableEq, Repr

/-- Lines 394-531, the branch `if (args.outdir)`, with `n_record1` already
set; `none` when a feature has no cell pool. -/
def write_mex (a : args) (st : state) : Option mex_outs :=
  match mex_lines a 0 st.features.data with
  | none => none
  | some ls =>
    if a.velocity then
      match unspliced_lines 0 st.features.data with
      | none => none
      | some us =>
        some { barcode_names := st.barcodes.data.map Prod.fst
               feature_names := st.features.data.map Prod.fst
               mex := ⟨(dict_size st.features, dict_size st.barcodes, st.n_record1), ls⟩
               unspliced := some ⟨(dict_size st.features, dict_size st.barcodes, st.n_record2), us⟩ }
    else
      some { barcode_names := st.barcodes.data.map Prod.fst
             feature_names := st.features.data.map Prod.fst
             mex := ⟨(dict_size st.features, dict_size st.barcodes, st.n_record1), ls⟩
             unspliced := none }

/-- Lines 390-392: the value `n_record1` gets. -/
def n_record1_of (a : args) (st : state) : Nat :=
  if a.velocity then u64 (st.n_record + 2 ^ 64 - st.n_record2) else st.n_record

/-- The function `write_outs` of the source, up to the MEX branch; the legacy
branch that follows it is `write_outs_tsv`. -/
def write_outs (a : args) (st : state) : write_result :=
  if dict_size st.barcodes = 0 then .fatal "No barcode found."
  else if dict_size st.features = 0 then .fatal "No feature found."
  else if st.n_record = 0 then .warned "No anntated record found."
  else
    match a.outdir with
    | some _ =>
      match write_mex a { st with n_record1 := n_record1_of a st } with
      | none => .crashed
      | some o => .written (some o)
    | none => .written none

/-- What the legacy branch of `write_outs` writes: the header line (`ID` and
the barcodes) and one row for every feature, its name and one value for every
barcode. -/
structure tsv_out where
  header : List String
  rows : List (String × List Nat)
deriving DecidableEq, Repr

/-- Lines 550-553: the row buffer `temp` after the loop over the cell entries
of one feature, `temp[idx] = v->data[j].count`. -/
def tsv_fill (temp : List Nat) : List PISA_dna → List Nat
  | [] => temp
  | e :: t => tsv_fill (temp.set e.idx e.count) t

/-- Lines 544-558: the rows of the features, each from a zero-filled buffer of
`n_barcode` values; `none` when a feature has no cell pool. -/
def tsv_rows (n_barcode : Nat) :
    List (String × Option PISA_idx_pool) → Option (List (String × List Nat))
  | [] => some []
  | e :: t =>
    match e.2 with
    | none => none
    | some v =>
      (tsv_rows n_barcode t).map (fun r => (e.1, tsv_fill (List.replicate n_barcode 0) v.data) :: r)

/-- Lines 534-561, the branch `if (args.output_fname)` of `write_outs`. -/
def write_tsv (st : state) : Option tsv_out :=
  (tsv_rows (dict_size st.barcodes) st.features.data).map
    (fun r => { header := "ID" :: st.barcodes.data.map Prod.fst, rows := r })

/-- The legacy dense path of `write_outs`: what is written to `output_fname`,
`none` when `write_outs` ends before the branch (lines 384-389), no
`output_fname` is set, or a feature has no cell pool. -/
def write_outs_tsv (a : args) (st : state) : Option tsv_out :=
  if dict_size st.barcodes = 0 then none
  else if dict_size st.features = 0 then none
  else if st.n_record = 0 then none
  else
    match a.output_fname with
    | some _ => write_tsv st
    | none => none

/-- The run of `count_matrix` from the end of `parse_args` to the end of
`update_counts`: the loop over the records, then `update_counts`. -/
def count_matrix_run (env : Env) (a : args) (whitelist : List String) (rs : List bam_item) :
    Option state :=
  (count_matrix_loop env a (init_state a whitelist) rs).bind (update_counts a)

/-! ## Accepted records and what they contribute -/

/-- What an accepted record carries into the counts: its barcode, its feature
tokens, the value of the local `unspliced`, and its UMI (the empty string when
no UMI tag is configured). -/
structure hit where
  cell : String
  tokens : List String
  unspliced : Bool
  umi : String
deriving DecidableEq, Repr

/-- Lines 242-270 and 282-285 of `count_matrix_core` read without the tables:
the record has its barcode, feature and UMI tags and survives the velocity
classification. -/
def core_hit (env : Env) (a : args) (b : bam1_t) (tag : Option String) : Option hit :=
  match read_cell_tag a b tag with
  | .next (some cb) =>
    match bam_aux_get b a.anno_tag with
    | none => none
    | some anno =>
      if a.umi_tag.isSome ∧ (a.umi_tag.bind (bam_aux_get b)).isNone then none
      else
        match velocity_class env a b with
        | none => none
        | some unspliced =>
          some { cell := cb
                 tokens := env.str_split anno
                 unspliced := unspliced
                 umi := (a.umi_tag.bind (bam_aux_get b)).getD "" }
  | _ => none

/-- A record that passes the filters of the main loop and has all it needs. -/
def record_hit (env : Env) (a : args) (it : bam_item) : Option hit :=
  if count_matrix_filter env a it then core_hit env a it.b it.file_alias else none

/-- An accepted record: it passes every filter, its barcode resolves (in
whitelist mode it is on the whitelist) and it is not dropped by `one_hit`. -/
def accepted (env : Env) (a : args) (whitelist : List String) (it : bam_item) : Option hit :=
  match record_hit env a it with
  | none => none
  | some h =>
    if (a.whitelist_fname.isSome ∧ h.cell ∉ whitelist) ∨ (a.one_hit ∧ h.tokens.length > 1) then none
    else some h

/-- The accepted record `it` is counted under barcode `c` and lists feature `f`. -/
def contributes (env : Env) (a : args) (whitelist : List String) (f c : String)
    (it : bam_item) : Bool :=
  match accepted env a whitelist it with
  | some h => h.cell = c ∧ f ∈ h.tokens
  | none => false

/-- The contributions to the pair (feature `f`, barcode `c`), in input order:
one `(umi, unspliced)` for every occurrence of `f` among the tokens of an
accepted record of barcode `c`. -/
def contribs (env : Env) (a : args) (whitelist : List String) (f c : String) :
    List bam_item → List (String × Bool)
  | [] => []
  | it :: rest =>
    (match accepted env a whitelist it with
      | some h => if h.cell = c then List.replicate (h.tokens.count f) (h.umi, h.unspliced) else []
      | none => []) ++ contribs env a whitelist f c rest

/-- The count cell held for feature `f` and barcode `c`: the feature id and
the cell id are looked up in the two tables, the cell entry in the pool of the
feature. -/
def held_cell (st : state) (f c : String) : Option counts :=
  match dict_query st.features f, dict_query st.barcodes c with
  | some i, some cell_id =>
    match dict_query_value st.features i with
    | some v => (PISA_idx_query v cell_id).map PISA_dna.data
    | none => none
  | _, _ => none

/-- The `count` held for feature `f` and barcode `c`, 0 when there is no cell. -/
def held_count (st : state) (f c : String) : Nat :=
  ((held_cell st f c).map counts.count).getD 0

/-- The `unspliced` held for feature `f` and barcode `c`, 0 when there is no cell. -/
def held_unspliced (st : state) (f c : String) : Nat :=
  ((held_cell st f c).map counts.unspliced).getD 0

/-- The run can go through: the main loop does not stop with "No alias found",
and every record has a barcode source (the barcode tag is configured or the
file has an alias). -/
def input_ok (a : args) (it : bam_item) : Prop :=
  (a.alias_file_cb = true → it.file_alias.isSome = true) ∧
    (a.tag.isSome = true ∨ it.file_alias.isSome = true)

instance (a : args) (it : bam_item) : Decidable (input_ok a it) := by
  unfold input_ok; infer_instance

/-- Number of feature tokens counted over the run: the tokens of the accepted
records, that is the number of times the body of the token loop runs. -/
def n_counted (env : Env) (a : args) (whitelist : List String) : List bam_item → Nat
  | [] => 0
  | it :: rest =>
    (match accepted env a whitelist it with
      | some h => h.tokens.length
      | none => 0) + n_counted env a whitelist rest

/-- Number of occurrences of feature `f` among the tokens of the accepted
records of barcode `c`. -/
def occurrences (env : Env) (a : args) (whitelist : List String) (f c : String) :
    List bam_item → Nat
  | [] => 0
  | it :: rest =>
    (match accepted env a whitelist it with
      | some h => if h.cell = c then h.tokens.count f else 0
      | none => 0) + occurrences env a whitelist f c rest

/-- The UMI string of a record (the empty string when no UMI tag is
configured). -/
def umi_of (a : args) (it : bam_item) : String :=
  (a.umi_tag.bind (bam_aux_get it.b)).getD ""

/-- The region class of a record: `RE_type_map` of the first byte of its
region-type tag, `none` when it lacks the tag. -/
def region_class (env : Env) (a : args) (b : bam1_t) : Option exon_type :=
  (bam_aux_get b a.region_type_tag).map (fun data => env.RE_type_map (data1 data))

/-- The record is classified intron or exon_intron. -/
def classified_unspliced (env : Env) (a : args) (it : bam_item) : Bool :=
  match region_class env a it.b with
  | some t => t = .type_intron ∨ t = .type_exon_intron
  | none => false

/-- Number of distinct strings of a list. -/
def n_distinct (l : List String) : Nat := l.dedup.length

/-! ## Auxiliary definitions of the proofs -/

/-- Insert-or-update of the cell entry keyed `cell_id` in the entries of one
feature, `g` giving the new payload from the old one (if any). -/
def pool_upsert (g : Option counts → Option counts) (cell_id : Nat) :
    List PISA_dna → Option (List PISA_dna)
  | [] => (g none).map (fun c => [{ idx := cell_id, data := c }])
  | e :: t =>
    if e.idx = cell_id then (g (some e.data)).map (fun c => { e with data := c } :: t)
    else (pool_upsert g cell_id t).map (fun r => e :: r)

/-- Insert-or-update of the count cell of feature `val` and cell `cell_id` in
the entries of the features table, `i` being the id of the first entry. -/
def feat_upsert (g : Nat → Option counts → Option counts) (val : String) (cell_id : Nat) :
    Nat → List (String × Option PISA_idx_pool) → Option (List (String × Option PISA_idx_pool))
  | i, [] => (pool_upsert (g i) cell_id []).map (fun d => [(val, some ⟨d⟩)])
  | i, e :: t =>
    if e.1 = val then
      (pool_upsert (g i) cell_id (e.2.getD PISA_idx_pool_init).data).map (fun d => (e.1, some ⟨d⟩) :: t)
    else (feat_upsert g val cell_id (i + 1) t).map (fun r => e :: r)

/-- The payload a token gives the count cell it lands on. -/
def token_payload (env : Env) (a : args) (b : bam1_t) (cell_id : Nat) (unspliced : Bool)
    (i : Nat) (oc : Option counts) : Option counts :=
  accumulate a b unspliced (oc.getD (new_counts env a i cell_id))

/-- The count cell keyed `cid` among the entries of one feature. -/
def pool_lookup (l : List PISA_dna) (cid : Nat) : Option counts :=
  (l.find? (fun e => e.idx = cid)).map PISA_dna.data

/-- The count cell of feature `g` and cell id `cid` in the entries of the
features table. -/
def lookup_cell : List (String × Option PISA_idx_pool) → String → Nat → Option counts
  | [], _, _ => none
  | e :: t, g, cid =>
    if e.1 = g then pool_lookup (e.2.getD PISA_idx_pool_init).data cid else lookup_cell t g cid

/-- The effect of `accumulate` on a count cell whose pools are in place, for a
record of UMI `umi`. -/
def add_hit (a : args) (umi : String) (u : Bool) (c : counts) : counts :=
  match a.umi_tag with
  | some _ =>
    if a.velocity ∧ u then
      { c with p := c.p.map (fun p => PISA_dna_push p umi), up := c.up.map (fun p => PISA_dna_push p umi) }
    else { c with p := c.p.map (fun p => PISA_dna_push p umi) }
  | none =>
    if a.velocity ∧ u then
      { c with count := u32 (c.count + 1), unspliced := u32 (c.unspliced + 1) }
    else { c with count := u32 (c.count + 1) }

/-- The count cell that starts as `c0` and takes the contributions `hs`. -/
def cell_val (a : args) (c0 : counts) (hs : List (String × Bool)) : counts :=
  hs.foldl (fun c h => add_hit a h.1 h.2 c) c0

/-- The pools a count cell needs before `update_counts` are in place. -/
def pools_ok (a : args) (c : counts) : Prop :=
  a.umi_tag.isSome = true → c.p.isSome = true ∧ (a.velocity = true → c.up.isSome = true)

/-- The entries of one feature have distinct cell ids, all below `nb`. -/
def pool_wf (nb : Nat) (l : List PISA_dna) : Prop :=
  (l.map PISA_dna.idx).Nodup ∧ ∀ x ∈ l, x.idx < nb

/-- The entries of the features table have distinct names, and each has a
pool of cell entries with distinct cell ids below `nb`. -/
def feats_wf (nb : Nat) (fs : List (String × Option PISA_idx_pool)) : Prop :=
  (fs.map Prod.fst).Nodup ∧ ∀ e ∈ fs, ∃ v, e.2 = some v ∧ pool_wf nb v.data

/-- The count cell `oc` found for a pair is the one its contributions `hs`
build: none without contributions, otherwise a fresh cell that took them all. -/
def cell_rel (env : Env) (a : args) (cid : Nat) (oc : Option counts) (hs : List (String × Bool)) :
    Prop :=
  (hs = [] ∧ oc = none) ∨ (hs ≠ [] ∧ ∃ i, oc = some (cell_val a (new_counts env a i cid) hs))

/-- The count cell `update_counts` leaves for a cell whose pools are in
place. -/
def final_cell (a : args) (c : counts) : counts :=
  match a.umi_tag with
  | some _ =>
    if a.velocity then
      { c with count := (c.p.map PISA_dna_pool.l).getD 0, p := none,
               unspliced := (c.up.map PISA_dna_pool.l).getD 0, up := none }
    else { c with count := (c.p.map PISA_dna_pool.l).getD 0, p := none }
  | none => c

/-- The cell entries of one feature after `update_counts`. -/
def final_pool (a : args) (l : List PISA_dna) : List PISA_dna :=
  l.map (fun e => { e with data := final_cell a e.data })

/-- The entries of the features table after `update_counts`. -/
def final_feats (a : args) (fs : List (String × Option PISA_idx_pool)) :
    List (String × Option PISA_idx_pool) :=
  fs.map (fun e => (e.1, e.2.map (fun v => ⟨final_pool a v.data⟩)))

/-- All cell entries of the features table, feature after feature. -/
def cells_of : List (String × Option PISA_idx_pool) → List PISA_dna
  | [] => []
  | e :: t => (e.2.getD PISA_idx_pool_init).data ++ cells_of t

/-- Sum of the `count` fields of a list of cell entries. -/
def sum_count (l : List PISA_dna) : Nat := (l.map (fun e => e.data.count)).sum

/-- Sum of the `unspliced` fields of a list of cell entries. -/
def sum_unspliced (l : List PISA_dna) : Nat := (l.map (fun e => e.data.unspliced)).sum

/-- The size of a count cell before `update_counts`: the number of UMIs in its
pool in UMI mode, its `count` otherwise. -/
def weight (a : args) (c : counts) : Nat :=
  match a.umi_tag with
  | some _ => (c.p.map PISA_dna_pool.l).getD 0
  | none => c.count

/-- Sum of the sizes of a list of cell entries. -/
def sum_weight (a : args) (l : List PISA_dna) : Nat := (l.map (fun e => weight a e.data)).sum

/-- The invariant of the main loop after the records `hist`: the tables are
well formed, in whitelist mode the barcodes are those of the whitelist, the
counters are still zero, and the count cell found for a pair is the one its
contributions build. -/
def run_inv (env : Env) (a : args) (wl : List String) (st : state) (hist : List bam_item) : Prop :=
  feats_wf (dict_size st.barcodes) st.features.data ∧
  (st.barcodes.data.map Prod.fst).Nodup ∧
  (a.whitelist_fname.isSome = true → ∀ c, c ∈ st.barcodes.data.map Prod.fst ↔ c ∈ wl) ∧
  st.n_record = 0 ∧ st.n_record2 = 0 ∧
  (∀ g c cid, dict_find st.barcodes.data c = some cid →
    cell_rel env a cid (lookup_cell st.features.data g cid) (contribs env a wl g c hist)) ∧
  (∀ g c, dict_find st.barcodes.data c = none → contribs env a wl g c hist = []) ∧
  sum_weight a (cells_of st.features.data) ≤ n_counted env a wl hist

/-- The count cell `oc` found for a pair after `update_counts` is the one its
contributions `hs` build. -/
def fin_rel (env : Env) (a : args) (cid : Nat) (oc : Option counts) (hs : List (String × Bool)) :
    Prop :=
  (hs = [] ∧ oc = none) ∨
    (hs ≠ [] ∧ ∃ i, oc = some (final_cell a (cell_val a (new_counts env a i cid) hs)))

/-- What holds of the state after the main loop over `rs` and `update_counts`:
the tables are well formed, the two counters are the sums over all count
cells, and the count cell found for a pair is the one its contributions
build. -/
def final_inv (env : Env) (a : args) (wl : List String) (st : state) (rs : List bam_item) : Prop :=
  feats_wf (dict_size st.barcodes) st.features.data ∧
  (st.barcodes.data.map Prod.fst).Nodup ∧
  (a.whitelist_fname.isSome = true → ∀ c, c ∈ st.barcodes.data.map Prod.fst ↔ c ∈ wl) ∧
  st.n_record = u64 (sum_count (cells_of st.features.data)) ∧
  st.n_record2 = u64 (sum_unspliced (cells_of st.features.data)) ∧
  (∀ g c cid, dict_find st.barcodes.data c = some cid →
    fin_rel env a cid (lookup_cell st.features.data g cid) (contribs env a wl g c rs)) ∧
  (∀ g c, dict_find st.barcodes.data c = none → contribs env a wl g c rs = []) ∧
  sum_count (cells_of st.features.data) ≤ n_counted env a wl rs

/-- The pool that holds the strings `l`, pushed in turn into an empty pool. -/
def push_all (l : List String) : PISA_dna_pool := l.foldl PISA_dna_push PISA_dna_pool_init

/-- The unspliced contributions among `hs`. -/
def unspliced_hits (hs : List (String × Bool)) : List (String × Bool) := hs.filter (fun h => h.2)

/-- Sum of the values of a list of triplet lines. -/
def line_sum (ls : List (Nat × Nat × Nat)) : Nat := (ls.map (fun t => t.2.2)).sum

/-! ## The annotation model of `gtf.c` -/

/-- The constants of `gtf.h`, which is not in the source files, taken as
parameters: the table `feature_type_names` and the members of
`enum feature_type` that `gtf.c` names. -/
structure gtf_h where
  feature_type_names : List String
  feature_gene : Int
  feature_transcript : Int
  feature_exon : Int
  feature_CDS : Int
  feature_5UTR : Int
  feature_3UTR : Int

/-- The scalar fields of `struct gtf` that `gtf_reset` and `gtf_copy` name.
The ids are `int`s with `-1` for "unset"; `end_` is the field `end`.  The
arithmetic of `int` is that of the integers: coordinates and ids are far from
the ends of the `int` range. -/
structure gtf_fields where
  seqname : Int
  source : Int
  type : Int
  start : Int
  end_ : Int
  strand : Int
  gene_id : Int
  gene_name : Int
  transcript_id : Int
deriving DecidableEq, Repr

/-- The `struct gtf` of the source: the scalar fields and the array `gtf` of
`n_gtf` children.  The per-record attribute table `attr` is left out: it is
filled only in the local record of `parse_str`, which `gtf_copy` does not copy
and `gtf_clear` frees. -/
inductive gtf where
  | mk (f : gtf_fields) (children : List gtf)
deriving Repr

/-- The scalar fields of a record. -/
def gtf.f : gtf → gtf_fields
  | .mk f _ => f

/-- The children of a record, the array `gtf` of the source. -/
def gtf.children : gtf → List gtf
  | .mk _ cs => cs

/-- The `gtf_reset` of the source: `memset` to zero, then the ids and the
coordinates to `-1`; also what `gtf_create` returns. -/
def gtf_reset : gtf :=
  .mk { seqname := -1, source := -1, type := 0, start := -1, end_ := -1, strand := 0,
        gene_id := -1, gene_name := -1, transcript_id := -1 } []

/-- The `gtf_copy` of the source: the destination after the call. -/
def gtf_copy (src : gtf_fields) : gtf :=
  .mk { seqname := src.seqname, source := src.source, type := src.type, start := src.start,
        end_ := src.end_, strand := src.strand, gene_id := src.gene_id,
        gene_name := src.gene_name, transcript_id := src.transcript_id } []

/-- The `cmpfunc1` of the source. -/
def cmpfunc1 (a b : gtf) : Int :=
  if a.f.seqname ≠ b.f.seqname then a.f.seqname - b.f.seqname
  else if a.f.start ≠ b.f.start then a.f.start - b.f.start
  else a.f.end_ - b.f.end_

/-- The library routine `qsort`: the array sorted by the comparison function,
here by insertion. -/
def qsort {α : Type} (cmp : α → α → Int) (l : List α) : List α :=
  l.insertionSort (fun a b => cmp a b ≤ 0)

/-- Modelled from the spec: the interval index of `region_index.h`, "maps ranges
`[start, end]` to gene records"; the stored intervals with their records. -/
structure region_index where
  data : List (Int × Int × gtf)

/-- Modelled from the spec: `region_index_create`, the empty index. -/
def region_index_create : region_index := ⟨[]⟩

/-- Modelled from the spec: `index_bin_push`, store one interval with its
record. -/
def index_bin_push (idx : region_index) (start end_ : Int) (data : gtf) : region_index :=
  ⟨idx.data ++ [(start, end_, data)]⟩

/-- Modelled from the spec: `region_query`, "records whose interval intersects
`[start, end]`".  An empty list stands for both a `NULL` iterator and an
iterator with `n == 0`, which `gtf_query` treats alike. -/
def region_query (idx : region_index) (start end_ : Int) : List gtf :=
  (idx.data.filter (fun e => decide (e.1 ≤ end_ ∧ start ≤ e.2.1))).map (fun e => e.2.2)

/-- The `struct gtf_ctg` of `gtf.h` as `gtf.c` uses it: the array `gtf` of
`n_gtf` gene records and the interval index, `none` until it is built. -/
structure gtf_ctg where
  gtf : List gtf
  idx : Option region_index

/-- The `struct gtf_spec` of `gtf.h` as `gtf.c` uses it.  A pointer to a gene
record in a value slot is the pair of the contig id and the position of the
gene in the contig's array; a pointer to a transcript record adds the position
of the transcript in the gene's array.  The arrays only grow at their end while
the file is read, so the positions stay valid until `gtf_build_index`. -/
structure gtf_spec where
  name : dict gtf_ctg
  gene_name : dict (Nat × Nat)
  gene_id : dict (Nat × Nat)
  transcript_id : dict (Nat × Nat × Nat)
  sources : dict Unit
  attrs : dict Unit
  features : dict Unit

/-- Value slot of an `int` id; a negative id has none. -/
def dict_value_of {α : Type} (d : dict α) (i : Int) : Option α :=
  if i < 0 then none else dict_query_value d i.toNat

/-- The gene record a pointer refers to. -/
def get_gene (G : gtf_spec) (p : Nat × Nat) : Option gtf :=
  (dict_query_value G.name p.1).bind (fun c => c.gtf.get? p.2)

/-- Write through a pointer to a gene record. -/
def set_gene (G : gtf_spec) (p : Nat × Nat) (g : gtf) : gtf_spec :=
  match dict_query_value G.name p.1 with
  | none => G
  | some c => { G with name := dict_assign_value G.name p.1 { c with gtf := c.gtf.set p.2 g } }

/-- The transcript record a pointer refers to. -/
def get_tx (G : gtf_spec) (p : Nat × Nat × Nat) : Option gtf :=
  (get_gene G (p.1, p.2.1)).bind (fun g => g.children.get? p.2.2)

/-- Write through a pointer to a transcript record. -/
def set_tx (G : gtf_spec) (p : Nat × Nat × Nat) (t : gtf) : gtf_spec :=
  match get_gene G (p.1, p.2.1) with
  | none => G
  | some g => set_gene G (p.1, p.2.1) (.mk g.f (g.children.set p.2.2 t))

/-- The three lines of `gtf_push` under "inhert gene and transcript name": the
fields of the transcript record after it has taken from the record `r` the ids
it lacks. -/
def tx_inherit (f r : gtf_fields) : gtf_fields :=
  { f with
    gene_id := if f.gene_id = -1 then r.gene_id else f.gene_id
    gene_name := if f.gene_name = -1 then r.gene_name else f.gene_name
    transcript_id := if f.transcript_id = -1 then r.transcript_id else f.transcript_id }

/-- The two lines of `gtf_push` under "inhert gene name": the fields of the gene
record after it has taken from the record `r` the ids it lacks. -/
def gene_inherit (f r : gtf_fields) : gtf_fields :=
  { f with
    gene_id := if f.gene_id = -1 then r.gene_id else f.gene_id
    gene_name := if f.gene_name = -1 then r.gene_name else f.gene_name }

/-- The last part of `gtf_push`, from "inhert gene and transcript name" on: the
transcript record at `tp` inherits the ids it lacks, the three assertions are
checked (`none` when one fails), and a copy of the record becomes its last
child. -/
def gtf_push_sub (G : gtf_spec) (tp : Nat × Nat × Nat) (r : gtf_fields) :
    Option (Int × gtf_spec) :=
  match get_tx G tp with
  | none => none
  | some tx =>
    if (tx_inherit tx.f r).gene_id = r.gene_id ∧ (tx_inherit tx.f r).gene_name = r.gene_name ∧
        (tx_inherit tx.f r).transcript_id = r.transcript_id then
      some (0, set_tx G tp (.mk (tx_inherit tx.f r) (tx.children ++ [gtf_copy r])))
    else none

/-- The synthesised record of type `type`: a record just reset but for its
type. -/
def gtf_synth (type : Int) : gtf := .mk { gtf_reset.f with type := type } []

/-- The middle part of `gtf_push`, from the test of `transcript_id` to the set-up
of the transcript record, with the gene record at `p`.  `none` is the fatal
"No transcript found.". -/
def gtf_push_tx (h : gtf_h) (G : gtf_spec) (p : Nat × Nat) (r : gtf_fields) (feature : Int) :
    Option (Int × gtf_spec) :=
  if r.transcript_id = -1 then none
  else
    match get_gene G p with
    | none => none
    | some gene =>
      let G1 (txs : List gtf) : gtf_spec := set_gene G p (.mk (gene_inherit gene.f r) txs)
      match dict_value_of G.transcript_id r.transcript_id with
      | some tp =>
        if feature = h.feature_transcript then some (1, G1 gene.children)
        else gtf_push_sub (G1 gene.children) tp r
      | none =>
        let tp := (p.1, p.2, gene.children.length)
        let G2 (tx : gtf) : gtf_spec :=
          { G1 (gene.children ++ [tx]) with
            transcript_id := dict_assign_value G.transcript_id r.transcript_id.toNat tp }
        if feature = h.feature_transcript then some (0, G2 (gtf_copy r))
        else gtf_push_sub (G2 (gtf_synth h.feature_transcript)) tp r

/-- The `gtf_push` of the source, for the record `r` of a line of the contig
with id `ctg`.  `none` is a fatal error or a failed assertion. -/
def gtf_push (h : gtf_h) (G : gtf_spec) (ctg : Nat) (r : gtf_fields) (feature : Int) :
    Option (Int × gtf_spec) :=
  match dict_value_of G.gene_id r.gene_id with
  | some p =>
    if feature = h.feature_gene then some (1, G)
    else gtf_push_tx h G p r feature
  | none =>
    match dict_query_value G.name ctg with
    | none => none
    | some c =>
      let p := (ctg, c.gtf.length)
      let G1 (gene : gtf) : gtf_spec :=
        { G with
          name := dict_assign_value G.name ctg { c with gtf := c.gtf ++ [gene] }
          gene_id := dict_assign_value G.gene_id r.gene_id.toNat p
          gene_name := dict_assign_value G.gene_name r.gene_name.toNat p }
      if feature = h.feature_gene then some (0, G1 (gtf_copy r))
      else gtf_push_tx h (G1 (gtf_synth h.feature_gene)) p r feature

/-- The `FILTER_ATTRS` of the source. -/
def FILTER_ATTRS : Int := 2

/-- The `struct attr_pair` of the source; a `val` that is `NULL` is `none`. -/
structure attr_pair where
  key : String
  val : Option String
deriving DecidableEq, Repr

/-- The `isspace` of the C library in the "C" locale: space, `\t`, `\n`, `\v`,
`\f` and `\r`. -/
def isspace (c : Char) : Bool :=
  c == ' ' || c == '\t' || c == '\n' || c == Char.ofNat 11 || c == Char.ofNat 12 || c == '\r'

/-- The test `isspace(c) || c == ';'` of the loops of `split_gff`. -/
def is_sep (c : Char) : Bool := isspace c || c == ';'

/-- The first loop of `split_gff`: the buffer without the white space and the
`;` at its end.  A `Char` stands for a `char` of the buffer.  When nothing else
is in the buffer the loop reads `str->s[-1]`: `none`. -/
def strip_tail (s : List Char) : Option (List Char) :=
  match s.rdropWhile is_sep with
  | [] => none
  | c :: t => some (c :: t)

/-- The loop of `split_gff` that reads a quoted value, entered after the
opening quote: the characters are stored in `val` until a `"` is met or the
character read is the last of the buffer; then this character and the next are
skipped.  The result is the value and what is left of the buffer. -/
def scan_val : List Char → List Char → List Char × List Char
  | [], val => (val, [])
  | c :: t, val => if c = '"' ∨ t = [] then (val, t.drop 1) else scan_val t (val ++ [c])

/-- One round of the main loop of `split_gff` on what is left of the buffer: the
pair stored, if any, and what is left after the round.  The name runs up to the
first white space or `;`; white space and `;` are skipped; a value is read only
behind a `"`; white space and `;` are skipped again.  A round with an empty
name stores nothing, and `val` is `NULL` (`none`) when no character was
stored. -/
def split_step (s : List Char) : Option attr_pair × List Char :=
  let name := s.takeWhile (fun c => !is_sep c)
  let s1 := (s.dropWhile (fun c => !is_sep c)).dropWhile is_sep
  let r : List Char × List Char :=
    match s1 with
    | [] => ([], [])
    | c :: t => if c = '"' then scan_val t [] else ([], c :: t)
  (if name = [] then none
   else some ⟨String.mk name, if r.1 = [] then none else some (String.mk r.1)⟩,
   r.2.dropWhile is_sep)

/-- The main loop of `split_gff`, run for at most `n` rounds; a round reads at
least one character, so the length of the buffer is rounds enough. -/
def split_loop : Nat → List Char → List attr_pair → Option (List attr_pair)
  | _, [], acc => some acc
  | 0, _ :: _, _ => none
  | n + 1, c :: t, acc =>
    match split_step (c :: t) with
    | (some p, rest) => split_loop n rest (acc ++ [p])
    | (none, rest) => split_loop n rest acc

/-- The `split_gff` of the source: the pairs of the attribute column. -/
def split_gff (str : String) : Option (List attr_pair) :=
  match strip_tail str.data with
  | none => none
  | some s => split_loop s.length s []

/-- A line of the annotation file as `parse_str` sees it after `ksplit` has
found its nine fields: the fields 1, 2, 3 and 7 as text, `start` and `end_` the
values `str2int` gives for the fields 4 and 5, and `attr` the pairs that
`bend_pair` returns for field 9. -/
structure gtf_line where
  seqname : String
  source : String
  feature : String
  start : Int
  end_ : Int
  strand : String
  attr : List attr_pair
deriving DecidableEq, Repr

/-- One round of the loop of `parse_str` over the attribute pairs.  A key that
is to be interned with a `NULL` value stops the program (`none`). -/
def parse_attr (filter : Int) (s : gtf_spec × gtf_fields) (pp : attr_pair) :
    Option (gtf_spec × gtf_fields) :=
  if pp.key = "gene_id" then
    pp.val.map (fun v =>
      ({ s.1 with gene_id := (dict_push s.1.gene_id v).2 },
       { s.2 with gene_id := (dict_push s.1.gene_id v).1 }))
  else if pp.key = "gene_name" then
    pp.val.map (fun v =>
      ({ s.1 with gene_name := (dict_push s.1.gene_name v).2 },
       { s.2 with gene_name := (dict_push s.1.gene_name v).1 }))
  else if pp.key = "gene" then
    pp.val.map (fun v =>
      ({ s.1 with gene_name := (dict_push s.1.gene_name v).2 },
       { s.2 with gene_name := (dict_push s.1.gene_name v).1 }))
  else if pp.key = "transcript_id" then
    pp.val.map (fun v =>
      ({ s.1 with transcript_id := (dict_push s.1.transcript_id v).2 },
       { s.2 with transcript_id := (dict_push s.1.transcript_id v).1 }))
  else if filter ≠ FILTER_ATTRS then
    some ({ s.1 with attrs := (dict_push s.1.attrs pp.key).2 }, s.2)
  else some s

/-- The loop of `parse_str` over the attribute pairs. -/
def parse_attrs (filter : Int) : gtf_spec × gtf_fields → List attr_pair →
    Option (gtf_spec × gtf_fields)
  | s, [] => some s
  | s, pp :: t =>
    match parse_attr filter s pp with
    | none => none
    | some s1 => parse_attrs filter s1 t

/-- How `parse_str` leaves a line before the call of `gtf_push`: it returns
`ret` at once, or it has the record `gtf` of feature `qry` for the contig with
id `gtf.seqname`. -/
inductive parsed where
  | ret (code : Int) (G : gtf_spec)
  | record (G : gtf_spec) (gtf : gtf_fields) (qry : Int)

/-- The part of `parse_str` from `gtf_reset` to the set-up of the contig: the
model with the names of the contig and of the source interned and a record for
the contig, and the local record with the fields read from the columns. -/
def parse_head (G : gtf_spec) (l : gtf_line) (qry : Int) : gtf_spec × gtf_fields :=
  let seqname := dict_push G.name l.seqname
  let source := dict_push G.sources l.source
  ({ G with
      name :=
        match dict_query_value seqname.2 seqname.1 with
        | none => dict_assign_value seqname.2 seqname.1 { gtf := [], idx := none }
        | some _ => seqname.2
      sources := source.2 },
   { gtf_reset.f with
      seqname := seqname.1, source := source.1, type := qry, start := l.start, end_ := l.end_,
      strand := if l.strand.data.head? = some '-' then 1 else 0 })

/-- The part of `parse_str` that fills a missing `gene_id` from the gene name
and a missing `gene_name` from the gene id; `none` when the name to intern is
`NULL`. -/
def parse_fill (G : gtf_spec) (gtf : gtf_fields) : Option (gtf_spec × gtf_fields) :=
  let r2 : Option (gtf_spec × gtf_fields) :=
    if gtf.gene_id = -1 then
      (dict_name G.gene_name gtf.gene_name.toNat).map (fun s =>
        ({ G with gene_id := (dict_push G.gene_id s).2 },
         { gtf with gene_id := (dict_push G.gene_id s).1 }))
    else some (G, gtf)
  match r2 with
  | none => none
  | some (G2, gtf2) =>
    if gtf2.gene_name = -1 then
      (dict_name G2.gene_id gtf2.gene_id.toNat).map (fun s =>
        ({ G2 with gene_name := (dict_push G2.gene_name s).2 },
         { gtf2 with gene_name := (dict_push G2.gene_name s).1 }))
    else some (G2, gtf2)

/-- The `parse_str` of the source up to the call of `gtf_push`. -/
def parse_rec (h : gtf_h) (G : gtf_spec) (l : gtf_line) (filter : Int) : Option parsed :=
  match dict_query G.features l.feature with
  | none => some (.ret 1 G)
  | some q =>
    let qry : Int := q
    if filter > 0 ∧ qry ≠ h.feature_gene ∧ qry ≠ h.feature_exon ∧ qry ≠ h.feature_transcript ∧
        qry ≠ h.feature_CDS ∧ qry ≠ h.feature_5UTR ∧ qry ≠ h.feature_3UTR then
      some (.ret 0 G)
    else
      match parse_attrs filter (parse_head G l qry) l.attr with
      | none => none
      | some s =>
        if s.2.gene_id = -1 ∧ s.2.gene_name = -1 then some (.ret 1 s.1)
        else (parse_fill s.1 s.2).map (fun r => .record r.1 r.2 qry)

/-- The `parse_str` of the source: the value of `gtf_push` is dropped. -/
def parse_str (h : gtf_h) (G : gtf_spec) (l : gtf_line) (filter : Int) : Option (Int × gtf_spec) :=
  match parse_rec h G l filter with
  | none => none
  | some (.ret code G1) => some (code, G1)
  | some (.record G1 gtf qry) =>
    (gtf_push h G1 gtf.seqname.toNat gtf qry).map (fun r => (0, r.2))

/-- One round of the second loop of `gtf_sort`: the start and the end of the
parent after child `c`. -/
def gtf_sort_step (f : gtf_fields) (c : gtf) : gtf_fields :=
  { f with
    start := if f.start < 0 then c.f.start else if f.start > c.f.start then c.f.start else f.start
    end_ := if f.end_ < c.f.end_ then c.f.end_ else f.end_ }

mutual
/-- The `gtf_sort` of the source: the record after the call, `none` when an
assertion fails. -/
def gtf_sort : gtf → Option gtf
  | .mk f cs =>
    match gtf_sort_list cs with
    | none => none
    | some cs1 =>
      if cs1.length ≠ 0 then
        let f1 := (qsort cmpfunc1 cs1).foldl gtf_sort_step f
        if f1.start < f1.end_ then some (.mk f1 (qsort cmpfunc1 cs1)) else none
      else some (.mk f cs1)
/-- The loop that calls `gtf_sort` on every record of an array. -/
def gtf_sort_list : List gtf → Option (List gtf)
  | [] => some []
  | c :: r =>
    match gtf_sort c with
    | none => none
    | some c1 =>
      match gtf_sort_list r with
      | none => none
      | some r1 => some (c1 :: r1)
end

/-- The `ctg_build_idx` of the source. -/
def ctg_build_idx (ctg : gtf_ctg) : region_index :=
  ctg.gtf.foldl (fun idx g => index_bin_push idx g.f.start g.f.end_ g) region_index_create

/-- The loop of `gtf_build_index` over the contigs; `none` when an assertion
fails. -/
def build_ctgs : List (String × Option gtf_ctg) → Option (Nat × List (String × Option gtf_ctg))
  | [] => some (0, [])
  | e :: t =>
    match e.2 with
    | none => none
    | some ctg =>
      match gtf_sort_list ctg.gtf with
      | none => none
      | some gs =>
        match build_ctgs t with
        | none => none
        | some r =>
          some (gs.length + r.1,
            (e.1, some { gtf := gs, idx := some (ctg_build_idx { gtf := gs, idx := ctg.idx }) })
              :: r.2)

/-- The `gtf_build_index` of the source: the number of genes and the model. -/
def gtf_build_index (G : gtf_spec) : Option (Nat × gtf_spec) :=
  (build_ctgs G.name.data).map (fun r => (r.1, { G with name := ⟨r.2⟩ }))

/-- The `gtf_spec_init` of the source. -/
def gtf_spec_init (h : gtf_h) : gtf_spec :=
  { name := dict_init
    gene_name := dict_init
    gene_id := dict_init
    transcript_id := dict_init
    sources := dict_init
    attrs := dict_init
    features := h.feature_type_names.foldl (fun d s => (dict_push d s).2) dict_init }

/-- The reading loop of `gtf_read` over the lines that reach `parse_str`
(neither empty nor starting with `#`). -/
def gtf_read_lines (h : gtf_h) (f : Int) : gtf_spec → List gtf_line → Option gtf_spec
  | G, [] => some G
  | G, l :: t =>
    match parse_str h G l f with
    | none => none
    | some r => gtf_read_lines h f r.2 t

/-- The `gtf_read` of the source over the lines of the file: `none` when the
program stops, `some none` for the `NULL` model. -/
def gtf_read (h : gtf_h) (lines : List gtf_line) (f : Int) : Option (Option gtf_spec) :=
  match gtf_read_lines h f (gtf_spec_init h) lines with
  | none => none
  | some G =>
    if dict_size G.name = 0 then some none
    else (gtf_build_index G).map (fun r => some r.2)

/-- The `gtf_query` of the source: `none` when the program stops, `some none`
for a `NULL` result. -/
def gtf_query (G : gtf_spec) (name : String) (start end_ : Int) : Option (Option (List gtf)) :=
  match dict_query G.name name with
  | none => some none
  | some id =>
    let start := if start < 0 then 0 else start
    if end_ < start then some none
    else
      match dict_query_value G.name id with
      | none => none
      | some ctg =>
        match ctg.gtf with
        | [] => some none
        | g0 :: _ =>
          if end_ < g0.f.start then some none
          else
            match ctg.idx with
            | none => none
            | some idx =>
              let rets := region_query idx start end_
              if rets.length = 0 then some none
              else some (some (qsort cmpfunc1 rets))

/-! ## Properties of the records of the annotation model -/

mutual
/-- Every record without children in the tree of `g` has fields that pass `P`. -/
def leaves_all (P : gtf_fields → Bool) : gtf → Bool
  | .mk f cs =>
    match cs with
    | [] => P f
    | c :: r => leaves_all_list P (c :: r)
/-- Every record without children in the trees of the list passes `P`. -/
def leaves_all_list (P : gtf_fields → Bool) : List gtf → Bool
  | [] => true
  | c :: r => leaves_all P c && leaves_all_list P r
end

/-- The start of a record is set: it is not negative. -/
def start_set (f : gtf_fields) : Bool := decide (0 ≤ f.start)

/-- The record spans at least two bases from a start that is set. -/
def span_ok (f : gtf_fields) : Bool := decide (0 ≤ f.start ∧ f.start < f.end_)

/-- The interval of a record contains the intervals of its children. -/
def contains_children (g : gtf) : Prop :=
  ∀ c ∈ g.children, g.f.start ≤ c.f.start ∧ c.f.end_ ≤ g.f.end_

/-- Every record without children below a gene of the model passes `P`. -/
def model_leaves (P : gtf_fields → Bool) (G : gtf_spec) : Bool :=
  G.name.data.all (fun e =>
    match e.2 with
    | none => true
    | some ctg => ctg.gtf.all (fun g => leaves_all_list P g.children))

/-- Both gene ids of a record are set. -/
def ids_set (f : gtf_fields) : Bool := decide (f.gene_id ≠ -1 ∧ f.gene_name ≠ -1)

/-- Every record of the model, gene, transcript or sub-feature, passes `P`. -/
def records_all (P : gtf_fields → Bool) (G : gtf_spec) : Bool :=
  G.name.data.all (fun e =>
    match e.2 with
    | none => true
    | some ctg =>
      ctg.gtf.all (fun g =>
        P g.f && g.children.all (fun t => P t.f && t.children.all (fun x => P x.f))))

/-- The gene records of the contig with id `cid`, none when the contig has no
record. -/
def genes_of (G : gtf_spec) (cid : Nat) : List gtf :=
  match dict_query_value G.name cid with
  | none => []
  | some ctg => ctg.gtf

/-- The records of a transcript have their gene ids set. -/
def tx_ok (t : gtf) : Prop := ids_set t.f = true ∧ ∀ x ∈ t.children, ids_set x.f = true

/-- The records of a gene have their gene ids set. -/
def gene_ok (g : gtf) : Prop := ids_set g.f = true ∧ ∀ t ∈ g.children, tx_ok t

/-- The records of the contigs have their gene ids set. -/
def ids_inv (name : dict gtf_ctg) : Prop :=
  ∀ cid c, dict_query_value name cid = some c → ∀ g ∈ c.gtf, gene_ok g

/-- The records of the contigs have their gene ids set, but for the gene at
`p`. -/
def ids_inv_but (name : dict gtf_ctg) (p : Nat × Nat) : Prop :=
  ∀ cid c, dict_query_value name cid = some c → ∀ k g, c.gtf.get? k = some g →
    (cid, k) ≠ p → gene_ok g

/-- The contigs `n1` are the contigs `n0`, but for contigs that had no record
and have an empty one. -/
def name_ext (n0 n1 : dict gtf_ctg) : Prop :=
  ∀ cid, dict_query_value n1 cid = dict_query_value n0 cid ∨
    (dict_query_value n0 cid = none ∧ dict_query_value n1 cid = some { gtf := [], idx := none })

/-! ## Auxiliary definitions for the tokenizer and the pointers of the model -/

/-- The transcript record `x` is the transcript with id `t`, of the gene that
`own` gives for `t`. -/
def tx_of (own : Int → Int × Int) (t : Nat) (x : gtf) : Prop :=
  x.f.transcript_id = (t : Int) ∧ (x.f.gene_id, x.f.gene_name) = own t

/-- The pointers of the model are sound: every slot of the table of gene ids
points to a gene record, and the slot of the transcript id `t` points to a
transcript record with the id `t` and the gene ids that `own` gives for `t`. -/
def wf_model (own : Int → Int × Int) (G : gtf_spec) : Prop :=
  (∀ i p, dict_query_value G.gene_id i = some p → ∃ g, get_gene G p = some g) ∧
  (∀ t tp, dict_query_value G.transcript_id t = some tp →
    ∃ x, get_tx G tp = some x ∧ tx_of own t x)

/-- The attribute pair has a value when `parse_str` interns it. -/
def attr_valued (pp : attr_pair) : Prop :=
  (pp.key = "gene_id" ∨ pp.key = "gene_name" ∨ pp.key = "gene" ∨ pp.key = "transcript_id") →
    pp.val.isSome = true

/-- Whether the attribute pair has the value it needs can be computed. -/
instance attr_valued_dec (pp : attr_pair) : Decidable (attr_valued pp) := by
  unfold attr_valued
  infer_instance

/-- The ids of the local record of `parse_str` are unset or ids of the
tables. -/
def rec_valid (s : gtf_spec × gtf_fields) : Prop :=
  (s.2.gene_id = -1 ∨ (0 ≤ s.2.gene_id ∧ s.2.gene_id.toNat < dict_size s.1.gene_id)) ∧
  (s.2.gene_name = -1 ∨ (0 ≤ s.2.gene_name ∧ s.2.gene_name.toNat < dict_size s.1.gene_name)) ∧
  (s.2.transcript_id = -1 ∨ 0 ≤ s.2.transcript_id)

/-- The model `G1` has the value slots of the gene ids and of the transcript
ids of `G`. -/
def same_slots (G G1 : gtf_spec) : Prop :=
  (∀ i, dict_query_value G1.gene_id i = dict_query_value G.gene_id i) ∧
  (∀ i, dict_query_value G1.transcript_id i = dict_query_value G.transcript_id i)

/-- The records and features that reach `gtf_push` while the lines are read,
in order, up to the record the program stops at. -/
def pushed (h : gtf_h) (f : Int) : gtf_spec → List gtf_line → List (gtf_fields × Int)
  | _, [] => []
  | G, l :: t =>
    match parse_rec h G l f with
    | none => []
    | some (.ret _ G1) => pushed h f G1 t
    | some (.record G1 r qry) =>
      (r, qry) ::
        (match gtf_push h G1 r.seqname.toNat r qry with
         | none => []
         | some res => pushed h f res.2 t)

/-- The gene id and gene name of the first record of the list that has the
transcript id `t`. -/
def owner (l : List (gtf_fields × Int)) (t : Int) : Int × Int :=
  match l.find? (fun x => x.1.transcript_id = t) with
  | some x => (x.1.gene_id, x.1.gene_name)
  | none => (-1, -1)

/-- A word of the attribute column: not empty, without white space and `;`. -/
def word_ok (w : String) : Prop := w.data ≠ [] ∧ ∀ c ∈ w.data, is_sep c = false

/-- A separator of the attribute column: a non-empty run of white space and
`;`. -/
def sep_ok (s : String) : Prop := s.data ≠ [] ∧ ∀ c ∈ s.data, is_sep c = true

/-- The characters of the pairs of a separator and the word behind it. -/
def bare_body : List (String × String) → List Char
  | [] => []
  | p :: t => p.1.data ++ p.2.data ++ bare_body t

/-- An attribute column without quotes: the word `w0`, then every separator
and the word behind it, then the characters `tail`. -/
def bare_join (w0 : String) (rest : List (String × String)) (tail : String) : String :=
  String.mk (w0.data ++ bare_body rest ++ tail.data)

/-! ## A concrete instance of the collaborators -/

/-- Cut a character list at every `;` and `,`; `cur` holds the current token
in reverse. -/
def split_chars : List Char → List Char → List String
  | [], cur => [String.mk cur.reverse]
  | c :: t, cur =>
    if c = ';' ∨ c = ',' then String.mk cur.reverse :: split_chars t []
    else split_chars t (c :: cur)

/-- Modelled from the spec: `str_split`, which cuts the feature field, "one or
more feature ids, separated by `;` or `,`", into its tokens. -/
def spec_str_split (s : String) : List String := split_chars s.data []

/-- A region-type table for concrete runs: `E` exon, `I` intron, `C` exon and
intron, `A` antisense, `U` ambiguous, `G` intergenic, anything else unknown. -/
def demo_RE_type_map (c : Char) : exon_type :=
  if c = 'E' then .type_exon
  else if c = 'I' then .type_intron
  else if c = 'C' then .type_exon_intron
  else if c = 'A' then .type_antisense
  else if c = 'U' then .type_ambiguous
  else if c = 'G' then .type_intergenic
  else .type_unknown

/-- The collaborators used in concrete runs. -/
def demo_env : Env :=
  { RE_type_map := demo_RE_type_map
    str_split := spec_str_split
    junk_count := fun _ _ => 0
    junk_unspliced := fun _ _ => 0 }

/-- Options of a plain run: barcode tag `CB`, feature tag `GN`, no UMI, MEX
output, every filter at its default. -/
def demo_args : args :=
  { whitelist_fname := none
    output_fname := none
    outdir := some "out"
    tag := some "CB"
    anno_tag := "GN"
    umi_tag := none
    mapq_thres := 20
    use_dup := false
    one_hit := false
    alias_file_cb := false
    region_type_tag := "RE"
    region_types := []
    velocity := false }

/-- A mapped record of quality 60 on target 0 of 1 with the given tags. -/
def demo_item (aux : List (String × String)) : bam_item :=
  { b := { core := { tid := 0, qual := 60, flag := 0 }, aux := aux }
    n_targets := 1
    file_alias := none }

/-- A record with barcode `cb` and feature field `f` (tags `CB` and `GN`). -/
def demo_rec (cb f : String) : bam_item := demo_item [("CB", cb), ("GN", f)]

/-- Options of a UMI run: `demo_args` with UMI tag `UB`. -/
def demo_args_umi : args := { demo_args with umi_tag := some "UB" }

/-- Options of a UMI run in velocity mode. -/
def demo_args_velo : args := { demo_args with umi_tag := some "UB", velocity := true }

/-- A record with barcode, feature field, UMI and region-type character. -/
def demo_rec_umi (cb f umi re : String) : bam_item :=
  demo_item [("CB", cb), ("GN", f), ("UB", umi), ("RE", re)]

/-- A record on target id 1 of a header that has one target (valid ids: 0
only), mapped, of quality 60, with barcode `A` and feature `G1`. -/
def demo_bad_tid : bam_item :=
  { b := { core := { tid := 1, qual := 60, flag := 0 }, aux := [("CB", "A"), ("GN", "G1")] }
    n_targets := 1
    file_alias := none }

/-- Options of a plain run with `one_hit` set. -/
def demo_args_one_hit : args := { demo_args with one_hit := true }

/-- Options of a plain run with a whitelist file. -/
def demo_args_wl : args := { demo_args with whitelist_fname := some "list" }

/-- Options of a plain run that also writes the legacy dense table. -/
def demo_args_tsv : args := { demo_args with output_fname := some "out.tsv" }

/-! ## A concrete annotation -/

/-- A table of feature names with `gene`, `transcript`, `CDS`, `5UTR`, `3UTR`
and `exon` at the positions 0 to 5. -/
def demo_gtf_h : gtf_h :=
  { feature_type_names := ["gene", "transcript", "CDS", "5UTR", "3UTR", "exon"]
    feature_gene := 0
    feature_transcript := 1
    feature_CDS := 2
    feature_5UTR := 3
    feature_3UTR := 4
    feature_exon := 5 }

/-- A `gene` line of contig `chr1`. -/
def gene_line (id : String) (s e : Int) : gtf_line :=
  { seqname := "chr1", source := "src", feature := "gene", start := s, end_ := e, strand := "+"
    attr := [⟨"gene_id", some id⟩, ⟨"gene_name", some id⟩] }

/-- A `transcript` line of contig `chr1`. -/
def tx_line (id tid : String) (s e : Int) : gtf_line :=
  { seqname := "chr1", source := "src", feature := "transcript", start := s, end_ := e, strand := "+"
    attr := [⟨"gene_id", some id⟩, ⟨"gene_name", some id⟩, ⟨"transcript_id", some tid⟩] }

/-- An `exon` line of contig `chr1`. -/
def exon_line (id tid : String) (s e : Int) : gtf_line :=
  { seqname := "chr1", source := "src", feature := "exon", start := s, end_ := e, strand := "+"
    attr := [⟨"gene_id", some id⟩, ⟨"gene_name", some id⟩, ⟨"transcript_id", some tid⟩] }

/-- Read the lines with the constants `demo_gtf_h`, all attributes kept, and
query the model for the scalar fields of the records found: `none` when the
program stops or the model is `NULL`, `some none` for a `NULL` result. -/
def demo_query (lines : List gtf_line) (name : String) (s e : Int) :
    Option (Option (List gtf_fields)) :=
  match gtf_read demo_gtf_h lines 0 with
  | some (some G) => (gtf_query G name s e).map (fun o => o.map (fun l => l.map gtf.f))
  | _ => none

/-- A line of contig `chr1` with the given feature and attribute pairs. -/
def attr_line (feature : String) (s e : Int) (attr : List attr_pair) : gtf_line :=
  { seqname := "chr1", source := "src", feature := feature, start := s, end_ := e, strand := "-"
    attr := attr }

/-- A `gene` line of `G1`, an `exon` line that names its gene by `gene_name`
only, and an `exon` line that names no gene. -/
def demo_lines_fill : List gtf_line :=
  [gene_line "G1" 100 500,
   attr_line "exon" 600 700 [⟨"gene_name", some "X"⟩, ⟨"transcript_id", some "T9"⟩],
   attr_line "exon" 800 900 [⟨"transcript_id", some "T9"⟩]]

/-- The model after the reading loop over the lines, with the constants
`demo_gtf_h` and all attributes kept; the empty model when the loop stops. -/
def demo_model (lines : List gtf_line) : gtf_spec :=
  (gtf_read_lines demo_gtf_h 0 (gtf_spec_init demo_gtf_h) lines).getD (gtf_spec_init demo_gtf_h)

/-- Options of a velocity run without UMI. -/
def demo_args_velo_plain : args := { demo_args with velocity := true }

/-- The model, the record and the feature that `parse_str` hands to `gtf_push`
for the line `l` read after the lines `lines`, with the constants `demo_gtf_h`
and all attributes kept; `none` when the line does not reach `gtf_push`. -/
def demo_record (lines : List gtf_line) (l : gtf_line) : Option (gtf_spec × gtf_fields × Int) :=
  match parse_rec demo_gtf_h (demo_model lines) l 0 with
  | some (.record G r qry) => some (G, r, qry)
  | _ => none

/-- The value of `gtf_push` and the fields of the genes of contig 0 after the
line `l` read after the lines `lines`. -/
def demo_push (lines : List gtf_line) (l : gtf_line) : Option (Int × List gtf_fields) :=
  (demo_record lines l).bind (fun x =>
    (gtf_push demo_gtf_h x.1 x.2.1.seqname.toNat x.2.1 x.2.2).map (fun res =>
      (res.1, (genes_of res.2 0).map gtf.f)))

/-! ## Lemmas on the tables -/

theorem pool_upsert_eq (g : Option counts → Option counts) (cell_id : Nat) (l : List PISA_dna) :
    pool_upsert g cell_id l =
      match l.find? (fun e => e.idx = cell_id) with
      | some e => (g (some e.data)).map (fun c => idx_modify (fun _ => c) cell_id l)
      | none => (g none).map (fun c => l ++ [{ idx := cell_id, data := c }]) := by
  induction l with
  | nil => simp [pool_upsert]
  | cons e t ih =>
    by_cases h : e.idx = cell_id
    · simp [pool_upsert, h, idx_modify]
    · simp only [pool_upsert, h, if_false, ih, List.find?_cons, decide_False]
      cases hf : t.find? (fun e => e.idx = cell_id) with
      | some e1 => cases hg : g (some e1.data) <;> simp [idx_modify, h, hg]
      | none => cases hg : g none <;> simp [hg]

theorem idx_modify_append_new (c c1 : counts) (cell_id : Nat) (l : List PISA_dna)
    (h : l.find? (fun e => e.idx = cell_id) = none) :
    idx_modify (fun _ => c1) cell_id (l ++ [{ idx := cell_id, data := c }])
      = l ++ [{ idx := cell_id, data := c1 }] := by
  induction l with
  | nil => simp [idx_modify]
  | cons e t ih =>
    by_cases he : e.idx = cell_id
    · simp [List.find?_cons, he] at h
    · have h1 : t.find? (fun e => e.idx = cell_id) = none := by
        simpa [List.find?_cons, he] using h
      simp [idx_modify, he, ih h1]

theorem find_append_new (c : counts) (cell_id : Nat) (l : List PISA_dna)
    (h : l.find? (fun e => e.idx = cell_id) = none) :
    (l ++ [({ idx := cell_id, data := c } : PISA_dna)]).find? (fun e => e.idx = cell_id)
      = some { idx := cell_id, data := c } := by
  simp [List.find?_append, h]

theorem feat_upsert_eq (g : Nat → Option counts → Option counts) (val : String) (cell_id : Nat) :
    ∀ (l : List (String × Option PISA_idx_pool)) (i : Nat),
    feat_upsert g val cell_id i l =
      match dict_find l val with
      | some k => (pool_upsert (g (i + k)) cell_id
          (((l.get? k).bind Prod.snd).getD PISA_idx_pool_init).data).map (fun d => assign_at l k ⟨d⟩)
      | none => (pool_upsert (g (i + l.length)) cell_id []).map (fun d => l ++ [(val, some ⟨d⟩)]) := by
  intro l
  induction l with
  | nil => intro i; simp [feat_upsert, dict_find]
  | cons e t ih =>
    intro i
    by_cases h : e.1 = val
    · simp [feat_upsert, dict_find, h, assign_at]
    · simp only [feat_upsert, dict_find, h, if_false, ih]
      cases hf : dict_find t val with
      | some k =>
        simp only [Option.map_some', List.get?_cons_succ]
        rw [show i + 1 + k = i + (k + 1) by omega]
        cases pool_upsert (g (i + (k + 1))) cell_id
          (((t.get? k).bind Prod.snd).getD PISA_idx_pool_init).data <;> simp [assign_at]
      | none =>
        simp only [Option.map_none', List.length_cons]
        rw [show i + 1 + t.length = i + (t.length + 1) by omega]
        cases pool_upsert (g (i + (t.length + 1))) cell_id [] <;> simp


theorem assign_at_append_length {α : Type} (l : List (String × Option α)) (s : String)
    (o : Option α) (v : α) : assign_at (l ++ [(s, o)]) l.length v = l ++ [(s, some v)] := by
  induction l with
  | nil => simp [assign_at]
  | cons e t ih => simp [assign_at, ih]

theorem count_feature_eq (env : Env) (a : args) (b : bam1_t) (cell_id : Nat) (unspliced : Bool)
    (features : dict PISA_idx_pool) (val : String) :
    count_feature env a b cell_id unspliced features val =
      (feat_upsert (token_payload env a b cell_id unspliced) val cell_id 0 features.data).map
        dict.mk := by
  unfold count_feature
  rw [feat_upsert_eq]
  simp only [dict_query, dict_push]
  cases hq : dict_find features.data val with
  | some k =>
    simp only [dict_query_value, Nat.zero_add]
    cases hv : (features.data.get? k).bind Prod.snd with
    | some v =>
      simp only [Option.getD_some, pool_upsert_eq, PISA_idx_query]
      cases hf : v.data.find? (fun e => e.idx = cell_id) with
      | some e =>
        simp only [hf, token_payload, Option.getD_some]
        cases accumulate a b unspliced e.data <;> simp [dict_assign_value]
      | none =>
        simp only [PISA_idx_push, find_append_new _ _ _ hf, token_payload, Option.getD_none]
        cases accumulate a b unspliced (new_counts env a k cell_id) <;>
          simp [dict_assign_value, idx_modify_append_new _ _ _ _ hf]
    | none =>
      simp only [Option.getD_none, pool_upsert_eq, PISA_idx_query, PISA_idx_pool_init,
        List.find?_nil, PISA_idx_push, List.nil_append, List.find?_cons, decide_True,
        token_payload]
      cases accumulate a b unspliced (new_counts env a k cell_id) <;>
        simp [dict_assign_value, idx_modify]
  | none =>
    simp only [dict_query_value, Nat.zero_add, dict_query, hq]
    have hg : ((features.data ++ [(val, (none : Option PISA_idx_pool))]).get? features.data.length).bind
        Prod.snd = none := by
      simp
    simp only [hg, pool_upsert, PISA_idx_query, PISA_idx_pool_init, List.find?_nil,
      PISA_idx_push, List.nil_append, List.find?_cons, decide_True, token_payload,
      Option.getD_none]
    cases accumulate a b unspliced (new_counts env a features.data.length cell_id) <;>
      simp [dict_assign_value, idx_modify, assign_at_append_length]

theorem pool_upsert_lookup (g : Option counts → Option counts) (cid : Nat) :
    ∀ (l l1 : List PISA_dna), pool_upsert g cid l = some l1 →
      ∀ cid1, pool_lookup l1 cid1 = if cid1 = cid then g (pool_lookup l cid) else pool_lookup l cid1 := by
  intro l
  induction l with
  | nil =>
    intro l1 h cid1
    simp only [pool_upsert, Option.map_eq_some'] at h
    obtain ⟨c, hc, rfl⟩ := h
    by_cases h1 : cid1 = cid
    · simp [pool_lookup, h1, hc]
    · simp [pool_lookup, h1, Ne.symm h1]
  | cons e t ih =>
    intro l1 h cid1
    by_cases he : e.idx = cid
    · simp only [pool_upsert, he, if_true, Option.map_eq_some'] at h
      obtain ⟨c, hc, rfl⟩ := h
      by_cases h1 : cid1 = cid
      · simp [pool_lookup, h1, hc, he]
      · simp [pool_lookup, h1, he, Ne.symm h1]
    · simp only [pool_upsert, he, if_false, Option.map_eq_some'] at h
      obtain ⟨r, hr, rfl⟩ := h
      have := ih r hr cid1
      by_cases h1 : cid1 = cid
      · subst h1
        simp only [pool_lookup, if_true] at this
        simp [pool_lookup, List.find?_cons, he, this]
      · simp only [pool_lookup, h1, if_false] at this
        by_cases h2 : e.idx = cid1
        · simp [pool_lookup, List.find?_cons, h2, h1]
        · simp [pool_lookup, List.find?_cons, h2, h1, this]

theorem feat_upsert_lookup (g : Nat → Option counts → Option counts) (val : String) (cid : Nat) :
    ∀ (l l1 : List (String × Option PISA_idx_pool)) (i : Nat),
      feat_upsert g val cid i l = some l1 →
      ∃ k, ∀ n cid1, lookup_cell l1 n cid1 =
        if n = val ∧ cid1 = cid then g k (lookup_cell l val cid) else lookup_cell l n cid1 := by
  intro l
  induction l with
  | nil =>
    intro l1 i h
    simp only [feat_upsert, Option.map_eq_some'] at h
    obtain ⟨d, hd, rfl⟩ := h
    refine ⟨i, fun n cid1 => ?_⟩
    have := pool_upsert_lookup (g i) cid [] d hd cid1
    by_cases hn : n = val
    · subst hn
      simp only [lookup_cell, if_true, Option.getD_some, this, true_and]
      by_cases h1 : cid1 = cid <;> simp [h1, pool_lookup]
    · simp [lookup_cell, hn, Ne.symm hn]
  | cons e t ih =>
    intro l1 i h
    by_cases he : e.1 = val
    · simp only [feat_upsert, he, if_true, Option.map_eq_some'] at h
      obtain ⟨d, hd, rfl⟩ := h
      refine ⟨i, fun n cid1 => ?_⟩
      have := pool_upsert_lookup (g i) cid _ d hd cid1
      by_cases hn : n = val
      · subst hn
        simp only [lookup_cell, if_true, Option.getD_some, this, true_and, he]
      · simp [lookup_cell, hn, Ne.symm hn, he]
    · simp only [feat_upsert, he, if_false, Option.map_eq_some'] at h
      obtain ⟨r, hr, rfl⟩ := h
      obtain ⟨k, hk⟩ := ih r (i + 1) hr
      refine ⟨k, fun n cid1 => ?_⟩
      by_cases hn : e.1 = n
      · have : ¬ n = val := fun h => he (hn.trans h)
        simp [lookup_cell, hn, this]
      · simp [lookup_cell, hn, he, hk]

theorem pool_upsert_idx (g : Option counts → Option counts) (cid : Nat) :
    ∀ (l l1 : List PISA_dna), pool_upsert g cid l = some l1 →
      l1.map PISA_dna.idx =
        if cid ∈ l.map PISA_dna.idx then l.map PISA_dna.idx else l.map PISA_dna.idx ++ [cid] := by
  intro l
  induction l with
  | nil =>
    intro l1 h
    simp only [pool_upsert, Option.map_eq_some'] at h
    obtain ⟨c, _, rfl⟩ := h
    simp
  | cons e t ih =>
    intro l1 h
    by_cases he : e.idx = cid
    · simp only [pool_upsert, he, if_true, Option.map_eq_some'] at h
      obtain ⟨c, _, rfl⟩ := h
      simp [he]
    · simp only [pool_upsert, he, if_false, Option.map_eq_some'] at h
      obtain ⟨r, hr, rfl⟩ := h
      have := ih r hr
      by_cases hm : cid ∈ t.map PISA_dna.idx
      · simp only [hm, if_true] at this
        simp [this, hm]
      · simp only [hm, if_false] at this
        have hne : ¬ cid = e.idx := fun h => he h.symm
        simp only [List.map_cons, this, List.mem_cons, hne, hm, or_self, if_false,
          List.cons_append]

theorem pool_upsert_wf (g : Option counts → Option counts) (cid nb : Nat) (l l1 : List PISA_dna)
    (hw : pool_wf nb l) (hc : cid < nb) (h : pool_upsert g cid l = some l1) : pool_wf nb l1 := by
  have hi := pool_upsert_idx g cid l l1 h
  have hall : ∀ x ∈ l1, x.idx < nb := by
    intro x hx
    have : x.idx ∈ l1.map PISA_dna.idx := List.mem_map_of_mem _ hx
    rw [hi] at this
    by_cases hm : cid ∈ l.map PISA_dna.idx
    · simp only [hm, if_true] at this
      obtain ⟨y, hy, hyx⟩ := List.mem_map.1 this
      rw [← hyx]; exact hw.2 y hy
    · simp only [hm, if_false, List.mem_append, List.mem_singleton] at this
      rcases this with this | this
      · obtain ⟨y, hy, hyx⟩ := List.mem_map.1 this
        rw [← hyx]; exact hw.2 y hy
      · rw [this]; exact hc
  refine ⟨?_, hall⟩
  rw [hi]
  by_cases hm : cid ∈ l.map PISA_dna.idx
  · simp only [hm, if_true]; exact hw.1
  · simp only [hm, if_false]
    exact List.Nodup.append hw.1 (List.nodup_singleton _) (by simpa using hm)

theorem feat_upsert_names (g : Nat → Option counts → Option counts) (val : String) (cid : Nat) :
    ∀ (l l1 : List (String × Option PISA_idx_pool)) (i : Nat),
      feat_upsert g val cid i l = some l1 →
      l1.map Prod.fst = if val ∈ l.map Prod.fst then l.map Prod.fst else l.map Prod.fst ++ [val] := by
  intro l
  induction l with
  | nil =>
    intro l1 i h
    simp only [feat_upsert, Option.map_eq_some'] at h
    obtain ⟨d, _, rfl⟩ := h
    simp
  | cons e t ih =>
    intro l1 i h
    by_cases he : e.1 = val
    · simp only [feat_upsert, he, if_true, Option.map_eq_some'] at h
      obtain ⟨d, _, rfl⟩ := h
      simp [he]
    · simp only [feat_upsert, he, if_false, Option.map_eq_some'] at h
      obtain ⟨r, hr, rfl⟩ := h
      have := ih r (i + 1) hr
      by_cases hm : val ∈ t.map Prod.fst
      · simp only [hm, if_true] at this
        simp [this, hm]
      · simp only [hm, if_false] at this
        have hne : ¬ val = e.1 := fun h => he h.symm
        simp only [List.map_cons, this, List.mem_cons, hne, hm, or_self, if_false,
          List.cons_append]

theorem feat_upsert_pools (g : Nat → Option counts → Option counts) (val : String) (cid nb : Nat)
    (hc : cid < nb) :
    ∀ (l l1 : List (String × Option PISA_idx_pool)) (i : Nat),
      (∀ e ∈ l, ∃ v, e.2 = some v ∧ pool_wf nb v.data) →
      feat_upsert g val cid i l = some l1 →
      ∀ e ∈ l1, ∃ v, e.2 = some v ∧ pool_wf nb v.data := by
  intro l
  induction l with
  | nil =>
    intro l1 i _ h
    simp only [feat_upsert, Option.map_eq_some'] at h
    obtain ⟨d, hd, rfl⟩ := h
    intro e he
    simp only [List.mem_singleton] at he
    subst he
    exact ⟨⟨d⟩, rfl, pool_upsert_wf _ cid nb [] d ⟨by simp, by simp⟩ hc hd⟩
  | cons e t ih =>
    intro l1 i hw h
    by_cases he : e.1 = val
    · simp only [feat_upsert, he, if_true, Option.map_eq_some'] at h
      obtain ⟨d, hd, rfl⟩ := h
      intro x hx
      simp only [List.mem_cons] at hx
      rcases hx with hx | hx
      · subst hx
        obtain ⟨v, hv, hvw⟩ := hw e (List.mem_cons_self _ _)
        rw [hv] at hd
        exact ⟨⟨d⟩, rfl, pool_upsert_wf _ cid nb _ d hvw hc hd⟩
      · exact hw x (List.mem_cons_of_mem _ hx)
    · simp only [feat_upsert, he, if_false, Option.map_eq_some'] at h
      obtain ⟨r, hr, rfl⟩ := h
      intro x hx
      simp only [List.mem_cons] at hx
      rcases hx with hx | hx
      · subst hx; exact hw x (List.mem_cons_self _ _)
      · exact ih r (i + 1) (fun y hy => hw y (List.mem_cons_of_mem _ hy)) hr x hx

theorem feat_upsert_wf (g : Nat → Option counts → Option counts) (val : String) (cid nb i : Nat)
    (l l1 : List (String × Option PISA_idx_pool)) (hw : feats_wf nb l) (hc : cid < nb)
    (h : feat_upsert g val cid i l = some l1) : feats_wf nb l1 := by
  refine ⟨?_, feat_upsert_pools g val cid nb hc l l1 i hw.2 h⟩
  rw [feat_upsert_names g val cid l l1 i h]
  by_cases hm : val ∈ l.map Prod.fst
  · simp only [hm, if_true]; exact hw.1
  · simp only [hm, if_false]
    exact List.Nodup.append hw.1 (List.nodup_singleton _) (by simpa using hm)

theorem pool_wf_mono (nb nb1 : Nat) (h : nb ≤ nb1) (l : List PISA_dna) (hw : pool_wf nb l) :
    pool_wf nb1 l :=
  ⟨hw.1, fun x hx => Nat.lt_of_lt_of_le (hw.2 x hx) h⟩

theorem feats_wf_mono (nb nb1 : Nat) (h : nb ≤ nb1) (l : List (String × Option PISA_idx_pool))
    (hw : feats_wf nb l) : feats_wf nb1 l :=
  ⟨hw.1, fun e he => by
    obtain ⟨v, hv, hvw⟩ := hw.2 e he
    exact ⟨v, hv, pool_wf_mono nb nb1 h _ hvw⟩⟩

theorem pool_lookup_of_mem : ∀ (l : List PISA_dna), (l.map PISA_dna.idx).Nodup →
    ∀ x ∈ l, pool_lookup l x.idx = some x.data := by
  intro l
  induction l with
  | nil => intro _ x hx; simp at hx
  | cons e t ih =>
    intro hn x hx
    simp only [List.map_cons, List.nodup_cons] at hn
    simp only [List.mem_cons] at hx
    rcases hx with hx | hx
    · subst hx; simp [pool_lookup]
    · have hne : ¬ e.idx = x.idx := fun h => hn.1 (h ▸ List.mem_map_of_mem _ hx)
      have := ih hn.2 x hx
      simp only [pool_lookup] at this
      simp [pool_lookup, List.find?_cons, hne, this]

theorem pool_lookup_mem (l : List PISA_dna) (cid : Nat) (c : counts)
    (h : pool_lookup l cid = some c) : ∃ x ∈ l, x.idx = cid ∧ x.data = c := by
  simp only [pool_lookup, Option.map_eq_some'] at h
  obtain ⟨x, hx, hxc⟩ := h
  have h1 := List.find?_some hx
  exact ⟨x, List.mem_of_find?_eq_some hx, by simpa using h1, hxc⟩

theorem lookup_cell_of_mem : ∀ (fs : List (String × Option PISA_idx_pool)) (nb : Nat),
    feats_wf nb fs → ∀ (g : String) (v : PISA_idx_pool), (g, some v) ∈ fs →
    ∀ x ∈ v.data, lookup_cell fs g x.idx = some x.data := by
  intro fs
  induction fs with
  | nil => intro _ _ g v h; simp at h
  | cons e t ih =>
    intro nb hw g v h x hx
    have hn := hw.1
    simp only [List.map_cons, List.nodup_cons] at hn
    simp only [List.mem_cons] at h
    rcases h with h | h
    · subst h
      obtain ⟨v1, hv1, hvw⟩ := hw.2 _ (List.mem_cons_self _ _)
      simp only [Option.some.injEq] at hv1
      subst hv1
      simp only [lookup_cell, if_true, Option.getD_some]
      exact pool_lookup_of_mem _ hvw.1 x hx
    · have hne : ¬ e.1 = g := fun he => hn.1 (he ▸ List.mem_map_of_mem Prod.fst h)
      simp only [lookup_cell, hne, if_false]
      exact ih nb ⟨hn.2, fun y hy => hw.2 y (List.mem_cons_of_mem _ hy)⟩ g v h x hx

theorem lookup_cell_mem : ∀ (fs : List (String × Option PISA_idx_pool)) (g : String) (cid : Nat)
    (c : counts), lookup_cell fs g cid = some c →
    ∃ e ∈ fs, e.1 = g ∧ ∃ x ∈ (e.2.getD PISA_idx_pool_init).data, x.idx = cid ∧ x.data = c := by
  intro fs
  induction fs with
  | nil => intro g cid c h; simp [lookup_cell] at h
  | cons e t ih =>
    intro g cid c h
    by_cases he : e.1 = g
    · simp only [lookup_cell, he, if_true] at h
      exact ⟨e, List.mem_cons_self _ _, he, pool_lookup_mem _ _ _ h⟩
    · simp only [lookup_cell, he, if_false] at h
      obtain ⟨e1, he1, h1⟩ := ih g cid c h
      exact ⟨e1, List.mem_cons_of_mem _ he1, h1⟩

theorem lookup_cell_lt (fs : List (String × Option PISA_idx_pool)) (nb : Nat) (hw : feats_wf nb fs)
    (g : String) (cid : Nat) (c : counts) (h : lookup_cell fs g cid = some c) : cid < nb := by
  obtain ⟨e, he, _, x, hx, hxi, _⟩ := lookup_cell_mem fs g cid c h
  obtain ⟨v, hv, hvw⟩ := hw.2 e he
  rw [hv] at hx
  rw [← hxi]
  exact hvw.2 x hx

theorem lookup_cell_none_of_ge (fs : List (String × Option PISA_idx_pool)) (nb : Nat)
    (hw : feats_wf nb fs) (g : String) (cid : Nat) (h : nb ≤ cid) : lookup_cell fs g cid = none := by
  cases hl : lookup_cell fs g cid with
  | none => rfl
  | some c => exact absurd (lookup_cell_lt fs nb hw g cid c hl) (by omega)

/-! ## Lemmas on the token loop -/

theorem new_counts_pools_ok (env : Env) (a : args) (i cid : Nat) :
    pools_ok a (new_counts env a i cid) := by
  intro h
  unfold new_counts
  cases hu : a.umi_tag with
  | none => simp [hu] at h
  | some t =>
    refine ⟨rfl, fun hv => ?_⟩
    simp [hv]

theorem add_hit_pools_ok (a : args) (umi : String) (u : Bool) (c : counts) (h : pools_ok a c) :
    pools_ok a (add_hit a umi u c) := by
  intro hs
  obtain ⟨h1, h2⟩ := h hs
  unfold add_hit
  cases hu : a.umi_tag with
  | none => simp [hu] at hs
  | some t =>
    by_cases hc : a.velocity = true ∧ u = true
    · simp only [hc, and_self, if_true]
      exact ⟨by simpa using h1, fun _ => by simpa using h2 hc.1⟩
    · simp only [hc, if_false]
      exact ⟨by simpa using h1, fun hv => h2 hv⟩

theorem cell_val_append (a : args) (c0 : counts) (hs : List (String × Bool)) (h : String × Bool) :
    cell_val a c0 (hs ++ [h]) = add_hit a h.1 h.2 (cell_val a c0 hs) := by
  simp [cell_val, List.foldl_append]

theorem cell_val_pools_ok (a : args) (c0 : counts) (h0 : pools_ok a c0) :
    ∀ hs : List (String × Bool), pools_ok a (cell_val a c0 hs) := by
  intro hs
  induction hs using List.reverseRecOn with
  | nil => simpa [cell_val] using h0
  | append_singleton l x ih =>
    rw [cell_val_append]
    exact add_hit_pools_ok a _ _ _ ih

theorem accumulate_eq (a : args) (b : bam1_t) (u : Bool) (c : counts) (umi : String)
    (hp : pools_ok a c) (hu : ∀ t, a.umi_tag = some t → bam_aux_get b t = some umi) :
    accumulate a b u c = some (add_hit a umi u c) := by
  unfold accumulate add_hit
  cases ht : a.umi_tag with
  | none => by_cases hc : a.velocity = true ∧ u = true <;> simp [hc]
  | some t =>
    simp only [hu t ht]
    obtain ⟨h1, h2⟩ := hp (by simp [ht])
    obtain ⟨p, hp1⟩ := Option.isSome_iff_exists.1 h1
    by_cases hc : a.velocity = true ∧ u = true
    · obtain ⟨up, hup⟩ := Option.isSome_iff_exists.1 (h2 hc.1)
      simp [hc, hp1, hup]
    · simp [hc, hp1]

theorem token_payload_rel (env : Env) (a : args) (b : bam1_t) (cid : Nat) (u : Bool) (umi : String)
    (hu : ∀ t, a.umi_tag = some t → bam_aux_get b t = some umi)
    (oc : Option counts) (hs : List (String × Bool)) (k : Nat) (h : cell_rel env a cid oc hs) :
    ∃ c1, token_payload env a b cid u k oc = some c1 ∧
      cell_rel env a cid (some c1) (hs ++ [(umi, u)]) := by
  rcases h with ⟨h1, h2⟩ | ⟨h1, i, h2⟩
  · subst h1 h2
    refine ⟨add_hit a umi u (new_counts env a k cid), ?_, Or.inr ⟨by simp, k, ?_⟩⟩
    · simp [token_payload, accumulate_eq a b u _ umi (new_counts_pools_ok env a k cid) hu]
    · simp [cell_val]
  · subst h2
    refine ⟨add_hit a umi u (cell_val a (new_counts env a i cid) hs), ?_, Or.inr ⟨by simp, i, ?_⟩⟩
    · simp [token_payload, accumulate_eq a b u _ umi
        (cell_val_pools_ok a _ (new_counts_pools_ok env a i cid) hs) hu]
    · rw [cell_val_append]

theorem pool_upsert_total (g : Option counts → Option counts) (cid : Nat) :
    ∀ l : List PISA_dna, (g (pool_lookup l cid)).isSome = true →
      ∃ l1, pool_upsert g cid l = some l1 := by
  intro l
  induction l with
  | nil =>
    intro h
    obtain ⟨c, hc⟩ := Option.isSome_iff_exists.1 h
    simp only [pool_lookup, List.find?_nil, Option.map_none'] at hc
    simp [pool_upsert, hc]
  | cons e t ih =>
    intro h
    by_cases he : e.idx = cid
    · obtain ⟨c, hc⟩ := Option.isSome_iff_exists.1 h
      simp only [pool_lookup, List.find?_cons, he, decide_True, Option.map_some'] at hc
      simp [pool_upsert, he, hc]
    · have h1 : pool_lookup (e :: t) cid = pool_lookup t cid := by
        simp [pool_lookup, List.find?_cons, he]
      rw [h1] at h
      obtain ⟨l1, hl1⟩ := ih h
      exact ⟨e :: l1, by simp [pool_upsert, he, hl1]⟩

theorem feat_upsert_total (g : Nat → Option counts → Option counts) (val : String) (cid : Nat) :
    ∀ (l : List (String × Option PISA_idx_pool)) (i : Nat),
      (∀ k, (g k (lookup_cell l val cid)).isSome = true) →
      ∃ l1, feat_upsert g val cid i l = some l1 := by
  intro l
  induction l with
  | nil =>
    intro i h
    obtain ⟨d, hd⟩ := pool_upsert_total (g i) cid [] (by simpa [lookup_cell, pool_lookup] using h i)
    simp [feat_upsert, hd]
  | cons e t ih =>
    intro i h
    by_cases he : e.1 = val
    · simp only [lookup_cell, he, if_true] at h
      obtain ⟨d, hd⟩ := pool_upsert_total (g i) cid _ (h i)
      simp [feat_upsert, he, hd]
    · simp only [lookup_cell, he, if_false] at h
      obtain ⟨l1, hl1⟩ := ih (i + 1) h
      exact ⟨e :: l1, by simp [feat_upsert, he, hl1]⟩

/-- One token: the count cells of cell id `cid` take the contribution, every
other cell is untouched, and the tables stay well formed. -/
theorem count_feature_step (env : Env) (a : args) (b : bam1_t) (cid : Nat) (u : Bool) (umi : String)
    (hu : ∀ t, a.umi_tag = some t → bam_aux_get b t = some umi)
    (fs : dict PISA_idx_pool) (val : String) (H : String → List (String × Bool))
    (hrel : ∀ n, cell_rel env a cid (lookup_cell fs.data n cid) (H n)) :
    ∃ fs1, count_feature env a b cid u fs val = some fs1 ∧
      (∀ n, cell_rel env a cid (lookup_cell fs1.data n cid)
        (H n ++ if n = val then [(umi, u)] else [])) ∧
      (∀ n cid1, cid1 ≠ cid → lookup_cell fs1.data n cid1 = lookup_cell fs.data n cid1) ∧
      (∀ nb, feats_wf nb fs.data → cid < nb → feats_wf nb fs1.data) := by
  rw [count_feature_eq]
  have htot : ∀ k, (token_payload env a b cid u k (lookup_cell fs.data val cid)).isSome = true := by
    intro k
    obtain ⟨c1, hc1, _⟩ := token_payload_rel env a b cid u umi hu _ _ k (hrel val)
    simp [hc1]
  obtain ⟨l1, hl1⟩ := feat_upsert_total (token_payload env a b cid u) val cid fs.data 0 htot
  obtain ⟨k, hk⟩ := feat_upsert_lookup (token_payload env a b cid u) val cid fs.data l1 0 hl1
  refine ⟨⟨l1⟩, by simp [hl1], ?_, ?_, ?_⟩
  · intro n
    rw [hk n cid]
    by_cases hn : n = val
    · subst hn
      obtain ⟨c1, hc1, hr⟩ := token_payload_rel env a b cid u umi hu _ _ k (hrel n)
      simpa [hc1] using hr
    · simpa [hn] using hrel n
  · intro n cid1 hne
    rw [hk n cid1]
    simp [hne]
  · intro nb hw hc
    exact feat_upsert_wf _ val cid nb 0 fs.data l1 hw hc hl1

/-- The loop over the tokens of one record. -/
theorem count_features_loop (env : Env) (a : args) (b : bam1_t) (cid : Nat) (u : Bool) (umi : String)
    (hu : ∀ t, a.umi_tag = some t → bam_aux_get b t = some umi) :
    ∀ (ts : List String) (fs : dict PISA_idx_pool) (H : String → List (String × Bool)),
    (∀ n, cell_rel env a cid (lookup_cell fs.data n cid) (H n)) →
    ∃ fs1, count_features env a b cid u ts fs = some fs1 ∧
      (∀ n, cell_rel env a cid (lookup_cell fs1.data n cid)
        (H n ++ List.replicate (ts.count n) (umi, u))) ∧
      (∀ n cid1, cid1 ≠ cid → lookup_cell fs1.data n cid1 = lookup_cell fs.data n cid1) ∧
      (∀ nb, feats_wf nb fs.data → cid < nb → feats_wf nb fs1.data) := by
  intro ts
  induction ts with
  | nil =>
    intro fs H hrel
    exact ⟨fs, rfl, by simpa using hrel, fun _ _ _ => rfl, fun _ hw _ => hw⟩
  | cons val rest ih =>
    intro fs H hrel
    obtain ⟨f1, hf1, hr1, ho1, hw1⟩ := count_feature_step env a b cid u umi hu fs val H hrel
    obtain ⟨f2, hf2, hr2, ho2, hw2⟩ := ih f1 _ hr1
    refine ⟨f2, by simp [count_features, hf1, hf2], ?_, ?_, ?_⟩
    · intro n
      have := hr2 n
      by_cases hn : n = val
      · subst hn
        simpa [List.count_cons_self, List.replicate_succ] using this
      · have hn1 : ¬ val = n := fun h => hn h.symm
        simpa [hn, List.count_cons_of_ne hn1] using this
    · intro n cid1 hne
      rw [ho2 n cid1 hne, ho1 n cid1 hne]
    · intro nb hw hc
      exact hw2 nb (hw1 nb hw hc) hc

theorem dict_find_none_iff {α : Type} (s : String) :
    ∀ l : List (String × Option α), dict_find l s = none ↔ s ∉ l.map Prod.fst := by
  intro l
  induction l with
  | nil => simp [dict_find]
  | cons e t ih =>
    by_cases he : e.1 = s
    · simp [dict_find, he]
    · have hne : ¬ s = e.1 := fun h => he h.symm
      simp [dict_find, he, ih, hne]

theorem dict_find_some {α : Type} (s : String) :
    ∀ (l : List (String × Option α)) (i : Nat), dict_find l s = some i →
      i < l.length ∧ (l.get? i).map Prod.fst = some s := by
  intro l
  induction l with
  | nil => intro i h; simp [dict_find] at h
  | cons e t ih =>
    intro i h
    by_cases he : e.1 = s
    · simp only [dict_find, he, if_true, Option.some.injEq] at h
      subst h
      simp [he]
    · simp only [dict_find, he, if_false, Option.map_eq_some'] at h
      obtain ⟨j, hj, rfl⟩ := h
      have := ih j hj
      simpa using this

theorem dict_find_append {α : Type} (s c : String) (o : Option α) :
    ∀ l : List (String × Option α), dict_find (l ++ [(s, o)]) c =
      match dict_find l c with
      | some i => some i
      | none => if s = c then some l.length else none := by
  intro l
  induction l with
  | nil => by_cases h : s = c <;> simp [dict_find, h]
  | cons e t ih =>
    by_cases he : e.1 = c
    · simp [dict_find, he]
    · rw [List.cons_append]
      simp only [dict_find, he, if_false]
      rw [ih]
      cases hd : dict_find t c with
      | some i => simp
      | none => by_cases h : s = c <;> simp [h]

theorem dict_find_of_nodup {α : Type} :
    ∀ (l : List (String × Option α)), (l.map Prod.fst).Nodup →
      ∀ (i : Nat) (e : String × Option α), l.get? i = some e → dict_find l e.1 = some i := by
  intro l
  induction l with
  | nil => intro _ i e h; simp at h
  | cons x t ih =>
    intro hn i e h
    simp only [List.map_cons, List.nodup_cons] at hn
    cases i with
    | zero =>
      simp only [List.get?_cons_zero, Option.some.injEq] at h
      subst h
      simp [dict_find]
    | succ j =>
      simp only [List.get?_cons_succ] at h
      have hne : ¬ x.1 = e.1 := by
        intro hx
        apply hn.1
        rw [hx]
        exact List.mem_map_of_mem _ (List.get?_mem h)
      simp [dict_find, hne, ih hn.2 j e h]

theorem dict_push_names {α : Type} (d : dict α) (s : String) :
    (dict_push d s).2.data.map Prod.fst =
      if s ∈ d.data.map Prod.fst then d.data.map Prod.fst else d.data.map Prod.fst ++ [s] := by
  unfold dict_push dict_query
  cases h : dict_find d.data s with
  | some i =>
    have : s ∈ d.data.map Prod.fst := by
      by_contra hc
      rw [(dict_find_none_iff s d.data).2 hc] at h
      cases h
    simp only [this, if_true]
  | none =>
    have := (dict_find_none_iff s d.data).1 h
    simp only [this, if_false, List.map_append, List.map_cons, List.map_nil]

theorem dict_push_nodup {α : Type} (d : dict α) (s : String) (h : (d.data.map Prod.fst).Nodup) :
    ((dict_push d s).2.data.map Prod.fst).Nodup := by
  rw [dict_push_names]
  by_cases hm : s ∈ d.data.map Prod.fst
  · simp only [hm, if_true]; exact h
  · simp only [hm, if_false]
    exact List.Nodup.append h (List.nodup_singleton _) (by simpa using hm)

theorem dict_push_find {α : Type} (d : dict α) (s : String) :
    dict_find (dict_push d s).2.data s = some (dict_push d s).1 := by
  unfold dict_push dict_query
  cases h : dict_find d.data s with
  | some i => simpa using h
  | none => simp [dict_find_append, h]

theorem dict_push_find_other {α : Type} (d : dict α) (s c : String) (hne : s ≠ c) :
    dict_find (dict_push d s).2.data c = dict_find d.data c := by
  unfold dict_push dict_query
  cases h : dict_find d.data s with
  | some i => rfl
  | none =>
    simp only [dict_find_append]
    cases dict_find d.data c <;> simp [hne]

theorem dict_push_size {α : Type} (d : dict α) (s : String) :
    dict_size d ≤ dict_size (dict_push d s).2 ∧ (dict_push d s).1 < dict_size (dict_push d s).2 := by
  unfold dict_push dict_query dict_size
  cases h : dict_find d.data s with
  | some i => exact ⟨le_refl _, (dict_find_some s d.data i h).1⟩
  | none => simp

theorem dict_push_new {α : Type} (d : dict α) (s : String) (h : dict_find d.data s = none) :
    (dict_push d s).1 = dict_size d := by
  simp [dict_push, dict_query, h, dict_size]

theorem dict_read_names {α : Type} : ∀ (wl : List String) (d : dict α),
    (d.data.map Prod.fst).Nodup →
    ((dict_read d wl).data.map Prod.fst).Nodup ∧
      ∀ c, c ∈ (dict_read d wl).data.map Prod.fst ↔ (c ∈ d.data.map Prod.fst ∨ c ∈ wl) := by
  intro wl
  induction wl with
  | nil => intro d h; simp [dict_read, h]
  | cons s t ih =>
    intro d h
    have h1 := dict_push_nodup d s h
    obtain ⟨h2, h3⟩ := ih (dict_push d s).2 h1
    have hr : dict_read d (s :: t) = dict_read (dict_push d s).2 t := by
      simp [dict_read]
    rw [hr]
    refine ⟨h2, fun c => ?_⟩
    rw [h3 c, dict_push_names]
    by_cases hm : s ∈ d.data.map Prod.fst
    · simp only [hm, if_true, List.mem_cons]
      constructor
      · rintro (h | h)
        · exact Or.inl h
        · exact Or.inr (Or.inr h)
      · rintro (h | h | h)
        · exact Or.inl h
        · exact Or.inl (h ▸ hm)
        · exact Or.inr h
    · simp only [hm, if_false, List.mem_append, List.mem_singleton, List.mem_cons]
      tauto

theorem read_cell_tag_cases (a : args) (b : bam1_t) (tag : Option String)
    (h : a.tag.isSome = true ∨ tag.isSome = true) :
    read_cell_tag a b tag = .drop ∨ ∃ cb, read_cell_tag a b tag = .next (some cb) := by
  unfold read_cell_tag
  cases ht : a.tag with
  | some t =>
    cases hb : bam_aux_get b t with
    | none => exact Or.inl (by simp [hb])
    | some v => exact Or.inr ⟨v, by simp [hb]⟩
  | none =>
    simp only [ht, Option.isSome_none, Bool.false_eq_true, false_or] at h
    obtain ⟨s, hs⟩ := Option.isSome_iff_exists.1 h
    subst hs
    by_cases hc : a.alias_file_cb = true
    · exact Or.inr ⟨s, by simp [hc]⟩
    · exact Or.inr ⟨s, by simp [hc]⟩

/-- The function `count_matrix_core` in terms of what the record carries. -/
theorem count_matrix_core_eq (env : Env) (a : args) (st : state) (b : bam1_t) (tag : Option String)
    (h : a.tag.isSome = true ∨ tag.isSome = true) :
    count_matrix_core env a st b tag =
      match core_hit env a b tag with
      | none => some (1, st)
      | some x =>
        match resolve_cell a st.barcodes (some x.cell) with
        | .abort => none
        | .drop => some (1, st)
        | .next r =>
          if a.one_hit ∧ x.tokens.length > 1 then some (1, { st with barcodes := r.2 })
          else
            match count_features env a b r.1 x.unspliced x.tokens st.features with
            | none => none
            | some f => some (0, { st with barcodes := r.2, features := f }) := by
  unfold count_matrix_core core_hit
  rcases read_cell_tag_cases a b tag h with h1 | ⟨cb, h1⟩
  · simp [h1]
  · simp only [h1]
    cases bam_aux_get b a.anno_tag with
    | none => rfl
    | some anno =>
      simp only
      by_cases hu : a.umi_tag.isSome = true ∧ (a.umi_tag.bind (bam_aux_get b)).isNone = true
      · simp [hu]
      · simp only [hu, if_false]
        cases velocity_class env a b with
        | none => rfl
        | some u => rfl

theorem core_hit_umi (env : Env) (a : args) (b : bam1_t) (tag : Option String) (x : hit)
    (h : core_hit env a b tag = some x) :
    ∀ t, a.umi_tag = some t → bam_aux_get b t = some x.umi := by
  intro t ht
  unfold core_hit at h
  cases h1 : read_cell_tag a b tag with
  | abort => simp [h1] at h
  | drop => simp [h1] at h
  | next o =>
    cases o with
    | none => simp [h1] at h
    | some cb =>
      simp only [h1] at h
      cases h2 : bam_aux_get b a.anno_tag with
      | none => simp [h2] at h
      | some anno =>
        simp only [h2, ht, Option.isSome_some, true_and, Option.some_bind] at h
        cases h3 : bam_aux_get b t with
        | none => simp [h3] at h
        | some v =>
          simp only [h3, Option.isNone_some, Bool.false_eq_true, if_false] at h
          cases h4 : velocity_class env a b with
          | none => simp [h4] at h
          | some u =>
            simp only [h4, Option.some.injEq] at h
            subst h
            simp

theorem core_hit_tokens (env : Env) (a : args) (b : bam1_t) (tag : Option String) (x : hit)
    (h : core_hit env a b tag = some x) :
    ∃ anno, bam_aux_get b a.anno_tag = some anno ∧ x.tokens = env.str_split anno := by
  unfold core_hit at h
  cases h1 : read_cell_tag a b tag with
  | abort => simp [h1] at h
  | drop => simp [h1] at h
  | next o =>
    cases o with
    | none => simp [h1] at h
    | some cb =>
      simp only [h1] at h
      cases h2 : bam_aux_get b a.anno_tag with
      | none => simp [h2] at h
      | some anno =>
        refine ⟨anno, rfl, ?_⟩
        simp only [h2] at h
        split at h
        · cases h
        · cases h4 : velocity_class env a b with
          | none => simp [h4] at h
          | some u =>
            simp only [h4, Option.some.injEq] at h
            subst h
            rfl

/-! ## Lemmas on the count cells -/

theorem u32_succ (n : Nat) : u32 (u32 n + 1) = u32 (n + 1) := by
  simp [u32, Nat.add_mod]

theorem unspliced_hits_append (hs : List (String × Bool)) (h : String × Bool) :
    unspliced_hits (hs ++ [h]) = unspliced_hits hs ++ if h.2 = true then [h] else [] := by
  by_cases hh : h.2 = true <;> simp [unspliced_hits, List.filter_append, hh]

/-- Without a UMI tag a count cell counts its contributions, modulo `2^32`. -/
theorem cell_val_noumi (env : Env) (a : args) (i cid : Nat) (hu : a.umi_tag = none) :
    ∀ hs : List (String × Bool),
      (cell_val a (new_counts env a i cid) hs).count = u32 hs.length ∧
      (cell_val a (new_counts env a i cid) hs).unspliced =
        u32 (if a.velocity = true then (unspliced_hits hs).length else 0) := by
  intro hs
  induction hs using List.reverseRecOn with
  | nil => simp [cell_val, new_counts, hu, u32, unspliced_hits]
  | append_singleton l x ih =>
    rw [cell_val_append]
    obtain ⟨h1, h2⟩ := ih
    unfold add_hit
    simp only [hu]
    by_cases hv : a.velocity = true
    · by_cases hx : x.2 = true
      · simp only [hv, hx, and_self, if_true] at h2 ⊢
        rw [h1, h2, u32_succ, u32_succ, unspliced_hits_append]
        simp [hx]
      · simp only [hv, hx, and_false, if_false, if_true] at h2 ⊢
        rw [h1, h2, u32_succ, unspliced_hits_append]
        simp [hx]
    · simp only [hv, false_and, if_false] at h2 ⊢
      rw [h1, u32_succ]
      simp [h2]

theorem push_all_append (l : List String) (s : String) :
    push_all (l ++ [s]) = PISA_dna_push (push_all l) s := by
  simp [push_all, List.foldl_append]

/-- With a UMI tag the pools of a count cell hold the UMIs of its contributions. -/
theorem cell_val_umi (env : Env) (a : args) (i cid : Nat) (t : String) (hu : a.umi_tag = some t) :
    ∀ hs : List (String × Bool),
      (cell_val a (new_counts env a i cid) hs).p = some (push_all (hs.map Prod.fst)) ∧
      (a.velocity = true → (cell_val a (new_counts env a i cid) hs).up =
        some (push_all ((unspliced_hits hs).map Prod.fst))) := by
  intro hs
  induction hs using List.reverseRecOn with
  | nil =>
    refine ⟨by simp [cell_val, new_counts, hu, push_all], fun hv => ?_⟩
    simp [cell_val, new_counts, hu, push_all, hv, unspliced_hits]
  | append_singleton l x ih =>
    rw [cell_val_append]
    obtain ⟨h1, h2⟩ := ih
    unfold add_hit
    simp only [hu]
    by_cases hv : a.velocity = true
    · by_cases hx : x.2 = true
      · simp only [hv, hx, and_self, if_true]
        refine ⟨by simp [h1, push_all_append], fun _ => ?_⟩
        rw [h2 hv, unspliced_hits_append]
        simp [hx, push_all_append]
      · simp only [hv, hx, and_false, if_false]
        refine ⟨by simp [h1, push_all_append], fun _ => ?_⟩
        rw [h2 hv, unspliced_hits_append]
        simp [hx]
    · simp only [hv, false_and, if_false]
      exact ⟨by simp [h1, push_all_append], fun h => by simp at h⟩

theorem PISA_dna_push_nodup (p : PISA_dna_pool) (s : String) (h : p.data.Nodup) :
    (PISA_dna_push p s).data.Nodup := by
  unfold PISA_dna_push
  by_cases hm : s ∈ p.data
  · simp [hm, h]
  · simp only [hm, if_false]
    exact List.Nodup.append h (List.nodup_singleton _) (by simpa using hm)

theorem PISA_dna_push_mem (p : PISA_dna_pool) (s x : String) :
    x ∈ (PISA_dna_push p s).data ↔ x ∈ p.data ∨ x = s := by
  unfold PISA_dna_push
  by_cases hm : s ∈ p.data
  · simp only [hm, if_true]
    constructor
    · exact Or.inl
    · rintro (h | h)
      · exact h
      · exact h ▸ hm
  · simp [hm]

theorem push_all_spec : ∀ l : List String,
    (push_all l).data.Nodup ∧ ∀ x, x ∈ (push_all l).data ↔ x ∈ l := by
  intro l
  induction l using List.reverseRecOn with
  | nil => simp [push_all, PISA_dna_pool_init]
  | append_singleton l s ih =>
    rw [push_all_append]
    refine ⟨PISA_dna_push_nodup _ s ih.1, fun x => ?_⟩
    rw [PISA_dna_push_mem, ih.2 x]
    simp

theorem n_distinct_congr (l1 l2 : List String) (h : ∀ x, x ∈ l1 ↔ x ∈ l2) :
    n_distinct l1 = n_distinct l2 := by
  unfold n_distinct
  rw [← List.card_toFinset, ← List.card_toFinset]
  congr 1
  ext x
  simp [h x]

theorem length_eq_n_distinct (l1 l2 : List String) (hn : l1.Nodup) (h : ∀ x, x ∈ l1 ↔ x ∈ l2) :
    l1.length = n_distinct l2 := by
  rw [← n_distinct_congr l1 l2 h]
  unfold n_distinct
  rw [List.Nodup.dedup hn]

theorem push_all_l (l : List String) : (push_all l).l = n_distinct l := by
  obtain ⟨h1, h2⟩ := push_all_spec l
  exact length_eq_n_distinct _ _ h1 h2

theorem n_distinct_le (l : List String) : n_distinct l ≤ l.length := by
  unfold n_distinct
  exact (List.dedup_sublist l).length_le

theorem n_distinct_pos (l : List String) (h : l ≠ []) : 1 ≤ n_distinct l := by
  unfold n_distinct
  cases l with
  | nil => exact absurd rfl h
  | cons x t =>
    have : x ∈ (x :: t).dedup := List.mem_dedup.2 (List.mem_cons_self _ _)
    exact List.length_pos_of_mem this

theorem n_distinct_mono (l1 l2 : List String) (h : ∀ x, x ∈ l1 → x ∈ l2) :
    n_distinct l1 ≤ n_distinct l2 := by
  unfold n_distinct
  rw [← List.card_toFinset, ← List.card_toFinset]
  apply Finset.card_le_card
  intro x hx
  simp only [List.mem_toFinset] at hx ⊢
  exact h x hx

theorem u32_le (n : Nat) : u32 n ≤ n := Nat.mod_le _ _

theorem PISA_dna_push_l (p : PISA_dna_pool) (s : String) : (PISA_dna_push p s).l ≤ p.l + 1 := by
  unfold PISA_dna_push PISA_dna_pool.l
  by_cases h : s ∈ p.data <;> simp [h]

theorem accumulate_weight (a : args) (b : bam1_t) (u : Bool) (c c1 : counts)
    (h : accumulate a b u c = some c1) : weight a c1 ≤ weight a c + 1 := by
  unfold accumulate at h
  unfold weight
  cases hu : a.umi_tag with
  | none =>
    simp only [hu] at h
    split at h
    · simp only [Option.some.injEq] at h
      subst h
      exact u32_le _
    · simp only [Option.some.injEq] at h
      subst h
      exact u32_le _
  | some t =>
    simp only [hu] at h
    cases hb : bam_aux_get b t with
    | none => simp [hb] at h
    | some val =>
      simp only [hb] at h
      cases hp : c.p with
      | none => simp [hp] at h
      | some p =>
        simp only [hp] at h
        split at h
        · cases hup : c.up with
          | none => simp [hup] at h
          | some up =>
            simp only [hup, Option.some.injEq] at h
            subst h
            simpa using PISA_dna_push_l p val
        · simp only [Option.some.injEq] at h
          subst h
          simpa using PISA_dna_push_l p val

theorem new_counts_weight (env : Env) (a : args) (i cid : Nat) :
    weight a (new_counts env a i cid) = 0 := by
  unfold weight new_counts
  cases a.umi_tag <;> simp [PISA_dna_pool_init, PISA_dna_pool.l]

theorem pool_upsert_weight (a : args) (g : Option counts → Option counts) (cid : Nat)
    (hg : ∀ oc c1, g oc = some c1 → weight a c1 ≤ ((oc.map (weight a)).getD 0) + 1) :
    ∀ (l l1 : List PISA_dna), pool_upsert g cid l = some l1 →
      sum_weight a l1 ≤ sum_weight a l + 1 := by
  intro l
  induction l with
  | nil =>
    intro l1 h
    simp only [pool_upsert, Option.map_eq_some'] at h
    obtain ⟨c, hc, rfl⟩ := h
    have := hg none c hc
    simpa [sum_weight] using this
  | cons e t ih =>
    intro l1 h
    by_cases he : e.idx = cid
    · simp only [pool_upsert, he, if_true, Option.map_eq_some'] at h
      obtain ⟨c, hc, rfl⟩ := h
      have := hg (some e.data) c hc
      simp only [Option.map_some', Option.getD_some] at this
      simp only [sum_weight, List.map_cons, List.sum_cons]
      omega
    · simp only [pool_upsert, he, if_false, Option.map_eq_some'] at h
      obtain ⟨r, hr, rfl⟩ := h
      have := ih r hr
      simp only [sum_weight, List.map_cons, List.sum_cons] at this ⊢
      omega

theorem sum_weight_append (a : args) (l1 l2 : List PISA_dna) :
    sum_weight a (l1 ++ l2) = sum_weight a l1 + sum_weight a l2 := by
  simp [sum_weight]

theorem feat_upsert_weight (a : args) (g : Nat → Option counts → Option counts) (val : String)
    (cid : Nat)
    (hg : ∀ k oc c1, g k oc = some c1 → weight a c1 ≤ ((oc.map (weight a)).getD 0) + 1) :
    ∀ (l l1 : List (String × Option PISA_idx_pool)) (i : Nat),
      feat_upsert g val cid i l = some l1 →
      sum_weight a (cells_of l1) ≤ sum_weight a (cells_of l) + 1 := by
  intro l
  induction l with
  | nil =>
    intro l1 i h
    simp only [feat_upsert, Option.map_eq_some'] at h
    obtain ⟨d, hd, rfl⟩ := h
    have := pool_upsert_weight a (g i) cid (hg i) [] d hd
    simpa [cells_of, sum_weight_append] using this
  | cons e t ih =>
    intro l1 i h
    by_cases he : e.1 = val
    · simp only [feat_upsert, he, if_true, Option.map_eq_some'] at h
      obtain ⟨d, hd, rfl⟩ := h
      have := pool_upsert_weight a (g i) cid (hg i) _ d hd
      simp only [cells_of, Option.getD_some, sum_weight_append]
      omega
    · simp only [feat_upsert, he, if_false, Option.map_eq_some'] at h
      obtain ⟨r, hr, rfl⟩ := h
      have := ih r (i + 1) hr
      simp only [cells_of, sum_weight_append]
      omega

theorem token_payload_weight (env : Env) (a : args) (b : bam1_t) (cid : Nat) (u : Bool) (k : Nat)
    (oc : Option counts) (c1 : counts) (h : token_payload env a b cid u k oc = some c1) :
    weight a c1 ≤ ((oc.map (weight a)).getD 0) + 1 := by
  unfold token_payload at h
  have := accumulate_weight a b u _ c1 h
  cases oc with
  | none => simpa [new_counts_weight] using this
  | some c => simpa using this

theorem count_feature_weight (env : Env) (a : args) (b : bam1_t) (cid : Nat) (u : Bool)
    (fs fs1 : dict PISA_idx_pool) (val : String)
    (h : count_feature env a b cid u fs val = some fs1) :
    sum_weight a (cells_of fs1.data) ≤ sum_weight a (cells_of fs.data) + 1 := by
  rw [count_feature_eq] at h
  simp only [Option.map_eq_some'] at h
  obtain ⟨l1, hl1, rfl⟩ := h
  exact feat_upsert_weight a _ val cid (token_payload_weight env a b cid u) fs.data l1 0 hl1

theorem count_features_weight (env : Env) (a : args) (b : bam1_t) (cid : Nat) (u : Bool) :
    ∀ (ts : List String) (fs fs1 : dict PISA_idx_pool),
      count_features env a b cid u ts fs = some fs1 →
      sum_weight a (cells_of fs1.data) ≤ sum_weight a (cells_of fs.data) + ts.length := by
  intro ts
  induction ts with
  | nil =>
    intro fs fs1 h
    simp only [count_features, Option.some.injEq] at h
    subst h
    simp
  | cons val rest ih =>
    intro fs fs1 h
    simp only [count_features] at h
    cases hc : count_feature env a b cid u fs val with
    | none => simp [hc] at h
    | some f =>
      simp only [hc] at h
      have h1 := count_feature_weight env a b cid u fs f val hc
      have h2 := ih f fs1 h
      simp only [List.length_cons]
      omega

theorem n_counted_append (env : Env) (a : args) (wl : List String) :
    ∀ l1 l2 : List bam_item,
      n_counted env a wl (l1 ++ l2) = n_counted env a wl l1 + n_counted env a wl l2 := by
  intro l1
  induction l1 with
  | nil => intro l2; simp [n_counted]
  | cons x t ih => intro l2; simp [n_counted, ih, Nat.add_assoc]

theorem sum_count_final (a : args) : ∀ l : List PISA_dna,
    sum_count (final_pool a l) = sum_weight a l := by
  intro l
  induction l with
  | nil => rfl
  | cons e t ih =>
    simp only [sum_count, final_pool, sum_weight, List.map_cons, List.sum_cons] at ih ⊢
    rw [ih]
    congr 1
    unfold final_cell weight
    cases a.umi_tag with
    | none => rfl
    | some t => by_cases hv : a.velocity = true <;> simp [hv]

/-! ## The invariant of the main loop -/

theorem contribs_append (env : Env) (a : args) (wl : List String) (g c : String) :
    ∀ l1 l2 : List bam_item,
      contribs env a wl g c (l1 ++ l2) = contribs env a wl g c l1 ++ contribs env a wl g c l2 := by
  intro l1
  induction l1 with
  | nil => intro l2; simp [contribs]
  | cons x t ih => intro l2; simp [contribs, ih]

theorem contribs_single_none (env : Env) (a : args) (wl : List String) (g c : String)
    (it : bam_item) (h : accepted env a wl it = none) : contribs env a wl g c [it] = [] := by
  simp [contribs, h]

theorem contribs_single_some (env : Env) (a : args) (wl : List String) (g c : String)
    (it : bam_item) (x : hit) (h : accepted env a wl it = some x) :
    contribs env a wl g c [it] =
      if x.cell = c then List.replicate (x.tokens.count g) (x.umi, x.unspliced) else [] := by
  simp [contribs, h]

theorem run_inv_skip (env : Env) (a : args) (wl : List String) (st : state) (hist : List bam_item)
    (it : bam_item) (h : accepted env a wl it = none) (hi : run_inv env a wl st hist) :
    run_inv env a wl st (hist ++ [it]) := by
  obtain ⟨h1, h2, h3, h4, h5, h6, h7, h8⟩ := hi
  refine ⟨h1, h2, h3, h4, h5, ?_, ?_, ?_⟩
  · intro g c cid hc
    rw [contribs_append, contribs_single_none env a wl g c it h, List.append_nil]
    exact h6 g c cid hc
  · intro g c hc
    rw [contribs_append, contribs_single_none env a wl g c it h, List.append_nil]
    exact h7 g c hc
  · rw [n_counted_append]
    exact Nat.le_trans h8 (Nat.le_add_right _ _)

theorem dict_find_inj {α : Type} (l : List (String × Option α)) (c1 c2 : String) (i : Nat)
    (h1 : dict_find l c1 = some i) (h2 : dict_find l c2 = some i) : c1 = c2 := by
  have a1 := (dict_find_some c1 l i h1).2
  have a2 := (dict_find_some c2 l i h2).2
  rw [a1] at a2
  exact Option.some.inj a2

/-- What `resolve_cell` returns when it goes on. -/
theorem resolve_cell_next (a : args) (bc : dict Unit) (s : String) (r : Nat × dict Unit)
    (hn : (bc.data.map Prod.fst).Nodup) (h : resolve_cell a bc (some s) = .next r) :
    dict_find r.2.data s = some r.1 ∧ r.1 < dict_size r.2 ∧ dict_size bc ≤ dict_size r.2 ∧
    (r.2.data.map Prod.fst).Nodup ∧
    (∀ c, s ≠ c → dict_find r.2.data c = dict_find bc.data c) ∧
    (dict_find bc.data s = none → r.1 = dict_size bc) ∧
    (∀ i, dict_find bc.data s = some i → r.1 = i) ∧
    (a.whitelist_fname.isSome = true → r.2 = bc) := by
  unfold resolve_cell at h
  cases hw : a.whitelist_fname with
  | some w =>
    simp only [hw] at h
    cases hq : dict_query bc s with
    | none => simp [hq] at h
    | some cid =>
      simp only [hq, flow.next.injEq] at h
      subst h
      simp only [dict_query] at hq
      refine ⟨hq, (dict_find_some s bc.data cid hq).1, le_refl _, hn, fun _ _ => rfl, ?_, ?_,
        fun _ => rfl⟩
      · intro h0
        rw [hq] at h0
        cases h0
      · intro i hi
        rw [hq] at hi
        exact Option.some.inj hi
  | none =>
    simp only [hw, flow.next.injEq] at h
    subst h
    refine ⟨dict_push_find bc s, (dict_push_size bc s).2, (dict_push_size bc s).1,
      dict_push_nodup bc s hn, fun c hc => dict_push_find_other bc s c hc,
      fun h0 => dict_push_new bc s h0, fun i hi => ?_, fun h0 => by simp at h0⟩
    simp [dict_push, dict_query, hi]

theorem run_inv_barcodes (env : Env) (a : args) (wl : List String) (st : state)
    (hist : List bam_item) (s : String) (r : Nat × dict Unit)
    (hi : run_inv env a wl st hist) (h : resolve_cell a st.barcodes (some s) = .next r) :
    run_inv env a wl { st with barcodes := r.2 } hist := by
  obtain ⟨h1, h2, h3, h4, h5, h6, h7, h8⟩ := hi
  obtain ⟨r1, r2, r3, r4, r5, r6, r7, r8⟩ := resolve_cell_next a st.barcodes s r h2 h
  refine ⟨feats_wf_mono _ _ r3 _ h1, r4, ?_, h4, h5, ?_, ?_, h8⟩
  · intro hw c
    rw [r8 hw]
    exact h3 hw c
  · intro g c cid hc
    by_cases hsc : s = c
    · subst hsc
      rw [r1] at hc
      have hcid : r.1 = cid := Option.some.inj hc
      cases hf : dict_find st.barcodes.data s with
      | some i =>
        have := r7 i hf
        rw [← hcid, this]
        exact h6 g s i hf
      | none =>
        have hsz := r6 hf
        refine Or.inl ⟨h7 g s hf, ?_⟩
        rw [← hcid, hsz]
        exact lookup_cell_none_of_ge _ _ h1 g _ (le_refl _)
    · rw [r5 c hsc] at hc
      exact h6 g c cid hc
  · intro g c hc
    by_cases hsc : s = c
    · subst hsc
      rw [r1] at hc
      cases hc
    · rw [r5 c hsc] at hc
      exact h7 g c hc

theorem resolve_cell_not_abort (a : args) (bc : dict Unit) (s : String) :
    resolve_cell a bc (some s) ≠ .abort := by
  unfold resolve_cell
  cases a.whitelist_fname with
  | none => simp
  | some w =>
    cases hq : dict_query bc s <;> simp [hq]

theorem resolve_cell_drop (a : args) (bc : dict Unit) (s : String)
    (h : resolve_cell a bc (some s) = .drop) :
    a.whitelist_fname.isSome = true ∧ dict_find bc.data s = none := by
  unfold resolve_cell at h
  cases hw : a.whitelist_fname with
  | none => simp [hw] at h
  | some w =>
    simp only [hw] at h
    cases hq : dict_query bc s with
    | none => exact ⟨rfl, hq⟩
    | some i => simp [hq] at h

theorem resolve_cell_next_mem (a : args) (bc : dict Unit) (s : String) (r : Nat × dict Unit)
    (h : resolve_cell a bc (some s) = .next r) (hw : a.whitelist_fname.isSome = true) :
    s ∈ bc.data.map Prod.fst := by
  unfold resolve_cell at h
  cases hw1 : a.whitelist_fname with
  | none => simp [hw1] at hw
  | some w =>
    simp only [hw1] at h
    cases hq : dict_query bc s with
    | none => simp [hq] at h
    | some i =>
      by_contra hc
      have := (dict_find_none_iff s bc.data).2 hc
      simp only [dict_query] at hq
      rw [this] at hq
      cases hq

/-- One turn of the main loop keeps the invariant. -/
theorem count_matrix_step_inv (env : Env) (a : args) (wl : List String) (st : state)
    (hist : List bam_item) (it : bam_item) (hi : run_inv env a wl st hist) (hok : input_ok a it) :
    ∃ st1, count_matrix_step env a st it = some st1 ∧ run_inv env a wl st1 (hist ++ [it]) := by
  have hal : ¬ (a.alias_file_cb = true ∧ it.file_alias.isNone = true) := by
    rintro ⟨h1, h2⟩
    have := hok.1 h1
    cases hfa : it.file_alias <;> simp [hfa] at this h2
  unfold count_matrix_step
  simp only [hal, if_false]
  by_cases hf : count_matrix_filter env a it = true
  · simp only [hf, if_true]
    rw [count_matrix_core_eq env a st it.b it.file_alias hok.2]
    cases hh : core_hit env a it.b it.file_alias with
    | none =>
      have hacc : accepted env a wl it = none := by simp [accepted, record_hit, hf, hh]
      exact ⟨st, rfl, run_inv_skip env a wl st hist it hacc hi⟩
    | some x =>
      have hrec : record_hit env a it = some x := by simp [record_hit, hf, hh]
      simp only
      cases hres : resolve_cell a st.barcodes (some x.cell) with
      | abort => exact absurd hres (resolve_cell_not_abort a st.barcodes x.cell)
      | drop =>
        obtain ⟨hw, hd⟩ := resolve_cell_drop a st.barcodes x.cell hres
        have hnm : x.cell ∉ wl := by
          intro hm
          have := (hi.2.2.1 hw x.cell).2 hm
          exact (dict_find_none_iff x.cell st.barcodes.data).1 hd this
        have hacc : accepted env a wl it = none := by simp [accepted, hrec, hw, hnm]
        exact ⟨st, rfl, run_inv_skip env a wl st hist it hacc hi⟩
      | next r =>
        have hi2 := run_inv_barcodes env a wl st hist x.cell r hi hres
        obtain ⟨r1, r2, r3, r4, r5, r6, r7, r8⟩ :=
          resolve_cell_next a st.barcodes x.cell r hi.2.1 hres
        by_cases hone : a.one_hit = true ∧ x.tokens.length > 1
        · have hacc : accepted env a wl it = none := by simp [accepted, hrec, hone]
          simp only [hone, and_self, if_true]
          exact ⟨_, rfl, run_inv_skip env a wl _ hist it hacc hi2⟩
        · have hacc : accepted env a wl it = some x := by
            have hwl : ¬ (a.whitelist_fname.isSome = true ∧ x.cell ∉ wl) := by
              rintro ⟨hw, hnm⟩
              exact hnm ((hi.2.2.1 hw x.cell).1 (resolve_cell_next_mem a st.barcodes x.cell r hres hw))
            simp [accepted, hrec, hwl, hone]
          simp only [hone, if_false]
          obtain ⟨g1, g2, g3, g4, g5, g6, g7, g8⟩ := hi2
          simp only at g1 g2 g3 g6 g7 g8
          obtain ⟨fs1, hfs1, hr, ho, hw⟩ := count_features_loop env a it.b r.1 x.unspliced x.umi
            (core_hit_umi env a it.b it.file_alias x hh) x.tokens st.features
            (fun n => contribs env a wl n x.cell hist) (fun n => g6 n x.cell r.1 r1)
          have hwt := count_features_weight env a it.b r.1 x.unspliced x.tokens st.features fs1 hfs1
          refine ⟨{ st with barcodes := r.2, features := fs1 }, by simp [hfs1], hw _ g1 r2, g2, g3, g4, g5,
            ?_, ?_, ?_⟩
          · intro g c cid hc
            simp only at hc ⊢
            rw [contribs_append, contribs_single_some env a wl g c it x hacc]
            by_cases hxc : x.cell = c
            · subst hxc
              rw [r1] at hc
              have hcid : r.1 = cid := Option.some.inj hc
              simp only [if_true]
              rw [← hcid]
              exact hr g
            · have hne : cid ≠ r.1 := by
                intro he
                rw [he] at hc
                exact hxc (dict_find_inj r.2.data x.cell c r.1 r1 hc)
              simp only [hxc, if_false, List.append_nil]
              rw [ho g cid hne]
              exact g6 g c cid hc
          · intro g c hc
            simp only at hc
            rw [contribs_append, contribs_single_some env a wl g c it x hacc]
            have hxc : ¬ x.cell = c := by
              intro he
              subst he
              rw [r1] at hc
              cases hc
            simp only [hxc, if_false, List.append_nil]
            exact g7 g c hc
          · simp only
            rw [n_counted_append]
            have : n_counted env a wl [it] = x.tokens.length := by simp [n_counted, hacc]
            omega
  · have hacc : accepted env a wl it = none := by simp [accepted, record_hit, hf]
    simp only [hf]
    exact ⟨st, rfl, run_inv_skip env a wl st hist it hacc hi⟩

/-- The main loop goes through and keeps the invariant. -/
theorem count_matrix_loop_inv (env : Env) (a : args) (wl : List String) :
    ∀ (rs : List bam_item) (st : state) (hist : List bam_item),
      run_inv env a wl st hist → (∀ it ∈ rs, input_ok a it) →
      ∃ st1, count_matrix_loop env a st rs = some st1 ∧ run_inv env a wl st1 (hist ++ rs) := by
  intro rs
  induction rs with
  | nil => intro st hist hi _; exact ⟨st, rfl, by simpa using hi⟩
  | cons it rest ih =>
    intro st hist hi hok
    obtain ⟨st1, h1, hi1⟩ := count_matrix_step_inv env a wl st hist it hi
      (hok it (List.mem_cons_self _ _))
    obtain ⟨st2, h2, hi2⟩ := ih st1 (hist ++ [it]) hi1
      (fun x hx => hok x (List.mem_cons_of_mem _ hx))
    refine ⟨st2, by simp [count_matrix_loop, h1, h2], ?_⟩
    simpa using hi2

theorem run_inv_init (env : Env) (a : args) (wl : List String) :
    run_inv env a wl (init_state a wl) [] := by
  refine ⟨⟨by simp [init_state, dict_init], by simp [init_state, dict_init]⟩, ?_, ?_, rfl, rfl,
    ?_, ?_, by simp [init_state, dict_init, cells_of, sum_weight, n_counted]⟩
  · unfold init_state
    cases a.whitelist_fname with
    | none => simp [dict_init]
    | some w => exact (dict_read_names wl dict_init (by simp [dict_init])).1
  · intro hw c
    unfold init_state
    cases hw1 : a.whitelist_fname with
    | none => simp [hw1] at hw
    | some w =>
      have := (dict_read_names wl (dict_init : dict Unit) (by simp [dict_init])).2 c
      simpa [dict_init] using this
  · intro g c cid _
    exact Or.inl ⟨rfl, by simp [init_state, dict_init, lookup_cell]⟩
  · intro g c _
    rfl

/-! ## Lemmas on `update_counts` and the final state -/

theorem u64_add_u64 (n m : Nat) : u64 (u64 n + m) = u64 (n + m) := by
  simp [u64, Nat.add_mod]

theorem update_cell_eq (a : args) (c : counts) (h : pools_ok a c) :
    update_cell a c = some (final_cell a c) := by
  unfold update_cell final_cell
  cases hu : a.umi_tag with
  | none => rfl
  | some t =>
    obtain ⟨h1, h2⟩ := h (by simp [hu])
    obtain ⟨p, hp⟩ := Option.isSome_iff_exists.1 h1
    by_cases hv : a.velocity = true
    · obtain ⟨up, hup⟩ := Option.isSome_iff_exists.1 (h2 hv)
      simp [hv, hp, hup]
    · simp [hv, hp]

theorem u64_lt (n : Nat) : u64 n < 2 ^ 64 := Nat.mod_lt _ (by norm_num)

theorem u64_of_lt (n : Nat) (h : n < 2 ^ 64) : u64 n = n := Nat.mod_eq_of_lt h

theorem update_cells_eq (a : args) :
    ∀ (l : List PISA_dna) (n n2 : Nat), n < 2 ^ 64 → n2 < 2 ^ 64 →
      (∀ e ∈ l, pools_ok a e.data) →
      update_cells a l n n2 =
        some (final_pool a l, u64 (n + sum_count (final_pool a l)),
          u64 (n2 + sum_unspliced (final_pool a l))) := by
  intro l
  induction l with
  | nil =>
    intro n n2 hn hn2 _
    simp [update_cells, final_pool, sum_count, sum_unspliced, u64_of_lt n hn, u64_of_lt n2 hn2]
  | cons e t ih =>
    intro n n2 _ _ h
    have he := update_cell_eq a e.data (h e (List.mem_cons_self _ _))
    have ht := ih (u64 (n + (final_cell a e.data).count))
      (u64 (n2 + (final_cell a e.data).unspliced)) (u64_lt _) (u64_lt _)
      (fun x hx => h x (List.mem_cons_of_mem _ hx))
    simp only [update_cells, he, ht, u64_add_u64]
    simp only [final_pool, sum_count, sum_unspliced, List.map_cons, List.sum_cons, Nat.add_assoc]

theorem update_features_eq (a : args) :
    ∀ (fs : List (String × Option PISA_idx_pool)) (n n2 : Nat), n < 2 ^ 64 → n2 < 2 ^ 64 →
      (∀ e ∈ fs, ∃ v, e.2 = some v ∧ ∀ x ∈ v.data, pools_ok a x.data) →
      update_features a fs n n2 =
        some (final_feats a fs, u64 (n + sum_count (cells_of (final_feats a fs))),
          u64 (n2 + sum_unspliced (cells_of (final_feats a fs)))) := by
  intro fs
  induction fs with
  | nil =>
    intro n n2 hn hn2 _
    simp [update_features, final_feats, cells_of, sum_count, sum_unspliced, u64_of_lt n hn,
      u64_of_lt n2 hn2]
  | cons e t ih =>
    intro n n2 hn hn2 h
    obtain ⟨v, hv, hvp⟩ := h e (List.mem_cons_self _ _)
    have hc := update_cells_eq a v.data n n2 hn hn2 hvp
    have ht := ih (u64 (n + sum_count (final_pool a v.data)))
      (u64 (n2 + sum_unspliced (final_pool a v.data))) (u64_lt _) (u64_lt _)
      (fun x hx => h x (List.mem_cons_of_mem _ hx))
    simp only [update_features, hv, hc, ht, u64_add_u64]
    simp only [final_feats, List.map_cons, hv, Option.map_some', cells_of, Option.getD_some,
      sum_count, sum_unspliced, List.map_append, List.sum_append, Nat.add_assoc]

theorem cells_of_final (a : args) : ∀ fs : List (String × Option PISA_idx_pool),
    cells_of (final_feats a fs) = final_pool a (cells_of fs) := by
  intro fs
  induction fs with
  | nil => rfl
  | cons e t ih =>
    simp only [final_feats, List.map_cons, cells_of] at ih ⊢
    rw [ih]
    cases e.2 <;> simp [final_pool, PISA_idx_pool_init]

theorem pool_lookup_final (a : args) (cid : Nat) : ∀ l : List PISA_dna,
    pool_lookup (final_pool a l) cid = (pool_lookup l cid).map (final_cell a) := by
  intro l
  induction l with
  | nil => simp [pool_lookup, final_pool]
  | cons e t ih =>
    by_cases he : e.idx = cid
    · simp [pool_lookup, final_pool, List.find?_cons, he]
    · have h1 : pool_lookup (final_pool a (e :: t)) cid = pool_lookup (final_pool a t) cid := by
        simp [pool_lookup, final_pool, List.find?_cons, he]
      have h2 : pool_lookup (e :: t) cid = pool_lookup t cid := by
        simp [pool_lookup, List.find?_cons, he]
      rw [h1, h2, ih]

theorem lookup_cell_final (a : args) (g : String) (cid : Nat) :
    ∀ fs : List (String × Option PISA_idx_pool),
      lookup_cell (final_feats a fs) g cid = (lookup_cell fs g cid).map (final_cell a) := by
  intro fs
  induction fs with
  | nil => simp [lookup_cell, final_feats]
  | cons e t ih =>
    simp only [final_feats, List.map_cons, lookup_cell] at ih ⊢
    by_cases he : e.1 = g
    · simp only [he, if_true]
      cases e.2 with
      | none => simp [PISA_idx_pool_init, pool_lookup]
      | some v => simp [pool_lookup_final]
    · simp [he, ih]

theorem final_feats_wf (a : args) (nb : Nat) (fs : List (String × Option PISA_idx_pool))
    (h : feats_wf nb fs) : feats_wf nb (final_feats a fs) := by
  refine ⟨by simpa [final_feats, List.map_map, Function.comp_def] using h.1, ?_⟩
  intro e he
  simp only [final_feats, List.mem_map] at he
  obtain ⟨e0, he0, rfl⟩ := he
  obtain ⟨v, hv, hvw⟩ := h.2 e0 he0
  refine ⟨⟨final_pool a v.data⟩, by simp [hv], ?_, ?_⟩
  · simpa [final_pool, List.map_map, Function.comp_def] using hvw.1
  · intro x hx
    simp only [final_pool, List.mem_map] at hx
    obtain ⟨x0, hx0, rfl⟩ := hx
    exact hvw.2 x0 hx0

theorem dict_name_find {α : Type} (l : List (String × Option α)) (hn : (l.map Prod.fst).Nodup)
    (i : Nat) (h : i < l.length) : ∃ c, dict_find l c = some i := by
  have : ∃ e, l.get? i = some e := ⟨l.get ⟨i, h⟩, List.get?_eq_get h⟩
  obtain ⟨e, he⟩ := this
  exact ⟨e.1, dict_find_of_nodup l hn i e he⟩

/-- Every cell entry reached from the features table during the loop is the
cell its pair's contributions build. -/
theorem run_inv_cell (env : Env) (a : args) (wl : List String) (st : state) (hist : List bam_item)
    (hi : run_inv env a wl st hist) (g : String) (v : PISA_idx_pool)
    (hg : (g, some v) ∈ st.features.data) (x : PISA_dna) (hx : x ∈ v.data) :
    ∃ c i, dict_find st.barcodes.data c = some x.idx ∧ contribs env a wl g c hist ≠ [] ∧
      x.data = cell_val a (new_counts env a i x.idx) (contribs env a wl g c hist) := by
  obtain ⟨h1, h2, _, _, _, h6, _, _⟩ := hi
  have hl := lookup_cell_of_mem _ _ h1 g v hg x hx
  have hlt := lookup_cell_lt _ _ h1 g x.idx x.data hl
  obtain ⟨c, hc⟩ := dict_name_find st.barcodes.data h2 x.idx hlt
  rcases h6 g c x.idx hc with ⟨_, h0⟩ | ⟨hne, i, h0⟩
  · rw [hl] at h0; cases h0
  · rw [hl] at h0
    exact ⟨c, i, hc, hne, Option.some.inj h0⟩

/-- The run goes through, and its final state is described by `final_inv`. -/
theorem run_final (env : Env) (a : args) (wl : List String) (rs : List bam_item)
    (hok : ∀ it ∈ rs, input_ok a it) :
    ∃ st, count_matrix_run env a wl rs = some st ∧ final_inv env a wl st rs := by
  obtain ⟨st1, hl, hi⟩ := count_matrix_loop_inv env a wl rs (init_state a wl) []
    (run_inv_init env a wl) hok
  simp only [List.nil_append] at hi
  have hp : ∀ e ∈ st1.features.data, ∃ v, e.2 = some v ∧ ∀ x ∈ v.data, pools_ok a x.data := by
    intro e he
    obtain ⟨v, hv, _⟩ := hi.1.2 e he
    refine ⟨v, hv, fun x hx => ?_⟩
    have hmem : (e.1, some v) ∈ st1.features.data := by rw [← hv]; exact he
    obtain ⟨c, i, _, _, hxd⟩ := run_inv_cell env a wl st1 rs hi e.1 v hmem x hx
    rw [hxd]
    exact cell_val_pools_ok a _ (new_counts_pools_ok env a i x.idx) _
  obtain ⟨h1, h2, h3, h4, h5, h6, h7, h8⟩ := hi
  have hu := update_features_eq a st1.features.data st1.n_record st1.n_record2
    (by rw [h4]; norm_num) (by rw [h5]; norm_num) hp
  refine ⟨{ st1 with features := ⟨final_feats a st1.features.data⟩,
                     n_record := u64 (sum_count (cells_of (final_feats a st1.features.data))),
                     n_record2 := u64 (sum_unspliced (cells_of (final_feats a st1.features.data))) },
    ?_, final_feats_wf a _ _ h1, h2, h3, rfl, rfl, ?_, h7, ?_⟩
  · rw [h4, h5] at hu
    simp [count_matrix_run, hl, update_counts, h4, h5, hu]
  · intro g c cid hc
    simp only at hc ⊢
    rw [lookup_cell_final]
    rcases h6 g c cid hc with ⟨e1, e2⟩ | ⟨e1, i, e2⟩
    · exact Or.inl ⟨e1, by simp [e2]⟩
    · exact Or.inr ⟨e1, i, by simp [e2]⟩
  · simp only
    rw [cells_of_final, sum_count_final]
    exact h8

/-- Every cell entry reached from the features table after `update_counts` is
the finalised cell its pair's contributions build. -/
theorem final_inv_cell (env : Env) (a : args) (wl : List String) (st : state) (rs : List bam_item)
    (hi : final_inv env a wl st rs) (g : String) (v : PISA_idx_pool)
    (hg : (g, some v) ∈ st.features.data) (x : PISA_dna) (hx : x ∈ v.data) :
    ∃ c i, dict_find st.barcodes.data c = some x.idx ∧ contribs env a wl g c rs ≠ [] ∧
      x.data = final_cell a (cell_val a (new_counts env a i x.idx) (contribs env a wl g c rs)) := by
  obtain ⟨h1, h2, _, _, _, h6, _, _⟩ := hi
  have hl := lookup_cell_of_mem _ _ h1 g v hg x hx
  have hlt := lookup_cell_lt _ _ h1 g x.idx x.data hl
  obtain ⟨c, hc⟩ := dict_name_find st.barcodes.data h2 x.idx hlt
  rcases h6 g c x.idx hc with ⟨_, h0⟩ | ⟨hne, i, h0⟩
  · rw [hl] at h0; cases h0
  · rw [hl] at h0
    exact ⟨c, i, hc, hne, Option.some.inj h0⟩

theorem contribs_length (env : Env) (a : args) (wl : List String) (f c : String) :
    ∀ rs : List bam_item, (contribs env a wl f c rs).length = occurrences env a wl f c rs := by
  intro rs
  induction rs with
  | nil => rfl
  | cons it rest ih =>
    simp only [contribs, occurrences, List.length_append, ih]
    cases accepted env a wl it with
    | none => simp
    | some h => by_cases hc : h.cell = c <;> simp [hc]

theorem occurrences_le (env : Env) (a : args) (wl : List String) (f c : String) :
    ∀ rs : List bam_item, occurrences env a wl f c rs ≤ n_counted env a wl rs := by
  intro rs
  induction rs with
  | nil => simp [occurrences, n_counted]
  | cons it rest ih =>
    simp only [occurrences, n_counted]
    cases accepted env a wl it with
    | none => simpa using ih
    | some h =>
      by_cases hc : h.cell = c
      · simp only [hc, if_true]
        exact Nat.add_le_add (List.count_le_length _ _) ih
      · simp only [hc, if_false]
        omega

theorem unspliced_hits_length_le (hs : List (String × Bool)) :
    (unspliced_hits hs).length ≤ hs.length := by
  unfold unspliced_hits
  exact List.length_filter_le _ _

theorem unspliced_hits_mem (hs : List (String × Bool)) (x : String × Bool)
    (h : x ∈ unspliced_hits hs) : x ∈ hs := by
  unfold unspliced_hits at h
  exact List.mem_of_mem_filter h

theorem core_hit_facts (env : Env) (a : args) (b : bam1_t) (tag : Option String) (x : hit)
    (h : core_hit env a b tag = some x) :
    x.umi = (a.umi_tag.bind (bam_aux_get b)).getD "" ∧ velocity_class env a b = some x.unspliced := by
  unfold core_hit at h
  cases h1 : read_cell_tag a b tag with
  | abort => simp [h1] at h
  | drop => simp [h1] at h
  | next o =>
    cases o with
    | none => simp [h1] at h
    | some cb =>
      simp only [h1] at h
      cases h2 : bam_aux_get b a.anno_tag with
      | none => simp [h2] at h
      | some anno =>
        simp only [h2] at h
        split at h
        · cases h
        · cases h4 : velocity_class env a b with
          | none => simp [h4] at h
          | some u =>
            simp only [h4, Option.some.injEq] at h
            subst h
            exact ⟨rfl, rfl⟩

theorem accepted_core (env : Env) (a : args) (wl : List String) (it : bam_item) (x : hit)
    (h : accepted env a wl it = some x) :
    count_matrix_filter env a it = true ∧ core_hit env a it.b it.file_alias = some x ∧
      ¬ (a.one_hit = true ∧ x.tokens.length > 1) ∧ (a.whitelist_fname.isSome = true → x.cell ∈ wl) := by
  unfold accepted at h
  cases hr : record_hit env a it with
  | none => simp [hr] at h
  | some y =>
    simp only [hr] at h
    split at h
    · cases h
    · rename_i hc
      simp only [Option.some.injEq] at h
      subst h
      unfold record_hit at hr
      by_cases hf : count_matrix_filter env a it = true
      · simp only [hf, if_true] at hr
        refine ⟨hf, hr, fun h1 => hc (Or.inr h1), fun hw => ?_⟩
        by_contra hm
        exact hc (Or.inl ⟨hw, hm⟩)
      · simp [hf] at hr

theorem velocity_class_unspliced (env : Env) (a : args) (it : bam_item) (u : Bool)
    (h : velocity_class env a it.b = some u) :
    u = (a.velocity && classified_unspliced env a it) := by
  unfold velocity_class at h
  unfold classified_unspliced region_class
  by_cases hv : a.velocity = true
  · simp only [hv, if_true] at h
    cases hd : bam_aux_get it.b a.region_type_tag with
    | none => simp [hd] at h
    | some data =>
      simp only [hd] at h
      simp only [hv, Bool.true_and, Option.map_some']
      split at h
      · cases h
      · split at h
        · cases h
        · split at h
          · cases h
          · split at h
            · cases h
            · split at h
              · rename_i hc
                simp only [Option.some.injEq] at h
                subst h
                rcases hc with hc | hc <;> simp [hc]
              · rename_i hc
                simp only [Option.some.injEq] at h
                subst h
                simp only [not_or] at hc
                simp [hc.1, hc.2]
  · have hv1 : a.velocity = false := by simpa using hv
    simp only [hv1] at h ⊢
    simp only [Bool.false_eq_true, if_false, Option.some.injEq] at h
    simp [← h]

theorem accepted_facts (env : Env) (a : args) (wl : List String) (it : bam_item) (x : hit)
    (h : accepted env a wl it = some x) :
    x.umi = umi_of a it ∧ x.unspliced = (a.velocity && classified_unspliced env a it) := by
  obtain ⟨_, hc, _, _⟩ := accepted_core env a wl it x h
  obtain ⟨h1, h2⟩ := core_hit_facts env a it.b it.file_alias x hc
  exact ⟨h1, velocity_class_unspliced env a it x.unspliced h2⟩

theorem contribs_umis (env : Env) (a : args) (wl : List String) (f c : String) :
    ∀ (rs : List bam_item) (s : String),
      s ∈ (contribs env a wl f c rs).map Prod.fst ↔
        s ∈ (rs.filter (contributes env a wl f c)).map (umi_of a) := by
  intro rs
  induction rs with
  | nil => intro s; simp [contribs]
  | cons it rest ih =>
    intro s
    cases hacc : accepted env a wl it with
    | none =>
      have hcon : contributes env a wl f c it = false := by simp [contributes, hacc]
      simp [contribs, hacc, List.filter_cons, hcon, ih s]
    | some h =>
      obtain ⟨hu, _⟩ := accepted_facts env a wl it h hacc
      by_cases hc : h.cell = c
      · by_cases hf : f ∈ h.tokens
        · have hpos : 0 < h.tokens.count f := List.count_pos_iff.2 hf
          have hcon : contributes env a wl f c it = true := by simp [contributes, hacc, hc, hf]
          have : s ∈ (List.replicate (h.tokens.count f) (h.umi, h.unspliced)).map Prod.fst ↔
              s = umi_of a it := by
            simp [List.mem_replicate, hu, Nat.pos_iff_ne_zero.1 hpos]
          simp only [contribs, hacc, hc, if_true, List.map_append, List.mem_append, this, ih s,
            List.filter_cons, hcon, List.map_cons, List.mem_cons]
        · have hcon : contributes env a wl f c it = false := by simp [contributes, hacc, hf]
          simp [contribs, hacc, List.filter_cons, hcon, ih s, hc, List.count_eq_zero_of_not_mem hf]
      · have hcon : contributes env a wl f c it = false := by simp [contributes, hacc, hc]
        simp [contribs, hacc, List.filter_cons, hcon, ih s, hc]

theorem contribs_unspliced_umis (env : Env) (a : args) (wl : List String) (f c : String)
    (hv : a.velocity = true) :
    ∀ (rs : List bam_item) (s : String),
      s ∈ (unspliced_hits (contribs env a wl f c rs)).map Prod.fst ↔
        s ∈ (rs.filter (fun it => contributes env a wl f c it && classified_unspliced env a it)).map
          (umi_of a) := by
  intro rs
  induction rs with
  | nil => intro s; simp [contribs, unspliced_hits]
  | cons it rest ih =>
    intro s
    have ih1 := ih s
    simp only [unspliced_hits] at ih1 ⊢
    cases hacc : accepted env a wl it with
    | none =>
      have hcon : contributes env a wl f c it = false := by simp [contributes, hacc]
      simp [contribs, hacc, List.filter_cons, hcon, ih1]
    | some h =>
      obtain ⟨hu, hun⟩ := accepted_facts env a wl it h hacc
      rw [hv, Bool.true_and] at hun
      by_cases hc : h.cell = c
      · by_cases hf : f ∈ h.tokens
        · have hpos : 0 < h.tokens.count f := List.count_pos_iff.2 hf
          have hcon : contributes env a wl f c it = true := by simp [contributes, hacc, hc, hf]
          by_cases hcu : classified_unspliced env a it = true
          · have : s ∈ ((List.replicate (h.tokens.count f) (h.umi, h.unspliced)).filter
                (fun h => h.2)).map Prod.fst ↔ s = umi_of a it := by
              simp [List.mem_replicate, hu, hun, hcu, Nat.pos_iff_ne_zero.1 hpos]
            simp only [contribs, hacc, hc, if_true, List.filter_append, List.map_append,
              List.mem_append, this, ih1, List.filter_cons, hcon, hcu, Bool.and_self,
              List.map_cons, List.mem_cons]
          · have : ((List.replicate (h.tokens.count f) (h.umi, h.unspliced)).filter
                (fun h => h.2)) = [] := by
              simp [List.filter_eq_nil_iff, List.mem_replicate, hun, hcu]
            simp only [contribs, hacc, hc, if_true, List.filter_append, this, List.nil_append,
              ih1, List.filter_cons, hcon, hcu, Bool.and_false, Bool.false_eq_true, if_false]
        · have hcon : contributes env a wl f c it = false := by simp [contributes, hacc, hf]
          simp [contribs, hacc, List.filter_cons, hcon, ih1, hc, List.count_eq_zero_of_not_mem hf]
      · have hcon : contributes env a wl f c it = false := by simp [contributes, hacc, hc]
        simp [contribs, hacc, List.filter_cons, hcon, ih1, hc]

theorem occurrences_eq_records (env : Env) (a : args) (wl : List String) (f c : String) :
    ∀ rs : List bam_item,
      (∀ it ∈ rs, ∀ h, accepted env a wl it = some h → h.tokens.Nodup) →
      occurrences env a wl f c rs = (rs.filter (contributes env a wl f c)).length := by
  intro rs
  induction rs with
  | nil => intro _; rfl
  | cons it rest ih =>
    intro hn
    have ih1 := ih (fun x hx => hn x (List.mem_cons_of_mem _ hx))
    cases hacc : accepted env a wl it with
    | none =>
      have hcon : contributes env a wl f c it = false := by simp [contributes, hacc]
      simp [occurrences, hacc, List.filter_cons, hcon, ih1]
    | some h =>
      have hnd := hn it (List.mem_cons_self _ _) h hacc
      by_cases hc : h.cell = c
      · by_cases hf : f ∈ h.tokens
        · have hcon : contributes env a wl f c it = true := by simp [contributes, hacc, hc, hf]
          simp [occurrences, hacc, List.filter_cons, hcon, ih1, hc,
            List.count_eq_one_of_mem hnd hf, Nat.add_comm]
        · have hcon : contributes env a wl f c it = false := by simp [contributes, hacc, hf]
          simp [occurrences, hacc, List.filter_cons, hcon, ih1, hc,
            List.count_eq_zero_of_not_mem hf]
      · have hcon : contributes env a wl f c it = false := by simp [contributes, hacc, hc]
        simp [occurrences, hacc, List.filter_cons, hcon, ih1, hc]

theorem lookup_cell_eq_find : ∀ (l : List (String × Option PISA_idx_pool)) (g : String) (cid : Nat),
    lookup_cell l g cid =
      match dict_find l g with
      | some i => pool_lookup (((l.get? i).bind Prod.snd).getD PISA_idx_pool_init).data cid
      | none => none := by
  intro l
  induction l with
  | nil => intro g cid; rfl
  | cons e t ih =>
    intro g cid
    by_cases he : e.1 = g
    · simp [lookup_cell, dict_find, he]
    · simp only [lookup_cell, dict_find, he, if_false, ih]
      cases dict_find t g <;> simp

theorem held_cell_eq (st : state) (f c : String) :
    held_cell st f c =
      match dict_find st.barcodes.data c with
      | some cid => lookup_cell st.features.data f cid
      | none => none := by
  unfold held_cell dict_query
  cases hc : dict_find st.barcodes.data c with
  | none => cases dict_find st.features.data f <;> rfl
  | some cid =>
    simp only [lookup_cell_eq_find]
    cases hf : dict_find st.features.data f with
    | none => rfl
    | some i =>
      simp only [dict_query_value]
      cases hv : (st.features.data.get? i).bind Prod.snd with
      | none => simp [PISA_idx_pool_init, pool_lookup]
      | some v => simp [PISA_idx_query, pool_lookup]

/-! ## Lemmas on `write_outs` -/

theorem u32_of_lt (n : Nat) (h : n < 2 ^ 32) : u32 n = n := Nat.mod_eq_of_lt h

theorem final_cell_count (env : Env) (a : args) (i cid : Nat) (hs : List (String × Bool)) :
    (final_cell a (cell_val a (new_counts env a i cid) hs)).count =
      match a.umi_tag with
      | some _ => n_distinct (hs.map Prod.fst)
      | none => u32 hs.length := by
  cases hu : a.umi_tag with
  | none =>
    simp only [final_cell, hu]
    exact (cell_val_noumi env a i cid hu hs).1
  | some t =>
    have hp := (cell_val_umi env a i cid t hu hs).1
    simp only [final_cell, hu]
    by_cases hv : a.velocity = true <;> simp [hv, hp, push_all_l]

theorem final_cell_unspliced (env : Env) (a : args) (i cid : Nat) (hs : List (String × Bool))
    (hv : a.velocity = true) :
    (final_cell a (cell_val a (new_counts env a i cid) hs)).unspliced =
      match a.umi_tag with
      | some _ => n_distinct ((unspliced_hits hs).map Prod.fst)
      | none => u32 (unspliced_hits hs).length := by
  cases hu : a.umi_tag with
  | none =>
    simp only [final_cell, hu]
    have := (cell_val_noumi env a i cid hu hs).2
    simpa [hv] using this
  | some t =>
    have hp := (cell_val_umi env a i cid t hu hs).2 hv
    simp only [final_cell, hu]
    simp [hv, hp, push_all_l]

/-- In velocity mode, short of `2^31` contributions, a finalised cell has
`unspliced ≤ count < 2^31`. -/
theorem final_cell_bounds (env : Env) (a : args) (i cid : Nat) (hs : List (String × Bool))
    (hv : a.velocity = true) (hb : hs.length < 2 ^ 31) :
    (final_cell a (cell_val a (new_counts env a i cid) hs)).unspliced ≤
        (final_cell a (cell_val a (new_counts env a i cid) hs)).count ∧
      (final_cell a (cell_val a (new_counts env a i cid) hs)).count < 2 ^ 31 := by
  rw [final_cell_count, final_cell_unspliced env a i cid hs hv]
  have hle := unspliced_hits_length_le hs
  cases hu : a.umi_tag with
  | none =>
    simp only
    rw [u32_of_lt hs.length (by omega), u32_of_lt _ (by omega)]
    exact ⟨hle, hb⟩
  | some t =>
    simp only
    refine ⟨n_distinct_mono _ _ (fun x hx => ?_), ?_⟩
    · obtain ⟨y, hy, hyx⟩ := List.mem_map.1 hx
      exact List.mem_map.2 ⟨y, unspliced_hits_mem hs y hy, hyx⟩
    · have := n_distinct_le (hs.map Prod.fst)
      simp only [List.length_map] at this
      omega

/-- Short of `2^32` contributions, a finalised cell with at least one
contribution has `count ≥ 1`. -/
theorem final_cell_pos (env : Env) (a : args) (i cid : Nat) (hs : List (String × Bool))
    (hne : hs ≠ []) (hb : a.umi_tag = none → hs.length < 2 ^ 32) :
    1 ≤ (final_cell a (cell_val a (new_counts env a i cid) hs)).count := by
  rw [final_cell_count]
  cases hu : a.umi_tag with
  | none =>
    simp only
    rw [u32_of_lt hs.length (hb hu)]
    exact List.length_pos.2 hne
  | some t =>
    simp only
    exact n_distinct_pos _ (by simpa using hne)

/-- The count cell held for a pair after the run, in terms of the
contributions to the pair. -/
theorem held_cell_final (env : Env) (a : args) (wl : List String) (st : state) (rs : List bam_item)
    (hi : final_inv env a wl st rs) (f c : String) :
    (contribs env a wl f c rs = [] ∧ held_cell st f c = none) ∨
    (contribs env a wl f c rs ≠ [] ∧ ∃ i cid, held_cell st f c =
      some (final_cell a (cell_val a (new_counts env a i cid) (contribs env a wl f c rs)))) := by
  obtain ⟨_, _, _, _, _, h6, h7, _⟩ := hi
  rw [held_cell_eq]
  cases hc : dict_find st.barcodes.data c with
  | none => exact Or.inl ⟨h7 f c hc, rfl⟩
  | some cid =>
    rcases h6 f c cid hc with ⟨e1, e2⟩ | ⟨e1, i, e2⟩
    · exact Or.inl ⟨e1, e2⟩
    · exact Or.inr ⟨e1, i, cid, e2⟩

theorem mex_lines_cells_mem (a : args) (i : Nat) : ∀ (l : List PISA_dna) (t : Nat × Nat × Nat),
    t ∈ mex_lines_cells a i l → ∃ x ∈ l, t.1 = i + 1 ∧ t.2.1 = x.idx + 1 ∧
      ((a.velocity = true ∧ 0 < spliced_of x.data ∧ t.2.2 = (spliced_of x.data).toNat) ∨
        (a.velocity = false ∧ t.2.2 = x.data.count)) := by
  intro l
  induction l with
  | nil => intro t h; simp [mex_lines_cells] at h
  | cons e r ih =>
    intro t h
    simp only [mex_lines_cells] at h
    by_cases hv : a.velocity = true
    · simp only [hv, if_true] at h
      by_cases hs : spliced_of e.data > 0
      · simp only [hs, if_true, List.mem_cons] at h
        rcases h with h | h
        · subst h
          exact ⟨e, List.mem_cons_self _ _, rfl, rfl, Or.inl ⟨hv, hs, rfl⟩⟩
        · obtain ⟨x, hx, h1⟩ := ih t h
          exact ⟨x, List.mem_cons_of_mem _ hx, h1⟩
      · simp only [hs, if_false] at h
        obtain ⟨x, hx, h1⟩ := ih t h
        exact ⟨x, List.mem_cons_of_mem _ hx, h1⟩
    · have hv1 : a.velocity = false := by simpa using hv
      simp only [hv1, Bool.false_eq_true, if_false, List.mem_cons] at h
      rcases h with h | h
      · subst h
        exact ⟨e, List.mem_cons_self _ _, rfl, rfl, Or.inr ⟨hv1, rfl⟩⟩
      · obtain ⟨x, hx, h1⟩ := ih t h
        exact ⟨x, List.mem_cons_of_mem _ hx, h1⟩

theorem unspliced_lines_cells_mem (i : Nat) : ∀ (l : List PISA_dna) (t : Nat × Nat × Nat),
    t ∈ unspliced_lines_cells i l → ∃ x ∈ l, t.1 = i + 1 ∧ t.2.1 = x.idx + 1 ∧
      0 < x.data.unspliced ∧ t.2.2 = x.data.unspliced := by
  intro l
  induction l with
  | nil => intro t h; simp [unspliced_lines_cells] at h
  | cons e r ih =>
    intro t h
    simp only [unspliced_lines_cells] at h
    by_cases hs : e.data.unspliced > 0
    · simp only [hs, if_true, List.mem_cons] at h
      rcases h with h | h
      · subst h
        exact ⟨e, List.mem_cons_self _ _, rfl, rfl, hs, rfl⟩
      · obtain ⟨x, hx, h1⟩ := ih t h
        exact ⟨x, List.mem_cons_of_mem _ hx, h1⟩
    · simp only [hs, if_false] at h
      obtain ⟨x, hx, h1⟩ := ih t h
      exact ⟨x, List.mem_cons_of_mem _ hx, h1⟩

theorem mex_lines_mem (a : args) : ∀ (fs : List (String × Option PISA_idx_pool)) (i : Nat)
    (ls : List (Nat × Nat × Nat)), mex_lines a i fs = some ls → ∀ t ∈ ls,
    ∃ k g v x, fs.get? k = some (g, some v) ∧ x ∈ v.data ∧ t.1 = i + k + 1 ∧ t.2.1 = x.idx + 1 ∧
      ((a.velocity = true ∧ 0 < spliced_of x.data ∧ t.2.2 = (spliced_of x.data).toNat) ∨
        (a.velocity = false ∧ t.2.2 = x.data.count)) := by
  intro fs
  induction fs with
  | nil => intro i ls h t ht; simp [mex_lines] at h; subst h; simp at ht
  | cons e r ih =>
    intro i ls h t ht
    simp only [mex_lines] at h
    cases hv : e.2 with
    | none => simp [hv] at h
    | some v =>
      simp only [hv, Option.map_eq_some'] at h
      obtain ⟨r1, hr1, rfl⟩ := h
      simp only [List.mem_append] at ht
      rcases ht with ht | ht
      · obtain ⟨x, hx, h1, h2⟩ := mex_lines_cells_mem a i v.data t ht
        refine ⟨0, e.1, v, x, ?_, hx, by simpa using h1, h2⟩
        simp [← hv]
      · obtain ⟨k, g, v1, x, h1, h2, h3, h4⟩ := ih (i + 1) r1 hr1 t ht
        exact ⟨k + 1, g, v1, x, by simpa using h1, h2, by omega, h4⟩

theorem unspliced_lines_mem : ∀ (fs : List (String × Option PISA_idx_pool)) (i : Nat)
    (ls : List (Nat × Nat × Nat)), unspliced_lines i fs = some ls → ∀ t ∈ ls,
    ∃ k g v x, fs.get? k = some (g, some v) ∧ x ∈ v.data ∧ t.1 = i + k + 1 ∧ t.2.1 = x.idx + 1 ∧
      0 < x.data.unspliced ∧ t.2.2 = x.data.unspliced := by
  intro fs
  induction fs with
  | nil => intro i ls h t ht; simp [unspliced_lines] at h; subst h; simp at ht
  | cons e r ih =>
    intro i ls h t ht
    simp only [unspliced_lines] at h
    cases hv : e.2 with
    | none => simp [hv] at h
    | some v =>
      simp only [hv, Option.map_eq_some'] at h
      obtain ⟨r1, hr1, rfl⟩ := h
      simp only [List.mem_append] at ht
      rcases ht with ht | ht
      · obtain ⟨x, hx, h1, h2⟩ := unspliced_lines_cells_mem i v.data t ht
        refine ⟨0, e.1, v, x, ?_, hx, by simpa using h1, h2⟩
        simp [← hv]
      · obtain ⟨k, g, v1, x, h1, h2, h3, h4⟩ := ih (i + 1) r1 hr1 t ht
        exact ⟨k + 1, g, v1, x, by simpa using h1, h2, by omega, h4⟩

/-- What `write_outs` has written when it ends with the MEX files. -/
theorem write_outs_written (a : args) (st : state) (o : mex_outs)
    (h : write_outs a st = .written (some o)) :
    st.n_record ≠ 0 ∧ mex_lines a 0 st.features.data = some o.mex.lines ∧
    o.mex.dims = (dict_size st.features, dict_size st.barcodes, n_record1_of a st) ∧
    (a.velocity = false → o.unspliced = none) ∧
    (a.velocity = true → ∃ u, o.unspliced = some u ∧
      unspliced_lines 0 st.features.data = some u.lines ∧
      u.dims = (dict_size st.features, dict_size st.barcodes, st.n_record2)) := by
  unfold write_outs at h
  split at h
  · cases h
  · split at h
    · cases h
    · split at h
      · cases h
      · rename_i hn
        cases ho : a.outdir with
        | none => simp [ho] at h
        | some d =>
          simp only [ho] at h
          cases hw : write_mex a { st with n_record1 := n_record1_of a st } with
          | none => simp [hw] at h
          | some o1 =>
            simp only [hw, write_result.written.injEq, Option.some.injEq] at h
            subst h
            unfold write_mex at hw
            simp only at hw
            cases hm : mex_lines a 0 st.features.data with
            | none => simp [hm] at hw
            | some ls =>
              simp only [hm] at hw
              by_cases hv : a.velocity = true
              · simp only [hv, if_true] at hw
                cases hu : unspliced_lines 0 st.features.data with
                | none => simp [hu] at hw
                | some us =>
                  simp only [hu, Option.some.injEq] at hw
                  subst hw
                  exact ⟨hn, rfl, rfl, fun h0 => by simp [hv] at h0, fun _ => ⟨_, rfl, rfl, rfl⟩⟩
              · have hv1 : a.velocity = false := by simpa using hv
                simp only [hv1, Bool.false_eq_true, if_false, Option.some.injEq] at hw
                subst hw
                exact ⟨hn, rfl, rfl, fun _ => rfl, fun h0 => by simp [hv1] at h0⟩

/-! ## The claims -/

/-- The names of the feature and of the barcode of an emitted entry, and the
contributions that built its count cell. -/
theorem final_entry_names (env : Env) (a : args) (wl : List String) (st : state)
    (rs : List bam_item) (hi : final_inv env a wl st rs) (k : Nat) (g : String) (v : PISA_idx_pool)
    (hk : st.features.data.get? k = some (g, some v)) (x : PISA_dna) (hx : x ∈ v.data) :
    k < dict_size st.features ∧ x.idx < dict_size st.barcodes ∧
    ∃ c i, dict_name st.features k = some g ∧ dict_name st.barcodes x.idx = some c ∧
      contribs env a wl g c rs ≠ [] ∧
      x.data = final_cell a (cell_val a (new_counts env a i x.idx) (contribs env a wl g c rs)) := by
  have hg : (g, some v) ∈ st.features.data := List.get?_mem hk
  obtain ⟨c, i, hc, hne, hxd⟩ := final_inv_cell env a wl st rs hi g v hg x hx
  have hlt := (dict_find_some c st.barcodes.data x.idx hc)
  refine ⟨?_, hlt.1, c, i, ?_, ?_, hne, hxd⟩
  · by_contra hge
    have : st.features.data.get? k = none := List.get?_eq_none.2 (by simpa [dict_size] using hge)
    rw [this] at hk
    cases hk
  · simp only [dict_name, hk, Option.map_some']
  · simpa [dict_name] using hlt.2

/-- C1, counterexample to the claim as stated: one accepted record of barcode
`A` whose feature field is `G1;G1` leaves the count 2 for `(G1, A)`, while one
accepted record lists `G1`. -/
theorem C1_counterexample :
    (count_matrix_run demo_env demo_args [] [demo_rec "A" "G1;G1"]).map
        (fun st => held_count st "G1" "A") = some 2 ∧
      ([demo_rec "A" "G1;G1"].filter (contributes demo_env demo_args [] "G1" "A")).length = 1 := by
  decide

/-- C2: in UMI mode the run goes through and, for every feature `f` and
barcode `c`, the count held for `(f, c)` after `update_counts` is the number
of distinct UMI strings carried by the accepted records contributing to
`(f, c)`; it never exceeds the number of those records. -/
theorem C2_umi_count_is_distinct_umis (env : Env) (a : args) (wl : List String)
    (rs : List bam_item) (hu : a.umi_tag.isSome = true) (hok : ∀ it ∈ rs, input_ok a it) :
    ∃ st, count_matrix_run env a wl rs = some st ∧
      ∀ f c,
        held_count st f c = n_distinct ((rs.filter (contributes env a wl f c)).map (umi_of a)) ∧
        held_count st f c ≤ (rs.filter (contributes env a wl f c)).length := by
  obtain ⟨st, hrun, hi⟩ := run_final env a wl rs hok
  obtain ⟨t, ht⟩ := Option.isSome_iff_exists.1 hu
  refine ⟨st, hrun, fun f c => ?_⟩
  have hcount : held_count st f c =
      n_distinct ((rs.filter (contributes env a wl f c)).map (umi_of a)) := by
    unfold held_count
    rw [← n_distinct_congr _ _ (contribs_umis env a wl f c rs)]
    rcases held_cell_final env a wl st rs hi f c with ⟨h0, h1⟩ | ⟨_, i, cid, h1⟩
    · rw [h1, h0]
      rfl
    · rw [h1]
      simp only [Option.map_some', Option.getD_some]
      rw [final_cell_count]
      simp [ht]
  refine ⟨hcount, ?_⟩
  rw [hcount]
  have := n_distinct_le ((rs.filter (contributes env a wl f c)).map (umi_of a))
  simpa using this

/-- C2, witness: feature `G1`, cell `A`, UMIs `AAA`, `AAA`, `TTT`; the count
held is 2. -/
theorem C2_umi_count_is_distinct_umis_witness :
    (demo_args_umi.umi_tag.isSome = true ∧
      ∀ it ∈ [demo_rec_umi "A" "G1" "AAA" "E", demo_rec_umi "A" "G1" "AAA" "E",
        demo_rec_umi "A" "G1" "TTT" "E"], input_ok demo_args_umi it) ∧
    (∃ st, count_matrix_run demo_env demo_args_umi []
        [demo_rec_umi "A" "G1" "AAA" "E", demo_rec_umi "A" "G1" "AAA" "E",
          demo_rec_umi "A" "G1" "TTT" "E"] = some st ∧
      ∀ f c,
        held_count st f c = n_distinct (([demo_rec_umi "A" "G1" "AAA" "E",
          demo_rec_umi "A" "G1" "AAA" "E", demo_rec_umi "A" "G1" "TTT" "E"].filter
            (contributes demo_env demo_args_umi [] f c)).map (umi_of demo_args_umi)) ∧
        held_count st f c ≤ ([demo_rec_umi "A" "G1" "AAA" "E",
          demo_rec_umi "A" "G1" "AAA" "E", demo_rec_umi "A" "G1" "TTT" "E"].filter
            (contributes demo_env demo_args_umi [] f c)).length) ∧
    (count_matrix_run demo_env demo_args_umi []
        [demo_rec_umi "A" "G1" "AAA" "E", demo_rec_umi "A" "G1" "AAA" "E",
          demo_rec_umi "A" "G1" "TTT" "E"]).map (fun st => held_count st "G1" "A") = some 2 :=
  ⟨⟨rfl, by decide⟩, C2_umi_count_is_distinct_umis demo_env demo_args_umi [] _ rfl (by decide),
    by decide⟩

/-- C3: in UMI mode with velocity enabled the run goes through and, for every
feature `f` and barcode `c`, after `update_counts` the count held for `(f, c)`
is the number of distinct UMIs over all its contributing records and the
unspliced count is the number of distinct UMIs over its contributing records
classified intron or exon_intron. -/
theorem C3_velocity_umi_counts (env : Env) (a : args) (wl : List String) (rs : List bam_item)
    (hu : a.umi_tag.isSome = true) (hv : a.velocity = true) (hok : ∀ it ∈ rs, input_ok a it) :
    ∃ st, count_matrix_run env a wl rs = some st ∧
      ∀ f c,
        held_count st f c = n_distinct ((rs.filter (contributes env a wl f c)).map (umi_of a)) ∧
        held_unspliced st f c = n_distinct ((rs.filter (fun it =>
          contributes env a wl f c it && classified_unspliced env a it)).map (umi_of a)) := by
  obtain ⟨st, hrun, hi⟩ := run_final env a wl rs hok
  obtain ⟨t, ht⟩ := Option.isSome_iff_exists.1 hu
  refine ⟨st, hrun, fun f c => ?_⟩
  unfold held_count held_unspliced
  rw [← n_distinct_congr _ _ (contribs_umis env a wl f c rs),
    ← n_distinct_congr _ _ (contribs_unspliced_umis env a wl f c hv rs)]
  rcases held_cell_final env a wl st rs hi f c with ⟨h0, h1⟩ | ⟨_, i, cid, h1⟩
  · rw [h1, h0]
    exact ⟨rfl, rfl⟩
  · rw [h1]
    simp only [Option.map_some', Option.getD_some]
    rw [final_cell_count, final_cell_unspliced env a i cid _ hv]
    simp [ht]

/-- C3, witness: cell `A`, feature `G1`, UMI `AAA` seen with an exon record
and `CCC` with an intron record give count 2 and unspliced 1, and one line of
value 1 in each of the two matrix files; a third record carrying `AAA` with an
intron classification leaves the count at 2 and raises unspliced to 2. -/
theorem C3_velocity_umi_counts_witness :
    (demo_args_velo.umi_tag.isSome = true ∧ demo_args_velo.velocity = true ∧
      ∀ it ∈ [demo_rec_umi "A" "G1" "AAA" "E", demo_rec_umi "A" "G1" "CCC" "I"],
        input_ok demo_args_velo it) ∧
    (∃ st, count_matrix_run demo_env demo_args_velo []
        [demo_rec_umi "A" "G1" "AAA" "E", demo_rec_umi "A" "G1" "CCC" "I"] = some st ∧
      ∀ f c,
        held_count st f c = n_distinct (([demo_rec_umi "A" "G1" "AAA" "E",
          demo_rec_umi "A" "G1" "CCC" "I"].filter
            (contributes demo_env demo_args_velo [] f c)).map (umi_of demo_args_velo)) ∧
        held_unspliced st f c = n_distinct (([demo_rec_umi "A" "G1" "AAA" "E",
          demo_rec_umi "A" "G1" "CCC" "I"].filter (fun it =>
            contributes demo_env demo_args_velo [] f c it &&
              classified_unspliced demo_env demo_args_velo it)).map (umi_of demo_args_velo))) ∧
    (count_matrix_run demo_env demo_args_velo []
        [demo_rec_umi "A" "G1" "AAA" "E", demo_rec_umi "A" "G1" "CCC" "I"]).map
      (fun st => (held_count st "G1" "A", held_unspliced st "G1" "A", write_outs demo_args_velo st))
      = some (2, 1, .written (some
          { barcode_names := ["A"], feature_names := ["G1"],
            mex := ⟨(1, 1, 1), [(1, 1, 1)]⟩, unspliced := some ⟨(1, 1, 1), [(1, 1, 1)]⟩ })) ∧
    (count_matrix_run demo_env demo_args_velo []
        [demo_rec_umi "A" "G1" "AAA" "E", demo_rec_umi "A" "G1" "CCC" "I",
          demo_rec_umi "A" "G1" "AAA" "I"]).map
      (fun st => (held_count st "G1" "A", held_unspliced st "G1" "A")) = some (2, 2) :=
  ⟨⟨rfl, rfl, by decide⟩,
    C3_velocity_umi_counts demo_env demo_args_velo [] _ rfl rfl (by decide), by decide, by decide⟩

theorem spliced_of_eq (c : counts) (h1 : c.unspliced ≤ c.count) (h2 : c.count < 2 ^ 31) :
    spliced_of c = ((c.count - c.unspliced : Nat) : Int) := by
  unfold spliced_of to_int32 u32
  have h3 : (c.count + 2 ^ 32 - c.unspliced) % 2 ^ 32 = c.count - c.unspliced := by
    have : c.count + 2 ^ 32 - c.unspliced = (c.count - c.unspliced) + 2 ^ 32 := by omega
    rw [this, Nat.add_mod_right]
    exact Nat.mod_eq_of_lt (by omega)
  rw [h3]
  have h4 : c.count - c.unspliced < 2 ^ 31 := by omega
  rw [if_pos h4]

theorem line_sum_append (l1 l2 : List (Nat × Nat × Nat)) :
    line_sum (l1 ++ l2) = line_sum l1 + line_sum l2 := by
  simp [line_sum]

theorem sum_count_append (l1 l2 : List PISA_dna) :
    sum_count (l1 ++ l2) = sum_count l1 + sum_count l2 := by
  simp [sum_count]

theorem mex_lines_cells_sum (a : args) (i : Nat) (hv : a.velocity = false) :
    ∀ l : List PISA_dna, line_sum (mex_lines_cells a i l) = sum_count l := by
  intro l
  induction l with
  | nil => rfl
  | cons e t ih =>
    simp only [mex_lines_cells, hv, Bool.false_eq_true, if_false]
    simp only [line_sum, sum_count, List.map_cons, List.sum_cons] at ih ⊢
    rw [ih]

theorem velocity_lines_cells_sum (a : args) (i : Nat) (hv : a.velocity = true) :
    ∀ l : List PISA_dna, (∀ x ∈ l, x.data.unspliced ≤ x.data.count ∧ x.data.count < 2 ^ 31) →
      line_sum (mex_lines_cells a i l) + line_sum (unspliced_lines_cells i l) = sum_count l := by
  intro l
  induction l with
  | nil => intro _; rfl
  | cons e t ih =>
    intro h
    obtain ⟨h1, h2⟩ := h e (List.mem_cons_self _ _)
    have iht := ih (fun x hx => h x (List.mem_cons_of_mem _ hx))
    have hs := spliced_of_eq e.data h1 h2
    have hnat : (spliced_of e.data).toNat = e.data.count - e.data.unspliced := by
      rw [hs]
      simp
    have hpos : spliced_of e.data > 0 ↔ 0 < e.data.count - e.data.unspliced := by
      rw [hs]
      simp
    simp only [sum_count, List.map_cons, List.sum_cons] at iht ⊢
    simp only [mex_lines_cells, unspliced_lines_cells, hv, if_true, hnat]
    by_cases hp : 0 < e.data.count - e.data.unspliced
    · rw [if_pos (hpos.2 hp)]
      by_cases hq : e.data.unspliced > 0
      · rw [if_pos hq]
        simp only [line_sum, List.map_cons, List.sum_cons] at iht ⊢
        omega
      · rw [if_neg hq]
        simp only [line_sum, List.map_cons, List.sum_cons] at iht ⊢
        omega
    · rw [if_neg (fun h => hp (hpos.1 h))]
      by_cases hq : e.data.unspliced > 0
      · rw [if_pos hq]
        simp only [line_sum, List.map_cons, List.sum_cons] at iht ⊢
        omega
      · rw [if_neg hq]
        simp only [line_sum, List.map_cons, List.sum_cons] at iht ⊢
        omega

theorem mex_lines_sum (a : args) (hv : a.velocity = false) :
    ∀ (fs : List (String × Option PISA_idx_pool)) (i : Nat) (ls : List (Nat × Nat × Nat)),
      mex_lines a i fs = some ls → line_sum ls = sum_count (cells_of fs) := by
  intro fs
  induction fs with
  | nil => intro i ls h; simp [mex_lines] at h; subst h; rfl
  | cons e r ih =>
    intro i ls h
    simp only [mex_lines] at h
    cases he : e.2 with
    | none => simp [he] at h
    | some v =>
      simp only [he, Option.map_eq_some'] at h
      obtain ⟨r1, hr1, rfl⟩ := h
      simp only [cells_of, he, Option.getD_some, line_sum_append, sum_count_append,
        mex_lines_cells_sum a i hv, ih (i + 1) r1 hr1]

theorem velocity_lines_sum (a : args) (hv : a.velocity = true) :
    ∀ (fs : List (String × Option PISA_idx_pool)) (i : Nat) (ls us : List (Nat × Nat × Nat)),
      (∀ x ∈ cells_of fs, x.data.unspliced ≤ x.data.count ∧ x.data.count < 2 ^ 31) →
      mex_lines a i fs = some ls → unspliced_lines i fs = some us →
      line_sum ls + line_sum us = sum_count (cells_of fs) := by
  intro fs
  induction fs with
  | nil =>
    intro i ls us _ h1 h2
    simp [mex_lines] at h1
    simp [unspliced_lines] at h2
    subst h1 h2
    rfl
  | cons e r ih =>
    intro i ls us hb h1 h2
    simp only [mex_lines] at h1
    simp only [unspliced_lines] at h2
    cases he : e.2 with
    | none => simp [he] at h1
    | some v =>
      simp only [he, Option.map_eq_some'] at h1 h2
      obtain ⟨r1, hr1, rfl⟩ := h1
      obtain ⟨r2, hr2, rfl⟩ := h2
      simp only [cells_of, he, Option.getD_some] at hb
      have hc := velocity_lines_cells_sum a i hv v.data
        (fun x hx => hb x (List.mem_append_left _ hx))
      have hr := ih (i + 1) r1 r2 (fun x hx => hb x (List.mem_append_right _ hx)) hr1 hr2
      simp only [cells_of, he, Option.getD_some, line_sum_append, sum_count_append]
      omega

theorem cells_of_mem : ∀ (fs : List (String × Option PISA_idx_pool)) (x : PISA_dna),
    x ∈ cells_of fs → ∃ g v, (g, some v) ∈ fs ∧ x ∈ v.data := by
  intro fs
  induction fs with
  | nil => intro x h; simp [cells_of] at h
  | cons e r ih =>
    intro x h
    simp only [cells_of, List.mem_append] at h
    rcases h with h | h
    · cases he : e.2 with
      | none => simp [he, PISA_idx_pool_init] at h
      | some v =>
        simp only [he, Option.getD_some] at h
        exact ⟨e.1, v, by simp [← he], h⟩
    · obtain ⟨g, v, hg, hx⟩ := ih x h
      exact ⟨g, v, List.mem_cons_of_mem _ hg, hx⟩

/-- C5, the code at the failing input: three records for `(G1, A)` and one for
`(G1, B)` give a matrix file of two triplet lines whose dimension line ends in
4, the sum of the counts. -/
theorem C5_header_holds_sum_of_counts :
    (count_matrix_run demo_env demo_args []
        [demo_rec "A" "G1", demo_rec "A" "G1", demo_rec "A" "G1", demo_rec "B" "G1"]).map
      (fun st => write_outs demo_args st)
      = some (.written (some
          { barcode_names := ["A", "B"], feature_names := ["G1"],
            mex := ⟨(1, 2, 4), [(1, 1, 3), (1, 2, 1)]⟩, unspliced := none })) := by
  decide

/-- C6 (as amended): provided that in non-UMI mode fewer than `2^32` feature
tokens are counted over the run, the run goes through, every count cell
reachable from the features table after `update_counts` has `count ≥ 1`, and
every triplet line `write_outs` writes has a strictly positive value; in
velocity mode a line of the spliced file comes from a cell with
`count - unspliced > 0` and a line of the unspliced file from a cell with
`unspliced > 0`. -/
theorem C6_emitted_values_positive (env : Env) (a : args) (wl : List String) (rs : List bam_item)
    (hok : ∀ it ∈ rs, input_ok a it) (hb : a.umi_tag = none → n_counted env a wl rs < 2 ^ 32) :
    ∃ st, count_matrix_run env a wl rs = some st ∧
      (∀ g v, (g, some v) ∈ st.features.data → ∀ x ∈ v.data, 1 ≤ x.data.count) ∧
      (∀ o, write_outs a st = .written (some o) →
        (∀ t ∈ o.mex.lines, 0 < t.2.2) ∧ (∀ u, o.unspliced = some u → ∀ t ∈ u.lines, 0 < t.2.2)) ∧
      (a.velocity = true → ∀ o, write_outs a st = .written (some o) →
        (∀ t ∈ o.mex.lines, ∃ g v x, (g, some v) ∈ st.features.data ∧ x ∈ v.data ∧
          0 < spliced_of x.data ∧ t.2.2 = (spliced_of x.data).toNat) ∧
        (∀ u, o.unspliced = some u → ∀ t ∈ u.lines, ∃ g v x, (g, some v) ∈ st.features.data ∧
          x ∈ v.data ∧ 0 < x.data.unspliced ∧ t.2.2 = x.data.unspliced)) := by
  obtain ⟨st, hrun, hi⟩ := run_final env a wl rs hok
  have hcell : ∀ g v, (g, some v) ∈ st.features.data → ∀ x ∈ v.data, 1 ≤ x.data.count := by
    intro g v hg x hx
    obtain ⟨c, i, _, hne, hxd⟩ := final_inv_cell env a wl st rs hi g v hg x hx
    rw [hxd]
    refine final_cell_pos env a i x.idx _ hne (fun hu => ?_)
    rw [contribs_length]
    exact Nat.lt_of_le_of_lt (occurrences_le env a wl g c rs) (hb hu)
  refine ⟨st, hrun, hcell, fun o ho => ?_, fun hv o ho => ?_⟩
  · obtain ⟨_, hm, _, hnv, hvel⟩ := write_outs_written a st o ho
    refine ⟨fun t ht => ?_, fun u hu t ht => ?_⟩
    · obtain ⟨k, g, v, x, hk, hx, _, _, h3⟩ := mex_lines_mem a _ 0 _ hm t ht
      rcases h3 with ⟨_, hp, h3⟩ | ⟨_, h3⟩
      · rw [h3]
        omega
      · rw [h3]
        exact hcell g v (List.get?_mem hk) x hx
    · by_cases hv : a.velocity = true
      · obtain ⟨u1, hu1, hul, _⟩ := hvel hv
        rw [hu] at hu1
        cases hu1
        obtain ⟨k, g, v, x, _, _, _, _, hp, h3⟩ := unspliced_lines_mem _ 0 _ hul t ht
        rw [h3]
        exact hp
      · have hv1 : a.velocity = false := by simpa using hv
        rw [hnv hv1] at hu
        cases hu
  · obtain ⟨_, hm, _, _, hvel⟩ := write_outs_written a st o ho
    refine ⟨fun t ht => ?_, fun u hu t ht => ?_⟩
    · obtain ⟨k, g, v, x, hk, hx, _, _, h3⟩ := mex_lines_mem a _ 0 _ hm t ht
      rcases h3 with ⟨_, hp, h3⟩ | ⟨hv1, _⟩
      · exact ⟨g, v, x, List.get?_mem hk, hx, hp, h3⟩
      · rw [hv] at hv1
        cases hv1
    · obtain ⟨u1, hu1, hul, _⟩ := hvel hv
      rw [hu] at hu1
      cases hu1
      obtain ⟨k, g, v, x, hk, hx, _, _, hp, h3⟩ := unspliced_lines_mem _ 0 _ hul t ht
      exact ⟨g, v, x, List.get?_mem hk, hx, hp, h3⟩

/-- C6, witness: the run of three records for `(G1, A)` and one for `(G1, B)`. -/
theorem C6_emitted_values_positive_witness :
    ((∀ it ∈ [demo_rec "A" "G1", demo_rec "A" "G1", demo_rec "A" "G1", demo_rec "B" "G1"],
        input_ok demo_args it) ∧
      (demo_args.umi_tag = none → n_counted demo_env demo_args []
        [demo_rec "A" "G1", demo_rec "A" "G1", demo_rec "A" "G1", demo_rec "B" "G1"] < 2 ^ 32)) ∧
    ∃ st, count_matrix_run demo_env demo_args []
        [demo_rec "A" "G1", demo_rec "A" "G1", demo_rec "A" "G1", demo_rec "B" "G1"] = some st ∧
      (∀ g v, (g, some v) ∈ st.features.data → ∀ x ∈ v.data, 1 ≤ x.data.count) ∧
      (∀ o, write_outs demo_args st = .written (some o) →
        (∀ t ∈ o.mex.lines, 0 < t.2.2) ∧ (∀ u, o.unspliced = some u → ∀ t ∈ u.lines, 0 < t.2.2)) ∧
      (demo_args.velocity = true → ∀ o, write_outs demo_args st = .written (some o) →
        (∀ t ∈ o.mex.lines, ∃ g v x, (g, some v) ∈ st.features.data ∧ x ∈ v.data ∧
          0 < spliced_of x.data ∧ t.2.2 = (spliced_of x.data).toNat) ∧
        (∀ u, o.unspliced = some u → ∀ t ∈ u.lines, ∃ g v x, (g, some v) ∈ st.features.data ∧
          x ∈ v.data ∧ 0 < x.data.unspliced ∧ t.2.2 = x.data.unspliced)) :=
  ⟨⟨by decide, fun _ => by decide⟩,
    C6_emitted_values_positive demo_env demo_args [] _ (by decide) (fun _ => by decide)⟩

/-- C7: the run goes through; at every moment of the main loop every cell id
stored in a per-feature pool is an id of the barcodes table; and every triplet
`write_outs` writes, to either matrix file, has
`1 ≤ feature_index ≤ size(features)` and `1 ≤ barcode_index ≤ size(barcodes)`. -/
theorem C7_triplet_indices_in_range (env : Env) (a : args) (wl : List String) (rs : List bam_item)
    (hok : ∀ it ∈ rs, input_ok a it) :
    (∀ rs1 rs2, rs = rs1 ++ rs2 → ∃ st1, count_matrix_loop env a (init_state a wl) rs1 = some st1 ∧
      ∀ g v, (g, some v) ∈ st1.features.data → ∀ x ∈ v.data, x.idx < dict_size st1.barcodes) ∧
    ∃ st, count_matrix_run env a wl rs = some st ∧
      (∀ g v, (g, some v) ∈ st.features.data → ∀ x ∈ v.data, x.idx < dict_size st.barcodes) ∧
      ∀ o, write_outs a st = .written (some o) →
        (∀ t ∈ o.mex.lines, 1 ≤ t.1 ∧ t.1 ≤ dict_size st.features ∧
          1 ≤ t.2.1 ∧ t.2.1 ≤ dict_size st.barcodes) ∧
        (∀ u, o.unspliced = some u → ∀ t ∈ u.lines, 1 ≤ t.1 ∧ t.1 ≤ dict_size st.features ∧
          1 ≤ t.2.1 ∧ t.2.1 ≤ dict_size st.barcodes) := by
  have hwf : ∀ (nb : Nat) (fs : List (String × Option PISA_idx_pool)), feats_wf nb fs →
      ∀ g v, (g, some v) ∈ fs → ∀ x ∈ v.data, x.idx < nb := by
    intro nb fs hw g v hg x hx
    obtain ⟨v1, hv1, hvw⟩ := hw.2 _ hg
    simp only [Option.some.injEq] at hv1
    subst hv1
    exact hvw.2 x hx
  refine ⟨fun rs1 rs2 hrs => ?_, ?_⟩
  · obtain ⟨st1, h1, hi1⟩ := count_matrix_loop_inv env a wl rs1 (init_state a wl) []
      (run_inv_init env a wl) (fun it hit => hok it (by rw [hrs]; exact List.mem_append_left _ hit))
    exact ⟨st1, h1, hwf _ _ hi1.1⟩
  · obtain ⟨st, hrun, hi⟩ := run_final env a wl rs hok
    refine ⟨st, hrun, hwf _ _ hi.1, fun o ho => ?_⟩
    obtain ⟨_, hm, _, hnv, hvel⟩ := write_outs_written a st o ho
    refine ⟨fun t ht => ?_, fun u hu t ht => ?_⟩
    · obtain ⟨k, g, v, x, hk, hx, h1, h2, _⟩ := mex_lines_mem a _ 0 _ hm t ht
      obtain ⟨hkl, hxl, _⟩ := final_entry_names env a wl st rs hi k g v hk x hx
      omega
    · by_cases hv : a.velocity = true
      · obtain ⟨u1, hu1, hul, _⟩ := hvel hv
        rw [hu] at hu1
        cases hu1
        obtain ⟨k, g, v, x, hk, hx, h1, h2, _⟩ := unspliced_lines_mem _ 0 _ hul t ht
        obtain ⟨hkl, hxl, _⟩ := final_entry_names env a wl st rs hi k g v hk x hx
        omega
      · have hv1 : a.velocity = false := by simpa using hv
        rw [hnv hv1] at hu
        cases hu

/-- C7, witness: the run of three records for `(G1, A)` and one for `(G1, B)`. -/
theorem C7_triplet_indices_in_range_witness :
    (∀ it ∈ [demo_rec "A" "G1", demo_rec "A" "G1", demo_rec "A" "G1", demo_rec "B" "G1"],
      input_ok demo_args it) ∧
    ((∀ rs1 rs2, [demo_rec "A" "G1", demo_rec "A" "G1", demo_rec "A" "G1", demo_rec "B" "G1"]
        = rs1 ++ rs2 →
      ∃ st1, count_matrix_loop demo_env demo_args (init_state demo_args []) rs1 = some st1 ∧
        ∀ g v, (g, some v) ∈ st1.features.data → ∀ x ∈ v.data, x.idx < dict_size st1.barcodes) ∧
    ∃ st, count_matrix_run demo_env demo_args []
        [demo_rec "A" "G1", demo_rec "A" "G1", demo_rec "A" "G1", demo_rec "B" "G1"] = some st ∧
      (∀ g v, (g, some v) ∈ st.features.data → ∀ x ∈ v.data, x.idx < dict_size st.barcodes) ∧
      ∀ o, write_outs demo_args st = .written (some o) →
        (∀ t ∈ o.mex.lines, 1 ≤ t.1 ∧ t.1 ≤ dict_size st.features ∧
          1 ≤ t.2.1 ∧ t.2.1 ≤ dict_size st.barcodes) ∧
        (∀ u, o.unspliced = some u → ∀ t ∈ u.lines, 1 ≤ t.1 ∧ t.1 ≤ dict_size st.features ∧
          1 ≤ t.2.1 ∧ t.2.1 ≤ dict_size st.barcodes)) :=
  ⟨by decide, C7_triplet_indices_in_range demo_env demo_args [] _ (by decide)⟩

theorem occurrences_append (env : Env) (a : args) (wl : List String) (f c : String) :
    ∀ l1 l2 : List bam_item, occurrences env a wl f c (l1 ++ l2) =
      occurrences env a wl f c l1 + occurrences env a wl f c l2 := by
  intro l1
  induction l1 with
  | nil => intro l2; simp [occurrences]
  | cons x t ih => intro l2; simp [occurrences, ih, Nat.add_assoc]

theorem occurrences_replicate (env : Env) (a : args) (wl : List String) (f c : String)
    (it : bam_item) : ∀ n : Nat, occurrences env a wl f c (List.replicate n it) =
      n * occurrences env a wl f c [it] := by
  intro n
  induction n with
  | zero => simp [occurrences]
  | succ k ih =>
    rw [List.replicate_succ, show it :: List.replicate k it = [it] ++ List.replicate k it from rfl,
      occurrences_append, ih]
    ring

theorem n_counted_replicate (env : Env) (a : args) (wl : List String) (it : bam_item) :
    ∀ n : Nat, n_counted env a wl (List.replicate n it) = n * n_counted env a wl [it] := by
  intro n
  induction n with
  | zero => simp [n_counted]
  | succ k ih =>
    rw [List.replicate_succ, show it :: List.replicate k it = [it] ++ List.replicate k it from rfl,
      n_counted_append, ih]
    ring

theorem mex_lines_total (a : args) : ∀ (fs : List (String × Option PISA_idx_pool)) (i : Nat),
    (∀ e ∈ fs, ∃ v, e.2 = some v) → ∃ ls, mex_lines a i fs = some ls := by
  intro fs
  induction fs with
  | nil => intro i _; exact ⟨[], rfl⟩
  | cons e r ih =>
    intro i h
    obtain ⟨v, hv⟩ := h e (List.mem_cons_self _ _)
    obtain ⟨ls, hls⟩ := ih (i + 1) (fun x hx => h x (List.mem_cons_of_mem _ hx))
    exact ⟨mex_lines_cells a i v.data ++ ls, by simp [mex_lines, hv, hls]⟩

theorem unspliced_lines_total : ∀ (fs : List (String × Option PISA_idx_pool)) (i : Nat),
    (∀ e ∈ fs, ∃ v, e.2 = some v) → ∃ ls, unspliced_lines i fs = some ls := by
  intro fs
  induction fs with
  | nil => intro i _; exact ⟨[], rfl⟩
  | cons e r ih =>
    intro i h
    obtain ⟨v, hv⟩ := h e (List.mem_cons_self _ _)
    obtain ⟨ls, hls⟩ := ih (i + 1) (fun x hx => h x (List.mem_cons_of_mem _ hx))
    exact ⟨unspliced_lines_cells i v.data ++ ls, by simp [unspliced_lines, hv, hls]⟩

theorem mex_lines_cells_of_cell (a : args) (i : Nat) (hv : a.velocity = false) :
    ∀ (l : List PISA_dna) (x : PISA_dna), x ∈ l →
      ∃ t ∈ mex_lines_cells a i l, t.2.2 = x.data.count := by
  intro l
  induction l with
  | nil => intro x hx; simp at hx
  | cons e r ih =>
    intro x hx
    simp only [mex_lines_cells, hv, Bool.false_eq_true, if_false]
    simp only [List.mem_cons] at hx
    rcases hx with hx | hx
    · subst hx
      exact ⟨_, List.mem_cons_self _ _, rfl⟩
    · obtain ⟨t, ht, h1⟩ := ih x hx
      exact ⟨t, List.mem_cons_of_mem _ ht, h1⟩

theorem mex_lines_of_cell (a : args) (hv : a.velocity = false) :
    ∀ (fs : List (String × Option PISA_idx_pool)) (i : Nat) (ls : List (Nat × Nat × Nat)),
      mex_lines a i fs = some ls → ∀ g v, (g, some v) ∈ fs → ∀ x ∈ v.data,
      ∃ t ∈ ls, t.2.2 = x.data.count := by
  intro fs
  induction fs with
  | nil => intro i ls _ g v hg; simp at hg
  | cons e r ih =>
    intro i ls h g v hg x hx
    simp only [mex_lines] at h
    cases he : e.2 with
    | none => simp [he] at h
    | some v1 =>
      simp only [he, Option.map_eq_some'] at h
      obtain ⟨r1, hr1, rfl⟩ := h
      simp only [List.mem_cons] at hg
      rcases hg with hg | hg
      · subst hg
        simp only [Option.some.injEq] at he
        subst he
        obtain ⟨t, ht, h1⟩ := mex_lines_cells_of_cell a i hv v.data x hx
        exact ⟨t, List.mem_append_left _ ht, h1⟩
      · obtain ⟨t, ht, h1⟩ := ih (i + 1) r1 hr1 g v hg x hx
        exact ⟨t, List.mem_append_right _ ht, h1⟩

/-- With both tables non-empty, some record counted and an output directory,
`write_outs` writes the MEX files. -/
theorem write_outs_writes (a : args) (st : state) (nb : Nat) (hw : feats_wf nb st.features.data)
    (hb : dict_size st.barcodes ≠ 0) (hf : dict_size st.features ≠ 0) (hn : st.n_record ≠ 0)
    (ho : a.outdir.isSome = true) : ∃ o, write_outs a st = .written (some o) := by
  obtain ⟨d, hd⟩ := Option.isSome_iff_exists.1 ho
  have hall : ∀ e ∈ st.features.data, ∃ v, e.2 = some v := fun e he => by
    obtain ⟨v, hv, _⟩ := hw.2 e he
    exact ⟨v, hv⟩
  obtain ⟨ls, hls⟩ := mex_lines_total a st.features.data 0 hall
  obtain ⟨us, hus⟩ := unspliced_lines_total st.features.data 0 hall
  unfold write_outs
  simp only [hb, hf, hn, if_false, hd, write_mex, hls, hus]
  by_cases hv : a.velocity = true <;> simp [hv]

theorem cells_of_mem_of : ∀ (fs : List (String × Option PISA_idx_pool)) (g : String)
    (v : PISA_idx_pool), (g, some v) ∈ fs → ∀ x ∈ v.data, x ∈ cells_of fs := by
  intro fs
  induction fs with
  | nil => intro g v hg; simp at hg
  | cons e r ih =>
    intro g v hg x hx
    simp only [List.mem_cons] at hg
    simp only [cells_of, List.mem_append]
    rcases hg with hg | hg
    · subst hg
      exact Or.inl hx
    · exact Or.inr (ih g v hg x hx)

theorem count_le_sum_count : ∀ (l : List PISA_dna) (x : PISA_dna), x ∈ l →
    x.data.count ≤ sum_count l := by
  intro l
  induction l with
  | nil => intro x hx; simp at hx
  | cons e r ih =>
    intro x hx
    simp only [sum_count, List.map_cons, List.sum_cons]
    simp only [List.mem_cons] at hx
    rcases hx with hx | hx
    · subst hx
      omega
    · have := ih x hx
      simp only [sum_count] at this
      omega

/-- A count cell held for a pair sits in the pool of an entry of the features
table. -/
theorem held_cell_entry (st : state) (nb : Nat) (hw : feats_wf nb st.features.data) (f c : String)
    (c0 : counts) (h : held_cell st f c = some c0) :
    dict_size st.barcodes ≠ 0 ∧
      ∃ v x, (f, some v) ∈ st.features.data ∧ x ∈ v.data ∧ x.data = c0 := by
  rw [held_cell_eq] at h
  cases hc : dict_find st.barcodes.data c with
  | none => simp [hc] at h
  | some cid =>
    simp only [hc] at h
    have hlt := (dict_find_some c st.barcodes.data cid hc).1
    obtain ⟨e, he, hef, x, hx, _, hxd⟩ := lookup_cell_mem _ f cid c0 h
    obtain ⟨v, hv, _⟩ := hw.2 e he
    rw [hv] at hx
    refine ⟨by unfold dict_size; omega, v, x, ?_, hx, hxd⟩
    rw [← hef, ← hv]
    exact he

/-- C6, counterexample to the claim as stated: after `2^32` records for
`(G1, A)` and one for `(G1, B)`, with velocity off, the 32-bit count of
`(G1, A)` has wrapped to 0 and `write_outs` writes a triplet line of value 0. -/
theorem C6_counterexample :
    ∃ st o, count_matrix_run demo_env demo_args []
        (List.replicate (2 ^ 32) (demo_rec "A" "G1") ++ [demo_rec "B" "G1"]) = some st ∧
      write_outs demo_args st = .written (some o) ∧ ∃ t ∈ o.mex.lines, t.2.2 = 0 := by
  have hok : ∀ it ∈ List.replicate (2 ^ 32) (demo_rec "A" "G1") ++ [demo_rec "B" "G1"],
      input_ok demo_args it := by
    intro it hit
    simp only [List.mem_append, List.mem_replicate, List.mem_singleton] at hit
    rcases hit with ⟨_, h⟩ | h <;> subst h <;> decide
  obtain ⟨st, hrun, hi⟩ := run_final demo_env demo_args [] _ hok
  have hu : demo_args.umi_tag = none := rfl
  have hA : occurrences demo_env demo_args [] "G1" "A"
      (List.replicate (2 ^ 32) (demo_rec "A" "G1") ++ [demo_rec "B" "G1"]) = 2 ^ 32 := by
    rw [occurrences_append, occurrences_replicate]
    have h1 : occurrences demo_env demo_args [] "G1" "A" [demo_rec "A" "G1"] = 1 := by decide
    have h2 : occurrences demo_env demo_args [] "G1" "A" [demo_rec "B" "G1"] = 0 := by decide
    rw [h1, h2]
    norm_num
  have hB : occurrences demo_env demo_args [] "G1" "B"
      (List.replicate (2 ^ 32) (demo_rec "A" "G1") ++ [demo_rec "B" "G1"]) = 1 := by
    rw [occurrences_append, occurrences_replicate]
    have h1 : occurrences demo_env demo_args [] "G1" "B" [demo_rec "A" "G1"] = 0 := by decide
    have h2 : occurrences demo_env demo_args [] "G1" "B" [demo_rec "B" "G1"] = 1 := by decide
    rw [h1, h2]
    norm_num
  have hN : n_counted demo_env demo_args []
      (List.replicate (2 ^ 32) (demo_rec "A" "G1") ++ [demo_rec "B" "G1"]) = 2 ^ 32 + 1 := by
    rw [n_counted_append, n_counted_replicate]
    have h1 : n_counted demo_env demo_args [] [demo_rec "A" "G1"] = 1 := by decide
    have h2 : n_counted demo_env demo_args [] [demo_rec "B" "G1"] = 1 := by decide
    rw [h1, h2]
    norm_num
  -- the cell of (G1, A) holds 0
  obtain ⟨hbA, vA, xA, hgA, hxA, hcA⟩ : dict_size st.barcodes ≠ 0 ∧ ∃ v x,
      ("G1", some v) ∈ st.features.data ∧ x ∈ v.data ∧ x.data.count = 0 := by
    rcases held_cell_final demo_env demo_args [] st _ hi "G1" "A" with ⟨h0, _⟩ | ⟨_, i, cid, h1⟩
    · have := contribs_length demo_env demo_args [] "G1" "A"
        (List.replicate (2 ^ 32) (demo_rec "A" "G1") ++ [demo_rec "B" "G1"])
      rw [h0, hA] at this
      simp at this
    · obtain ⟨hb, v, x, hg, hx, hxd⟩ := held_cell_entry st _ hi.1 "G1" "A" _ h1
      refine ⟨hb, v, x, hg, hx, ?_⟩
      rw [hxd, final_cell_count, contribs_length, hA]
      simp [hu, u32]
  -- the cell of (G1, B) holds 1
  obtain ⟨vB, xB, hgB, hxB, hcB⟩ : ∃ v x,
      ("G1", some v) ∈ st.features.data ∧ x ∈ v.data ∧ x.data.count = 1 := by
    rcases held_cell_final demo_env demo_args [] st _ hi "G1" "B" with ⟨h0, _⟩ | ⟨_, i, cid, h1⟩
    · have := contribs_length demo_env demo_args [] "G1" "B"
        (List.replicate (2 ^ 32) (demo_rec "A" "G1") ++ [demo_rec "B" "G1"])
      rw [h0, hB] at this
      simp at this
    · obtain ⟨_, v, x, hg, hx, hxd⟩ := held_cell_entry st _ hi.1 "G1" "B" _ h1
      refine ⟨v, x, hg, hx, ?_⟩
      rw [hxd, final_cell_count, contribs_length, hB]
      simp [hu, u32]
  have hsum1 : 1 ≤ sum_count (cells_of st.features.data) := by
    have := count_le_sum_count _ xB (cells_of_mem_of _ "G1" vB hgB xB hxB)
    omega
  have hsum2 : sum_count (cells_of st.features.data) ≤ 2 ^ 32 + 1 := by
    have := hi.2.2.2.2.2.2.2
    rw [hN] at this
    exact this
  have hn : st.n_record ≠ 0 := by
    rw [hi.2.2.2.1, u64_of_lt _ (by omega)]
    omega
  have hf : dict_size st.features ≠ 0 := by
    unfold dict_size
    exact Nat.pos_iff_ne_zero.1 (List.length_pos_of_mem hgA)
  obtain ⟨o, ho⟩ := write_outs_writes demo_args st _ hi.1 hbA hf hn rfl
  obtain ⟨_, hm, _⟩ := write_outs_written demo_args st o ho
  obtain ⟨t, ht, h1⟩ := mex_lines_of_cell demo_args rfl _ 0 _ hm "G1" vA hgA xA hxA
  exact ⟨st, o, hrun, ho, t, ht, by rw [h1, hcA]⟩

theorem region_type_pass_iff (env : Env) (a : args) (b : bam1_t) :
    region_type_pass env a b = true ↔
      (a.region_types = [] ∨ ∃ t, region_class env a b = some t ∧ t ∈ a.region_types) := by
  unfold region_type_pass region_class
  cases hr : a.region_types with
  | nil => simp
  | cons r0 rt =>
    simp only [List.length_cons, gt_iff_lt, Nat.zero_lt_succ, if_true]
    cases hd : bam_aux_get b a.region_type_tag with
    | none => simp
    | some data =>
      simp only [Option.map_some', Option.some.injEq, exists_eq_left', List.any_eq_true,
        decide_eq_true_eq]
      constructor
      · rintro ⟨t, ht, hte⟩
        exact Or.inr (hte ▸ ht)
      · rintro (h | h)
        · cases h
        · exact ⟨_, h, rfl⟩

/-- C8: for a record with a valid tid, the main loop hands the record to
`count_matrix_core` exactly when its UNMAPPED flag is clear, its quality is at
least the threshold, duplicates are used or its DUP flag is clear, and the
region-type whitelist is empty or holds the class of its region-type tag; a
record that fails a check leaves the state unchanged. -/
theorem C8_main_loop_filter (env : Env) (a : args) (st : state) (it : bam_item)
    (htid : 0 ≤ it.b.core.tid ∧ it.b.core.tid < it.n_targets) :
    (count_matrix_filter env a it = true ↔
      (it.b.core.flag &&& BAM_FUNMAP = 0 ∧ a.mapq_thres ≤ (it.b.core.qual : Int) ∧
        (a.use_dup = true ∨ it.b.core.flag &&& BAM_FDUP = 0) ∧
        (a.region_types = [] ∨ ∃ t, region_class env a it.b = some t ∧ t ∈ a.region_types))) ∧
    (¬ (a.alias_file_cb = true ∧ it.file_alias.isNone = true) →
      count_matrix_step env a st it =
        if count_matrix_filter env a it = true then
          (count_matrix_core env a st it.b it.file_alias).map Prod.snd
        else some st) ∧
    (count_matrix_filter env a it = false →
      ∀ st1, count_matrix_step env a st it = some st1 → st1 = st) := by
  refine ⟨?_, fun hal => ?_, fun hf st1 h => ?_⟩
  · unfold count_matrix_filter
    rw [← region_type_pass_iff]
    have h1 : ¬ it.b.core.tid ≤ -1 := by omega
    have h2 : ¬ it.b.core.tid > it.n_targets := by omega
    by_cases hm : it.b.core.flag &&& BAM_FUNMAP = 0
    · by_cases hq : (it.b.core.qual : Int) < a.mapq_thres
      · have : ¬ a.mapq_thres ≤ (it.b.core.qual : Int) := by omega
        simp [h1, h2, hm, hq, this]
      · have hq1 : a.mapq_thres ≤ (it.b.core.qual : Int) := by omega
        by_cases hd : a.use_dup = true
        · simp [h1, h2, hm, hq, hq1, hd]
        · have hd1 : a.use_dup = false := by simpa using hd
          by_cases hf : it.b.core.flag &&& BAM_FDUP = 0
          · simp [h1, h2, hm, hq, hq1, hd1, hf]
          · simp [h1, h2, hm, hq, hq1, hd1, hf]
    · simp [h1, h2, hm]
  · unfold count_matrix_step
    simp only [hal, if_false]
  · unfold count_matrix_step at h
    by_cases hal : a.alias_file_cb = true ∧ it.file_alias.isNone = true
    · simp [hal] at h
    · simp only [hal, if_false, hf, Bool.false_eq_true, Option.some.injEq] at h
      exact h.symm

/-- C8, witness: a mapped record of quality 60 on target 0 of 1 passes the
default filters, a record of quality 10 does not. -/
theorem C8_main_loop_filter_witness :
    ((0 : Int) ≤ (demo_rec "A" "G1").b.core.tid ∧
      (demo_rec "A" "G1").b.core.tid < (demo_rec "A" "G1").n_targets) ∧
    ((count_matrix_filter demo_env demo_args (demo_rec "A" "G1") = true ↔
      ((demo_rec "A" "G1").b.core.flag &&& BAM_FUNMAP = 0 ∧
        demo_args.mapq_thres ≤ ((demo_rec "A" "G1").b.core.qual : Int) ∧
        (demo_args.use_dup = true ∨ (demo_rec "A" "G1").b.core.flag &&& BAM_FDUP = 0) ∧
        (demo_args.region_types = [] ∨ ∃ t, region_class demo_env demo_args (demo_rec "A" "G1").b
          = some t ∧ t ∈ demo_args.region_types))) ∧
    (¬ (demo_args.alias_file_cb = true ∧ (demo_rec "A" "G1").file_alias.isNone = true) →
      count_matrix_step demo_env demo_args (init_state demo_args []) (demo_rec "A" "G1") =
        if count_matrix_filter demo_env demo_args (demo_rec "A" "G1") = true then
          (count_matrix_core demo_env demo_args (init_state demo_args []) (demo_rec "A" "G1").b
            (demo_rec "A" "G1").file_alias).map Prod.snd
        else some (init_state demo_args [])) ∧
    (count_matrix_filter demo_env demo_args (demo_rec "A" "G1") = false →
      ∀ st1, count_matrix_step demo_env demo_args (init_state demo_args []) (demo_rec "A" "G1")
        = some st1 → st1 = init_state demo_args [])) ∧
    count_matrix_filter demo_env demo_args (demo_rec "A" "G1") = true ∧
    count_matrix_filter demo_env demo_args
      { b := { core := { tid := 0, qual := 10, flag := 0 }, aux := [("CB", "A"), ("GN", "G1")] }
        n_targets := 1, file_alias := none } = false :=
  ⟨by decide, C8_main_loop_filter demo_env demo_args (init_state demo_args []) (demo_rec "A" "G1")
    (by decide), by decide, by decide⟩

/-- The first filter of the main loop drops a record whose tid is below 0 or
above `n_targets`. -/
theorem count_matrix_filter_tid (env : Env) (a : args) (it : bam_item)
    (h : it.b.core.tid < 0 ∨ it.b.core.tid > it.n_targets) :
    count_matrix_filter env a it = false := by
  unfold count_matrix_filter
  have : it.b.core.tid ≤ -1 ∨ it.b.core.tid > it.n_targets := by omega
  rcases this with h1 | h1 <;> simp [h1]

/-- C9, the code at the failing input: a record whose tid equals `n_targets`
(tid 1 where the only valid tid is 0) passes the filters of the main loop and
is counted. -/
theorem C9_tid_equal_to_n_targets_is_counted :
    count_matrix_filter demo_env demo_args demo_bad_tid = true ∧
    (count_matrix_run demo_env demo_args [] [demo_bad_tid]).map
      (fun st => held_count st "G1" "A") = some 1 := by
  decide

/-- The count held for a pair after the run, in terms of the contributions to
the pair. -/
theorem held_count_final (env : Env) (a : args) (wl : List String) (st : state) (rs : List bam_item)
    (hi : final_inv env a wl st rs) (f c : String) :
    held_count st f c =
      match a.umi_tag with
      | some _ => n_distinct ((contribs env a wl f c rs).map Prod.fst)
      | none => u32 (contribs env a wl f c rs).length := by
  unfold held_count
  rcases held_cell_final env a wl st rs hi f c with ⟨h0, h1⟩ | ⟨_, i, cid, h1⟩
  · rw [h1, h0]
    cases a.umi_tag <;> rfl
  · rw [h1]
    simp only [Option.map_some', Option.getD_some]
    exact final_cell_count env a i cid _

theorem accepted_none_of_one_hit (env : Env) (a : args) (wl : List String) (it : bam_item)
    (anno : String) (hone : a.one_hit = true) (hanno : bam_aux_get it.b a.anno_tag = some anno)
    (hlen : (env.str_split anno).length > 1) : accepted env a wl it = none := by
  cases hacc : accepted env a wl it with
  | none => rfl
  | some x =>
    obtain ⟨_, hc, hn, _⟩ := accepted_core env a wl it x hacc
    obtain ⟨anno1, h1, h2⟩ := core_hit_tokens env a it.b it.file_alias x hc
    rw [hanno] at h1
    cases h1
    exact absurd ⟨hone, by rw [h2]; exact hlen⟩ hn

/-- C11: with `one_hit` set, for every state and every record whose feature
field splits into more than one token, `count_matrix_core` returns 1 and
leaves the features table, with every count cell and UMI pool, and the
counters unchanged; over a run such a record changes no count. With `one_hit`
unset every accepted record of barcode `c` raises the count of `(f, c)` by the
number of times it lists `f`, so a record tagged `G1;G2` for cell `A` adds 1
to `(G1, A)` and 1 to `(G2, A)`. -/
theorem C11_one_hit_drops_multi_feature (env : Env) (a : args) (hone : a.one_hit = true) :
    (∀ (st : state) (b : bam1_t) (tag : Option String) (anno : String),
      (a.tag.isSome = true ∨ tag.isSome = true) → bam_aux_get b a.anno_tag = some anno →
      (env.str_split anno).length > 1 →
      ∃ st1, count_matrix_core env a st b tag = some (1, st1) ∧ st1.features = st.features ∧
        st1.n_record = st.n_record ∧ st1.n_record1 = st.n_record1 ∧
        st1.n_record2 = st.n_record2) ∧
    (∀ (wl : List String) (rs : List bam_item) (it : bam_item) (anno : String),
      (∀ x ∈ rs ++ [it], input_ok a x) → bam_aux_get it.b a.anno_tag = some anno →
      (env.str_split anno).length > 1 →
      ∃ st0 st1, count_matrix_run env a wl rs = some st0 ∧
        count_matrix_run env a wl (rs ++ [it]) = some st1 ∧
        ∀ f c, held_count st1 f c = held_count st0 f c) ∧
    (∀ (a0 : args) (wl : List String) (rs : List bam_item) (it : bam_item) (h : hit),
      a0.one_hit = false → a0.umi_tag = none → (∀ x ∈ rs ++ [it], input_ok a0 x) →
      accepted env a0 wl it = some h →
      ∃ st0 st1, count_matrix_run env a0 wl rs = some st0 ∧
        count_matrix_run env a0 wl (rs ++ [it]) = some st1 ∧
        ∀ f c, held_count st1 f c =
          (held_count st0 f c + if h.cell = c then h.tokens.count f else 0) % 2 ^ 32) := by
  refine ⟨?_, ?_, ?_⟩
  · intro st b tag anno htag hanno hlen
    rw [count_matrix_core_eq env a st b tag htag]
    cases hh : core_hit env a b tag with
    | none => exact ⟨st, rfl, rfl, rfl, rfl, rfl⟩
    | some x =>
      obtain ⟨anno1, h1, h2⟩ := core_hit_tokens env a b tag x hh
      rw [hanno] at h1
      cases h1
      simp only
      cases hres : resolve_cell a st.barcodes (some x.cell) with
      | abort => exact absurd hres (resolve_cell_not_abort a st.barcodes x.cell)
      | drop => exact ⟨st, rfl, rfl, rfl, rfl, rfl⟩
      | next r =>
        have hc : a.one_hit = true ∧ x.tokens.length > 1 := ⟨hone, by rw [h2]; exact hlen⟩
        simp only [hc, and_self, if_true]
        exact ⟨_, rfl, rfl, rfl, rfl, rfl⟩
  · intro wl rs it anno hok hanno hlen
    obtain ⟨st0, hr0, hi0⟩ := run_final env a wl rs
      (fun x hx => hok x (List.mem_append_left _ hx))
    obtain ⟨st1, hr1, hi1⟩ := run_final env a wl (rs ++ [it]) hok
    refine ⟨st0, st1, hr0, hr1, fun f c => ?_⟩
    rw [held_count_final env a wl st1 _ hi1, held_count_final env a wl st0 _ hi0,
      contribs_append, contribs_single_none env a wl f c it
        (accepted_none_of_one_hit env a wl it anno hone hanno hlen), List.append_nil]
  · intro a0 wl rs it h _ hu hok hacc
    obtain ⟨st0, hr0, hi0⟩ := run_final env a0 wl rs
      (fun x hx => hok x (List.mem_append_left _ hx))
    obtain ⟨st1, hr1, hi1⟩ := run_final env a0 wl (rs ++ [it]) hok
    refine ⟨st0, st1, hr0, hr1, fun f c => ?_⟩
    rw [held_count_final env a0 wl st1 _ hi1, held_count_final env a0 wl st0 _ hi0,
      contribs_append, contribs_single_some env a0 wl f c it h hacc]
    simp only [hu, u32, List.length_append]
    by_cases hc : h.cell = c <;> simp [hc, Nat.add_mod]

/-- C11, witness: the record tagged `G1;G2` for cell `A` is dropped with
`one_hit` set (both counts stay 0) and, with `one_hit` unset, adds 1 to
`(G1, A)` and 1 to `(G2, A)`. -/
theorem C11_one_hit_drops_multi_feature_witness :
    demo_args_one_hit.one_hit = true ∧
    ((∀ (st : state) (b : bam1_t) (tag : Option String) (anno : String),
      (demo_args_one_hit.tag.isSome = true ∨ tag.isSome = true) →
      bam_aux_get b demo_args_one_hit.anno_tag = some anno →
      (demo_env.str_split anno).length > 1 →
      ∃ st1, count_matrix_core demo_env demo_args_one_hit st b tag = some (1, st1) ∧
        st1.features = st.features ∧ st1.n_record = st.n_record ∧
        st1.n_record1 = st.n_record1 ∧ st1.n_record2 = st.n_record2) ∧
    (∀ (wl : List String) (rs : List bam_item) (it : bam_item) (anno : String),
      (∀ x ∈ rs ++ [it], input_ok demo_args_one_hit x) →
      bam_aux_get it.b demo_args_one_hit.anno_tag = some anno →
      (demo_env.str_split anno).length > 1 →
      ∃ st0 st1, count_matrix_run demo_env demo_args_one_hit wl rs = some st0 ∧
        count_matrix_run demo_env demo_args_one_hit wl (rs ++ [it]) = some st1 ∧
        ∀ f c, held_count st1 f c = held_count st0 f c) ∧
    (∀ (a0 : args) (wl : List String) (rs : List bam_item) (it : bam_item) (h : hit),
      a0.one_hit = false → a0.umi_tag = none → (∀ x ∈ rs ++ [it], input_ok a0 x) →
      accepted demo_env a0 wl it = some h →
      ∃ st0 st1, count_matrix_run demo_env a0 wl rs = some st0 ∧
        count_matrix_run demo_env a0 wl (rs ++ [it]) = some st1 ∧
        ∀ f c, held_count st1 f c =
          (held_count st0 f c + if h.cell = c then h.tokens.count f else 0) % 2 ^ 32)) ∧
    (count_matrix_core demo_env demo_args_one_hit (init_state demo_args_one_hit [])
      (demo_rec "A" "G1;G2").b none).map
      (fun r => (r.1, r.2.features.data.map Prod.fst, r.2.barcodes.data.map Prod.fst))
      = some (1, [], ["A"]) ∧
    (count_matrix_run demo_env demo_args_one_hit [] [demo_rec "A" "G1;G2"]).map
      (fun st => (held_count st "G1" "A", held_count st "G2" "A")) = some (0, 0) ∧
    (count_matrix_run demo_env demo_args [] [demo_rec "A" "G1;G2"]).map
      (fun st => (held_count st "G1" "A", held_count st "G2" "A")) = some (1, 1) :=
  ⟨rfl, C11_one_hit_drops_multi_feature demo_env demo_args_one_hit rfl, by decide, by decide,
    by decide⟩

theorem resolve_cell_whitelist (a : args) (bc : dict Unit) (t : Option String) (r : Nat × dict Unit)
    (hw : a.whitelist_fname.isSome = true) (h : resolve_cell a bc t = .next r) : r.2 = bc := by
  unfold resolve_cell at h
  cases t with
  | none => simp at h
  | some s =>
    cases hw1 : a.whitelist_fname with
    | none => simp [hw1] at hw
    | some w =>
      simp only [hw1] at h
      cases hq : dict_query bc s with
      | none => simp [hq] at h
      | some i =>
        simp only [hq, flow.next.injEq] at h
        subst h
        rfl

theorem count_matrix_core_barcodes (env : Env) (a : args) (st : state) (b : bam1_t)
    (tag : Option String) (r : Int × state) (hw : a.whitelist_fname.isSome = true)
    (h : count_matrix_core env a st b tag = some r) : r.2.barcodes = st.barcodes := by
  unfold count_matrix_core at h
  cases h1 : read_cell_tag a b tag with
  | abort => simp [h1] at h
  | drop => simp [h1] at h; subst h; rfl
  | next tag1 =>
    simp only [h1] at h
    cases h2 : bam_aux_get b a.anno_tag with
    | none => simp [h2] at h; subst h; rfl
    | some anno =>
      simp only [h2] at h
      split at h
      · simp at h; subst h; rfl
      · cases h3 : velocity_class env a b with
        | none => simp [h3] at h; subst h; rfl
        | some u =>
          simp only [h3] at h
          cases h4 : resolve_cell a st.barcodes tag1 with
          | abort => simp [h4] at h
          | drop => simp [h4] at h; subst h; rfl
          | next r1 =>
            have hr := resolve_cell_whitelist a st.barcodes tag1 r1 hw h4
            simp only [h4] at h
            split at h
            · simp at h; subst h; exact hr
            · cases h5 : count_features env a b r1.1 u (env.str_split anno) st.features with
              | none => simp [h5] at h
              | some f => simp [h5] at h; subst h; exact hr

theorem count_matrix_loop_barcodes (env : Env) (a : args) (hw : a.whitelist_fname.isSome = true) :
    ∀ (rs : List bam_item) (st st1 : state), count_matrix_loop env a st rs = some st1 →
      st1.barcodes = st.barcodes := by
  intro rs
  induction rs with
  | nil => intro st st1 h; simp [count_matrix_loop] at h; subst h; rfl
  | cons it rest ih =>
    intro st st1 h
    simp only [count_matrix_loop] at h
    cases hs : count_matrix_step env a st it with
    | none => simp [hs] at h
    | some st2 =>
      simp only [hs] at h
      rw [ih st2 st1 h]
      unfold count_matrix_step at hs
      split at hs
      · cases hs
      · split at hs
        · simp only [Option.map_eq_some'] at hs
          obtain ⟨r, hr, rfl⟩ := hs
          exact count_matrix_core_barcodes env a st it.b it.file_alias r hw hr
        · simp at hs; subst hs; rfl

theorem update_counts_barcodes (a : args) (st st1 : state) (h : update_counts a st = some st1) :
    st1.barcodes = st.barcodes := by
  unfold update_counts at h
  cases hu : update_features a st.features.data st.n_record st.n_record2 with
  | none => simp [hu] at h
  | some r => simp [hu] at h; subst h; rfl

/-- C12: in whitelist mode `count_matrix_core` leaves the barcodes table as it
is for every record, and a record whose barcode is not in the table returns 1
and leaves the whole state unchanged; over a run the barcodes table stays the
one loaded from the whitelist and a barcode that is not on the whitelist holds
no count cell. -/
theorem C12_whitelist_barcodes_frozen (env : Env) (a : args)
    (hw : a.whitelist_fname.isSome = true) :
    (∀ (st : state) (b : bam1_t) (tag : Option String) (r : Int × state),
      count_matrix_core env a st b tag = some r → r.2.barcodes = st.barcodes) ∧
    (∀ (st : state) (b : bam1_t) (tag : Option String) (cb : String),
      read_cell_tag a b tag = .next (some cb) → dict_query st.barcodes cb = none →
      count_matrix_core env a st b tag = some (1, st)) ∧
    (∀ (wl : List String) (rs : List bam_item), (∀ it ∈ rs, input_ok a it) →
      ∃ st, count_matrix_run env a wl rs = some st ∧
        st.barcodes = dict_read dict_init wl ∧
        ∀ f c, c ∉ wl → held_cell st f c = none) := by
  refine ⟨fun st b tag r h => count_matrix_core_barcodes env a st b tag r hw h, ?_, ?_⟩
  · intro st b tag cb h1 hq
    obtain ⟨w, hw1⟩ := Option.isSome_iff_exists.1 hw
    unfold count_matrix_core
    simp only [h1]
    cases h2 : bam_aux_get b a.anno_tag with
    | none => rfl
    | some anno =>
      simp only
      split
      · rfl
      · cases h3 : velocity_class env a b with
        | none => rfl
        | some u => simp [resolve_cell, hw1, hq]
  · intro wl rs hok
    obtain ⟨st, hrun, hi⟩ := run_final env a wl rs hok
    refine ⟨st, hrun, ?_, fun f c hc => ?_⟩
    · unfold count_matrix_run at hrun
      cases hl : count_matrix_loop env a (init_state a wl) rs with
      | none => simp [hl] at hrun
      | some st1 =>
        simp only [hl, Option.some_bind] at hrun
        rw [update_counts_barcodes a st1 st hrun,
          count_matrix_loop_barcodes env a hw rs _ st1 hl]
        obtain ⟨w, hw1⟩ := Option.isSome_iff_exists.1 hw
        simp [init_state, hw1]
    · rw [held_cell_eq]
      have hnm : c ∉ st.barcodes.data.map Prod.fst := fun hm => hc ((hi.2.2.1 hw c).1 hm)
      rw [(dict_find_none_iff c st.barcodes.data).2 hnm]

/-- C12, witness: whitelist `{A}` and records for cells `A`, `B`, `C`: only
`A` gets a count and the barcode list keeps its one entry. -/
theorem C12_whitelist_barcodes_frozen_witness :
    demo_args_wl.whitelist_fname.isSome = true ∧
    ((∀ (st : state) (b : bam1_t) (tag : Option String) (r : Int × state),
      count_matrix_core demo_env demo_args_wl st b tag = some r → r.2.barcodes = st.barcodes) ∧
    (∀ (st : state) (b : bam1_t) (tag : Option String) (cb : String),
      read_cell_tag demo_args_wl b tag = .next (some cb) → dict_query st.barcodes cb = none →
      count_matrix_core demo_env demo_args_wl st b tag = some (1, st)) ∧
    (∀ (wl : List String) (rs : List bam_item), (∀ it ∈ rs, input_ok demo_args_wl it) →
      ∃ st, count_matrix_run demo_env demo_args_wl wl rs = some st ∧
        st.barcodes = dict_read dict_init wl ∧
        ∀ f c, c ∉ wl → held_cell st f c = none)) ∧
    (count_matrix_run demo_env demo_args_wl ["A"]
        [demo_rec "A" "G1", demo_rec "B" "G1", demo_rec "C" "G1"]).map
      (fun st => (st.barcodes.data.map Prod.fst, held_count st "G1" "A", held_count st "G1" "B",
        held_count st "G1" "C")) = some (["A"], 1, 0, 0) :=
  ⟨rfl, C12_whitelist_barcodes_frozen demo_env demo_args_wl rfl, by decide⟩

/-- A record that counts no token leaves the features table as it is. -/
theorem count_matrix_step_features (env : Env) (a : args) (wl : List String) (st st1 : state)
    (hist : List bam_item) (it : bam_item) (hi : run_inv env a wl st hist) (hok : input_ok a it)
    (hacc : accepted env a wl it = none ∨ ∃ x, accepted env a wl it = some x ∧ x.tokens = [])
    (h : count_matrix_step env a st it = some st1) : st1.features = st.features := by
  unfold count_matrix_step at h
  split at h
  · cases h
  · by_cases hf : count_matrix_filter env a it = true
    · simp only [hf, if_true] at h
      rw [count_matrix_core_eq env a st it.b it.file_alias hok.2] at h
      cases hh : core_hit env a it.b it.file_alias with
      | none => simp [hh] at h; subst h; rfl
      | some x =>
        have hrec : record_hit env a it = some x := by simp [record_hit, hf, hh]
        simp only [hh] at h
        cases hres : resolve_cell a st.barcodes (some x.cell) with
        | abort => exact absurd hres (resolve_cell_not_abort a st.barcodes x.cell)
        | drop => simp [hres] at h; subst h; rfl
        | next r =>
          simp only [hres] at h
          by_cases hone : a.one_hit = true ∧ x.tokens.length > 1
          · simp [hone] at h; subst h; rfl
          · have hacc1 : accepted env a wl it = some x := by
              have hwl : ¬ (a.whitelist_fname.isSome = true ∧ x.cell ∉ wl) := by
                rintro ⟨hw, hnm⟩
                exact hnm ((hi.2.2.1 hw x.cell).1
                  (resolve_cell_next_mem a st.barcodes x.cell r hres hw))
              simp [accepted, hrec, hwl, hone]
            have htok : x.tokens = [] := by
              rcases hacc with h0 | ⟨y, h0, h1⟩
              · rw [hacc1] at h0; cases h0
              · rw [hacc1] at h0; cases h0; exact h1
            rw [htok] at h
            simp [count_features] at h
            subst h
            rfl
    · simp [hf] at h; subst h; rfl

/-- C14, the code at the failing input: with three records for `(G1, A)` and
one for `(G1, B)` the MEX path emits the counts 3 and 1, and the dense path
writes the row `G1 1 1`: it reads the counter of the pool entry
(`v->data[j].count`), not the `count` of the count cell. -/
theorem C14_dense_row_reads_entry_counter :
    (count_matrix_run demo_env demo_args_tsv []
        [demo_rec "A" "G1", demo_rec "A" "G1", demo_rec "A" "G1", demo_rec "B" "G1"]).map
      (fun st => (held_count st "G1" "A", held_count st "G1" "B", write_outs demo_args_tsv st,
        write_outs_tsv demo_args_tsv st))
      = some (3, 1,
          .written (some
            { barcode_names := ["A", "B"], feature_names := ["G1"],
              mex := ⟨(1, 2, 4), [(1, 1, 3), (1, 2, 1)]⟩, unspliced := none }),
          some { header := ["ID", "A", "B"], rows := [("G1", [1, 1])] }) := by
  decide

/-! ## Lemmas on the annotation model -/

theorem gtf_sort_fold_end (cs : List gtf) : ∀ f : gtf_fields,
    f.end_ ≤ (cs.foldl gtf_sort_step f).end_ ∧
    (∀ c ∈ cs, c.f.end_ ≤ (cs.foldl gtf_sort_step f).end_) ∧
    ((cs.foldl gtf_sort_step f).end_ = f.end_ ∨
      ∃ c ∈ cs, (cs.foldl gtf_sort_step f).end_ = c.f.end_) := by
  induction cs with
  | nil => intro f; simp
  | cons c t ih =>
    intro f
    obtain ⟨h1, h2, h3⟩ := ih (gtf_sort_step f c)
    have hs : (gtf_sort_step f c).end_ = if f.end_ < c.f.end_ then c.f.end_ else f.end_ := rfl
    simp only [List.foldl_cons]
    refine ⟨?_, ?_, ?_⟩
    · rw [hs] at h1; split at h1 <;> omega
    · intro x hx
      rcases List.mem_cons.1 hx with rfl | hx
      · rw [hs] at h1; split at h1 <;> omega
      · exact h2 x hx
    · rcases h3 with h3 | ⟨x, hx, h3⟩
      · rw [hs] at h3
        split at h3
        · exact Or.inr ⟨c, List.mem_cons_self _ _, h3⟩
        · exact Or.inl h3
      · exact Or.inr ⟨x, List.mem_cons_of_mem _ hx, h3⟩

theorem gtf_sort_fold_start (cs : List gtf) (hpos : ∀ c ∈ cs, 0 ≤ c.f.start) : ∀ f : gtf_fields,
    (∀ c ∈ cs, (cs.foldl gtf_sort_step f).start ≤ c.f.start) ∧
    (0 ≤ f.start → (cs.foldl gtf_sort_step f).start ≤ f.start ∧
      0 ≤ (cs.foldl gtf_sort_step f).start) ∧
    (cs ≠ [] → 0 ≤ (cs.foldl gtf_sort_step f).start) ∧
    ((cs.foldl gtf_sort_step f).start = f.start ∨
      ∃ c ∈ cs, (cs.foldl gtf_sort_step f).start = c.f.start) ∧
    (f.start < 0 → cs ≠ [] → ∃ c ∈ cs, (cs.foldl gtf_sort_step f).start = c.f.start) := by
  induction cs with
  | nil => intro f; simp
  | cons c t ih =>
    intro f
    have hc : 0 ≤ c.f.start := hpos c (List.mem_cons_self _ _)
    obtain ⟨h1, h2, _, h4, _⟩ :=
      ih (fun x hx => hpos x (List.mem_cons_of_mem _ hx)) (gtf_sort_step f c)
    have hs : (gtf_sort_step f c).start =
        if f.start < 0 then c.f.start else if f.start > c.f.start then c.f.start else f.start :=
      rfl
    have hs0 : 0 ≤ (gtf_sort_step f c).start := by rw [hs]; split_ifs <;> omega
    have hsc : (gtf_sort_step f c).start ≤ c.f.start := by rw [hs]; split_ifs <;> omega
    obtain ⟨h2a, h2b⟩ := h2 hs0
    simp only [List.foldl_cons]
    refine ⟨?_, ?_, fun _ => h2b, ?_, ?_⟩
    · intro x hx
      rcases List.mem_cons.1 hx with rfl | hx
      · omega
      · exact h1 x hx
    · intro hf
      have : (gtf_sort_step f c).start ≤ f.start := by rw [hs]; split_ifs <;> omega
      exact ⟨by omega, h2b⟩
    · rcases h4 with h4 | ⟨x, hx, h4⟩
      · rw [hs] at h4
        by_cases hf : f.start < 0
        · rw [if_pos hf] at h4
          exact Or.inr ⟨c, List.mem_cons_self _ _, h4⟩
        · rw [if_neg hf] at h4
          split at h4
          · exact Or.inr ⟨c, List.mem_cons_self _ _, h4⟩
          · exact Or.inl h4
      · exact Or.inr ⟨x, List.mem_cons_of_mem _ hx, h4⟩
    · intro hf _
      rcases h4 with h4 | ⟨x, hx, h4⟩
      · rw [hs, if_pos hf] at h4
        exact ⟨c, List.mem_cons_self _ _, h4⟩
      · exact ⟨x, List.mem_cons_of_mem _ hx, h4⟩

theorem qsort_perm {α : Type} (cmp : α → α → Int) (l : List α) : (qsort cmp l).Perm l :=
  List.perm_insertionSort _ l

theorem mem_qsort {α : Type} (cmp : α → α → Int) (l : List α) (x : α) :
    x ∈ qsort cmp l ↔ x ∈ l := (qsort_perm cmp l).mem_iff

theorem qsort_ne_nil {α : Type} (cmp : α → α → Int) (l : List α) (h : l ≠ []) :
    qsort cmp l ≠ [] := by
  intro h0
  have := (qsort_perm cmp l).length_eq
  rw [h0] at this
  exact h (List.length_eq_zero.1 this.symm)

/-- One call of `gtf_sort` in terms of the loop over the children. -/
theorem gtf_sort_eq (f : gtf_fields) (cs : List gtf) :
    gtf_sort (.mk f cs) =
      match gtf_sort_list cs with
      | none => none
      | some cs1 =>
        if cs1.length ≠ 0 then
          if ((qsort cmpfunc1 cs1).foldl gtf_sort_step f).start <
              ((qsort cmpfunc1 cs1).foldl gtf_sort_step f).end_ then
            some (.mk ((qsort cmpfunc1 cs1).foldl gtf_sort_step f) (qsort cmpfunc1 cs1))
          else none
        else some (.mk f cs1) := by
  rw [gtf_sort]

theorem gtf_sort_list_cons (c : gtf) (r : List gtf) :
    gtf_sort_list (c :: r) =
      match gtf_sort c with
      | none => none
      | some c1 =>
        match gtf_sort_list r with
        | none => none
        | some r1 => some (c1 :: r1) := by
  rw [gtf_sort_list]

theorem gtf_sort_list_length : ∀ (cs cs1 : List gtf), gtf_sort_list cs = some cs1 →
    cs1.length = cs.length
  | [], cs1, h => by
    simp [gtf_sort_list] at h
    subst h
    rfl
  | c :: r, cs1, h => by
    rw [gtf_sort_list_cons] at h
    cases hc : gtf_sort c with
    | none => simp [hc] at h
    | some c1 =>
      cases hr : gtf_sort_list r with
      | none => simp [hc, hr] at h
      | some r1 =>
        simp [hc, hr] at h
        subst h
        simp [gtf_sort_list_length r r1 hr]

theorem leaves_all_nil (P : gtf_fields → Bool) (f : gtf_fields) :
    leaves_all P (.mk f []) = P f := by
  rw [leaves_all]

theorem leaves_all_cons (P : gtf_fields → Bool) (f : gtf_fields) (c : gtf) (r : List gtf) :
    leaves_all P (.mk f (c :: r)) = leaves_all_list P (c :: r) := by
  rw [leaves_all]

theorem leaves_all_list_cons (P : gtf_fields → Bool) (c : gtf) (r : List gtf) :
    leaves_all_list P (c :: r) = (leaves_all P c && leaves_all_list P r) := by
  rw [leaves_all_list]

mutual
/-- What `gtf_sort` leaves of a record whose childless descendants have their
start set. -/
theorem gtf_sort_node : ∀ (g g1 : gtf), leaves_all_list start_set g.children = true →
    gtf_sort g = some g1 →
    (g.children = [] → g1 = g) ∧
    (g.children ≠ [] →
      g1.children ≠ [] ∧ 0 ≤ g1.f.start ∧ g1.f.start < g1.f.end_ ∧
      (0 ≤ g.f.start → g1.f.start ≤ g.f.start) ∧
      (g1.f.start = g.f.start ∨ ∃ c ∈ g1.children, g1.f.start = c.f.start) ∧
      (g.f.start < 0 → ∃ c ∈ g1.children, g1.f.start = c.f.start) ∧
      g.f.end_ ≤ g1.f.end_ ∧
      (g1.f.end_ = g.f.end_ ∨ ∃ c ∈ g1.children, g1.f.end_ = c.f.end_)) ∧
    contains_children g1 ∧
    (∀ c1 ∈ g1.children, 0 ≤ c1.f.start ∧ contains_children c1)
  | .mk f cs, g1, hl, h => by
    rw [gtf_sort_eq] at h
    cases hsl : gtf_sort_list cs with
    | none => simp [hsl] at h
    | some cs1 =>
      have hlen := gtf_sort_list_length cs cs1 hsl
      have hTL := gtf_sort_list_contains cs cs1 hl hsl
      simp only [hsl] at h
      by_cases hne : cs1.length ≠ 0
      · rw [if_pos hne] at h
        have hcs : cs ≠ [] := by
          intro h0
          rw [h0] at hlen
          exact hne hlen
        have hcs1 : cs1 ≠ [] := fun h0 => hne (by rw [h0]; rfl)
        have hq := qsort_ne_nil cmpfunc1 cs1 hcs1
        have hpos : ∀ c ∈ qsort cmpfunc1 cs1, 0 ≤ c.f.start := fun c hc =>
          (hTL c ((mem_qsort cmpfunc1 cs1 c).1 hc)).1
        obtain ⟨s1, s2, s3, s4, s5⟩ := gtf_sort_fold_start (qsort cmpfunc1 cs1) hpos f
        obtain ⟨e1, e2, e3⟩ := gtf_sort_fold_end (qsort cmpfunc1 cs1) f
        split at h
        · rename_i hlt
          simp only [Option.some.injEq] at h
          subst h
          refine ⟨fun h0 => absurd h0 hcs, fun _ => ?_, ?_, ?_⟩
          · exact ⟨hq, s3 hq, hlt, fun h0 => (s2 h0).1, s4, fun h0 => s5 h0 hq, e1, e3⟩
          · intro c hc
            exact ⟨s1 c hc, e2 c hc⟩
          · intro c hc
            exact hTL c ((mem_qsort cmpfunc1 cs1 c).1 hc)
        · cases h
      · rw [if_neg hne] at h
        simp only [Option.some.injEq] at h
        subst h
        have hcs1 : cs1 = [] := List.length_eq_zero.1 (by simpa using hne)
        have hcs : cs = [] := List.length_eq_zero.1 (by rw [← hlen, hcs1]; rfl)
        subst hcs1
        subst hcs
        refine ⟨fun _ => rfl, fun h0 => absurd rfl h0, ?_, ?_⟩
        · intro c hc
          simp [gtf.children] at hc
        · intro c hc
          simp [gtf.children] at hc
/-- What the loop of `gtf_sort` over an array leaves of records whose
childless descendants have their start set. -/
theorem gtf_sort_list_contains : ∀ (cs cs1 : List gtf), leaves_all_list start_set cs = true →
    gtf_sort_list cs = some cs1 → ∀ c1 ∈ cs1, 0 ≤ c1.f.start ∧ contains_children c1
  | [], cs1, _, h => by
    simp [gtf_sort_list] at h
    subst h
    intro c1 hc1
    cases hc1
  | c :: r, cs1, hl, h => by
    rw [gtf_sort_list_cons] at h
    rw [leaves_all_list_cons, Bool.and_eq_true] at hl
    cases hc : gtf_sort c with
    | none => simp [hc] at h
    | some c1 =>
      cases hr : gtf_sort_list r with
      | none => simp [hc, hr] at h
      | some r1 =>
        simp [hc, hr] at h
        subst h
        have hR := gtf_sort_list_contains r r1 hl.2 hr
        intro x hx
        rcases List.mem_cons.1 hx with rfl | hx
        · match c, hl.1, hc with
          | .mk f [], hl1, hc =>
            have hN := gtf_sort_node (.mk f []) x (by simp [gtf.children, leaves_all_list]) hc
            have hx := hN.1 rfl
            rw [leaves_all_nil] at hl1
            rw [hx]
            exact ⟨by simpa [start_set, gtf.f] using hl1, by
              intro y hy; simp [gtf.children] at hy⟩
          | .mk f (c0 :: r0), hl1, hc =>
            rw [leaves_all_cons] at hl1
            have hN := gtf_sort_node (.mk f (c0 :: r0)) x hl1 hc
            exact ⟨(hN.2.1 (by simp [gtf.children])).2.1, hN.2.2.1⟩
        · exact hR x hx
end

theorem model_leaves_iff (P : gtf_fields → Bool) (G : gtf_spec) :
    model_leaves P G = true ↔
      ∀ e ∈ G.name.data, ∀ ctg, e.2 = some ctg → ∀ g ∈ ctg.gtf,
        leaves_all_list P g.children = true := by
  simp only [model_leaves, List.all_eq_true]
  constructor
  · intro h e he ctg hc g hg
    have := h e he
    rw [hc] at this
    simp only [List.all_eq_true] at this
    exact this g hg
  · intro h e he
    cases hc : e.2 with
    | none => rfl
    | some ctg =>
      simp only [List.all_eq_true]
      exact fun g hg => h e he ctg hc g hg

mutual
theorem gtf_sort_total : ∀ (g : gtf), leaves_all span_ok g = true →
    ∃ g1, gtf_sort g = some g1 ∧ 0 ≤ g1.f.start ∧ g1.f.start < g1.f.end_
  | .mk f [], hl => by
    rw [leaves_all_nil] at hl
    refine ⟨.mk f [], by rw [gtf_sort_eq]; simp [gtf_sort_list], ?_⟩
    simpa [span_ok, gtf.f] using hl
  | .mk f (c :: r), hl => by
    rw [leaves_all_cons] at hl
    obtain ⟨cs1, hsl, hcs1⟩ := gtf_sort_list_total (c :: r) hl
    have hlen := gtf_sort_list_length _ _ hsl
    have hne : cs1.length ≠ 0 := by rw [hlen]; simp
    have hcs1n : cs1 ≠ [] := fun h0 => hne (by rw [h0]; rfl)
    have hq := qsort_ne_nil cmpfunc1 cs1 hcs1n
    have hpos : ∀ c ∈ qsort cmpfunc1 cs1, 0 ≤ c.f.start := fun c hc =>
      (hcs1 c ((mem_qsort cmpfunc1 cs1 c).1 hc)).1
    obtain ⟨s1, _, s3, _, _⟩ := gtf_sort_fold_start (qsort cmpfunc1 cs1) hpos f
    obtain ⟨_, e2, _⟩ := gtf_sort_fold_end (qsort cmpfunc1 cs1) f
    obtain ⟨x, hx⟩ := List.exists_mem_of_ne_nil _ hq
    have hxs := (hcs1 x ((mem_qsort cmpfunc1 cs1 x).1 hx)).2
    have hlt : ((qsort cmpfunc1 cs1).foldl gtf_sort_step f).start <
        ((qsort cmpfunc1 cs1).foldl gtf_sort_step f).end_ := by
      have := s1 x hx
      have := e2 x hx
      omega
    refine ⟨.mk ((qsort cmpfunc1 cs1).foldl gtf_sort_step f) (qsort cmpfunc1 cs1), ?_, s3 hq, hlt⟩
    rw [gtf_sort_eq]
    simp only [hsl, if_pos hne, if_pos hlt]
theorem gtf_sort_list_total : ∀ (cs : List gtf), leaves_all_list span_ok cs = true →
    ∃ cs1, gtf_sort_list cs = some cs1 ∧ ∀ c1 ∈ cs1, 0 ≤ c1.f.start ∧ c1.f.start < c1.f.end_
  | [], _ => ⟨[], by simp [gtf_sort_list], by simp⟩
  | c :: r, hl => by
    rw [leaves_all_list_cons, Bool.and_eq_true] at hl
    obtain ⟨c1, hc, hc1⟩ := gtf_sort_total c hl.1
    obtain ⟨r1, hr, hr1⟩ := gtf_sort_list_total r hl.2
    refine ⟨c1 :: r1, by rw [gtf_sort_list_cons]; simp [hc, hr], ?_⟩
    intro x hx
    rcases List.mem_cons.1 hx with rfl | hx
    · exact hc1
    · exact hr1 x hx
end

/-- A record whose childless descendants span two bases or more gets through
`gtf_sort`. -/
theorem gtf_sort_node_total (g : gtf) (hl : leaves_all_list span_ok g.children = true) :
    ∃ g1, gtf_sort g = some g1 := by
  match g, hl with
  | .mk f [], _ => exact ⟨.mk f [], by rw [gtf_sort_eq]; simp [gtf_sort_list]⟩
  | .mk f (c :: r), hl =>
    have : leaves_all span_ok (.mk f (c :: r)) = true := by
      rw [leaves_all_cons]; exact hl
    obtain ⟨g1, h, _⟩ := gtf_sort_total _ this
    exact ⟨g1, h⟩

theorem gtf_sort_list_genes_total : ∀ (gs : List gtf),
    (∀ g ∈ gs, leaves_all_list span_ok g.children = true) → ∃ gs1, gtf_sort_list gs = some gs1
  | [], _ => ⟨[], by simp [gtf_sort_list]⟩
  | g :: r, h => by
    obtain ⟨g1, hg⟩ := gtf_sort_node_total g (h g (List.mem_cons_self _ _))
    obtain ⟨r1, hr⟩ := gtf_sort_list_genes_total r (fun x hx => h x (List.mem_cons_of_mem _ hx))
    exact ⟨g1 :: r1, by rw [gtf_sort_list_cons]; simp [hg, hr]⟩

/-- Every record the loop of `gtf_sort` returns is `gtf_sort` of a record of the
array. -/
theorem gtf_sort_list_mem : ∀ (gs gs1 : List gtf), gtf_sort_list gs = some gs1 →
    ∀ g1 ∈ gs1, ∃ g ∈ gs, gtf_sort g = some g1
  | [], gs1, h => by
    simp [gtf_sort_list] at h
    subst h
    intro g1 hg1
    cases hg1
  | g :: r, gs1, h => by
    rw [gtf_sort_list_cons] at h
    cases hg : gtf_sort g with
    | none => simp [hg] at h
    | some g1 =>
      cases hr : gtf_sort_list r with
      | none => simp [hg, hr] at h
      | some r1 =>
        simp [hg, hr] at h
        subst h
        intro x hx
        rcases List.mem_cons.1 hx with rfl | hx
        · exact ⟨g, List.mem_cons_self _ _, hg⟩
        · obtain ⟨y, hy, hxy⟩ := gtf_sort_list_mem r r1 hr x hx
          exact ⟨y, List.mem_cons_of_mem _ hy, hxy⟩

/-- Every contig the loop of `gtf_build_index` returns holds the sorted genes of
a contig of the model. -/
theorem build_ctgs_mem : ∀ (l : List (String × Option gtf_ctg))
    (r : Nat × List (String × Option gtf_ctg)), build_ctgs l = some r →
    ∀ e1 ∈ r.2, ∀ c1, e1.2 = some c1 →
      ∃ e ∈ l, ∃ c, e.2 = some c ∧ gtf_sort_list c.gtf = some c1.gtf
  | [], r, h => by
    simp [build_ctgs] at h
    subst h
    intro e1 he1
    cases he1
  | e :: t, r, h => by
    simp only [build_ctgs] at h
    cases he : e.2 with
    | none => simp [he] at h
    | some ctg =>
      cases hs : gtf_sort_list ctg.gtf with
      | none => simp [he, hs] at h
      | some gs =>
        cases ht : build_ctgs t with
        | none => simp [he, hs, ht] at h
        | some rt =>
          simp [he, hs, ht] at h
          subst h
          intro e1 he1 c1 hc1
          rcases List.mem_cons.1 he1 with rfl | he1
          · simp only [Option.some.injEq] at hc1
            subst hc1
            exact ⟨e, List.mem_cons_self _ _, ctg, he, hs⟩
          · obtain ⟨e0, he0, c, hc, hsc⟩ := build_ctgs_mem t rt ht e1 he1 c1 hc1
            exact ⟨e0, List.mem_cons_of_mem _ he0, c, hc, hsc⟩

theorem build_ctgs_total : ∀ (l : List (String × Option gtf_ctg)),
    (∀ e ∈ l, ∃ c, e.2 = some c ∧ ∃ gs, gtf_sort_list c.gtf = some gs) →
    ∃ r, build_ctgs l = some r
  | [], _ => ⟨(0, []), by simp [build_ctgs]⟩
  | e :: t, h => by
    obtain ⟨c, hc, gs, hgs⟩ := h e (List.mem_cons_self _ _)
    obtain ⟨rt, hrt⟩ := build_ctgs_total t (fun x hx => h x (List.mem_cons_of_mem _ hx))
    simp only [build_ctgs, hc, hgs, hrt]
    exact ⟨_, rfl⟩

theorem assign_at_get {α : Type} : ∀ (l : List (String × Option α)) (i j : Nat) (v : α),
    ((assign_at l i v).get? j).bind Prod.snd =
      if j = i then (if i < l.length then some v else none) else (l.get? j).bind Prod.snd
  | [], i, j, v => by simp [assign_at]
  | e :: t, 0, 0, v => by simp [assign_at]
  | e :: t, 0, j + 1, v => by simp [assign_at]
  | e :: t, i + 1, 0, v => by simp [assign_at]
  | e :: t, i + 1, j + 1, v => by
    have := assign_at_get t i j v
    simp only [assign_at, List.get?_cons_succ, this]
    simp

theorem qv_assign {α : Type} (d : dict α) (i j : Nat) (v : α) :
    dict_query_value (dict_assign_value d i v) j =
      if j = i then (if i < d.data.length then some v else none) else dict_query_value d j := by
  simp only [dict_query_value, dict_assign_value]
  exact assign_at_get d.data i j v

theorem qv_lt {α : Type} (d : dict α) (i : Nat) (v : α) (h : dict_query_value d i = some v) :
    i < d.data.length := by
  simp only [dict_query_value] at h
  by_contra hn
  rw [List.get?_eq_none.2 (by omega)] at h
  cases h

theorem qv_push {α : Type} (d : dict α) (s : String) (j : Nat) :
    dict_query_value (dict_push d s).2 j = dict_query_value d j := by
  unfold dict_push dict_query
  cases h : dict_find d.data s with
  | some i => rfl
  | none =>
    simp only [dict_query_value]
    by_cases hj : j < d.data.length
    · rw [List.get?_eq_getElem?, List.get?_eq_getElem?, List.getElem?_append_left hj]
    · by_cases hj2 : j = d.data.length
      · subst hj2
        simp
      · rw [List.get?_eq_none.2 (by simp; omega), List.get?_eq_none.2 (by omega)]

theorem ids_inv_but_of_inv (name : dict gtf_ctg) (p : Nat × Nat) (h : ids_inv name) :
    ids_inv_but name p :=
  fun cid c hc _ g hg _ => h cid c hc g (List.get?_mem hg)

/-- The contigs after a write through a gene pointer. -/
theorem set_gene_name (G : gtf_spec) (p : Nat × Nat) (g : gtf) :
    (set_gene G p g).name =
      match dict_query_value G.name p.1 with
      | none => G.name
      | some c => dict_assign_value G.name p.1 { c with gtf := c.gtf.set p.2 g } := by
  unfold set_gene
  cases dict_query_value G.name p.1 <;> rfl

theorem ids_inv_set_gene (G : gtf_spec) (p : Nat × Nat) (g1 : gtf)
    (h : ids_inv_but G.name p) (hg : gene_ok g1) : ids_inv (set_gene G p g1).name := by
  rw [set_gene_name]
  cases hq : dict_query_value G.name p.1 with
  | none =>
    intro cid c hc g hgm
    obtain ⟨k, hk⟩ := List.get?_of_mem hgm
    refine h cid c hc k g hk ?_
    intro h0
    rw [← h0] at hq
    simp only at hq
    rw [hq] at hc
    cases hc
  | some c0 =>
    intro cid c hc g hgm
    simp only [qv_assign] at hc
    by_cases hcid : cid = p.1
    · rw [if_pos hcid, if_pos (qv_lt _ _ _ hq)] at hc
      simp only [Option.some.injEq] at hc
      subst hc
      simp only at hgm
      obtain ⟨k, hk⟩ := List.get?_of_mem hgm
      by_cases hkp : k = p.2
      · subst hkp
        have hlt : p.2 < c0.gtf.length := by
          by_contra hn
          rw [List.get?_eq_none.2 (by simp; omega)] at hk
          cases hk
        rw [List.get?_eq_getElem?, List.getElem?_set_self hlt] at hk
        simp only [Option.some.injEq] at hk
        rw [← hk]
        exact hg
      · rw [List.get?_eq_getElem?, List.getElem?_set_ne (fun h0 => hkp h0.symm)] at hk
        refine h p.1 c0 hq k g (by rw [List.get?_eq_getElem?]; exact hk) ?_
        intro h0
        exact hkp (by rw [← h0])
    · rw [if_neg hcid] at hc
      obtain ⟨k, hk⟩ := List.get?_of_mem hgm
      refine h cid c hc k g hk ?_
      intro h0
      exact hcid (by rw [← h0])

theorem ids_inv_but_set_gene (G : gtf_spec) (p : Nat × Nat) (g1 : gtf)
    (h : ids_inv_but G.name p) : ids_inv_but (set_gene G p g1).name p := by
  rw [set_gene_name]
  cases hq : dict_query_value G.name p.1 with
  | none => exact h
  | some c0 =>
    intro cid c hc k g hk hne
    simp only [qv_assign] at hc
    by_cases hcid : cid = p.1
    · rw [if_pos hcid, if_pos (qv_lt _ _ _ hq)] at hc
      simp only [Option.some.injEq] at hc
      subst hc
      simp only at hk
      have hkp : k ≠ p.2 := by
        intro h0
        apply hne
        rw [hcid, h0]
      rw [List.get?_eq_getElem?, List.getElem?_set_ne (fun h0 => hkp h0.symm)] at hk
      exact h p.1 c0 hq k g (by rw [List.get?_eq_getElem?]; exact hk) (by rw [← hcid]; exact hne)
    · rw [if_neg hcid] at hc
      exact h cid c hc k g hk hne

theorem get_gene_set_gene (G : gtf_spec) (p : Nat × Nat) (g0 g1 : gtf)
    (h : get_gene G p = some g0) : get_gene (set_gene G p g1) p = some g1 := by
  unfold get_gene at *
  rw [set_gene_name]
  cases hq : dict_query_value G.name p.1 with
  | none => rw [hq] at h; cases h
  | some c0 =>
    rw [hq] at h
    simp only [Option.bind_eq_bind, Option.some_bind] at h
    simp only [qv_assign, if_true, if_pos (qv_lt _ _ _ hq), Option.bind_eq_bind, Option.some_bind]
    have hlt : p.2 < c0.gtf.length := by
      by_contra hn
      rw [List.get?_eq_none.2 (by omega)] at h
      cases h
    rw [List.get?_eq_getElem?, List.getElem?_set_self hlt]

theorem get_gene_mem (G : gtf_spec) (p : Nat × Nat) (g : gtf) (h : get_gene G p = some g) :
    ∃ c, dict_query_value G.name p.1 = some c ∧ c.gtf.get? p.2 = some g := by
  unfold get_gene at h
  cases hq : dict_query_value G.name p.1 with
  | none => rw [hq] at h; cases h
  | some c0 =>
    rw [hq] at h
    exact ⟨c0, rfl, h⟩

theorem ids_set_iff (f : gtf_fields) :
    ids_set f = true ↔ f.gene_id ≠ -1 ∧ f.gene_name ≠ -1 := by
  simp [ids_set]

theorem tx_ok_copy (r : gtf_fields) (hr : ids_set r = true) : tx_ok (gtf_copy r) := by
  refine ⟨?_, ?_⟩
  · rw [ids_set_iff] at *
    exact hr
  · intro x hx
    simp [gtf_copy, gtf.children] at hx

theorem get_tx_gene (G : gtf_spec) (tp : Nat × Nat × Nat) (tx : gtf)
    (h : get_tx G tp = some tx) :
    ∃ g, get_gene G (tp.1, tp.2.1) = some g ∧ g.children.get? tp.2.2 = some tx := by
  unfold get_tx at h
  cases hg : get_gene G (tp.1, tp.2.1) with
  | none => rw [hg] at h; cases h
  | some g =>
    rw [hg] at h
    exact ⟨g, rfl, h⟩

theorem mem_set_cases {α : Type} (l : List α) (k : Nat) (a x : α) (h : x ∈ l.set k a) :
    x = a ∨ ∃ j, j ≠ k ∧ l.get? j = some x := by
  obtain ⟨j, hj⟩ := List.get?_of_mem h
  by_cases hjk : j = k
  · subst hjk
    have hlt : j < l.length := by
      by_contra hn
      rw [List.get?_eq_none.2 (by simp; omega)] at hj
      cases hj
    rw [List.get?_eq_getElem?, List.getElem?_set_self hlt] at hj
    simp only [Option.some.injEq] at hj
    exact Or.inl hj.symm
  · rw [List.get?_eq_getElem?, List.getElem?_set_ne (fun h0 => hjk h0.symm)] at hj
    exact Or.inr ⟨j, hjk, by rw [List.get?_eq_getElem?]; exact hj⟩

theorem get_append_ne {α : Type} (l : List α) (a x : α) (k : Nat)
    (h : (l ++ [a]).get? k = some x) (hk : k ≠ l.length) : x ∈ l := by
  by_cases hlt : k < l.length
  · rw [List.get?_eq_getElem?, List.getElem?_append_left hlt] at h
    exact List.getElem?_mem h
  · rw [List.get?_eq_none.2 (by simp; omega)] at h
    cases h

theorem ids_set_tx_inherit (f r : gtf_fields) (hr : ids_set r = true) :
    ids_set (tx_inherit f r) = true := by
  have hr2 := (ids_set_iff r).1 hr
  rw [ids_set_iff]
  simp only [tx_inherit]
  constructor
  · split <;> [exact hr2.1; assumption]
  · split <;> [exact hr2.2; assumption]

theorem ids_set_gene_inherit (f r : gtf_fields) (hr : ids_set r = true) :
    ids_set (gene_inherit f r) = true := by
  have hr2 := (ids_set_iff r).1 hr
  rw [ids_set_iff]
  simp only [gene_inherit]
  constructor
  · split <;> [exact hr2.1; assumption]
  · split <;> [exact hr2.2; assumption]

/-- The last part of `gtf_push` sets the gene ids of the transcript it writes
to and of the child it adds. -/
theorem gtf_push_sub_inv (G : gtf_spec) (tp : Nat × Nat × Nat) (r : gtf_fields)
    (res : Int × gtf_spec) (hr : ids_set r = true) (h : gtf_push_sub G tp r = some res)
    (hex : ids_inv_but G.name (tp.1, tp.2.1))
    (hg : ∀ g, get_gene G (tp.1, tp.2.1) = some g →
      ids_set g.f = true ∧ ∀ k t, g.children.get? k = some t → k ≠ tp.2.2 → tx_ok t)
    (ht : ∀ tx, get_tx G tp = some tx → ∀ x ∈ tx.children, ids_set x.f = true) :
    ids_inv res.2.name := by
  unfold gtf_push_sub at h
  cases htx : get_tx G tp with
  | none => rw [htx] at h; cases h
  | some tx =>
    rw [htx] at h
    simp only at h
    split at h
    · simp only [Option.some.injEq] at h
      subst h
      obtain ⟨g, hgg, hk⟩ := get_tx_gene G tp tx htx
      simp only [set_tx, hgg]
      apply ids_inv_set_gene G _ _ hex
      refine ⟨(hg g hgg).1, ?_⟩
      intro t htm
      simp only [gtf.children] at htm
      rcases mem_set_cases _ _ _ _ htm with h0 | ⟨j, hj, hjt⟩
      · subst h0
        refine ⟨ids_set_tx_inherit _ _ hr, ?_⟩
        intro x hx
        simp only [gtf.children] at hx
        rcases List.mem_append.1 hx with hx | hx
        · exact ht tx htx x hx
        · simp only [List.mem_singleton] at hx
          subst hx
          exact (tx_ok_copy r hr).1
      · exact (hg g hgg).2 j t hjt hj
    · cases h

/-- The middle part of `gtf_push` sets the gene ids of the gene it writes to
and of the transcript it adds. -/
theorem gtf_push_tx_inv (h : gtf_h) (G : gtf_spec) (p : Nat × Nat) (r : gtf_fields)
    (feature : Int) (res : Int × gtf_spec) (hr : ids_set r = true)
    (hp : gtf_push_tx h G p r feature = some res) (hex : ids_inv_but G.name p)
    (hc : ∀ g, get_gene G p = some g → ∀ t ∈ g.children, tx_ok t) : ids_inv res.2.name := by
  unfold gtf_push_tx at hp
  split at hp
  · cases hp
  · cases hgene : get_gene G p with
    | none => rw [hgene] at hp; cases hp
    | some gene =>
      rw [hgene] at hp
      simp only at hp
      have hgf := ids_set_gene_inherit gene.f r hr
      have hG1 := ids_inv_set_gene G p (.mk (gene_inherit gene.f r) gene.children) hex
        ⟨hgf, hc gene hgene⟩
      split at hp
      · rename_i tp htp
        split at hp
        · simp only [Option.some.injEq] at hp
          subst hp
          exact hG1
        · refine gtf_push_sub_inv _ tp r res hr hp (ids_inv_but_of_inv _ _ hG1) ?_ ?_
          · intro g hg
            obtain ⟨c, hc1, hc2⟩ := get_gene_mem _ _ _ hg
            have := hG1 _ c hc1 g (List.get?_mem hc2)
            exact ⟨this.1, fun k t hk _ => this.2 t (List.get?_mem hk)⟩
          · intro tx htx x hx
            obtain ⟨g, hg, hk⟩ := get_tx_gene _ _ _ htx
            obtain ⟨c, hc1, hc2⟩ := get_gene_mem _ _ _ hg
            exact ((hG1 _ c hc1 g (List.get?_mem hc2)).2 tx (List.get?_mem hk)).2 x hx
      · split at hp
        · simp only [Option.some.injEq] at hp
          subst hp
          refine ids_inv_set_gene G p _ hex ⟨hgf, ?_⟩
          intro t htm
          simp only [gtf.children] at htm
          rcases List.mem_append.1 htm with htm | htm
          · exact hc gene hgene t htm
          · simp only [List.mem_singleton] at htm
            subst htm
            exact tx_ok_copy r hr
        · have hget : get_gene (set_gene G p (.mk (gene_inherit gene.f r)
              (gene.children ++ [gtf_synth h.feature_transcript]))) p = some _ :=
            get_gene_set_gene G p gene _ hgene
          refine gtf_push_sub_inv _ (p.1, p.2, gene.children.length) r res hr hp ?_ ?_ ?_
          · exact ids_inv_but_set_gene G p _ hex
          · intro g hg
            have hg2 : get_gene (set_gene G p (.mk (gene_inherit gene.f r)
              (gene.children ++ [gtf_synth h.feature_transcript]))) p = some g := hg
            rw [hget] at hg2
            simp only [Option.some.injEq] at hg2
            subst hg2
            refine ⟨hgf, ?_⟩
            intro k t hk hne
            exact hc gene hgene t (get_append_ne _ _ _ _ hk hne)
          · intro tx htx x hx
            obtain ⟨g, hg, hk⟩ := get_tx_gene _ _ _ htx
            have hg2 : get_gene (set_gene G p (.mk (gene_inherit gene.f r)
              (gene.children ++ [gtf_synth h.feature_transcript]))) p = some g := hg
            rw [hget] at hg2
            simp only [Option.some.injEq] at hg2
            subst hg2
            simp only [gtf.children, List.get?_eq_getElem?, List.getElem?_concat_length,
              Option.some.injEq] at hk
            subst hk
            simp [gtf.children, gtf_synth] at hx

theorem ids_inv_append (name : dict gtf_ctg) (ctg : Nat) (c : gtf_ctg) (g1 : gtf)
    (hinv : ids_inv name) (hq : dict_query_value name ctg = some c) (hg : gene_ok g1) :
    ids_inv (dict_assign_value name ctg { c with gtf := c.gtf ++ [g1] }) := by
  intro cid c1 hc g hgm
  simp only [qv_assign] at hc
  by_cases hcid : cid = ctg
  · rw [if_pos hcid, if_pos (qv_lt _ _ _ hq)] at hc
    simp only [Option.some.injEq] at hc
    subst hc
    simp only at hgm
    rcases List.mem_append.1 hgm with hgm | hgm
    · exact hinv ctg c hq g hgm
    · simp only [List.mem_singleton] at hgm
      subst hgm
      exact hg
  · rw [if_neg hcid] at hc
    exact hinv cid c1 hc g hgm

theorem ids_inv_but_append (name : dict gtf_ctg) (ctg : Nat) (c : gtf_ctg) (g1 : gtf)
    (hinv : ids_inv name) (hq : dict_query_value name ctg = some c) :
    ids_inv_but (dict_assign_value name ctg { c with gtf := c.gtf ++ [g1] })
      (ctg, c.gtf.length) := by
  intro cid c1 hc k g hk hne
  simp only [qv_assign] at hc
  by_cases hcid : cid = ctg
  · rw [if_pos hcid, if_pos (qv_lt _ _ _ hq)] at hc
    simp only [Option.some.injEq] at hc
    subst hc
    simp only at hk
    have hkl : k ≠ c.gtf.length := by
      intro h0
      apply hne
      rw [hcid, h0]
    exact hinv ctg c hq g (get_append_ne _ _ _ _ hk hkl)
  · rw [if_neg hcid] at hc
    exact hinv cid c1 hc g (List.get?_mem hk)

theorem get_gene_append (G : gtf_spec) (name : dict gtf_ctg) (ctg : Nat) (c : gtf_ctg) (g1 : gtf)
    (hq : dict_query_value name ctg = some c)
    (hG : G.name = dict_assign_value name ctg { c with gtf := c.gtf ++ [g1] }) :
    get_gene G (ctg, c.gtf.length) = some g1 := by
  unfold get_gene
  rw [hG]
  simp only [qv_assign, if_true, if_pos (qv_lt _ _ _ hq), Option.bind_eq_bind, Option.some_bind]
  rw [List.get?_eq_getElem?, List.getElem?_concat_length]

/-- The `gtf_push` of a record with both gene ids keeps the gene ids of all
records set. -/
theorem gtf_push_inv (h : gtf_h) (G : gtf_spec) (ctg : Nat) (r : gtf_fields) (feature : Int)
    (res : Int × gtf_spec) (hr : ids_set r = true)
    (hp : gtf_push h G ctg r feature = some res) (hinv : ids_inv G.name) :
    ids_inv res.2.name := by
  unfold gtf_push at hp
  split at hp
  · rename_i p _
    split at hp
    · simp only [Option.some.injEq] at hp
      subst hp
      exact hinv
    · refine gtf_push_tx_inv h G p r feature res hr hp (ids_inv_but_of_inv _ _ hinv) ?_
      intro g hg
      obtain ⟨c, hc1, hc2⟩ := get_gene_mem _ _ _ hg
      exact (hinv _ c hc1 g (List.get?_mem hc2)).2
  · split at hp
    · cases hp
    · rename_i c hq
      simp only at hp
      split at hp
      · simp only [Option.some.injEq] at hp
        subst hp
        exact ids_inv_append G.name ctg c _ hinv hq ⟨(tx_ok_copy r hr).1, fun t ht => by
          simp [gtf_copy, gtf.children] at ht⟩
      · refine gtf_push_tx_inv h _ (ctg, c.gtf.length) r feature res hr hp ?_ ?_
        · exact ids_inv_but_append G.name ctg c _ hinv hq
        · intro g hg
          rw [get_gene_append _ G.name ctg c _ hq rfl] at hg
          simp only [Option.some.injEq] at hg
          subst hg
          intro t ht
          simp [gtf.children, gtf_synth] at ht

theorem name_ext_refl (n : dict gtf_ctg) : name_ext n n := fun _ => Or.inl rfl

theorem ids_inv_ext (n0 n1 : dict gtf_ctg) (h : name_ext n0 n1) (hinv : ids_inv n0) :
    ids_inv n1 := by
  intro cid c hc g hg
  rcases h cid with h1 | ⟨_, h1⟩
  · rw [h1] at hc
    exact hinv cid c hc g hg
  · rw [h1] at hc
    simp only [Option.some.injEq] at hc
    subst hc
    cases hg

theorem genes_of_ext (G G1 : gtf_spec) (h : name_ext G.name G1.name) (cid : Nat) :
    genes_of G1 cid = genes_of G cid := by
  unfold genes_of
  rcases h cid with h1 | ⟨h0, h1⟩
  · rw [h1]
  · rw [h1, h0]

theorem parse_head_name (G : gtf_spec) (l : gtf_line) (qry : Int) :
    name_ext G.name (parse_head G l qry).1.name := by
  intro cid
  simp only [parse_head]
  cases hq : dict_query_value (dict_push G.name l.seqname).2 (dict_push G.name l.seqname).1 with
  | some c =>
    left
    exact qv_push G.name l.seqname cid
  | none =>
    simp only [qv_assign]
    by_cases hcid : cid = (dict_push G.name l.seqname).1
    · right
      have hlt : (dict_push G.name l.seqname).1 < (dict_push G.name l.seqname).2.data.length :=
        (dict_push_size G.name l.seqname).2
      rw [if_pos hcid, if_pos hlt]
      rw [hcid, ← qv_push G.name l.seqname, hq]
      exact ⟨rfl, rfl⟩
    · left
      rw [if_neg hcid]
      exact qv_push G.name l.seqname cid

theorem parse_head_ids (G : gtf_spec) (l : gtf_line) (qry : Int) :
    (parse_head G l qry).2.gene_id = -1 ∧ (parse_head G l qry).2.gene_name = -1 :=
  ⟨rfl, rfl⟩

theorem parse_attr_frame (filter : Int) (s s1 : gtf_spec × gtf_fields) (pp : attr_pair)
    (h : parse_attr filter s pp = some s1) :
    s1.1.name = s.1.name ∧ (pp.key ≠ "gene_id" → s1.2.gene_id = s.2.gene_id) ∧
    (pp.key ≠ "gene_name" ∧ pp.key ≠ "gene" → s1.2.gene_name = s.2.gene_name) := by
  unfold parse_attr at h
  split at h
  · rename_i hk
    cases hv : pp.val with
    | none => rw [hv] at h; cases h
    | some v =>
      rw [hv] at h
      simp only [Option.map_some', Option.some.injEq] at h
      subst h
      exact ⟨rfl, fun h0 => absurd hk h0, fun _ => rfl⟩
  · split at h
    · rename_i hk
      cases hv : pp.val with
      | none => rw [hv] at h; cases h
      | some v =>
        rw [hv] at h
        simp only [Option.map_some', Option.some.injEq] at h
        subst h
        exact ⟨rfl, fun _ => rfl, fun h0 => absurd hk h0.1⟩
    · split at h
      · rename_i hk
        cases hv : pp.val with
        | none => rw [hv] at h; cases h
        | some v =>
          rw [hv] at h
          simp only [Option.map_some', Option.some.injEq] at h
          subst h
          exact ⟨rfl, fun _ => rfl, fun h0 => absurd hk h0.2⟩
      · split at h
        · cases hv : pp.val with
          | none => rw [hv] at h; cases h
          | some v =>
            rw [hv] at h
            simp only [Option.map_some', Option.some.injEq] at h
            subst h
            exact ⟨rfl, fun _ => rfl, fun _ => rfl⟩
        · split at h
          · simp only [Option.some.injEq] at h
            subst h
            exact ⟨rfl, fun _ => rfl, fun _ => rfl⟩
          · simp only [Option.some.injEq] at h
            subst h
            exact ⟨rfl, fun _ => rfl, fun _ => rfl⟩

theorem parse_attrs_frame (filter : Int) : ∀ (attr : List attr_pair)
    (s s1 : gtf_spec × gtf_fields), parse_attrs filter s attr = some s1 →
    s1.1.name = s.1.name ∧
    ((∀ pp ∈ attr, pp.key ≠ "gene_id") → s1.2.gene_id = s.2.gene_id) ∧
    ((∀ pp ∈ attr, pp.key ≠ "gene_name" ∧ pp.key ≠ "gene") → s1.2.gene_name = s.2.gene_name)
  | [], s, s1, h => by
    simp only [parse_attrs, Option.some.injEq] at h
    subst h
    exact ⟨rfl, fun _ => rfl, fun _ => rfl⟩
  | pp :: t, s, s1, h => by
    simp only [parse_attrs] at h
    cases hp : parse_attr filter s pp with
    | none => rw [hp] at h; cases h
    | some s2 =>
      rw [hp] at h
      simp only at h
      obtain ⟨a1, a2, a3⟩ := parse_attr_frame filter s s2 pp hp
      obtain ⟨b1, b2, b3⟩ := parse_attrs_frame filter t s2 s1 h
      refine ⟨by rw [b1, a1], ?_, ?_⟩
      · intro hk
        rw [b2 (fun x hx => hk x (List.mem_cons_of_mem _ hx)), a2 (hk pp (List.mem_cons_self _ _))]
      · intro hk
        rw [b3 (fun x hx => hk x (List.mem_cons_of_mem _ hx)), a3 (hk pp (List.mem_cons_self _ _))]

theorem dict_push_name {α : Type} (d : dict α) (s : String) :
    dict_name (dict_push d s).2 (dict_push d s).1 = some s := by
  have := dict_find_some s _ _ (dict_push_find d s)
  simp only [dict_name]
  exact this.2

theorem parse_fill_spec (G G2 : gtf_spec) (gtf gtf2 : gtf_fields)
    (hne : ¬ (gtf.gene_id = -1 ∧ gtf.gene_name = -1)) (h : parse_fill G gtf = some (G2, gtf2)) :
    G2.name = G.name ∧ ids_set gtf2 = true ∧
    (gtf.gene_id = -1 ∨ gtf.gene_name = -1 →
      ∃ s, dict_name G2.gene_id gtf2.gene_id.toNat = some s ∧
        dict_name G2.gene_name gtf2.gene_name.toNat = some s) := by
  unfold parse_fill at h
  by_cases hid : gtf.gene_id = -1
  · have hnm : gtf.gene_name ≠ -1 := fun h0 => hne ⟨hid, h0⟩
    rw [if_pos hid] at h
    cases hs : dict_name G.gene_name gtf.gene_name.toNat with
    | none => rw [hs] at h; cases h
    | some s =>
      rw [hs] at h
      simp only [Option.map_some', if_neg hnm, Option.some.injEq, Prod.mk.injEq] at h
      obtain ⟨h1, h2⟩ := h
      subst h1
      subst h2
      refine ⟨rfl, ?_, fun _ => ⟨s, ?_, hs⟩⟩
      · rw [ids_set_iff]
        exact ⟨by simp only; omega, hnm⟩
      · simp only [Int.toNat_ofNat]
        exact dict_push_name G.gene_id s
  · rw [if_neg hid] at h
    simp only at h
    by_cases hnm : gtf.gene_name = -1
    · rw [if_pos hnm] at h
      cases hs : dict_name G.gene_id gtf.gene_id.toNat with
      | none => rw [hs] at h; cases h
      | some s =>
        rw [hs] at h
        simp only [Option.map_some', Option.some.injEq, Prod.mk.injEq] at h
        obtain ⟨h1, h2⟩ := h
        subst h1
        subst h2
        refine ⟨rfl, ?_, fun _ => ⟨s, hs, ?_⟩⟩
        · rw [ids_set_iff]
          exact ⟨hid, by simp only; omega⟩
        · simp only [Int.toNat_ofNat]
          exact dict_push_name G.gene_name s
    · rw [if_neg hnm] at h
      simp only [Option.some.injEq, Prod.mk.injEq] at h
      obtain ⟨h1, h2⟩ := h
      subst h1
      subst h2
      refine ⟨rfl, ?_, fun h0 => ?_⟩
      · rw [ids_set_iff]
        exact ⟨hid, hnm⟩
      · rcases h0 with h0 | h0
        · exact absurd h0 hid
        · exact absurd h0 hnm

/-- What `parse_str` has done when it reaches the call of `gtf_push`, or
returns before it. -/
theorem parse_rec_spec (h : gtf_h) (G : gtf_spec) (l : gtf_line) (filter : Int) (pr : parsed)
    (hp : parse_rec h G l filter = some pr) :
    (∃ code G1, pr = .ret code G1 ∧ name_ext G.name G1.name) ∨
    (∃ G1 rcd qry, pr = .record G1 rcd qry ∧ name_ext G.name G1.name ∧ ids_set rcd = true ∧
      (∃ pp ∈ l.attr, pp.key = "gene_id" ∨ pp.key = "gene_name" ∨ pp.key = "gene") ∧
      (((∀ pp ∈ l.attr, pp.key ≠ "gene_id") ∨
          (∀ pp ∈ l.attr, pp.key ≠ "gene_name" ∧ pp.key ≠ "gene")) →
        ∃ s, dict_name G1.gene_id rcd.gene_id.toNat = some s ∧
          dict_name G1.gene_name rcd.gene_name.toNat = some s)) := by
  unfold parse_rec at hp
  split at hp
  · simp only [Option.some.injEq] at hp
    subst hp
    exact Or.inl ⟨1, G, rfl, name_ext_refl _⟩
  · rename_i q _
    simp only at hp
    split at hp
    · simp only [Option.some.injEq] at hp
      subst hp
      exact Or.inl ⟨0, G, rfl, name_ext_refl _⟩
    · split at hp
      · cases hp
      · rename_i s hs
        obtain ⟨a1, a2, a3⟩ := parse_attrs_frame filter l.attr _ s hs
        have hext : name_ext G.name s.1.name := by
          rw [a1]
          exact parse_head_name G l q
        split at hp
        · simp only [Option.some.injEq] at hp
          subst hp
          exact Or.inl ⟨1, s.1, rfl, hext⟩
        · rename_i hne
          cases hf : parse_fill s.1 s.2 with
          | none => rw [hf] at hp; cases hp
          | some r =>
            rw [hf] at hp
            simp only [Option.map_some', Option.some.injEq] at hp
            subst hp
            obtain ⟨b1, b2, b3⟩ := parse_fill_spec s.1 r.1 s.2 r.2 hne hf
            refine Or.inr ⟨r.1, r.2, q, rfl, by rw [b1]; exact hext, b2, ?_, ?_⟩
            · by_contra hno
              apply hne
              have hno2 : ∀ pp ∈ l.attr,
                  pp.key ≠ "gene_id" ∧ pp.key ≠ "gene_name" ∧ pp.key ≠ "gene" := by
                intro pp hpp
                refine ⟨fun h0 => hno ⟨pp, hpp, Or.inl h0⟩,
                  fun h0 => hno ⟨pp, hpp, Or.inr (Or.inl h0)⟩,
                  fun h0 => hno ⟨pp, hpp, Or.inr (Or.inr h0)⟩⟩
              rw [a2 (fun pp hpp => (hno2 pp hpp).1), a3 (fun pp hpp => (hno2 pp hpp).2)]
              exact parse_head_ids G l q
            · intro hk
              apply b3
              rcases hk with hk | hk
              · left
                rw [a2 hk]
                exact (parse_head_ids G l q).1
              · right
                rw [a3 hk]
                exact (parse_head_ids G l q).2

theorem ids_inv_iff (G : gtf_spec) : records_all ids_set G = true ↔ ids_inv G.name := by
  simp only [records_all, List.all_eq_true, ids_inv, gene_ok, tx_ok]
  constructor
  · intro h cid c hc g hg
    simp only [dict_query_value] at hc
    cases he : G.name.data.get? cid with
    | none => rw [he] at hc; cases hc
    | some e =>
      rw [he] at hc
      simp only [Option.bind_eq_bind, Option.some_bind] at hc
      have := h e (List.get?_mem he)
      rw [hc] at this
      simp only [List.all_eq_true, Bool.and_eq_true] at this
      exact this g hg
  · intro h e he
    cases hc : e.2 with
    | none => rfl
    | some c =>
      simp only [List.all_eq_true, Bool.and_eq_true]
      obtain ⟨cid, hcid⟩ := List.get?_of_mem he
      refine h cid c ?_
      simp only [dict_query_value, hcid, Option.bind_eq_bind, Option.some_bind, hc]

theorem parse_str_inv (h : gtf_h) (G : gtf_spec) (l : gtf_line) (filter : Int)
    (r : Int × gtf_spec) (hp : parse_str h G l filter = some r) (hinv : ids_inv G.name) :
    ids_inv r.2.name := by
  unfold parse_str at hp
  cases hr : parse_rec h G l filter with
  | none => rw [hr] at hp; cases hp
  | some pr =>
    rw [hr] at hp
    rcases parse_rec_spec h G l filter pr hr with ⟨code, G1, h1, hext⟩ | ⟨G1, rcd, qry, h1, hext, hids, _⟩
    · subst h1
      simp only [Option.some.injEq] at hp
      subst hp
      exact ids_inv_ext _ _ hext hinv
    · subst h1
      simp only at hp
      cases hg : gtf_push h G1 rcd.seqname.toNat rcd qry with
      | none => rw [hg] at hp; cases hp
      | some res =>
        rw [hg] at hp
        simp only [Option.map_some', Option.some.injEq] at hp
        subst hp
        exact gtf_push_inv h G1 _ rcd qry res hids hg (ids_inv_ext _ _ hext hinv)

theorem gtf_read_lines_inv (h : gtf_h) (f : Int) : ∀ (lines : List gtf_line) (G G1 : gtf_spec),
    gtf_read_lines h f G lines = some G1 → ids_inv G.name → ids_inv G1.name
  | [], G, G1, hr, hinv => by
    simp only [gtf_read_lines, Option.some.injEq] at hr
    subst hr
    exact hinv
  | l :: t, G, G1, hr, hinv => by
    simp only [gtf_read_lines] at hr
    cases hp : parse_str h G l f with
    | none => rw [hp] at hr; cases hr
    | some r =>
      rw [hp] at hr
      exact gtf_read_lines_inv h f t r.2 G1 hr (parse_str_inv h G l f r hp hinv)

/-! ## The claims on the annotation model -/

/-- C15, the code at the failing input: the gene lines `G2 [400,900]` and
`G1 [100,500]` of contig `chr1`, in this order, give a model whose contig holds
both genes, and the query `(150, 200)` returns `NULL` although `G1` has
`start <= 200` and `end >= 150`: the test `end < ctg->gtf[0]->start` reads the
first gene of the array, which is the first gene of the file, not the gene of
least start.  With the lines in the other order the same query finds `G1`, and
the queries `(450, 460)` and `(600, 700)` of the specification give both genes
and `G2` alone. -/
theorem C15_query_depends_on_gene_order :
    (gtf_read demo_gtf_h [gene_line "G2" 400 900, gene_line "G1" 100 500] 0).map
        (fun o => o.map (fun G => (dict_query_value G.name 0).map (fun c => c.gtf.map gtf.f)))
      = some (some (some
          [⟨0, 0, 0, 400, 900, 0, 0, 0, -1⟩, ⟨0, 0, 0, 100, 500, 0, 1, 1, -1⟩])) ∧
    demo_query [gene_line "G2" 400 900, gene_line "G1" 100 500] "chr1" 150 200 = some none ∧
    demo_query [gene_line "G1" 100 500, gene_line "G2" 400 900] "chr1" 150 200
      = some (some [⟨0, 0, 0, 100, 500, 0, 0, 0, -1⟩]) ∧
    demo_query [gene_line "G1" 100 500, gene_line "G2" 400 900] "chr1" 450 460
      = some (some [⟨0, 0, 0, 100, 500, 0, 0, 0, -1⟩, ⟨0, 0, 0, 400, 900, 0, 1, 1, -1⟩]) ∧
    demo_query [gene_line "G1" 100 500, gene_line "G2" 400 900] "chr1" 600 700
      = some (some [⟨0, 0, 0, 400, 900, 0, 1, 1, -1⟩]) := by
  refine ⟨?_, ?_, ?_, ?_, ?_⟩ <;> decide!

/-- C16, the code at the failing input: a `gene` line `G1 [100,500]` followed by
an `exon` line `[600,700]` of gene `G2`, transcript `T2`.  The gene `G2` is
synthesised, so its `seqname` stays `-1`, and `cmpfunc1` compares `seqname`
first: the query `(0, 1000)` returns `G2 [600,700]` before `G1 [100,500]`, in
whatever order the index hands the two records to `qsort`. -/
theorem C16_synthetic_gene_sorts_first :
    demo_query [gene_line "G1" 100 500, exon_line "G2" "T2" 600 700] "chr1" 0 1000
      = some (some [⟨-1, -1, 0, 600, 700, 0, 1, 1, -1⟩, ⟨0, 0, 0, 100, 500, 0, 0, 0, -1⟩]) ∧
    cmpfunc1 (.mk ⟨-1, -1, 0, 600, 700, 0, 1, 1, -1⟩ []) (.mk ⟨0, 0, 0, 100, 500, 0, 0, 0, -1⟩ [])
      = -1 ∧
    (qsort cmpfunc1 [gtf.mk ⟨0, 0, 0, 100, 500, 0, 0, 0, -1⟩ [],
        gtf.mk ⟨-1, -1, 0, 600, 700, 0, 1, 1, -1⟩ []]).map gtf.f
      = [⟨-1, -1, 0, 600, 700, 0, 1, 1, -1⟩, ⟨0, 0, 0, 100, 500, 0, 0, 0, -1⟩] ∧
    (qsort cmpfunc1 [gtf.mk ⟨-1, -1, 0, 600, 700, 0, 1, 1, -1⟩ [],
        gtf.mk ⟨0, 0, 0, 100, 500, 0, 0, 0, -1⟩ []]).map gtf.f
      = [⟨-1, -1, 0, 600, 700, 0, 1, 1, -1⟩, ⟨0, 0, 0, 100, 500, 0, 0, 0, -1⟩] := by
  refine ⟨?_, ?_, ?_, ?_⟩ <;> decide!

/-- C17: after `gtf_build_index` has run `gtf_sort` on every gene of a model
whose childless records below the genes have a start that is set (not
negative, as every coordinate of an annotation line is), the interval of every
gene contains the interval of each of its transcripts and the interval of every
transcript contains the interval of each of its sub-features.  The build gets
through when every contig has its record and the childless records below the
genes span two bases or more. -/
theorem C17_intervals_nested (G : gtf_spec) (hpos : model_leaves start_set G = true) :
    (∀ n G1, gtf_build_index G = some (n, G1) →
      ∀ e ∈ G1.name.data, ∀ ctg, e.2 = some ctg → ∀ g ∈ ctg.gtf, ∀ tx ∈ g.children,
        (g.f.start ≤ tx.f.start ∧ tx.f.end_ ≤ g.f.end_) ∧
        ∀ x ∈ tx.children, tx.f.start ≤ x.f.start ∧ x.f.end_ ≤ tx.f.end_) ∧
    ((∀ e ∈ G.name.data, e.2.isSome = true) → model_leaves span_ok G = true →
      ∃ n G1, gtf_build_index G = some (n, G1)) := by
  rw [model_leaves_iff] at hpos
  constructor
  · intro n G1 hb e1 he1 c1 hc1 g1 hg1 tx htx
    simp only [gtf_build_index, Option.map_eq_some'] at hb
    obtain ⟨r, hr, hG⟩ := hb
    simp only [Prod.mk.injEq] at hG
    obtain ⟨_, hG⟩ := hG
    subst hG
    obtain ⟨e, he, c, hc, hs⟩ := build_ctgs_mem _ r hr e1 he1 c1 hc1
    obtain ⟨g, hg, hsg⟩ := gtf_sort_list_mem _ _ hs g1 hg1
    obtain ⟨_, _, h3, h4⟩ := gtf_sort_node g g1 (hpos e he c hc g hg) hsg
    exact ⟨h3 tx htx, (h4 tx htx).2⟩
  · intro hsome hspan
    rw [model_leaves_iff] at hspan
    have : ∃ r, build_ctgs G.name.data = some r := by
      apply build_ctgs_total
      intro e he
      cases hc : e.2 with
      | none =>
        have := hsome e he
        rw [hc] at this
        cases this
      | some c => exact ⟨c, rfl, gtf_sort_list_genes_total c.gtf (hspan e he c hc)⟩
    obtain ⟨r, hr⟩ := this
    exact ⟨r.1, { G with name := ⟨r.2⟩ }, by simp [gtf_build_index, hr]⟩

theorem C17_intervals_nested_witness :
    model_leaves start_set
        (demo_model [gene_line "G1" 150 250, tx_line "G1" "T1" 200 800,
          exon_line "G1" "T1" 300 400, exon_line "G1" "T1" 100 120, exon_line "G2" "T2" 7 7,
          exon_line "G2" "T2" 5 5]) = true ∧
    (gtf_build_index
        (demo_model [gene_line "G1" 150 250, tx_line "G1" "T1" 200 800,
          exon_line "G1" "T1" 300 400, exon_line "G1" "T1" 100 120, exon_line "G2" "T2" 7 7,
          exon_line "G2" "T2" 5 5])).map
      (fun r => (dict_query_value r.2.name 0).map (fun c =>
        (c.gtf.map (fun g => (g.f.start, g.f.end_)),
         c.gtf.flatMap (fun g => g.children.map (fun t => (t.f.start, t.f.end_))),
         c.gtf.flatMap (fun g => g.children.flatMap (fun t =>
           t.children.map (fun x => (x.f.start, x.f.end_)))))))
      = some (some ([(100, 800), (5, 7)], [(100, 800), (5, 7)],
          [(100, 120), (300, 400), (5, 5), (7, 7)])) ∧
    ((∀ n G1, gtf_build_index
        (demo_model [gene_line "G1" 150 250, tx_line "G1" "T1" 200 800,
          exon_line "G1" "T1" 300 400, exon_line "G1" "T1" 100 120, exon_line "G2" "T2" 7 7,
          exon_line "G2" "T2" 5 5]) = some (n, G1) →
      ∀ e ∈ G1.name.data, ∀ ctg, e.2 = some ctg → ∀ g ∈ ctg.gtf, ∀ tx ∈ g.children,
        (g.f.start ≤ tx.f.start ∧ tx.f.end_ ≤ g.f.end_) ∧
        ∀ x ∈ tx.children, tx.f.start ≤ x.f.start ∧ x.f.end_ ≤ tx.f.end_) ∧
    ((∀ e ∈ (demo_model [gene_line "G1" 150 250, tx_line "G1" "T1" 200 800,
          exon_line "G1" "T1" 300 400, exon_line "G1" "T1" 100 120, exon_line "G2" "T2" 7 7,
          exon_line "G2" "T2" 5 5]).name.data, e.2.isSome = true) →
      model_leaves span_ok
        (demo_model [gene_line "G1" 150 250, tx_line "G1" "T1" 200 800,
          exon_line "G1" "T1" 300 400, exon_line "G1" "T1" 100 120, exon_line "G2" "T2" 7 7,
          exon_line "G2" "T2" 5 5]) = true →
      ∃ n G1, gtf_build_index
        (demo_model [gene_line "G1" 150 250, tx_line "G1" "T1" 200 800,
          exon_line "G1" "T1" 300 400, exon_line "G1" "T1" 100 120, exon_line "G2" "T2" 7 7,
          exon_line "G2" "T2" 5 5]) = some (n, G1))) :=
  ⟨by decide!, by decide!, C17_intervals_nested _ (by decide!)⟩

/-- C18, amended: `gtf_sort` leaves a record that has children, all childless
records below it with a start that is set, with
`start = min (own start, children's starts)` when its own start was set and
`start = min (children's starts)` when it was not, and with
`end = max (own end, children's ends)`: the interval contains every child,
`start` is no more than the own start when that was set, `end` is no less than
the own end, and each bound is the own one or that of a child.  A synthesised
record (own start and end `-1`) gets both bounds from its children. -/
theorem C18_bounds_from_children_and_own (g g1 : gtf)
    (hl : leaves_all_list start_set g.children = true) (hc : g.children.length ≠ 0)
    (h : gtf_sort g = some g1) :
    g1.children.length ≠ 0 ∧
    (∀ c ∈ g1.children, g1.f.start ≤ c.f.start ∧ c.f.end_ ≤ g1.f.end_) ∧
    (0 ≤ g.f.start → g1.f.start ≤ g.f.start ∧
      (g1.f.start = g.f.start ∨ ∃ c ∈ g1.children, g1.f.start = c.f.start)) ∧
    (g.f.start < 0 → ∃ c ∈ g1.children, g1.f.start = c.f.start) ∧
    g.f.end_ ≤ g1.f.end_ ∧
    (g1.f.end_ = g.f.end_ ∨ ∃ c ∈ g1.children, g1.f.end_ = c.f.end_) ∧
    (g.f.end_ ≤ 0 → ∃ c ∈ g1.children, g1.f.end_ = c.f.end_) := by
  have hc0 : g.children ≠ [] := fun h0 => hc (by rw [h0]; rfl)
  obtain ⟨_, h2, h3, _⟩ := gtf_sort_node g g1 hl h
  obtain ⟨a1, a2, a3, a4, a5, a6, a7, a8⟩ := h2 hc0
  refine ⟨fun h0 => a1 (List.length_eq_zero.1 h0), h3, fun h0 => ⟨a4 h0, a5⟩, a6, a7, a8, ?_⟩
  intro h0
  rcases a8 with a8 | a8
  · omega
  · exact a8

theorem C18_bounds_from_children_and_own_witness :
    leaves_all_list start_set
        (gtf.mk ⟨0, 0, 0, 100, 900, 0, 0, 0, -1⟩ [.mk ⟨0, 0, 1, 200, 800, 0, 0, 0, 0⟩ []]).children
      = true ∧
    (gtf.mk ⟨0, 0, 0, 100, 900, 0, 0, 0, -1⟩
        [.mk ⟨0, 0, 1, 200, 800, 0, 0, 0, 0⟩ []]).children.length ≠ 0 ∧
    gtf_sort (.mk ⟨0, 0, 0, 100, 900, 0, 0, 0, -1⟩ [.mk ⟨0, 0, 1, 200, 800, 0, 0, 0, 0⟩ []])
      = some (.mk ⟨0, 0, 0, 100, 900, 0, 0, 0, -1⟩ [.mk ⟨0, 0, 1, 200, 800, 0, 0, 0, 0⟩ []]) ∧
    (gtf.mk ⟨0, 0, 0, 100, 900, 0, 0, 0, -1⟩
        [.mk ⟨0, 0, 1, 200, 800, 0, 0, 0, 0⟩ []]).children.length ≠ 0 ∧
    (∀ c ∈ (gtf.mk ⟨0, 0, 0, 100, 900, 0, 0, 0, -1⟩
          [.mk ⟨0, 0, 1, 200, 800, 0, 0, 0, 0⟩ []]).children,
      (gtf.mk ⟨0, 0, 0, 100, 900, 0, 0, 0, -1⟩
          [.mk ⟨0, 0, 1, 200, 800, 0, 0, 0, 0⟩ []]).f.start ≤ c.f.start ∧
      c.f.end_ ≤ (gtf.mk ⟨0, 0, 0, 100, 900, 0, 0, 0, -1⟩
          [.mk ⟨0, 0, 1, 200, 800, 0, 0, 0, 0⟩ []]).f.end_) :=
  ⟨by decide, by decide, rfl,
    (C18_bounds_from_children_and_own
      (.mk ⟨0, 0, 0, 100, 900, 0, 0, 0, -1⟩ [.mk ⟨0, 0, 1, 200, 800, 0, 0, 0, 0⟩ []])
      (.mk ⟨0, 0, 0, 100, 900, 0, 0, 0, -1⟩ [.mk ⟨0, 0, 1, 200, 800, 0, 0, 0, 0⟩ []])
      (by decide) (by decide) rfl).1,
    (C18_bounds_from_children_and_own
      (.mk ⟨0, 0, 0, 100, 900, 0, 0, 0, -1⟩ [.mk ⟨0, 0, 1, 200, 800, 0, 0, 0, 0⟩ []])
      (.mk ⟨0, 0, 0, 100, 900, 0, 0, 0, -1⟩ [.mk ⟨0, 0, 1, 200, 800, 0, 0, 0, 0⟩ []])
      (by decide) (by decide) rfl).2.1⟩

/-- C18, the claim at a counterexample: a `gene` line `[100,900]` and a
`transcript` line `[200,800]` of the same gene.  After the build the gene has
its one child `[200,800]` and keeps `start = 100` and `end = 900`, which are
not the least start and the greatest end of its children. -/
theorem C18_counterexample :
    (gtf_read demo_gtf_h [gene_line "G1" 100 900, tx_line "G1" "T1" 200 800] 0).map
      (fun o => o.map (fun G => (get_gene G (0, 0)).map (fun g =>
        [g.f.start, g.f.end_] :: g.children.map (fun t => [t.f.start, t.f.end_]))))
      = some (some (some [[100, 900], [200, 800]])) := by
  decide!

/-- C19, the code at the failing input: one `exon` line of a single base,
`[100,100]`, with `gene_id` and `transcript_id`.  `parse_str` takes the line
(it returns 0 and stores the exon under a synthesised transcript), and the
build stops: the transcript gets `start = end = 100` from its only child and
`assert(gtf->start < gtf->end)` fails.  With the exon `[100,101]` the build
goes through. -/
theorem C19_single_base_exon_fails_assertion :
    (parse_str demo_gtf_h (gtf_spec_init demo_gtf_h) (exon_line "G1" "T1" 100 100) 0).map
        (fun r => (r.1, (get_tx r.2 (0, 0, 0)).map (fun t => (t.f, t.children.map gtf.f))))
      = some (0, some (⟨-1, -1, 1, -1, -1, 0, 0, 0, 0⟩, [⟨0, 0, 5, 100, 100, 0, 0, 0, 0⟩])) ∧
    gtf_sort (.mk ⟨-1, -1, 1, -1, -1, 0, 0, 0, 0⟩ [.mk ⟨0, 0, 5, 100, 100, 0, 0, 0, 0⟩ []])
      = none ∧
    gtf_read demo_gtf_h [exon_line "G1" "T1" 100 100] 0 = none ∧
    (gtf_read demo_gtf_h [exon_line "G1" "T1" 100 101] 0).map
        (fun o => o.map (fun G => (get_tx G (0, 0, 0)).map gtf.f))
      = some (some (some ⟨-1, -1, 1, 100, 101, 0, 0, 0, 0⟩)) := by
  refine ⟨?_, ?_, ?_, ?_⟩
  · decide!
  · rfl
  · cases h : gtf_read demo_gtf_h [exon_line "G1" "T1" 100 100] 0 with
    | none => rfl
    | some o =>
      have : (gtf_read demo_gtf_h [exon_line "G1" "T1" 100 100] 0).isSome = false := by decide!
      rw [h] at this
      cases this
  · decide!

/-- C20: every record the reading loop stores (gene, transcript or
sub-feature, from a line or synthesised) has `gene_id` and `gene_name` set; the
record that `parse_str` hands to `gtf_push` has both set, and when the line has
no `gene_id` pair, or no `gene_name` and no `gene` pair, the two ids name the
same string; a line with none of the three pairs makes `parse_str` return
before `gtf_push` and leaves the genes of every contig, with their transcripts
and sub-features, as they were. -/
theorem C20_gene_ids_set (h : gtf_h) (filter : Int) :
    (∀ lines G, gtf_read_lines h filter (gtf_spec_init h) lines = some G →
      records_all ids_set G = true) ∧
    (∀ G l r, records_all ids_set G = true → parse_str h G l filter = some r →
      records_all ids_set r.2 = true) ∧
    (∀ G l G1 rcd qry, parse_rec h G l filter = some (.record G1 rcd qry) →
      rcd.gene_id ≠ -1 ∧ rcd.gene_name ≠ -1 ∧
      (((∀ pp ∈ l.attr, pp.key ≠ "gene_id") ∨
          (∀ pp ∈ l.attr, pp.key ≠ "gene_name" ∧ pp.key ≠ "gene")) →
        ∃ s, dict_name G1.gene_id rcd.gene_id.toNat = some s ∧
          dict_name G1.gene_name rcd.gene_name.toNat = some s)) ∧
    (∀ G l r, parse_str h G l filter = some r →
      (∀ pp ∈ l.attr, pp.key ≠ "gene_id" ∧ pp.key ≠ "gene_name" ∧ pp.key ≠ "gene") →
      (∃ code, parse_rec h G l filter = some (.ret code r.2)) ∧
      ∀ cid, genes_of r.2 cid = genes_of G cid) := by
  refine ⟨?_, ?_, ?_, ?_⟩
  · intro lines G hr
    rw [ids_inv_iff]
    refine gtf_read_lines_inv h filter lines _ G hr ?_
    intro cid c hc
    simp [gtf_spec_init, dict_init, dict_query_value] at hc
  · intro G l r hinv hp
    rw [ids_inv_iff] at *
    exact parse_str_inv h G l filter r hp hinv
  · intro G l G1 rcd qry hp
    rcases parse_rec_spec h G l filter _ hp with ⟨code, G2, h1, _⟩ | ⟨G2, rcd2, qry2, h1, _, hids, _, hs⟩
    · cases h1
    · simp only [parsed.record.injEq] at h1
      obtain ⟨h1, h2, _⟩ := h1
      subst h1
      subst h2
      have := (ids_set_iff rcd).1 hids
      exact ⟨this.1, this.2, hs⟩
  · intro G l r hp hno
    unfold parse_str at hp
    cases hr : parse_rec h G l filter with
    | none => rw [hr] at hp; cases hp
    | some pr =>
      rw [hr] at hp
      rcases parse_rec_spec h G l filter pr hr with ⟨code, G1, h1, hext⟩ | ⟨G1, rcd, qry, h1, _, _, ⟨pp, hpp, hk⟩, _⟩
      · subst h1
        simp only [Option.some.injEq] at hp
        subst hp
        exact ⟨⟨code, rfl⟩, genes_of_ext G G1 hext⟩
      · exfalso
        have := hno pp hpp
        rcases hk with hk | hk | hk
        · exact this.1 hk
        · exact this.2.1 hk
        · exact this.2.2 hk

theorem C20_gene_ids_set_witness :
    (gtf_read_lines demo_gtf_h 0 (gtf_spec_init demo_gtf_h) demo_lines_fill).isSome = true ∧
    ((get_gene (demo_model demo_lines_fill) (0, 1)).map (fun g =>
        (g.f.gene_id, g.f.gene_name, g.children.map (fun t => t.children.length))))
      = some (1, 1, [1]) ∧
    dict_name (demo_model demo_lines_fill).gene_id 1 = some "X" ∧
    dict_name (demo_model demo_lines_fill).gene_name 1 = some "X" ∧
    records_all ids_set (demo_model demo_lines_fill) = true := by
  have hs : (gtf_read_lines demo_gtf_h 0 (gtf_spec_init demo_gtf_h) demo_lines_fill).isSome
      = true := by decide!
  refine ⟨hs, by decide!, by decide!, by decide!, ?_⟩
  refine (C20_gene_ids_set demo_gtf_h 0).1 demo_lines_fill _ ?_
  unfold demo_model
  cases hr : gtf_read_lines demo_gtf_h 0 (gtf_spec_init demo_gtf_h) demo_lines_fill with
  | none => rw [hr] at hs; cases hs
  | some G => rfl

/-! ## Further claims on the counting loop -/

theorem mex_lines_cells_line (a : args) (i : Nat) (hv : a.velocity = false) :
    ∀ (l : List PISA_dna) (x : PISA_dna), x ∈ l →
      (i + 1, x.idx + 1, x.data.count) ∈ mex_lines_cells a i l := by
  intro l
  induction l with
  | nil => intro x hx; simp at hx
  | cons e r ih =>
    intro x hx
    simp only [mex_lines_cells, hv, Bool.false_eq_true, if_false]
    simp only [List.mem_cons] at hx
    rcases hx with hx | hx
    · subst hx
      exact List.mem_cons_self _ _
    · exact List.mem_cons_of_mem _ (ih x hx)

/-- With velocity off, the cell entry `x` of the feature at position `k` has
its line in the matrix file: the feature index, the barcode index and the
count. -/
theorem mex_lines_line (a : args) (hv : a.velocity = false) :
    ∀ (fs : List (String × Option PISA_idx_pool)) (i : Nat) (ls : List (Nat × Nat × Nat)),
      mex_lines a i fs = some ls → ∀ k g v, fs.get? k = some (g, some v) → ∀ x ∈ v.data,
      (i + k + 1, x.idx + 1, x.data.count) ∈ ls := by
  intro fs
  induction fs with
  | nil => intro i ls _ k g v hk; simp at hk
  | cons e r ih =>
    intro i ls h k g v hk x hx
    simp only [mex_lines] at h
    cases he : e.2 with
    | none => simp [he] at h
    | some v1 =>
      simp only [he, Option.map_eq_some'] at h
      obtain ⟨r1, hr1, rfl⟩ := h
      cases k with
      | zero =>
        simp only [List.get?_cons_zero, Option.some.injEq] at hk
        subst hk
        simp only [Option.some.injEq] at he
        subst he
        exact List.mem_append_left _ (mex_lines_cells_line a i hv _ x hx)
      | succ k1 =>
        simp only [List.get?_cons_succ] at hk
        have := ih (i + 1) r1 hr1 k1 g v hk x hx
        refine List.mem_append_right _ ?_
        have he1 : i + 1 + k1 + 1 = i + (k1 + 1) + 1 := by omega
        rw [← he1]
        exact this

/-- The count cell held for a pair sits in the features table under the name
of the feature, with the id of the barcode. -/
theorem held_cell_place (st : state) (nb : Nat) (hw : feats_wf nb st.features.data)
    (f c : String) (c0 : counts) (h : held_cell st f c = some c0) :
    ∃ k v x cid, st.features.data.get? k = some (f, some v) ∧ x ∈ v.data ∧ x.idx = cid ∧
      x.data = c0 ∧ dict_name st.features k = some f ∧ dict_name st.barcodes cid = some c := by
  rw [held_cell_eq] at h
  cases hc : dict_find st.barcodes.data c with
  | none => simp [hc] at h
  | some cid =>
    simp only [hc] at h
    have hname := (dict_find_some c st.barcodes.data cid hc).2
    obtain ⟨e, he, hef, x, hx, hxi, hxd⟩ := lookup_cell_mem _ f cid c0 h
    obtain ⟨v, hv, _⟩ := hw.2 e he
    rw [hv] at hx
    obtain ⟨k, hk⟩ := List.get?_of_mem he
    have hk1 : st.features.data.get? k = some (f, some v) := by
      rw [hk, ← hef, ← hv]
    refine ⟨k, v, x, cid, hk1, hx, hxi, hxd, ?_, hname⟩
    unfold dict_name
    rw [hk1]
    rfl

/-- C1 (as amended): in non-UMI mode the run goes through and, for every
feature `f` and barcode `c`, the count held for `(f, c)` after `update_counts`
is, modulo `2^32`, the number of occurrences of `f` among the feature tokens of
the accepted records of barcode `c`.  With velocity off that number is emitted
in the triplet of the pair: whenever `write_outs` writes the matrix file, every
pair with an occurrence has a line with the indices of `f` and `c` and that
value, and every line written carries that number for the feature and barcode
its indices name; `write_outs` does write when an output directory is set and
`n_record` is not 0.  When no accepted record lists a feature twice the number
of occurrences is the number of accepted records of `c` that list `f`. -/
theorem C1_count_is_token_occurrences (env : Env) (a : args) (wl : List String)
    (rs : List bam_item) (hu : a.umi_tag = none) (hok : ∀ it ∈ rs, input_ok a it) :
    ∃ st, count_matrix_run env a wl rs = some st ∧
      (∀ f c, held_count st f c = occurrences env a wl f c rs % 2 ^ 32) ∧
      (a.velocity = false → ∀ o, write_outs a st = .written (some o) →
        ∀ f c, occurrences env a wl f c rs ≠ 0 →
        ∃ t ∈ o.mex.lines, dict_name st.features (t.1 - 1) = some f ∧
          dict_name st.barcodes (t.2.1 - 1) = some c ∧
          t.2.2 = occurrences env a wl f c rs % 2 ^ 32) ∧
      (a.velocity = false → ∀ o, write_outs a st = .written (some o) → ∀ t ∈ o.mex.lines,
        ∃ f c, dict_name st.features (t.1 - 1) = some f ∧
          dict_name st.barcodes (t.2.1 - 1) = some c ∧
          t.2.2 = occurrences env a wl f c rs % 2 ^ 32) ∧
      (a.outdir.isSome = true → st.n_record ≠ 0 →
        ∃ o, write_outs a st = .written (some o)) ∧
      ((∀ it ∈ rs, ∀ h, accepted env a wl it = some h → h.tokens.Nodup) →
        ∀ f c, occurrences env a wl f c rs = (rs.filter (contributes env a wl f c)).length) := by
  obtain ⟨st, hrun, hi⟩ := run_final env a wl rs hok
  refine ⟨st, hrun, ?_, ?_, ?_, ?_, fun hn f c => occurrences_eq_records env a wl f c rs hn⟩
  · intro f c
    unfold held_count
    rcases held_cell_final env a wl st rs hi f c with ⟨h0, h1⟩ | ⟨_, i, cid, h1⟩
    · rw [h1, ← contribs_length, h0]
      rfl
    · rw [h1]
      simp only [Option.map_some', Option.getD_some]
      rw [final_cell_count, ← contribs_length]
      simp [hu, u32]
  · intro hv o ho f c hocc
    obtain ⟨_, hm, _⟩ := write_outs_written a st o ho
    rcases held_cell_final env a wl st rs hi f c with ⟨h0, _⟩ | ⟨_, i, cid, h1⟩
    · exfalso
      apply hocc
      rw [← contribs_length, h0]
      rfl
    · obtain ⟨k, v, x, cid1, hk, hx, hxi, hxd, hnf, hnc⟩ := held_cell_place st _ hi.1 f c _ h1
      refine ⟨_, mex_lines_line a hv _ 0 _ hm k f v hk x hx, ?_, ?_, ?_⟩
      · simpa using hnf
      · simpa [hxi] using hnc
      · simp only
        rw [hxd, final_cell_count, ← contribs_length]
        simp [hu, u32]
  · intro hv o ho t ht
    obtain ⟨_, hm, _⟩ := write_outs_written a st o ho
    obtain ⟨k, g, v, x, hk, hx, h1, h2, h3⟩ := mex_lines_mem a _ 0 _ hm t ht
    obtain ⟨_, _, c, i, hf, hc, _, hxd⟩ := final_entry_names env a wl st rs hi k g v hk x hx
    refine ⟨g, c, by simpa [h1] using hf, by simpa [h2] using hc, ?_⟩
    rcases h3 with ⟨hv1, _⟩ | ⟨_, h3⟩
    · rw [hv] at hv1; cases hv1
    · rw [h3, hxd, final_cell_count, ← contribs_length]
      simp [hu, u32]
  · intro ho hn
    have hsum : sum_count (cells_of st.features.data) ≠ 0 := by
      intro h0
      apply hn
      rw [hi.2.2.2.1, h0]
      rfl
    have hne : cells_of st.features.data ≠ [] := by
      intro h0
      apply hsum
      rw [h0]
      rfl
    obtain ⟨x, hx⟩ := List.exists_mem_of_ne_nil _ hne
    obtain ⟨g, v, hg, hxv⟩ := cells_of_mem _ x hx
    have hf : dict_size st.features ≠ 0 := by
      unfold dict_size
      intro h0
      rw [List.length_eq_zero] at h0
      rw [h0] at hg
      cases hg
    have hb : dict_size st.barcodes ≠ 0 := by
      obtain ⟨v2, hv2, hp2⟩ := hi.1.2 _ hg
      simp only [Option.some.injEq] at hv2
      subst hv2
      have := hp2.2 x hxv
      omega
    exact write_outs_writes a st _ hi.1 hb hf hn ho

/-- C1, witness: three records for `(G1, A)` and one for `(G1, B)`; the matrix
file has the lines `(1, 1, 3)` and `(1, 2, 1)`. -/
theorem C1_count_is_token_occurrences_witness :
    (demo_args.umi_tag = none ∧
      ∀ it ∈ [demo_rec "A" "G1", demo_rec "A" "G1", demo_rec "A" "G1", demo_rec "B" "G1"],
        input_ok demo_args it) ∧
    (count_matrix_run demo_env demo_args []
        [demo_rec "A" "G1", demo_rec "A" "G1", demo_rec "A" "G1", demo_rec "B" "G1"]).map
      (fun st => (held_count st "G1" "A", held_count st "G1" "B", write_outs demo_args st)) =
      some (3, 1, .written (some
        { barcode_names := ["A", "B"], feature_names := ["G1"],
          mex := ⟨(1, 2, 4), [(1, 1, 3), (1, 2, 1)]⟩, unspliced := none })) ∧
    ∃ st, count_matrix_run demo_env demo_args []
        [demo_rec "A" "G1", demo_rec "A" "G1", demo_rec "A" "G1", demo_rec "B" "G1"] = some st ∧
      (∀ f c, held_count st f c = occurrences demo_env demo_args [] f c
        [demo_rec "A" "G1", demo_rec "A" "G1", demo_rec "A" "G1", demo_rec "B" "G1"] % 2 ^ 32) ∧
      (demo_args.velocity = false → ∀ o, write_outs demo_args st = .written (some o) →
        ∀ f c, occurrences demo_env demo_args [] f c
          [demo_rec "A" "G1", demo_rec "A" "G1", demo_rec "A" "G1", demo_rec "B" "G1"] ≠ 0 →
        ∃ t ∈ o.mex.lines, dict_name st.features (t.1 - 1) = some f ∧
          dict_name st.barcodes (t.2.1 - 1) = some c ∧
          t.2.2 = occurrences demo_env demo_args [] f c
            [demo_rec "A" "G1", demo_rec "A" "G1", demo_rec "A" "G1", demo_rec "B" "G1"] % 2 ^ 32) ∧
      (demo_args.velocity = false → ∀ o, write_outs demo_args st = .written (some o) →
        ∀ t ∈ o.mex.lines,
        ∃ f c, dict_name st.features (t.1 - 1) = some f ∧
          dict_name st.barcodes (t.2.1 - 1) = some c ∧
          t.2.2 = occurrences demo_env demo_args [] f c
            [demo_rec "A" "G1", demo_rec "A" "G1", demo_rec "A" "G1", demo_rec "B" "G1"] % 2 ^ 32) ∧
      (demo_args.outdir.isSome = true → st.n_record ≠ 0 →
        ∃ o, write_outs demo_args st = .written (some o)) ∧
      ((∀ it ∈ [demo_rec "A" "G1", demo_rec "A" "G1", demo_rec "A" "G1", demo_rec "B" "G1"],
          ∀ h, accepted demo_env demo_args [] it = some h → h.tokens.Nodup) →
        ∀ f c, occurrences demo_env demo_args [] f c
            [demo_rec "A" "G1", demo_rec "A" "G1", demo_rec "A" "G1", demo_rec "B" "G1"] =
          ([demo_rec "A" "G1", demo_rec "A" "G1", demo_rec "A" "G1", demo_rec "B" "G1"].filter
            (contributes demo_env demo_args [] f c)).length) :=
  ⟨⟨rfl, by decide⟩, by decide,
    C1_count_is_token_occurrences demo_env demo_args [] _ rfl (by decide)⟩

/-- In velocity mode a finalised cell has `unspliced ≤ count`, in non-UMI mode
as long as its `count` has not wrapped. -/
theorem final_cell_le (env : Env) (a : args) (i cid : Nat) (hs : List (String × Bool))
    (hv : a.velocity = true) (hb : a.umi_tag = none → hs.length < 2 ^ 32) :
    (final_cell a (cell_val a (new_counts env a i cid) hs)).unspliced ≤
      (final_cell a (cell_val a (new_counts env a i cid) hs)).count := by
  rw [final_cell_count, final_cell_unspliced env a i cid hs hv]
  cases hu : a.umi_tag with
  | some t =>
    simp only
    apply n_distinct_mono
    intro x hx
    obtain ⟨y, hy, hyx⟩ := List.mem_map.1 hx
    exact List.mem_map.2 ⟨y, unspliced_hits_mem hs y hy, hyx⟩
  | none =>
    simp only
    have hlen := hb hu
    have h2 := unspliced_hits_length_le hs
    rw [u32_of_lt _ hlen, u32_of_lt _ (by omega)]
    exact h2

/-- C4: the run goes through, and provided the counters stay below `2^31`,
`n_record` is the sum of the counts held after `update_counts` and, whenever
`write_outs` writes the matrix files, the sum of the values of the triplets of
the matrix file is `n_record` as `update_counts` accumulated it; in velocity
mode the values written to the spliced file and those written to the unspliced
file sum to `n_record`.  Of the assumption on the counters only this is used:
the sum of the counts fits the 64 bits of `n_record`; in velocity mode every
`count` held is below `2^31`; and in non-UMI velocity mode no `count` was
incremented `2^32` times. -/
theorem C4_emitted_sum_is_n_record (env : Env) (a : args) (wl : List String) (rs : List bam_item)
    (hok : ∀ it ∈ rs, input_ok a it) :
    ∃ st, count_matrix_run env a wl rs = some st ∧
      (sum_count (cells_of st.features.data) < 2 ^ 64 →
        (a.velocity = true → ∀ x ∈ cells_of st.features.data, x.data.count < 2 ^ 31) →
        (a.umi_tag = none → a.velocity = true →
          ∀ f c, occurrences env a wl f c rs < 2 ^ 32) →
        st.n_record = sum_count (cells_of st.features.data) ∧
        ∀ o, write_outs a st = .written (some o) →
          (a.velocity = false → line_sum o.mex.lines = st.n_record) ∧
          (a.velocity = true → ∃ u, o.unspliced = some u ∧
            line_sum o.mex.lines + line_sum u.lines = st.n_record)) := by
  obtain ⟨st, hrun, hi⟩ := run_final env a wl rs hok
  refine ⟨st, hrun, fun hb hc hw => ?_⟩
  have hn : st.n_record = sum_count (cells_of st.features.data) := by
    rw [hi.2.2.2.1]
    exact u64_of_lt _ hb
  refine ⟨hn, fun o ho => ?_⟩
  obtain ⟨_, hm, _, _, hvel⟩ := write_outs_written a st o ho
  refine ⟨fun hv => ?_, fun hv => ?_⟩
  · rw [hn]
    exact mex_lines_sum a hv _ 0 _ hm
  · obtain ⟨u, hu, hul, _⟩ := hvel hv
    refine ⟨u, hu, ?_⟩
    rw [hn]
    refine velocity_lines_sum a hv _ 0 _ _ (fun x hx => ⟨?_, hc hv x hx⟩) hm hul
    obtain ⟨g, v, hg, hxv⟩ := cells_of_mem _ x hx
    obtain ⟨c, i, _, _, hxd⟩ := final_inv_cell env a wl st rs hi g v hg x hxv
    rw [hxd]
    refine final_cell_le env a i x.idx _ hv (fun hu0 => ?_)
    rw [contribs_length]
    exact hw hu0 hv g c

/-- C4, witness: a velocity run in which one pair has the same UMI classified
both ways, so that its spliced value 0 is elided, and another pair has a
spliced record: three tokens are counted, the two counts held are 1 and 1, and
the values written sum to `n_record = 2`. -/
theorem C4_emitted_sum_is_n_record_witness :
    (∀ it ∈ [demo_rec_umi "A" "G1" "AAA" "E", demo_rec_umi "A" "G1" "AAA" "I",
        demo_rec_umi "B" "G1" "CCC" "E"], input_ok demo_args_velo it) ∧
    n_counted demo_env demo_args_velo [] [demo_rec_umi "A" "G1" "AAA" "E",
        demo_rec_umi "A" "G1" "AAA" "I", demo_rec_umi "B" "G1" "CCC" "E"] = 3 ∧
    (count_matrix_run demo_env demo_args_velo [] [demo_rec_umi "A" "G1" "AAA" "E",
        demo_rec_umi "A" "G1" "AAA" "I", demo_rec_umi "B" "G1" "CCC" "E"]).map
      (fun st => ((cells_of st.features.data).map (fun x => (x.data.count, x.data.unspliced)),
        st.n_record, write_outs demo_args_velo st))
      = some ([(1, 1), (1, 0)], 2, .written (some
          { barcode_names := ["A", "B"], feature_names := ["G1"],
            mex := ⟨(1, 2, 1), [(1, 2, 1)]⟩, unspliced := some ⟨(1, 2, 1), [(1, 1, 1)]⟩ })) ∧
    (∃ st, count_matrix_run demo_env demo_args_velo [] [demo_rec_umi "A" "G1" "AAA" "E",
        demo_rec_umi "A" "G1" "AAA" "I", demo_rec_umi "B" "G1" "CCC" "E"] = some st ∧
      (sum_count (cells_of st.features.data) < 2 ^ 64 →
        (demo_args_velo.velocity = true →
          ∀ x ∈ cells_of st.features.data, x.data.count < 2 ^ 31) →
        (demo_args_velo.umi_tag = none → demo_args_velo.velocity = true →
          ∀ f c, occurrences demo_env demo_args_velo [] f c [demo_rec_umi "A" "G1" "AAA" "E",
            demo_rec_umi "A" "G1" "AAA" "I", demo_rec_umi "B" "G1" "CCC" "E"] < 2 ^ 32) →
        st.n_record = sum_count (cells_of st.features.data) ∧
        ∀ o, write_outs demo_args_velo st = .written (some o) →
          (demo_args_velo.velocity = false → line_sum o.mex.lines = st.n_record) ∧
          (demo_args_velo.velocity = true → ∃ u, o.unspliced = some u ∧
            line_sum o.mex.lines + line_sum u.lines = st.n_record))) :=
  ⟨by decide, by decide, by decide,
    C4_emitted_sum_is_n_record demo_env demo_args_velo [] _ (by decide)⟩

theorem pool_upsert_weight_ge (a : args) (g : Option counts → Option counts) (cid : Nat)
    (hg : ∀ oc c1, g oc = some c1 → ((oc.map (weight a)).getD 0) + 1 < 2 ^ 32 →
      ((oc.map (weight a)).getD 0) + 1 ≤ weight a c1) :
    ∀ (l l1 : List PISA_dna), pool_upsert g cid l = some l1 → sum_weight a l + 1 < 2 ^ 32 →
      sum_weight a l + 1 ≤ sum_weight a l1 := by
  intro l
  induction l with
  | nil =>
    intro l1 h hb
    simp only [pool_upsert, Option.map_eq_some'] at h
    obtain ⟨c, hc, rfl⟩ := h
    have := hg none c hc (by simp)
    simpa [sum_weight] using this
  | cons e t ih =>
    intro l1 h hb
    simp only [sum_weight, List.map_cons, List.sum_cons] at hb
    by_cases he : e.idx = cid
    · simp only [pool_upsert, he, if_true, Option.map_eq_some'] at h
      obtain ⟨c, hc, rfl⟩ := h
      have := hg (some e.data) c hc (by simp only [Option.map_some', Option.getD_some]; omega)
      simp only [Option.map_some', Option.getD_some] at this
      simp only [sum_weight, List.map_cons, List.sum_cons]
      omega
    · simp only [pool_upsert, he, if_false, Option.map_eq_some'] at h
      obtain ⟨r, hr, rfl⟩ := h
      have := ih r hr (by simp only [sum_weight]; omega)
      simp only [sum_weight, List.map_cons, List.sum_cons] at this ⊢
      omega

theorem feat_upsert_weight_ge (a : args) (g : Nat → Option counts → Option counts) (val : String)
    (cid : Nat)
    (hg : ∀ k oc c1, g k oc = some c1 → ((oc.map (weight a)).getD 0) + 1 < 2 ^ 32 →
      ((oc.map (weight a)).getD 0) + 1 ≤ weight a c1) :
    ∀ (l l1 : List (String × Option PISA_idx_pool)) (i : Nat),
      feat_upsert g val cid i l = some l1 → sum_weight a (cells_of l) + 1 < 2 ^ 32 →
      sum_weight a (cells_of l) + 1 ≤ sum_weight a (cells_of l1) := by
  intro l
  induction l with
  | nil =>
    intro l1 i h hb
    simp only [feat_upsert, Option.map_eq_some'] at h
    obtain ⟨d, hd, rfl⟩ := h
    have := pool_upsert_weight_ge a (g i) cid (hg i) [] d hd (by simp [sum_weight])
    simpa [cells_of, sum_weight_append] using this
  | cons e t ih =>
    intro l1 i h hb
    simp only [cells_of, sum_weight_append] at hb
    by_cases he : e.1 = val
    · simp only [feat_upsert, he, if_true, Option.map_eq_some'] at h
      obtain ⟨d, hd, rfl⟩ := h
      have := pool_upsert_weight_ge a (g i) cid (hg i) _ d hd (by omega)
      simp only [cells_of, Option.getD_some, sum_weight_append]
      omega
    · simp only [feat_upsert, he, if_false, Option.map_eq_some'] at h
      obtain ⟨r, hr, rfl⟩ := h
      have := ih r (i + 1) hr (by omega)
      simp only [cells_of, sum_weight_append]
      omega

theorem token_payload_weight_ge (env : Env) (a : args) (b : bam1_t) (cid : Nat) (u : Bool)
    (hu : a.umi_tag = none) (k : Nat) (oc : Option counts) (c1 : counts)
    (h : token_payload env a b cid u k oc = some c1)
    (hb : ((oc.map (weight a)).getD 0) + 1 < 2 ^ 32) :
    ((oc.map (weight a)).getD 0) + 1 ≤ weight a c1 := by
  have hw : ∀ c : counts, weight a c = c.count := by
    intro c
    simp [weight, hu]
  have hc1 : weight a c1 = u32 ((oc.getD (new_counts env a k cid)).count + 1) := by
    unfold token_payload accumulate at h
    simp only [hu] at h
    rw [hw]
    split at h <;> simp only [Option.some.injEq] at h <;> subst h <;> rfl
  rw [hc1]
  cases oc with
  | none =>
    simp [new_counts, hu, u32]
  | some c =>
    simp only [Option.map_some', Option.getD_some, hw] at hb ⊢
    rw [u32_of_lt _ hb]

theorem count_feature_weight_ge (env : Env) (a : args) (b : bam1_t) (cid : Nat) (u : Bool)
    (hu : a.umi_tag = none) (fs fs1 : dict PISA_idx_pool) (val : String)
    (h : count_feature env a b cid u fs val = some fs1)
    (hb : sum_weight a (cells_of fs.data) + 1 < 2 ^ 32) :
    sum_weight a (cells_of fs.data) + 1 ≤ sum_weight a (cells_of fs1.data) := by
  rw [count_feature_eq] at h
  simp only [Option.map_eq_some'] at h
  obtain ⟨l1, hl1, rfl⟩ := h
  exact feat_upsert_weight_ge a _ val cid (token_payload_weight_ge env a b cid u hu) fs.data l1 0
    hl1 hb

theorem count_features_weight_ge (env : Env) (a : args) (b : bam1_t) (cid : Nat) (u : Bool)
    (hu : a.umi_tag = none) :
    ∀ (ts : List String) (fs fs1 : dict PISA_idx_pool),
      count_features env a b cid u ts fs = some fs1 →
      sum_weight a (cells_of fs.data) + ts.length < 2 ^ 32 →
      sum_weight a (cells_of fs.data) + ts.length ≤ sum_weight a (cells_of fs1.data) := by
  intro ts
  induction ts with
  | nil =>
    intro fs fs1 h _
    simp only [count_features, Option.some.injEq] at h
    subst h
    simp
  | cons val rest ih =>
    intro fs fs1 h hb
    simp only [count_features] at h
    simp only [List.length_cons] at hb ⊢
    cases hc : count_feature env a b cid u fs val with
    | none => simp [hc] at h
    | some f =>
      simp only [hc] at h
      have h0 := count_feature_weight env a b cid u fs f val hc
      have h1 := count_feature_weight_ge env a b cid u hu fs f val hc (by omega)
      have h2 := ih f fs1 h (by omega)
      omega

/-- What one turn of the main loop does with an accepted record: its tokens
are counted into the features table. -/
theorem count_matrix_step_accept (env : Env) (a : args) (wl : List String) (st st1 : state)
    (hist : List bam_item) (it : bam_item) (x : hit) (hi : run_inv env a wl st hist)
    (hok : input_ok a it) (hacc : accepted env a wl it = some x)
    (h : count_matrix_step env a st it = some st1) :
    ∃ cid, count_features env a it.b cid x.unspliced x.tokens st.features = some st1.features := by
  obtain ⟨hf, hh, hone, _⟩ := accepted_core env a wl it x hacc
  have hal : ¬ (a.alias_file_cb = true ∧ it.file_alias.isNone = true) := by
    rintro ⟨h1, h2⟩
    have := hok.1 h1
    cases hfa : it.file_alias <;> simp [hfa] at this h2
  unfold count_matrix_step at h
  simp only [hal, if_false, hf, if_true] at h
  rw [count_matrix_core_eq env a st it.b it.file_alias hok.2, hh] at h
  simp only at h
  have hrec : record_hit env a it = some x := by simp [record_hit, hf, hh]
  cases hres : resolve_cell a st.barcodes (some x.cell) with
  | abort => exact absurd hres (resolve_cell_not_abort a st.barcodes x.cell)
  | drop =>
    exfalso
    obtain ⟨hw, hd⟩ := resolve_cell_drop a st.barcodes x.cell hres
    have hnm : x.cell ∉ wl := by
      intro hm
      have := (hi.2.2.1 hw x.cell).2 hm
      exact (dict_find_none_iff x.cell st.barcodes.data).1 hd this
    have : accepted env a wl it = none := by simp [accepted, hrec, hw, hnm]
    rw [this] at hacc
    cases hacc
  | next r =>
    rw [hres] at h
    simp only [hone, if_false] at h
    cases hc : count_features env a it.b r.1 x.unspliced x.tokens st.features with
    | none => rw [hc] at h; cases h
    | some f =>
      rw [hc] at h
      simp only [Option.map_some', Option.some.injEq] at h
      subst h
      exact ⟨r.1, hc⟩

theorem n_counted_one (env : Env) (a : args) (wl : List String) (it : bam_item) :
    n_counted env a wl [it] =
      match accepted env a wl it with
      | some h => h.tokens.length
      | none => 0 := by
  simp only [n_counted, List.filterMap_cons, List.filterMap_nil]
  cases accepted env a wl it <;> simp

/-- Without UMI and short of `2^32` counted tokens, the counts of the cells
add up to the number of tokens counted. -/
theorem count_matrix_loop_exact (env : Env) (a : args) (wl : List String)
    (hu : a.umi_tag = none) :
    ∀ (rs : List bam_item) (st : state) (hist : List bam_item),
      run_inv env a wl st hist → (∀ it ∈ rs, input_ok a it) →
      sum_weight a (cells_of st.features.data) = n_counted env a wl hist →
      n_counted env a wl (hist ++ rs) < 2 ^ 32 →
      ∃ st1, count_matrix_loop env a st rs = some st1 ∧ run_inv env a wl st1 (hist ++ rs) ∧
        sum_weight a (cells_of st1.features.data) = n_counted env a wl (hist ++ rs) := by
  intro rs
  induction rs with
  | nil => intro st hist hi _ he _; exact ⟨st, rfl, by simpa using hi, by simpa using he⟩
  | cons it rest ih =>
    intro st hist hi hok he hb
    have hok1 := hok it (List.mem_cons_self _ _)
    obtain ⟨st1, h1, hi1⟩ := count_matrix_step_inv env a wl st hist it hi hok1
    have hb1 : n_counted env a wl (hist ++ [it]) ≤ n_counted env a wl (hist ++ it :: rest) := by
      have : hist ++ it :: rest = (hist ++ [it]) ++ rest := by simp
      rw [this, n_counted_append env a wl (hist ++ [it]) rest]
      omega
    have he1 : sum_weight a (cells_of st1.features.data) = n_counted env a wl (hist ++ [it]) := by
      apply Nat.le_antisymm hi1.2.2.2.2.2.2.2
      rw [n_counted_append, n_counted_one]
      rw [n_counted_append, n_counted_one] at hb1
      cases hacc : accepted env a wl it with
      | none =>
        have := count_matrix_step_features env a wl st st1 hist it hi hok1 (Or.inl hacc) h1
        rw [this, he]
        simp
      | some x =>
        rw [hacc] at hb1
        simp only at hb1 ⊢
        obtain ⟨cid, hc⟩ := count_matrix_step_accept env a wl st st1 hist it x hi hok1 hacc h1
        have := count_features_weight_ge env a it.b cid x.unspliced hu x.tokens _ _ hc
          (by rw [he]; omega)
        rw [he] at this
        exact this
    obtain ⟨st2, h2, hi2, he2⟩ := ih st1 (hist ++ [it]) hi1
      (fun x hx => hok x (List.mem_cons_of_mem _ hx)) he1 (by simpa using hb)
    refine ⟨st2, by simp [count_matrix_loop, h1, h2], by simpa using hi2, by simpa using he2⟩

/-- Without UMI and short of `2^32` counted tokens the run goes through and the
counts of the cells add up to the number of tokens counted. -/
theorem run_final_exact (env : Env) (a : args) (wl : List String) (rs : List bam_item)
    (hu : a.umi_tag = none) (hok : ∀ it ∈ rs, input_ok a it)
    (hb : n_counted env a wl rs < 2 ^ 32) :
    ∃ st, count_matrix_run env a wl rs = some st ∧ final_inv env a wl st rs ∧
      sum_count (cells_of st.features.data) = n_counted env a wl rs := by
  obtain ⟨st1, hl, hi, he⟩ := count_matrix_loop_exact env a wl hu rs (init_state a wl) []
    (run_inv_init env a wl) hok (by simp [init_state, dict_init, cells_of, sum_weight, n_counted])
    (by simpa using hb)
  simp only [List.nil_append] at hi he
  obtain ⟨st, hrun, hfin⟩ := run_final env a wl rs hok
  refine ⟨st, hrun, hfin, ?_⟩
  have hp : ∀ e ∈ st1.features.data, ∃ v, e.2 = some v ∧ ∀ x ∈ v.data, pools_ok a x.data := by
    intro e he
    obtain ⟨v, hv, _⟩ := hi.1.2 e he
    refine ⟨v, hv, fun x hx => ?_⟩
    have hmem : (e.1, some v) ∈ st1.features.data := by rw [← hv]; exact he
    obtain ⟨c, i, _, _, hxd⟩ := run_inv_cell env a wl st1 rs hi e.1 v hmem x hx
    rw [hxd]
    exact cell_val_pools_ok a _ (new_counts_pools_ok env a i x.idx) _
  have hupd := update_features_eq a st1.features.data st1.n_record st1.n_record2
    (by rw [hi.2.2.2.1]; norm_num) (by rw [hi.2.2.2.2.1]; norm_num) hp
  have hst : st.features.data = final_feats a st1.features.data := by
    simp only [count_matrix_run, hl, Option.bind_eq_bind, Option.some_bind, update_counts,
      hupd, Option.some.injEq] at hrun
    rw [← hrun]
  rw [hst, cells_of_final, sum_count_final, he]

/-- Without UMI the count held for a pair after the run is the number of token
occurrences of the pair, modulo `2^32`. -/
theorem held_count_occ (env : Env) (a : args) (wl : List String) (st : state)
    (rs : List bam_item) (hu : a.umi_tag = none) (hi : final_inv env a wl st rs) (f c : String) :
    held_count st f c = occurrences env a wl f c rs % 2 ^ 32 := by
  rw [held_count_final env a wl st rs hi, contribs_length]
  simp [hu, u32]

/-- C23 (amended): in non-UMI mode the run goes through with and without a
last accepted record `it`, and the record raises the count held for every pair
`(f, c)` by the number of occurrences of `f` among its tokens when `c` is its
barcode, and by nothing otherwise, modulo `2^32`; as long as fewer than `2^32`
tokens were counted in all, the rise is exact, the counts of all cells add up
to the number of tokens counted, and their sum grows by exactly the number of
tokens of the record. -/
theorem C23_record_counts_each_token (env : Env) (a : args) (wl : List String)
    (rs : List bam_item) (it : bam_item) (h : hit) (hu : a.umi_tag = none)
    (hok : ∀ x ∈ rs ++ [it], input_ok a x) (hacc : accepted env a wl it = some h) :
    ∃ st0 st1, count_matrix_run env a wl rs = some st0 ∧
      count_matrix_run env a wl (rs ++ [it]) = some st1 ∧
      (∀ f c, held_count st1 f c =
        (held_count st0 f c + if h.cell = c then h.tokens.count f else 0) % 2 ^ 32) ∧
      (n_counted env a wl (rs ++ [it]) < 2 ^ 32 →
        (∀ f c, held_count st1 f c =
          held_count st0 f c + if h.cell = c then h.tokens.count f else 0) ∧
        sum_count (cells_of st0.features.data) = n_counted env a wl rs ∧
        sum_count (cells_of st1.features.data) =
          sum_count (cells_of st0.features.data) + h.tokens.length) := by
  have hok0 : ∀ x ∈ rs, input_ok a x := fun x hx => hok x (List.mem_append_left _ hx)
  obtain ⟨st0, hr0, hi0⟩ := run_final env a wl rs hok0
  obtain ⟨st1, hr1, hi1⟩ := run_final env a wl (rs ++ [it]) hok
  have hocc : ∀ f c, occurrences env a wl f c (rs ++ [it]) =
      occurrences env a wl f c rs + if h.cell = c then h.tokens.count f else 0 := by
    intro f c
    rw [occurrences_append]
    simp [occurrences, hacc]
  have hn : n_counted env a wl (rs ++ [it]) = n_counted env a wl rs + h.tokens.length := by
    rw [n_counted_append, n_counted_one, hacc]
  refine ⟨st0, st1, hr0, hr1, fun f c => ?_, fun hb => ⟨fun f c => ?_, ?_, ?_⟩⟩
  · rw [held_count_occ env a wl st1 _ hu hi1, held_count_occ env a wl st0 _ hu hi0, hocc]
    simp [Nat.add_mod]
  · have h1 := occurrences_le env a wl f c (rs ++ [it])
    have h0 := occurrences_le env a wl f c rs
    rw [held_count_occ env a wl st1 _ hu hi1, held_count_occ env a wl st0 _ hu hi0,
      Nat.mod_eq_of_lt (by omega), Nat.mod_eq_of_lt (by omega), hocc]
  · obtain ⟨s, hs, _, he⟩ := run_final_exact env a wl rs hu hok0 (by omega)
    rw [hr0] at hs
    cases hs
    exact he
  · obtain ⟨s, hs, _, he⟩ := run_final_exact env a wl rs hu hok0 (by omega)
    rw [hr0] at hs
    cases hs
    obtain ⟨s1, hs1, _, he1⟩ := run_final_exact env a wl (rs ++ [it]) hu hok hb
    rw [hr1] at hs1
    cases hs1
    rw [he1, he, hn]

/-- C23, witness: after two records, a record of barcode `A` listing
`G1;G2;G1` raises `(G1, A)` from 1 to 3, `(G2, A)` from 1 to 2, and the sum of
all counts from 2 to 5. -/
theorem C23_record_counts_each_token_witness :
    (∀ x ∈ [demo_rec "A" "G1", demo_rec "A" "G2"] ++ [demo_rec "A" "G1;G2;G1"],
      input_ok demo_args x) ∧
    (accepted demo_env demo_args [] (demo_rec "A" "G1;G2;G1")).map
      (fun h => (h.cell, h.tokens)) = some ("A", ["G1", "G2", "G1"]) ∧
    (count_matrix_run demo_env demo_args []
      ([demo_rec "A" "G1", demo_rec "A" "G2"] ++ [demo_rec "A" "G1;G2;G1"])).map
      (fun st => (held_count st "G1" "A", held_count st "G2" "A",
        sum_count (cells_of st.features.data))) = some (3, 2, 5) ∧
    ∃ st0 st1, count_matrix_run demo_env demo_args []
        [demo_rec "A" "G1", demo_rec "A" "G2"] = some st0 ∧
      count_matrix_run demo_env demo_args []
        ([demo_rec "A" "G1", demo_rec "A" "G2"] ++ [demo_rec "A" "G1;G2;G1"]) = some st1 ∧
      (∀ f c, held_count st1 f c =
        (held_count st0 f c + if "A" = c then ["G1", "G2", "G1"].count f else 0) % 2 ^ 32) ∧
      (n_counted demo_env demo_args []
          ([demo_rec "A" "G1", demo_rec "A" "G2"] ++ [demo_rec "A" "G1;G2;G1"]) < 2 ^ 32 →
        (∀ f c, held_count st1 f c =
          held_count st0 f c + if "A" = c then ["G1", "G2", "G1"].count f else 0) ∧
        sum_count (cells_of st0.features.data) =
          n_counted demo_env demo_args [] [demo_rec "A" "G1", demo_rec "A" "G2"] ∧
        sum_count (cells_of st1.features.data) =
          sum_count (cells_of st0.features.data) + ["G1", "G2", "G1"].length) :=
  ⟨by decide, by decide, by decide,
    C23_record_counts_each_token demo_env demo_args [] [demo_rec "A" "G1", demo_rec "A" "G2"]
      (demo_rec "A" "G1;G2;G1")
      { cell := "A", tokens := ["G1", "G2", "G1"], umi := "", unspliced := false }
      rfl (by decide) (by decide)⟩

/-- C23, counterexample to the claim as stated: after `2^32 - 1` records for
`(G1, A)` the count held is `4294967295`; one more accepted record with the
single token `G1` leaves the count 0, so the count of its cell is not raised
by one. -/
theorem C23_counterexample :
    (accepted demo_env demo_args [] (demo_rec "A" "G1")).map
      (fun h => (h.cell, h.tokens)) = some ("A", ["G1"]) ∧
    ∃ st0 st1, count_matrix_run demo_env demo_args []
        (List.replicate (2 ^ 32 - 1) (demo_rec "A" "G1")) = some st0 ∧
      count_matrix_run demo_env demo_args []
        (List.replicate (2 ^ 32 - 1) (demo_rec "A" "G1") ++ [demo_rec "A" "G1"]) = some st1 ∧
      held_count st0 "G1" "A" = 4294967295 ∧ held_count st1 "G1" "A" = 0 := by
  refine ⟨by decide, ?_⟩
  have hok0 : ∀ it ∈ List.replicate (2 ^ 32 - 1) (demo_rec "A" "G1"), input_ok demo_args it := by
    intro it hit
    rw [List.mem_replicate] at hit
    rw [hit.2]
    decide
  have hok1 : ∀ it ∈ List.replicate (2 ^ 32 - 1) (demo_rec "A" "G1") ++ [demo_rec "A" "G1"],
      input_ok demo_args it := by
    intro it hit
    rw [List.mem_append, List.mem_singleton] at hit
    rcases hit with h | h
    · exact hok0 it h
    · rw [h]
      decide
  obtain ⟨st0, hr0, hi0⟩ := run_final demo_env demo_args [] _ hok0
  obtain ⟨st1, hr1, hi1⟩ := run_final demo_env demo_args [] _ hok1
  have h1 : occurrences demo_env demo_args [] "G1" "A" [demo_rec "A" "G1"] = 1 := by decide
  refine ⟨st0, st1, hr0, hr1, ?_, ?_⟩
  · rw [held_count_occ demo_env demo_args [] st0 _ rfl hi0, occurrences_replicate, h1]
    norm_num
  · rw [held_count_occ demo_env demo_args [] st1 _ rfl hi1, occurrences_append,
      occurrences_replicate, h1]
    norm_num

theorem contribs_replicate_mem (env : Env) (a : args) (wl : List String) (f c : String)
    (it : bam_item) : ∀ (n : Nat), ∀ x ∈ contribs env a wl f c (List.replicate n it),
      x ∈ contribs env a wl f c [it]
  | 0, x, hx => by simp [contribs] at hx
  | n + 1, x, hx => by
    have : List.replicate (n + 1) it = [it] ++ List.replicate n it := by
      simp [List.replicate_succ]
    rw [this, contribs_append] at hx
    rcases List.mem_append.1 hx with hx | hx
    · exact hx
    · exact contribs_replicate_mem env a wl f c it n x hx

/-- C26, amended: in velocity mode the run goes through and after
`update_counts` every count cell has `unspliced ≤ count` in UMI mode, and in
non-UMI mode as long as fewer than `2^32` tokens were counted for its pair
(`count` and `unspliced` are `uint32_t` counters that wrap separately). -/
theorem C26_unspliced_le_count (env : Env) (a : args) (wl : List String) (rs : List bam_item)
    (hv : a.velocity = true) (hok : ∀ it ∈ rs, input_ok a it) :
    ∃ st, count_matrix_run env a wl rs = some st ∧
      (∀ f c, (a.umi_tag.isSome = true ∨ occurrences env a wl f c rs < 2 ^ 32) →
        held_unspliced st f c ≤ held_count st f c) ∧
      (∀ g v x, (g, some v) ∈ st.features.data → x ∈ v.data →
        (a.umi_tag.isSome = true ∨ n_counted env a wl rs < 2 ^ 32) →
        x.data.unspliced ≤ x.data.count) := by
  obtain ⟨st, hrun, hi⟩ := run_final env a wl rs hok
  have key : ∀ (i cid : Nat) (hs : List (String × Bool)),
      (a.umi_tag.isSome = true ∨ hs.length < 2 ^ 32) →
      (final_cell a (cell_val a (new_counts env a i cid) hs)).unspliced ≤
        (final_cell a (cell_val a (new_counts env a i cid) hs)).count := by
    intro i cid hs hb
    rw [final_cell_count, final_cell_unspliced env a i cid hs hv]
    cases hu : a.umi_tag with
    | some t =>
      simp only
      apply n_distinct_mono
      intro x hx
      simp only [List.mem_map] at hx ⊢
      obtain ⟨y, hy, rfl⟩ := hx
      exact ⟨y, (List.mem_filter.1 hy).1, rfl⟩
    | none =>
      simp only
      have hlen : hs.length < 2 ^ 32 := by
        rcases hb with hb | hb
        · rw [hu] at hb; cases hb
        · exact hb
      have h2 := unspliced_hits_length_le hs
      rw [u32_of_lt _ hlen, u32_of_lt _ (by omega)]
      exact h2
  refine ⟨st, hrun, ?_, ?_⟩
  · intro f c hb
    unfold held_unspliced held_count
    rcases held_cell_final env a wl st rs hi f c with ⟨_, h0⟩ | ⟨_, i, cid, h1⟩
    · rw [h0]; simp
    · rw [h1]
      simp only [Option.map_some', Option.getD_some]
      apply key
      rw [contribs_length]
      exact hb
  · intro g v x hg hx hb
    obtain ⟨c, i, _, _, hxd⟩ := final_inv_cell env a wl st rs hi g v hg x hx
    rw [hxd]
    apply key
    rcases hb with hb | hb
    · exact Or.inl hb
    · right
      rw [contribs_length]
      exact Nat.lt_of_le_of_lt (occurrences_le env a wl g c rs) hb

/-- C26, witness: a UMI run in velocity mode over an exon record and an intron
record for `(G1, A)` with different UMIs: the cell holds count 2 and
unspliced 1. -/
theorem C26_unspliced_le_count_witness :
    demo_args_velo.velocity = true ∧
    (∀ it ∈ [demo_rec_umi "A" "G1" "AAA" "E", demo_rec_umi "A" "G1" "CCC" "I"],
      input_ok demo_args_velo it) ∧
    (count_matrix_run demo_env demo_args_velo []
        [demo_rec_umi "A" "G1" "AAA" "E", demo_rec_umi "A" "G1" "CCC" "I"]).map
      (fun st => (held_count st "G1" "A", held_unspliced st "G1" "A")) = some (2, 1) ∧
    (∃ st, count_matrix_run demo_env demo_args_velo []
        [demo_rec_umi "A" "G1" "AAA" "E", demo_rec_umi "A" "G1" "CCC" "I"] = some st ∧
      (∀ f c, (demo_args_velo.umi_tag.isSome = true ∨
          occurrences demo_env demo_args_velo [] f c
            [demo_rec_umi "A" "G1" "AAA" "E", demo_rec_umi "A" "G1" "CCC" "I"] < 2 ^ 32) →
        held_unspliced st f c ≤ held_count st f c) ∧
      (∀ g v x, (g, some v) ∈ st.features.data → x ∈ v.data →
        (demo_args_velo.umi_tag.isSome = true ∨
          n_counted demo_env demo_args_velo []
            [demo_rec_umi "A" "G1" "AAA" "E", demo_rec_umi "A" "G1" "CCC" "I"] < 2 ^ 32) →
        x.data.unspliced ≤ x.data.count)) :=
  ⟨rfl, by decide, by decide,
    C26_unspliced_le_count demo_env demo_args_velo [] _ rfl (by decide)⟩

/-- C26, counterexample to the claim as stated: in velocity mode without UMI,
after `2^32 - 1` exon records and one intron record for `(G1, A)` the 32-bit
`count` has wrapped to 0 while `unspliced` is 1. -/
theorem C26_counterexample :
    ∃ st, count_matrix_run demo_env demo_args_velo_plain []
        (List.replicate (2 ^ 32 - 1) (demo_rec_umi "A" "G1" "AAA" "E") ++
          [demo_rec_umi "A" "G1" "CCC" "I"]) = some st ∧
      held_count st "G1" "A" = 0 ∧ held_unspliced st "G1" "A" = 1 := by
  have hok : ∀ it ∈ List.replicate (2 ^ 32 - 1) (demo_rec_umi "A" "G1" "AAA" "E") ++
      [demo_rec_umi "A" "G1" "CCC" "I"], input_ok demo_args_velo_plain it := by
    intro it hit
    simp only [List.mem_append, List.mem_replicate, List.mem_singleton] at hit
    rcases hit with ⟨_, h⟩ | h <;> subst h <;> decide
  obtain ⟨st, hrun, hi⟩ := run_final demo_env demo_args_velo_plain [] _ hok
  have hv : demo_args_velo_plain.velocity = true := rfl
  have hu : demo_args_velo_plain.umi_tag = none := rfl
  have hocc : occurrences demo_env demo_args_velo_plain [] "G1" "A"
      (List.replicate (2 ^ 32 - 1) (demo_rec_umi "A" "G1" "AAA" "E") ++
        [demo_rec_umi "A" "G1" "CCC" "I"]) = 2 ^ 32 := by
    rw [occurrences_append, occurrences_replicate]
    have h1 : occurrences demo_env demo_args_velo_plain [] "G1" "A"
        [demo_rec_umi "A" "G1" "AAA" "E"] = 1 := by decide
    have h2 : occurrences demo_env demo_args_velo_plain [] "G1" "A"
        [demo_rec_umi "A" "G1" "CCC" "I"] = 1 := by decide
    rw [h1, h2]
    norm_num
  have hE : contribs demo_env demo_args_velo_plain [] "G1" "A"
      [demo_rec_umi "A" "G1" "AAA" "E"] = [("", false)] := by decide
  have hI : contribs demo_env demo_args_velo_plain [] "G1" "A"
      [demo_rec_umi "A" "G1" "CCC" "I"] = [("", true)] := by decide
  have huns : unspliced_hits (contribs demo_env demo_args_velo_plain [] "G1" "A"
      (List.replicate (2 ^ 32 - 1) (demo_rec_umi "A" "G1" "AAA" "E") ++
        [demo_rec_umi "A" "G1" "CCC" "I"])) = [("", true)] := by
    rw [contribs_append, hI, unspliced_hits_append]
    have : unspliced_hits (contribs demo_env demo_args_velo_plain [] "G1" "A"
        (List.replicate (2 ^ 32 - 1) (demo_rec_umi "A" "G1" "AAA" "E"))) = [] := by
      unfold unspliced_hits
      rw [List.filter_eq_nil_iff]
      intro x hx
      have := contribs_replicate_mem demo_env demo_args_velo_plain [] "G1" "A" _ _ x hx
      rw [hE] at this
      simp only [List.mem_singleton] at this
      subst this
      simp
    rw [this]
    rfl
  refine ⟨st, hrun, ?_, ?_⟩
  · rw [held_count_final demo_env demo_args_velo_plain [] st _ hi "G1" "A", contribs_length, hocc]
    simp [hu, u32]
  · unfold held_unspliced
    rcases held_cell_final demo_env demo_args_velo_plain [] st _ hi "G1" "A" with
      ⟨h0, _⟩ | ⟨_, i, cid, h1⟩
    · have := contribs_length demo_env demo_args_velo_plain [] "G1" "A"
        (List.replicate (2 ^ 32 - 1) (demo_rec_umi "A" "G1" "AAA" "E") ++
          [demo_rec_umi "A" "G1" "CCC" "I"])
      rw [h0, hocc] at this
      simp at this
    · rw [h1, Option.map_some', Option.getD_some,
        final_cell_unspliced demo_env demo_args_velo_plain i cid _ hv, huns]
      simp [hu, u32]

/-- C27: without a whitelist, a record that has its barcode, its feature tag
and, in UMI mode, its UMI tag, that passes the velocity classification and
whose barcode is not yet in the barcodes table gets its barcode pushed before
the feature field is looked at: when `one_hit` is set and the field has more
than one token `count_matrix_core` returns 1, and when the field has no token
it returns 0, in both cases with the features table and the counters as they
were and the barcodes table one entry longer, the new barcode last.  A record
that lacks the barcode tag, the feature tag or the UMI tag, or that the
velocity classification drops, returns 1 with the whole state unchanged. -/
theorem C27_barcode_pushed_before_drop (env : Env) (a : args) (hw : a.whitelist_fname = none) :
    (∀ (st : state) (b : bam1_t) (tag : Option String) (cb anno : String) (u : Bool),
      read_cell_tag a b tag = .next (some cb) → bam_aux_get b a.anno_tag = some anno →
      ¬ (a.umi_tag.isSome = true ∧ (a.umi_tag.bind (bam_aux_get b)).isNone = true) →
      velocity_class env a b = some u → dict_query st.barcodes cb = none →
      ((a.one_hit = true ∧ (env.str_split anno).length > 1) →
        count_matrix_core env a st b tag =
          some (1, { st with barcodes := (dict_push st.barcodes cb).2 })) ∧
      (env.str_split anno = [] →
        count_matrix_core env a st b tag =
          some (0, { st with barcodes := (dict_push st.barcodes cb).2 })) ∧
      (dict_push st.barcodes cb).2.data = st.barcodes.data ++ [(cb, none)] ∧
      dict_size (dict_push st.barcodes cb).2 = dict_size st.barcodes + 1) ∧
    (∀ (st : state) (b : bam1_t) (tag : Option String),
      (read_cell_tag a b tag = .drop → count_matrix_core env a st b tag = some (1, st)) ∧
      (∀ t, read_cell_tag a b tag = .next t →
        (bam_aux_get b a.anno_tag = none ∨
          (a.umi_tag.isSome = true ∧ (a.umi_tag.bind (bam_aux_get b)).isNone = true) ∨
          velocity_class env a b = none) →
        count_matrix_core env a st b tag = some (1, st))) := by
  refine ⟨?_, ?_⟩
  · intro st b tag cb anno u hr hanno humi hv hq
    have hres : resolve_cell a st.barcodes (some cb) = .next (dict_push st.barcodes cb) := by
      simp [resolve_cell, hw]
    have hpush : (dict_push st.barcodes cb).2.data = st.barcodes.data ++ [(cb, none)] := by
      simp [dict_push, hq]
    refine ⟨?_, ?_, hpush, ?_⟩
    · intro hone
      simp only [count_matrix_core, hr, hanno, humi, if_false, hv, hres]
      simp [hone]
    · intro hnil
      simp only [count_matrix_core, hr, hanno, humi, if_false, hv, hres, hnil]
      simp [count_features]
    · simp [dict_size, hpush]
  · intro st b tag
    refine ⟨?_, ?_⟩
    · intro hr
      simp [count_matrix_core, hr]
    · intro t hr h
      rcases h with h | h | h
      · simp [count_matrix_core, hr, h]
      · cases hanno : bam_aux_get b a.anno_tag with
        | none => simp [count_matrix_core, hr, hanno]
        | some anno =>
          simp only [count_matrix_core, hr, hanno]
          rw [if_pos h]
      · cases hanno : bam_aux_get b a.anno_tag with
        | none => simp [count_matrix_core, hr, hanno]
        | some anno =>
          simp only [count_matrix_core, hr, hanno, h]
          split <;> rfl

/-- C27, witness: with `one_hit` set and no whitelist, a record of barcode `A`
for `G1` and a record of the new barcode `B` that lists `G1;G2`: the second is
dropped, no count is held for `B`, and yet the barcode list is `A`, `B` and the
matrix has two columns and one entry.  A record that the velocity
classification drops leaves the barcodes table empty. -/
theorem C27_barcode_pushed_before_drop_witness :
    demo_args_one_hit.whitelist_fname = none ∧
    (count_matrix_run demo_env demo_args_one_hit []
        [demo_rec "A" "G1", demo_rec "B" "G1;G2"]).map
      (fun st => (st.barcodes.data.map Prod.fst, held_count st "G1" "B", held_count st "G2" "B",
        write_outs demo_args_one_hit st))
      = some (["A", "B"], 0, 0,
          .written (some
            { barcode_names := ["A", "B"], feature_names := ["G1"],
              mex := ⟨(1, 2, 1), [(1, 1, 1)]⟩, unspliced := none })) ∧
    (count_matrix_core demo_env demo_args_velo (init_state demo_args_velo [])
        (demo_rec_umi "A" "G1" "AAA" "G").b none).map
      (fun r => (r.1, r.2.barcodes.data.map Prod.fst)) = some (1, []) ∧
    ((∀ (st : state) (b : bam1_t) (tag : Option String) (cb anno : String) (u : Bool),
      read_cell_tag demo_args_one_hit b tag = .next (some cb) →
      bam_aux_get b demo_args_one_hit.anno_tag = some anno →
      ¬ (demo_args_one_hit.umi_tag.isSome = true ∧
        (demo_args_one_hit.umi_tag.bind (bam_aux_get b)).isNone = true) →
      velocity_class demo_env demo_args_one_hit b = some u → dict_query st.barcodes cb = none →
      ((demo_args_one_hit.one_hit = true ∧ (demo_env.str_split anno).length > 1) →
        count_matrix_core demo_env demo_args_one_hit st b tag =
          some (1, { st with barcodes := (dict_push st.barcodes cb).2 })) ∧
      (demo_env.str_split anno = [] →
        count_matrix_core demo_env demo_args_one_hit st b tag =
          some (0, { st with barcodes := (dict_push st.barcodes cb).2 })) ∧
      (dict_push st.barcodes cb).2.data = st.barcodes.data ++ [(cb, none)] ∧
      dict_size (dict_push st.barcodes cb).2 = dict_size st.barcodes + 1) ∧
    (∀ (st : state) (b : bam1_t) (tag : Option String),
      (read_cell_tag demo_args_one_hit b tag = .drop →
        count_matrix_core demo_env demo_args_one_hit st b tag = some (1, st)) ∧
      (∀ t, read_cell_tag demo_args_one_hit b tag = .next t →
        (bam_aux_get b demo_args_one_hit.anno_tag = none ∨
          (demo_args_one_hit.umi_tag.isSome = true ∧
            (demo_args_one_hit.umi_tag.bind (bam_aux_get b)).isNone = true) ∨
          velocity_class demo_env demo_args_one_hit b = none) →
        count_matrix_core demo_env demo_args_one_hit st b tag = some (1, st)))) :=
  ⟨rfl, by decide, by decide, C27_barcode_pushed_before_drop demo_env demo_args_one_hit rfl⟩

/-! ## The attribute tokenizer -/

/-- C24, counterexample to the claim as stated: on `gene_id ABC; gene_name X`
the loop of `split_gff` stores a value only behind a `"`, so each of the four
words is returned as a key with a `NULL` value, not the pairs `(gene_id, ABC)`
and `(gene_name, X)`; with the values quoted the two pairs are returned. -/
theorem C24_counterexample :
    split_gff "gene_id ABC; gene_name X" =
      some [⟨"gene_id", none⟩, ⟨"ABC", none⟩, ⟨"gene_name", none⟩, ⟨"X", none⟩] ∧
    split_gff "gene_id \"ABC\"; gene_name \"X\"" =
      some [⟨"gene_id", some "ABC"⟩, ⟨"gene_name", some "X"⟩] := by
  decide

/-- C25, the code at the failing input: on `gene_id "ABC`, a value that runs to
the end of the buffer without a closing quote, the test `i+1 == str->l` leaves
the loop before the last character is stored: the value returned is `AB`, and
for the value `A` it is `NULL`; parsing stops there. -/
theorem C25_unclosed_value_loses_last_char :
    split_gff "gene_id \"ABC" = some [⟨"gene_id", some "AB"⟩] ∧
    split_gff "gene_name \"X\"; gene_id \"ABC" =
      some [⟨"gene_name", some "X"⟩, ⟨"gene_id", some "AB"⟩] ∧
    split_gff "gene_id \"A" = some [⟨"gene_id", none⟩] := by
  decide

theorem rdropWhile_append_all (p : Char → Bool) (l t : List Char) (ht : ∀ c ∈ t, p c = true) :
    (l ++ t).rdropWhile p = l.rdropWhile p := by
  unfold List.rdropWhile
  rw [List.reverse_append, List.dropWhile_append_of_pos]
  intro c hc
  exact ht c (List.mem_reverse.1 hc)

theorem bare_body_last : ∀ (rest : List (String × String)) (pre : List Char),
    (∃ i c, pre = i ++ [c] ∧ is_sep c = false) → (∀ p ∈ rest, word_ok p.2) →
    ∃ i c, pre ++ bare_body rest = i ++ [c] ∧ is_sep c = false
  | [], pre, hpre, _ => by simpa [bare_body] using hpre
  | p :: t, pre, _, hr => by
    obtain ⟨hne, hc⟩ := hr p (List.mem_cons_self _ _)
    have h1 : ∃ i c, pre ++ p.1.data ++ p.2.data = i ++ [c] ∧ is_sep c = false := by
      refine ⟨pre ++ p.1.data ++ p.2.data.dropLast, p.2.data.getLast hne, ?_,
        hc _ (List.getLast_mem hne)⟩
      rw [List.append_assoc _ _ [_], List.dropLast_append_getLast]
    obtain ⟨i, c, hi, hci⟩ := bare_body_last t (pre ++ p.1.data ++ p.2.data) h1
      (fun q hq => hr q (List.mem_cons_of_mem _ hq))
    refine ⟨i, c, ?_, hci⟩
    rw [← hi]
    simp [bare_body]

theorem strip_tail_bare (w0 : String) (rest : List (String × String)) (tail : String)
    (hw : word_ok w0) (hr : ∀ p ∈ rest, word_ok p.2) (ht : ∀ c ∈ tail.data, is_sep c = true) :
    strip_tail (bare_join w0 rest tail).data = some (w0.data ++ bare_body rest) := by
  have h0 : ∃ i c, w0.data = i ++ [c] ∧ is_sep c = false :=
    ⟨w0.data.dropLast, w0.data.getLast hw.1, (List.dropLast_append_getLast hw.1).symm,
      hw.2 _ (List.getLast_mem hw.1)⟩
  obtain ⟨i, c, hi, hc⟩ := bare_body_last rest w0.data h0 hr
  unfold strip_tail bare_join
  simp only
  rw [rdropWhile_append_all _ _ _ ht, hi, List.rdropWhile_concat_neg _ _ _ (by simp [hc])]
  cases i <;> rfl

/-- One round of the loop of `split_gff` on a word, the separator behind it and
what follows, which does not open with a quote: the word is stored as a key
without a value. -/
theorem split_step_bare (w seps nxt : List Char) (hw : w ≠ [])
    (hwc : ∀ c ∈ w, is_sep c = false) (hs : ∀ c ∈ seps, is_sep c = true)
    (hn : nxt = [] ∨ ∃ c t, nxt = c :: t ∧ is_sep c = false ∧ c ≠ '"')
    (hsn : seps = [] → nxt = []) :
    split_step (w ++ (seps ++ nxt)) = (some ⟨String.mk w, none⟩, nxt) := by
  have hhead : ∀ l : List Char, l = seps ++ nxt →
      l.takeWhile (fun c => !is_sep c) = [] ∧ l.dropWhile (fun c => !is_sep c) = l := by
    intro l hl
    cases hseps : seps with
    | nil =>
      rw [hseps, hsn hseps] at hl
      subst hl
      exact ⟨rfl, rfl⟩
    | cons c t =>
      rw [hseps] at hl
      subst hl
      have hc : is_sep c = true := hs c (by rw [hseps]; exact List.mem_cons_self _ _)
      simp [List.takeWhile, List.dropWhile, hc]
  have h1 : (w ++ (seps ++ nxt)).takeWhile (fun c => !is_sep c) = w := by
    rw [List.takeWhile_append_of_pos (fun c hc => by simp [hwc c hc]), (hhead _ rfl).1,
      List.append_nil]
  have h2 : (w ++ (seps ++ nxt)).dropWhile (fun c => !is_sep c) = seps ++ nxt := by
    rw [List.dropWhile_append_of_pos (fun c hc => by simp [hwc c hc]), (hhead _ rfl).2]
  have h3 : nxt.dropWhile is_sep = nxt := by
    rcases hn with hn | ⟨c, t, hn, hc, _⟩
    · rw [hn]
      rfl
    · rw [hn]
      simp [List.dropWhile, hc]
  have h4 : (seps ++ nxt).dropWhile is_sep = nxt := by
    rw [List.dropWhile_append_of_pos hs, h3]
  unfold split_step
  simp only [h1, h2, h4, hw, if_false]
  rcases hn with hn | ⟨c, t, hn, hc, hq⟩
  · subst hn
    rfl
  · subst hn
    simp only [hq, if_false, if_true]
    rw [h3]

theorem bare_body_head : ∀ (rest : List (String × String)),
    (∀ p ∈ rest, sep_ok p.1 ∧ word_ok p.2 ∧ p.2.data.head? ≠ some '"') →
    ∀ p t, rest = p :: t →
      p.2.data ++ bare_body t = [] ∨
        ∃ c r, p.2.data ++ bare_body t = c :: r ∧ is_sep c = false ∧ c ≠ '"' := by
  intro rest hr p t hpt
  subst hpt
  obtain ⟨_, ⟨hne, hc⟩, hq⟩ := hr p (List.mem_cons_self _ _)
  cases hd : p.2.data with
  | nil => exact absurd hd hne
  | cons c r =>
    right
    refine ⟨c, r ++ bare_body t, rfl, hc c (by rw [hd]; exact List.mem_cons_self _ _), ?_⟩
    intro h
    apply hq
    rw [hd, h]
    rfl

/-- The loop of `split_gff` over a column of words without quotes: every word
is stored as a key without a value. -/
theorem split_loop_bare : ∀ (rest : List (String × String)) (w : String) (n : Nat)
    (acc : List attr_pair), word_ok w →
    (∀ p ∈ rest, sep_ok p.1 ∧ word_ok p.2 ∧ p.2.data.head? ≠ some '"') →
    (w.data ++ bare_body rest).length ≤ n →
    split_loop n (w.data ++ bare_body rest) acc =
      some (acc ++ ⟨w, none⟩ :: rest.map (fun p => ⟨p.2, none⟩))
  | [], w, n, acc, hw, _, hn => by
    have hstep := split_step_bare w.data [] [] hw.1 hw.2 (fun c hc => by cases hc) (Or.inl rfl)
      (fun _ => rfl)
    simp only [List.append_nil] at hstep
    simp only [bare_body, List.append_nil] at hn ⊢
    cases hd : w.data with
    | nil => exact absurd hd hw.1
    | cons c r =>
      rw [hd] at hstep hn
      cases n with
      | zero => simp at hn
      | succ m =>
        simp only [split_loop, hstep]
        cases m <;> simp [split_loop, ← hd]
  | p :: t, w, n, acc, hw, hr, hn => by
    obtain ⟨hs, hpw, _⟩ := hr p (List.mem_cons_self _ _)
    have hstep := split_step_bare w.data p.1.data (p.2.data ++ bare_body t) hw.1 hw.2 hs.2
      (bare_body_head (p :: t) hr p t rfl) (fun h => absurd h hs.1)
    have heq : w.data ++ bare_body (p :: t) = w.data ++ (p.1.data ++ (p.2.data ++ bare_body t)) := by
      simp [bare_body]
    rw [heq] at hn ⊢
    cases hd : w.data ++ (p.1.data ++ (p.2.data ++ bare_body t)) with
    | nil =>
      have : w.data = [] := (List.append_eq_nil.1 hd).1
      exact absurd this hw.1
    | cons c r =>
      rw [hd] at hstep hn
      cases n with
      | zero => simp at hn
      | succ m =>
        simp only [split_loop, hstep]
        have hlen : (p.2.data ++ bare_body t).length ≤ m := by
          have h1 := congrArg List.length hd
          have h2 : 0 < w.data.length := List.length_pos.2 hw.1
          simp only [List.length_append, List.length_cons] at h1 hn ⊢
          omega
        rw [split_loop_bare t p.2 m (acc ++ [attr_pair.mk (String.mk w.data) none]) hpw
          (fun q hq => hr q (List.mem_cons_of_mem _ hq)) hlen]
        simp

/-- C24 (amended): on an attribute column without quotes, made of a word, then
separators (non-empty runs of white space and `;`) each followed by a word
that does not start with `"`, then white space and `;` up to the end,
`split_gff` stores no value: it returns every word, the keys and the unquoted
value texts alike, as a key with a `NULL` value, in order. -/
theorem C24_unquoted_words_are_keys (w0 : String) (rest : List (String × String))
    (tail : String) (hw : word_ok w0)
    (hr : ∀ p ∈ rest, sep_ok p.1 ∧ word_ok p.2 ∧ p.2.data.head? ≠ some '"')
    (ht : ∀ c ∈ tail.data, is_sep c = true) :
    split_gff (bare_join w0 rest tail) =
      some (⟨w0, none⟩ :: rest.map (fun p => ⟨p.2, none⟩)) := by
  unfold split_gff
  rw [strip_tail_bare w0 rest tail hw (fun p hp => (hr p hp).2.1) ht]
  simp only
  rw [split_loop_bare rest w0 _ [] hw hr (le_refl _)]
  rfl

/-- C24, witness: the example of the claim, `gene_id ABC; gene_name X`. -/
theorem C24_unquoted_words_are_keys_witness :
    bare_join "gene_id" [(" ", "ABC"), ("; ", "gene_name"), (" ", "X")] "" =
      "gene_id ABC; gene_name X" ∧
    split_gff (bare_join "gene_id" [(" ", "ABC"), ("; ", "gene_name"), (" ", "X")] "") =
      some (⟨"gene_id", none⟩ ::
        [(" ", "ABC"), ("; ", "gene_name"), (" ", "X")].map (fun p => ⟨p.2, none⟩)) :=
  ⟨by decide,
    C24_unquoted_words_are_keys "gene_id" [(" ", "ABC"), ("; ", "gene_name"), (" ", "X")] ""
      (by unfold word_ok; decide)
      (by
        intro p hp
        simp only [List.mem_cons, List.mem_singleton, List.not_mem_nil, or_false] at hp
        rcases hp with h | h | h <;> subst h <;> unfold sep_ok word_ok <;> decide)
      (by decide)⟩

theorem get_set {α : Type} : ∀ (l : List α) (i j : Nat) (a : α),
    (l.set i a).get? j = if j = i then (l.get? i).map (fun _ => a) else l.get? j
  | [], i, j, a => by simp
  | x :: t, 0, 0, a => by simp
  | x :: t, 0, j + 1, a => by simp
  | x :: t, i + 1, 0, a => by simp
  | x :: t, i + 1, j + 1, a => by
    have := get_set t i j a
    simp only [List.set_cons_succ, List.get?_cons_succ, this]
    simp

theorem get_concat {α : Type} (l : List α) (a : α) (k : Nat) :
    (l ++ [a]).get? k = if k = l.length then some a else l.get? k := by
  by_cases hk : k < l.length
  · rw [if_neg (by omega), List.get?_eq_getElem?, List.get?_eq_getElem?,
      List.getElem?_append_left hk]
  · by_cases hk2 : k = l.length
    · subst hk2
      simp
    · rw [if_neg hk2, List.get?_eq_none.2 (by simp; omega), List.get?_eq_none.2 (by omega)]

theorem set_get_self {α : Type} : ∀ (l : List α) (i : Nat) (a : α), l.get? i = some a →
    l.set i a = l
  | [], i, a, h => by simp
  | x :: t, 0, a, h => by
    simp only [List.get?_cons_zero, Option.some.injEq] at h
    simp [h]
  | x :: t, i + 1, a, h => by
    simp only [List.get?_cons_succ] at h
    simp [set_get_self t i a h]

theorem assign_at_self {α : Type} : ∀ (l : List (String × Option α)) (i : Nat) (v : α),
    (l.get? i).bind Prod.snd = some v → assign_at l i v = l
  | [], i, v, h => by simp [assign_at]
  | e :: t, 0, v, h => by
    simp only [List.get?_cons_zero, Option.some_bind] at h
    simp only [assign_at, ← h]
  | e :: t, i + 1, v, h => by
    simp only [List.get?_cons_succ] at h
    simp [assign_at, assign_at_self t i v h]

theorem get_gene_name_eq (G G1 : gtf_spec) (h : G1.name = G.name) (p : Nat × Nat) :
    get_gene G1 p = get_gene G p := by
  unfold get_gene
  rw [h]

theorem get_tx_name_eq (G G1 : gtf_spec) (h : G1.name = G.name) (tp : Nat × Nat × Nat) :
    get_tx G1 tp = get_tx G tp := by
  unfold get_tx
  rw [get_gene_name_eq G G1 h]

/-- A write through a gene pointer of the gene itself changes nothing. -/
theorem set_gene_self (G : gtf_spec) (p : Nat × Nat) (g : gtf) (h : get_gene G p = some g) :
    set_gene G p g = G := by
  obtain ⟨c, hc, hg⟩ := get_gene_mem G p g h
  unfold set_gene
  rw [hc]
  simp only
  rw [set_get_self c.gtf p.2 g hg]
  have : dict_assign_value G.name p.1 { gtf := c.gtf, idx := c.idx } = G.name := by
    unfold dict_assign_value
    rw [assign_at_self G.name.data p.1 _ hc]
  rw [this]

/-- The gene records after a write through a gene pointer. -/
theorem get_gene_set_gene_eq (G : gtf_spec) (p q : Nat × Nat) (g1 : gtf) :
    get_gene (set_gene G p g1) q =
      if q = p then (get_gene G p).map (fun _ => g1) else get_gene G q := by
  unfold get_gene
  rw [set_gene_name]
  cases hq : dict_query_value G.name p.1 with
  | none =>
    by_cases h : q = p
    · subst h
      simp [hq]
    · simp [h]
  | some c =>
    simp only [qv_assign, if_pos (qv_lt _ _ _ hq)]
    by_cases h1 : q.1 = p.1
    · simp only [h1, if_true, Option.bind_eq_bind, Option.some_bind, hq, get_set]
      by_cases h2 : q.2 = p.2
      · have : q = p := Prod.ext h1 h2
        simp [this]
      · have : q ≠ p := fun h => h2 (by rw [h])
        simp [h2, this]
    · have : q ≠ p := fun h => h1 (by rw [h])
      simp [h1, this]

/-- The transcript records after a write through a gene pointer. -/
theorem get_tx_set_gene (G : gtf_spec) (p : Nat × Nat) (g g1 : gtf) (tq : Nat × Nat × Nat)
    (h : get_gene G p = some g) :
    get_tx (set_gene G p g1) tq =
      if (tq.1, tq.2.1) = p then g1.children.get? tq.2.2 else get_tx G tq := by
  unfold get_tx
  rw [get_gene_set_gene_eq]
  by_cases hq : (tq.1, tq.2.1) = p
  · simp [hq, h]
  · simp [hq]

/-- The gene records after a gene was added to a contig. -/
theorem get_gene_app (G G1 : gtf_spec) (ctg : Nat) (c : gtf_ctg) (g1 : gtf) (q : Nat × Nat)
    (hq : dict_query_value G.name ctg = some c)
    (hG : G1.name = dict_assign_value G.name ctg { c with gtf := c.gtf ++ [g1] }) :
    get_gene G1 q = if q = (ctg, c.gtf.length) then some g1 else get_gene G q := by
  unfold get_gene
  rw [hG]
  simp only [qv_assign, if_pos (qv_lt _ _ _ hq)]
  by_cases h1 : q.1 = ctg
  · simp only [h1, if_true, Option.bind_eq_bind, Option.some_bind, hq, get_concat]
    by_cases h2 : q.2 = c.gtf.length
    · have : q = (ctg, c.gtf.length) := Prod.ext h1 h2
      simp [this]
    · have : q ≠ (ctg, c.gtf.length) := fun h => h2 (by rw [h])
      simp [h2, this]
  · have : q ≠ (ctg, c.gtf.length) := fun h => h1 (by rw [h])
    simp [h1, this]

/-- The transcript records after a gene was added to a contig. -/
theorem get_tx_app (G G1 : gtf_spec) (ctg : Nat) (c : gtf_ctg) (g1 : gtf) (tq : Nat × Nat × Nat)
    (hq : dict_query_value G.name ctg = some c)
    (hG : G1.name = dict_assign_value G.name ctg { c with gtf := c.gtf ++ [g1] }) :
    get_tx G1 tq =
      if (tq.1, tq.2.1) = (ctg, c.gtf.length) then g1.children.get? tq.2.2 else get_tx G tq := by
  unfold get_tx
  rw [get_gene_app G G1 ctg c g1 _ hq hG]
  by_cases h : (tq.1, tq.2.1) = (ctg, c.gtf.length)
  · simp [h]
  · simp [h]

theorem children_mk (f : gtf_fields) (cs : List gtf) : (gtf.mk f cs).children = cs := rfl

theorem f_mk (f : gtf_fields) (cs : List gtf) : (gtf.mk f cs).f = f := rfl

/-- The transcript records after a write through a transcript pointer. -/
theorem get_tx_set_tx (G : gtf_spec) (tp tq : Nat × Nat × Nat) (tx t : gtf)
    (h : get_tx G tp = some tx) :
    get_tx (set_tx G tp t) tq = if tq = tp then some t else get_tx G tq := by
  obtain ⟨g, hg, hc⟩ := get_tx_gene G tp tx h
  unfold set_tx
  rw [hg]
  simp only
  rw [get_tx_set_gene G _ g _ tq hg]
  by_cases h1 : (tq.1, tq.2.1) = (tp.1, tp.2.1)
  · simp only [h1, if_true, children_mk, get_set]
    have h1a : tq.1 = tp.1 := (Prod.mk.inj h1).1
    have h1b : tq.2.1 = tp.2.1 := (Prod.mk.inj h1).2
    by_cases h2 : tq.2.2 = tp.2.2
    · have : tq = tp := Prod.ext h1a (Prod.ext h1b h2)
      rw [if_pos h2, if_pos this, hc]
      rfl
    · have : tq ≠ tp := fun h => h2 (by rw [h])
      simp only [h2, this, if_false]
      unfold get_tx
      rw [h1, hg]
      rfl
  · have : tq ≠ tp := fun h => h1 (by rw [h])
    simp [h1, this]

/-- The gene records after a write through a transcript pointer: the fields of
every gene are kept. -/
theorem get_gene_set_tx (G : gtf_spec) (tp : Nat × Nat × Nat) (t : gtf) (q : Nat × Nat) (g : gtf)
    (h : get_gene G q = some g) :
    ∃ g1, get_gene (set_tx G tp t) q = some g1 ∧ g1.f = g.f := by
  unfold set_tx
  cases hg : get_gene G (tp.1, tp.2.1) with
  | none => exact ⟨g, h, rfl⟩
  | some g0 =>
    simp only
    rw [get_gene_set_gene_eq]
    by_cases hq : q = (tp.1, tp.2.1)
    · subst hq
      rw [hg] at h
      cases h
      exact ⟨.mk g.f (g.children.set tp.2.2 t), by rw [if_pos rfl, hg]; rfl, rfl⟩
    · exact ⟨g, by simp [hq, h], rfl⟩

theorem gene_inherit_ids (f r : gtf_fields) (hf : ids_set f = true) : gene_inherit f r = f := by
  rw [ids_set_iff] at hf
  cases f
  simp only [gene_inherit] at hf ⊢
  simp [hf.1, hf.2]

theorem gtf_mk_eta (g : gtf) : gtf.mk g.f g.children = g := by
  cases g
  rfl

/-- What `gtf_push_sub` returns. -/
theorem gtf_push_sub_eq (G : gtf_spec) (tp : Nat × Nat × Nat) (r : gtf_fields) (tx : gtf)
    (h : get_tx G tp = some tx) :
    gtf_push_sub G tp r =
      if (tx_inherit tx.f r).gene_id = r.gene_id ∧ (tx_inherit tx.f r).gene_name = r.gene_name ∧
          (tx_inherit tx.f r).transcript_id = r.transcript_id then
        some (0, set_tx G tp (.mk (tx_inherit tx.f r) (tx.children ++ [gtf_copy r])))
      else none := by
  unfold gtf_push_sub
  rw [h]

/-- C21 (amended): a `gene` record whose `gene_id` already has a gene, and a
`transcript` record whose `transcript_id` already has a transcript and whose
`gene_id` already has a gene with its ids set, make `gtf_push` return 1 and
leave the whole model as it was. -/
theorem C21_duplicate_record_dropped (h : gtf_h) (G : gtf_spec) (ctg : Nat) (r : gtf_fields)
    (feature : Int) (p : Nat × Nat) (hg : dict_value_of G.gene_id r.gene_id = some p)
    (hdup : feature = h.feature_gene ∨
      (feature = h.feature_transcript ∧
        (dict_value_of G.transcript_id r.transcript_id).isSome = true ∧
        (get_gene G p).map (fun g => ids_set g.f) = some true)) :
    gtf_push h G ctg r feature = some (1, G) := by
  unfold gtf_push
  rw [hg]
  simp only
  by_cases hf : feature = h.feature_gene
  · rw [if_pos hf]
  · rw [if_neg hf]
    rcases hdup with hd | ⟨hft, hts, hgs⟩
    · exact absurd hd hf
    · obtain ⟨tp, htp⟩ := Option.isSome_iff_exists.1 hts
      have hne : r.transcript_id ≠ -1 := by
        intro h1
        rw [h1] at htp
        simp [dict_value_of] at htp
      cases hgene : get_gene G p with
      | none => rw [hgene] at hgs; cases hgs
      | some gene =>
        rw [hgene] at hgs
        simp only [Option.map_some', Option.some.injEq] at hgs
        unfold gtf_push_tx
        rw [if_neg hne, hgene]
        simp only [htp, if_pos hft]
        rw [gene_inherit_ids gene.f r hgs, gtf_mk_eta, set_gene_self G p gene hgene]

/-- C21, witness: after a `gene` line and a `transcript` line of `G1`, both
lines read again are dropped with the value 1 and the model unchanged. -/
theorem C21_duplicate_record_dropped_witness :
    (demo_record [gene_line "G1" 1 100, tx_line "G1" "T1" 1 100] (tx_line "G1" "T1" 1 100)).map
      (fun x => (x.2.1, x.2.2)) = some (⟨0, 0, 1, 1, 100, 0, 0, 0, 0⟩, 1) ∧
    demo_push [gene_line "G1" 1 100, tx_line "G1" "T1" 1 100] (tx_line "G1" "T1" 1 100) =
      some (1, [⟨0, 0, 0, 1, 100, 0, 0, 0, -1⟩]) ∧
    gtf_push demo_gtf_h (demo_model [gene_line "G1" 1 100, tx_line "G1" "T1" 1 100]) 0
      ⟨0, 0, 1, 1, 100, 0, 0, 0, 0⟩ 1 =
      some (1, demo_model [gene_line "G1" 1 100, tx_line "G1" "T1" 1 100]) :=
  ⟨by decide!, by decide!,
    C21_duplicate_record_dropped demo_gtf_h
      (demo_model [gene_line "G1" 1 100, tx_line "G1" "T1" 1 100]) 0
      ⟨0, 0, 1, 1, 100, 0, 0, 0, 0⟩ 1 (0, 0) (by decide!)
      (Or.inr ⟨by decide!, by decide!, by decide!⟩)⟩

/-- C21, counterexample to the claim as stated: after a `transcript` line of
transcript `T1` and gene `G1`, a `transcript` line that names `T1` again under
the gene id `G2` reaches `gtf_push` as a transcript record whose
`transcript_id` already has a transcript; `gtf_push` returns 1, and the gene
list of the contig, which held the synthetic gene of `G1`, has a second
synthetic gene, with the ids of `G2`. -/
theorem C21_counterexample :
    (demo_record [tx_line "G1" "T1" 1 100] (tx_line "G2" "T1" 1 100)).map
      (fun x => ((genes_of x.1 0).map gtf.f, x.2.1, x.2.2)) =
      some ([⟨-1, -1, 0, -1, -1, 0, 0, 0, -1⟩], ⟨0, 0, 1, 1, 100, 0, 1, 1, 0⟩,
        demo_gtf_h.feature_transcript) ∧
    (demo_record [tx_line "G1" "T1" 1 100] (tx_line "G2" "T1" 1 100)).map
      (fun x => (dict_value_of x.1.transcript_id x.2.1.transcript_id).isSome) = some true ∧
    demo_push [tx_line "G1" "T1" 1 100] (tx_line "G2" "T1" 1 100) =
      some (1, [⟨-1, -1, 0, -1, -1, 0, 0, 0, -1⟩, ⟨-1, -1, 0, -1, -1, 0, 1, 1, -1⟩]) := by
  refine ⟨?_, ?_, ?_⟩ <;> decide!

theorem set_gene_ids (G : gtf_spec) (p : Nat × Nat) (g : gtf) :
    (set_gene G p g).gene_id = G.gene_id ∧ (set_gene G p g).transcript_id = G.transcript_id := by
  unfold set_gene
  split <;> exact ⟨rfl, rfl⟩

theorem set_tx_ids (G : gtf_spec) (tp : Nat × Nat × Nat) (t : gtf) :
    (set_tx G tp t).gene_id = G.gene_id ∧ (set_tx G tp t).transcript_id = G.transcript_id := by
  unfold set_tx
  split
  · exact ⟨rfl, rfl⟩
  · exact set_gene_ids _ _ _

/-- The gene records after the gene at `p` has inherited its ids. -/
theorem get_gene_inherit (G : gtf_spec) (p q : Nat × Nat) (gene g : gtf) (r : gtf_fields)
    (txs : List gtf) (hgene : get_gene G p = some gene) (hg : get_gene G q = some g) :
    ∃ g1, get_gene (set_gene G p (.mk (gene_inherit gene.f r) txs)) q = some g1 ∧
      g1.f = if q = p then gene_inherit g.f r else g.f := by
  rw [get_gene_set_gene_eq]
  by_cases hq : q = p
  · subst hq
    rw [hgene] at hg
    cases hg
    exact ⟨.mk (gene_inherit gene.f r) txs, by rw [if_pos rfl, hgene]; rfl, by rw [if_pos rfl]; rfl⟩
  · exact ⟨g, by rw [if_neg hq, hg], by rw [if_neg hq]⟩

/-- The last part of `gtf_push` keeps the table of gene ids and the fields of
every gene. -/
theorem gtf_push_sub_genes (G : gtf_spec) (tp : Nat × Nat × Nat) (r : gtf_fields)
    (res : Int × gtf_spec) (hp : gtf_push_sub G tp r = some res) :
    res.2.gene_id = G.gene_id ∧
      ∀ q g, get_gene G q = some g → ∃ g1, get_gene res.2 q = some g1 ∧ g1.f = g.f := by
  cases hget : get_tx G tp with
  | none =>
    unfold gtf_push_sub at hp
    rw [hget] at hp
    cases hp
  | some tx =>
    rw [gtf_push_sub_eq G tp r tx hget] at hp
    split at hp
    · simp only [Option.some.injEq] at hp
      subst hp
      exact ⟨(set_tx_ids _ _ _).1, fun q g hg => get_gene_set_tx G tp _ q g hg⟩
    · cases hp

/-- The part of `gtf_push` behind the gene keeps the table of gene ids and the
fields of every gene but the ids that the gene at `p` inherits. -/
theorem gtf_push_tx_genes (h : gtf_h) (G : gtf_spec) (p : Nat × Nat) (r : gtf_fields)
    (feature : Int) (res : Int × gtf_spec) (hp : gtf_push_tx h G p r feature = some res) :
    res.2.gene_id = G.gene_id ∧
      ∀ q g, get_gene G q = some g →
        ∃ g1, get_gene res.2 q = some g1 ∧ g1.f = if q = p then gene_inherit g.f r else g.f := by
  unfold gtf_push_tx at hp
  split at hp
  · cases hp
  · cases hgene : get_gene G p with
    | none => rw [hgene] at hp; cases hp
    | some gene =>
      rw [hgene] at hp
      simp only at hp
      split at hp
      · split at hp
        · simp only [Option.some.injEq] at hp
          subst hp
          exact ⟨(set_gene_ids _ _ _).1, fun q g hg => get_gene_inherit G p q gene g r _ hgene hg⟩
        · obtain ⟨h1, h2⟩ := gtf_push_sub_genes _ _ r res hp
          refine ⟨h1.trans (set_gene_ids _ _ _).1, fun q g hg => ?_⟩
          obtain ⟨g0, hg0, hf0⟩ := get_gene_inherit G p q gene g r gene.children hgene hg
          obtain ⟨g1, hg1, hf1⟩ := h2 q g0 hg0
          exact ⟨g1, hg1, hf1.trans hf0⟩
      · split at hp
        · simp only [Option.some.injEq] at hp
          subst hp
          refine ⟨(set_gene_ids _ _ _).1, fun q g hg => ?_⟩
          obtain ⟨g0, hg0, hf0⟩ := get_gene_inherit G p q gene g r
            (gene.children ++ [gtf_copy r]) hgene hg
          exact ⟨g0, by rw [← hg0]; exact get_gene_name_eq _ _ rfl q, hf0⟩
        · obtain ⟨h1, h2⟩ := gtf_push_sub_genes _ _ r res hp
          refine ⟨h1.trans (set_gene_ids _ _ _).1, fun q g hg => ?_⟩
          obtain ⟨g0, hg0, hf0⟩ := get_gene_inherit G p q gene g r
            (gene.children ++ [gtf_synth h.feature_transcript]) hgene hg
          obtain ⟨g1, hg1, hf1⟩ := h2 q g0 (by rw [← hg0]; exact get_gene_name_eq _ _ rfl q)
          exact ⟨g1, hg1, hf1.trans hf0⟩

theorem dict_value_of_eq {α : Type} (d : dict α) (i : Int) (hi : 0 ≤ i) :
    dict_value_of d i = dict_query_value d i.toNat := by
  unfold dict_value_of
  rw [if_neg (by omega)]

/-- What `gtf_push` does to the genes: every slot of the table of gene ids that
has a gene keeps it, and every gene keeps its fields, but for the ids that a
gene lacking them inherits from the record. -/
theorem gtf_push_genes (h : gtf_h) (G : gtf_spec) (ctg : Nat) (r : gtf_fields) (feature : Int)
    (res : Int × gtf_spec) (hid : 0 ≤ r.gene_id) (hp : gtf_push h G ctg r feature = some res) :
    (∀ i p, dict_query_value G.gene_id i = some p → dict_query_value res.2.gene_id i = some p) ∧
      ∀ q g, get_gene G q = some g →
        ∃ g1, get_gene res.2 q = some g1 ∧ (g1.f = g.f ∨ g1.f = gene_inherit g.f r) := by
  unfold gtf_push at hp
  split at hp
  · rename_i p hslot
    split at hp
    · simp only [Option.some.injEq] at hp
      subst hp
      exact ⟨fun i p hi => hi, fun q g hg => ⟨g, hg, Or.inl rfl⟩⟩
    · obtain ⟨h1, h2⟩ := gtf_push_tx_genes h G p r feature res hp
      refine ⟨fun i p hi => by rw [h1]; exact hi, fun q g hg => ?_⟩
      obtain ⟨g1, hg1, hf1⟩ := h2 q g hg
      refine ⟨g1, hg1, ?_⟩
      by_cases hq : q = p
      · rw [if_pos hq] at hf1
        exact Or.inr hf1
      · rw [if_neg hq] at hf1
        exact Or.inl hf1
  · rename_i hslot
    rw [dict_value_of_eq _ _ hid] at hslot
    split at hp
    · cases hp
    · rename_i c hq
      simp only at hp
      have hslots : ∀ i p, dict_query_value G.gene_id i = some p →
          dict_query_value (dict_assign_value G.gene_id r.gene_id.toNat (ctg, c.gtf.length)) i =
            some p := by
        intro i p hi
        rw [qv_assign]
        by_cases h1 : i = r.gene_id.toNat
        · rw [h1, hslot] at hi
          cases hi
        · rw [if_neg h1, hi]
      have hgenes : ∀ (G1 : gtf_spec) (gene : gtf),
          G1.name = dict_assign_value G.name ctg { c with gtf := c.gtf ++ [gene] } →
          ∀ q g, get_gene G q = some g → get_gene G1 q = some g := by
        intro G1 gene hG1 q g hg
        rw [get_gene_app G G1 ctg c gene q hq hG1]
        by_cases h1 : q = (ctg, c.gtf.length)
        · exfalso
          subst h1
          obtain ⟨c1, hc1, hc2⟩ := get_gene_mem G _ g hg
          simp only at hc1 hc2
          rw [hq] at hc1
          cases hc1
          rw [List.get?_eq_none.2 (le_refl _)] at hc2
          cases hc2
        · rw [if_neg h1, hg]
      split at hp
      · simp only [Option.some.injEq] at hp
        subst hp
        exact ⟨hslots, fun q g hg => ⟨g, hgenes _ (gtf_copy r) rfl q g hg, Or.inl rfl⟩⟩
      · obtain ⟨h1, h2⟩ := gtf_push_tx_genes h _ _ r feature res hp
        refine ⟨fun i p hi => by rw [h1]; exact hslots i p hi, fun q g hg => ?_⟩
        obtain ⟨g1, hg1, hf1⟩ := h2 q g (hgenes _ (gtf_synth h.feature_gene) rfl q g hg)
        refine ⟨g1, hg1, ?_⟩
        by_cases hq1 : q = (ctg, c.gtf.length)
        · rw [if_pos hq1] at hf1
          exact Or.inr hf1
        · rw [if_neg hq1] at hf1
          exact Or.inl hf1

theorem gtf_sort_fold_keeps (cs : List gtf) : ∀ f : gtf_fields,
    (cs.foldl gtf_sort_step f).seqname = f.seqname ∧
    (cs.foldl gtf_sort_step f).source = f.source ∧
    (cs.foldl gtf_sort_step f).strand = f.strand ∧
    (cs.foldl gtf_sort_step f).type = f.type ∧
    (cs.foldl gtf_sort_step f).gene_id = f.gene_id ∧
    (cs.foldl gtf_sort_step f).gene_name = f.gene_name := by
  induction cs with
  | nil => intro f; simp
  | cons c t ih =>
    intro f
    simp only [List.foldl_cons]
    obtain ⟨h1, h2, h3, h4, h5, h6⟩ := ih (gtf_sort_step f c)
    exact ⟨h1, h2, h3, h4, h5, h6⟩

/-- The `gtf_sort` of a record keeps its `seqname`, `source`, `strand`, `type`
and gene ids. -/
theorem gtf_sort_keeps (g g1 : gtf) (h : gtf_sort g = some g1) :
    g1.f.seqname = g.f.seqname ∧ g1.f.source = g.f.source ∧ g1.f.strand = g.f.strand ∧
    g1.f.type = g.f.type ∧ g1.f.gene_id = g.f.gene_id ∧ g1.f.gene_name = g.f.gene_name := by
  cases g with
  | mk f cs =>
    rw [gtf_sort_eq] at h
    cases hsl : gtf_sort_list cs with
    | none => rw [hsl] at h; cases h
    | some cs1 =>
      rw [hsl] at h
      simp only at h
      split at h
      · split at h
        · simp only [Option.some.injEq] at h
          subst h
          exact gtf_sort_fold_keeps _ f
        · cases h
      · simp only [Option.some.injEq] at h
        subst h
        exact ⟨rfl, rfl, rfl, rfl, rfl, rfl⟩

theorem get_tx_with_tid (G : gtf_spec) (d : dict (Nat × Nat × Nat)) (tp : Nat × Nat × Nat) :
    get_tx { G with transcript_id := d } tp = get_tx G tp :=
  get_tx_name_eq _ _ rfl tp

theorem get_gene_with_tid (G : gtf_spec) (d : dict (Nat × Nat × Nat)) (p : Nat × Nat) :
    get_gene { G with transcript_id := d } p = get_gene G p :=
  get_gene_name_eq _ _ rfl p

/-- The last part of `gtf_push` gets through when the transcript is there and
the three assertions hold. -/
theorem gtf_push_sub_total (G : gtf_spec) (tp : Nat × Nat × Nat) (r : gtf_fields) (tx : gtf)
    (h : get_tx G tp = some tx)
    (ha : (tx_inherit tx.f r).gene_id = r.gene_id ∧ (tx_inherit tx.f r).gene_name = r.gene_name ∧
      (tx_inherit tx.f r).transcript_id = r.transcript_id) :
    gtf_push_sub G tp r =
      some (0, set_tx G tp (.mk (tx_inherit tx.f r) (tx.children ++ [gtf_copy r]))) := by
  rw [gtf_push_sub_eq G tp r tx h, if_pos ha]

/-- The first record of a gene, when it is no `gene` record: `gtf_push` makes
the synthetic parent, and the gene it leaves for the gene id has the fields of
`gtf_reset` but for the type and the ids. -/
theorem gtf_push_synth (h : gtf_h) (G : gtf_spec) (ctg : Nat) (r : gtf_fields) (feature : Int)
    (res : Int × gtf_spec) (hid : 0 ≤ r.gene_id) (hlt : r.gene_id.toNat < dict_size G.gene_id)
    (hslot : dict_value_of G.gene_id r.gene_id = none) (hf : feature ≠ h.feature_gene)
    (hp : gtf_push h G ctg r feature = some res) :
    ∃ p g, dict_value_of res.2.gene_id r.gene_id = some p ∧ get_gene res.2 p = some g ∧
      g.f = ⟨-1, -1, h.feature_gene, -1, -1, 0, r.gene_id, r.gene_name, -1⟩ := by
  unfold gtf_push at hp
  simp only [hslot] at hp
  split at hp
  · cases hp
  · rename_i c hq
    simp only [if_neg hf] at hp
    obtain ⟨h1, h2⟩ := gtf_push_tx_genes h _ _ r feature res hp
    obtain ⟨g1, hg1, hf1⟩ := h2 (ctg, c.gtf.length) (gtf_synth h.feature_gene)
      (get_gene_append _ G.name ctg c _ hq rfl)
    refine ⟨(ctg, c.gtf.length), g1, ?_, hg1, ?_⟩
    · rw [dict_value_of_eq _ _ hid, h1]
      unfold dict_size at hlt
      simp only [qv_assign, if_true]
      rw [if_pos hlt]
    · rw [hf1, if_pos rfl]
      rfl

/-- The first record of a gene, when it is the `gene` record: `gtf_push` stores
a copy of it. -/
theorem gtf_push_gene_first (h : gtf_h) (G : gtf_spec) (ctg : Nat) (r : gtf_fields)
    (hid : 0 ≤ r.gene_id) (hlt : r.gene_id.toNat < dict_size G.gene_id)
    (hslot : dict_value_of G.gene_id r.gene_id = none)
    (hc : (dict_query_value G.name ctg).isSome = true) :
    ∃ G1 p, gtf_push h G ctg r h.feature_gene = some (0, G1) ∧
      dict_value_of G1.gene_id r.gene_id = some p ∧ get_gene G1 p = some (gtf_copy r) := by
  obtain ⟨c, hq⟩ := Option.isSome_iff_exists.1 hc
  unfold gtf_push
  rw [hslot]
  simp only
  rw [hq]
  simp only [if_true]
  refine ⟨_, (ctg, c.gtf.length), rfl, ?_, get_gene_append _ G.name ctg c _ hq rfl⟩
  rw [dict_value_of_eq _ _ hid]
  unfold dict_size at hlt
  simp only [qv_assign, if_true]
  rw [if_pos hlt]

/-- The first record of a gene, when it is a record of a transcript that is
new as well: `gtf_push` gets through and returns 0. -/
theorem gtf_push_new_total (h : gtf_h) (G : gtf_spec) (ctg : Nat) (r : gtf_fields)
    (feature : Int) (hslot : dict_value_of G.gene_id r.gene_id = none)
    (hc : (dict_query_value G.name ctg).isSome = true) (hf : feature ≠ h.feature_gene)
    (ht : r.transcript_id ≠ -1) (htx : dict_value_of G.transcript_id r.transcript_id = none) :
    ∃ G1, gtf_push h G ctg r feature = some (0, G1) := by
  obtain ⟨c, hq⟩ := Option.isSome_iff_exists.1 hc
  unfold gtf_push
  rw [hslot]
  simp only
  rw [hq]
  simp only [if_neg hf]
  unfold gtf_push_tx
  rw [if_neg ht, get_gene_append _ G.name ctg c _ hq rfl]
  simp only [htx]
  by_cases hft : feature = h.feature_transcript
  · rw [if_pos hft]
    exact ⟨_, rfl⟩
  · rw [if_neg hft]
    refine ⟨_, gtf_push_sub_total _ _ r (gtf_synth h.feature_transcript) ?_ ?_⟩
    · rw [get_tx_with_tid, get_tx_set_gene _ _ (gtf_synth h.feature_gene) _ _
        (get_gene_append _ G.name ctg c _ hq rfl), if_pos rfl]
      rfl
    · simp [tx_inherit, gtf_synth, gtf_reset, gtf.f]

/-- C28: a `gene` record whose `gene_id` already has a gene is dropped with the
value 1 and the model unchanged, whatever record made the gene.  For a
`gene_id` without a gene: a record that is no `gene` record leaves a gene with
`seqname` and `source` -1, strand 0, start and end -1, the type `gene` and the
ids of the record (and `gtf_push` gets through with the value 0 when the
transcript is new as well); a `gene` record leaves a copy of itself.  Every
later `gtf_push` that gets through keeps the slot of a gene id and the fields
of a gene whose ids are set, so the synthetic parent stays.  `gtf_sort` keeps
`seqname`, `source` and `strand`, and gives a record without start and end the
start of one of its children and the end of one of its children. -/
theorem C28_gene_record_order (h : gtf_h) (G : gtf_spec) (ctg : Nat) (r : gtf_fields)
    (feature : Int) (hid : 0 ≤ r.gene_id) :
    (∀ p, dict_value_of G.gene_id r.gene_id = some p →
      gtf_push h G ctg r h.feature_gene = some (1, G)) ∧
    (dict_value_of G.gene_id r.gene_id = none → r.gene_id.toNat < dict_size G.gene_id →
      (feature ≠ h.feature_gene →
        (∀ res, gtf_push h G ctg r feature = some res →
          ∃ p g, dict_value_of res.2.gene_id r.gene_id = some p ∧ get_gene res.2 p = some g ∧
            g.f = ⟨-1, -1, h.feature_gene, -1, -1, 0, r.gene_id, r.gene_name, -1⟩) ∧
        ((dict_query_value G.name ctg).isSome = true → r.transcript_id ≠ -1 →
          dict_value_of G.transcript_id r.transcript_id = none →
          ∃ G1, gtf_push h G ctg r feature = some (0, G1))) ∧
      ((dict_query_value G.name ctg).isSome = true →
        ∃ G1 p, gtf_push h G ctg r h.feature_gene = some (0, G1) ∧
          dict_value_of G1.gene_id r.gene_id = some p ∧ get_gene G1 p = some (gtf_copy r))) ∧
    (∀ res, gtf_push h G ctg r feature = some res →
      ∀ i p g, dict_query_value G.gene_id i = some p → get_gene G p = some g →
        ids_set g.f = true →
        dict_query_value res.2.gene_id i = some p ∧
          ∃ g1, get_gene res.2 p = some g1 ∧ g1.f = g.f) ∧
    (∀ g g1, gtf_sort g = some g1 →
      (g1.f.seqname = g.f.seqname ∧ g1.f.source = g.f.source ∧ g1.f.strand = g.f.strand) ∧
      (leaves_all_list start_set g.children = true → g.children.length ≠ 0 →
        g.f.start = -1 → g.f.end_ = -1 →
        (∃ c ∈ g1.children, g1.f.start = c.f.start) ∧
          ∃ c ∈ g1.children, g1.f.end_ = c.f.end_)) := by
  refine ⟨fun p hp => ?_, fun hslot hlt => ⟨fun hf => ⟨fun res hp => ?_, fun hc ht htx => ?_⟩,
    fun hc => ?_⟩, fun res hp i p g hi hg hs => ?_, fun g g1 hsort => ⟨?_, fun hl hc hs he => ?_⟩⟩
  · unfold gtf_push
    rw [hp]
    simp
  · exact gtf_push_synth h G ctg r feature res hid hlt hslot hf hp
  · exact gtf_push_new_total h G ctg r feature hslot hc hf ht htx
  · exact gtf_push_gene_first h G ctg r hid hlt hslot hc
  · obtain ⟨h1, h2⟩ := gtf_push_genes h G ctg r feature res hid hp
    refine ⟨h1 i p hi, ?_⟩
    obtain ⟨g1, hg1, hf1⟩ := h2 p g hg
    refine ⟨g1, hg1, ?_⟩
    rcases hf1 with hf1 | hf1
    · exact hf1
    · rw [hf1, gene_inherit_ids g.f r hs]
  · obtain ⟨h1, h2, h3, _⟩ := gtf_sort_keeps g g1 hsort
    exact ⟨h1, h2, h3⟩
  · have hne : g.children ≠ [] := fun h0 => hc (by rw [h0]; rfl)
    obtain ⟨_, hn, _, _⟩ := gtf_sort_node g g1 hl hsort
    obtain ⟨_, h0, hlt, _, _, hstart, _, hend⟩ := hn hne
    refine ⟨hstart (by rw [hs]; decide), ?_⟩
    rcases hend with hend | hend
    · exfalso
      rw [he] at hend
      omega
    · exact hend

/-- C28, witness: the lines of gene `G1`, on the reverse strand, in both
orders.  With the `exon` line first the `gene` record is dropped and the gene
stored is the synthetic one, after `gtf_build_index` with the coordinates of
the exon; with the `gene` line first the gene stored has the fields of the
`gene` line. -/
theorem C28_gene_record_order_witness :
    (genes_of (demo_model
        [attr_line "exon" 10 20
          [⟨"gene_id", some "G1"⟩, ⟨"gene_name", some "G1"⟩, ⟨"transcript_id", some "T1"⟩],
         attr_line "gene" 1 100 [⟨"gene_id", some "G1"⟩, ⟨"gene_name", some "G1"⟩]]) 0).map gtf.f =
      [⟨-1, -1, 0, -1, -1, 0, 0, 0, -1⟩] ∧
    (gtf_read demo_gtf_h
        [attr_line "exon" 10 20
          [⟨"gene_id", some "G1"⟩, ⟨"gene_name", some "G1"⟩, ⟨"transcript_id", some "T1"⟩],
         attr_line "gene" 1 100 [⟨"gene_id", some "G1"⟩, ⟨"gene_name", some "G1"⟩]] 0).map
      (fun o => o.map (fun G => (genes_of G 0).map gtf.f)) =
      some (some [⟨-1, -1, 0, 10, 20, 0, 0, 0, -1⟩]) ∧
    (gtf_read demo_gtf_h
        [attr_line "gene" 1 100 [⟨"gene_id", some "G1"⟩, ⟨"gene_name", some "G1"⟩],
         attr_line "exon" 10 20
          [⟨"gene_id", some "G1"⟩, ⟨"gene_name", some "G1"⟩, ⟨"transcript_id", some "T1"⟩]] 0).map
      (fun o => o.map (fun G => (genes_of G 0).map gtf.f)) =
      some (some [⟨0, 0, 0, 1, 100, 1, 0, 0, -1⟩]) ∧
    (0 : Int) ≤ (gtf_fields.mk 0 0 0 1 100 1 0 0 (-1)).gene_id ∧
    gtf_push demo_gtf_h (demo_model
        [attr_line "exon" 10 20
          [⟨"gene_id", some "G1"⟩, ⟨"gene_name", some "G1"⟩, ⟨"transcript_id", some "T1"⟩]]) 0
        ⟨0, 0, 0, 1, 100, 1, 0, 0, -1⟩ demo_gtf_h.feature_gene =
      some (1, demo_model
        [attr_line "exon" 10 20
          [⟨"gene_id", some "G1"⟩, ⟨"gene_name", some "G1"⟩, ⟨"transcript_id", some "T1"⟩]]) :=
  ⟨by decide!, by decide!, by decide!, by decide,
    (C28_gene_record_order demo_gtf_h (demo_model
        [attr_line "exon" 10 20
          [⟨"gene_id", some "G1"⟩, ⟨"gene_name", some "G1"⟩, ⟨"transcript_id", some "T1"⟩]]) 0
      ⟨0, 0, 0, 1, 100, 1, 0, 0, -1⟩ 0 (by decide)).1 (0, 0) (by decide!)⟩

theorem copy_f (r : gtf_fields) : (gtf_copy r).f = r := by
  cases r
  rfl

/-- A write through a transcript pointer keeps the pointers sound when the new
record is the transcript of the id whose slot may point to it. -/
theorem wf_set_tx (own : Int → Int × Int) (G : gtf_spec) (tp : Nat × Nat × Nat) (tx newtx : gtf)
    (t : Nat) (h1 : ∀ i p, dict_query_value G.gene_id i = some p → ∃ g, get_gene G p = some g)
    (h2 : ∀ t1 tq, t1 ≠ t → dict_query_value G.transcript_id t1 = some tq →
      (∃ x, get_tx G tq = some x ∧ tx_of own t1 x) ∧ tq ≠ tp)
    (h3 : ∀ tq, dict_query_value G.transcript_id t = some tq → tq = tp)
    (hget : get_tx G tp = some tx) (hnew : tx_of own t newtx) :
    wf_model own (set_tx G tp newtx) := by
  constructor
  · intro i p hi
    rw [(set_tx_ids G tp newtx).1] at hi
    obtain ⟨g, hg⟩ := h1 i p hi
    obtain ⟨g1, hg1, _⟩ := get_gene_set_tx G tp newtx p g hg
    exact ⟨g1, hg1⟩
  · intro t1 tq ht
    rw [(set_tx_ids G tp newtx).2] at ht
    rw [get_tx_set_tx G tp tq tx newtx hget]
    by_cases h : t1 = t
    · subst h
      rw [if_pos (h3 tq ht)]
      exact ⟨newtx, rfl, hnew⟩
    · obtain ⟨hx, hne⟩ := h2 t1 tq h ht
      rw [if_neg hne]
      exact hx

theorem tx_inherit_of (own : Int → Int × Int) (r : gtf_fields) (t : Nat) (f : gtf_fields)
    (ht : r.transcript_id = (t : Int)) (hown : (r.gene_id, r.gene_name) = own r.transcript_id)
    (hf : (f.transcript_id = -1 ∧ f.gene_id = -1 ∧ f.gene_name = -1) ∨
      (f.transcript_id = (t : Int) ∧ (f.gene_id, f.gene_name) = own t)) :
    (tx_inherit f r).gene_id = r.gene_id ∧ (tx_inherit f r).gene_name = r.gene_name ∧
      (tx_inherit f r).transcript_id = r.transcript_id := by
  rw [ht] at hown
  rcases hf with ⟨h1, h2, h3⟩ | ⟨h1, h2⟩
  · simp [tx_inherit, h1, h2, h3]
  · rw [← hown] at h2
    simp only [Prod.mk.injEq] at h2
    simp only [tx_inherit, h2.1, h2.2, h1, ht]
    simp

/-- The part of `gtf_push` behind the gene gets through and keeps the pointers
sound, when the record has a transcript id and the gene ids that go with it. -/
theorem gtf_push_tx_wf (own : Int → Int × Int) (h : gtf_h) (G : gtf_spec) (p : Nat × Nat)
    (r : gtf_fields) (feature : Int) (gene : gtf) (hwf : wf_model own G)
    (hgene : get_gene G p = some gene) (ht : 0 ≤ r.transcript_id)
    (hown : (r.gene_id, r.gene_name) = own r.transcript_id) :
    ∃ res, gtf_push_tx h G p r feature = some res ∧ wf_model own res.2 := by
  have hne : r.transcript_id ≠ -1 := by omega
  have htn : r.transcript_id = (r.transcript_id.toNat : Int) := (Int.toNat_of_nonneg ht).symm
  have hslot := dict_value_of_eq G.transcript_id r.transcript_id ht
  -- the model after the gene has inherited its ids
  have hga_gene : ∀ txs q g, get_gene G q = some g →
      ∃ g1, get_gene (set_gene G p (.mk (gene_inherit gene.f r) txs)) q = some g1 := by
    intro txs q g hg
    obtain ⟨g1, hg1, _⟩ := get_gene_inherit G p q gene g r txs hgene hg
    exact ⟨g1, hg1⟩
  have hga_tx : ∀ (tx : List gtf) tq x, get_tx G tq = some x →
      get_tx (set_gene G p (.mk (gene_inherit gene.f r) (gene.children ++ tx))) tq = some x := by
    intro tx tq x hx
    rw [get_tx_set_gene G p gene _ tq hgene]
    by_cases hq : (tq.1, tq.2.1) = p
    · rw [if_pos hq, children_mk]
      unfold get_tx at hx
      rw [hq, hgene] at hx
      simp only [Option.bind_eq_bind, Option.some_bind] at hx
      rw [List.get?_eq_getElem?] at hx ⊢
      obtain ⟨hlt, _⟩ := List.getElem?_eq_some.1 hx
      rw [List.getElem?_append_left hlt, hx]
    · rw [if_neg hq, hx]
  unfold gtf_push_tx
  rw [if_neg hne, hgene]
  simp only
  cases hs : dict_value_of G.transcript_id r.transcript_id with
  | some tp =>
    simp only
    rw [hslot] at hs
    obtain ⟨tx, htx, htxof⟩ := hwf.2 _ tp hs
    have hwfa : wf_model own (set_gene G p (.mk (gene_inherit gene.f r) gene.children)) := by
      constructor
      · intro i q hi
        rw [(set_gene_ids _ _ _).1] at hi
        obtain ⟨g, hg⟩ := hwf.1 i q hi
        exact hga_gene _ q g hg
      · intro t1 tq ht1
        rw [(set_gene_ids _ _ _).2] at ht1
        obtain ⟨x, hx, hxof⟩ := hwf.2 t1 tq ht1
        have := hga_tx [] tq x hx
        rw [List.append_nil] at this
        exact ⟨x, this, hxof⟩
    by_cases hft : feature = h.feature_transcript
    · rw [if_pos hft]
      exact ⟨_, rfl, hwfa⟩
    · rw [if_neg hft]
      have htx1 : get_tx (set_gene G p (.mk (gene_inherit gene.f r) gene.children)) tp =
          some tx := by
        have := hga_tx [] tp tx htx
        rw [List.append_nil] at this
        exact this
      have hin := tx_inherit_of own r _ tx.f htn hown (Or.inr htxof)
      rw [gtf_push_sub_total _ tp r tx htx1 hin]
      refine ⟨_, rfl, wf_set_tx own _ tp tx _ r.transcript_id.toNat hwfa.1 ?_ ?_ htx1 ?_⟩
      · intro t1 tq hne1 ht1
        obtain ⟨x, hx, hxof⟩ := hwfa.2 t1 tq ht1
        refine ⟨⟨x, hx, hxof⟩, fun heq => hne1 ?_⟩
        rw [heq, htx1] at hx
        cases hx
        have := hxof.1.symm.trans htxof.1
        exact_mod_cast this
      · intro tq htq
        rw [(set_gene_ids _ _ _).2, hs] at htq
        cases htq
        rfl
      · rw [tx_of, f_mk, hin.2.2, ← htn, hin.1, hin.2.1]
        exact ⟨rfl, hown⟩
  | none =>
    simp only
    rw [hslot] at hs
    have hnone : get_tx G (p.1, p.2, gene.children.length) = none := by
      unfold get_tx
      rw [hgene]
      exact List.get?_eq_none.2 (le_refl _)
    -- the model with the new transcript record `tx`
    have hb1 : ∀ tx i q,
        dict_query_value ({ set_gene G p (.mk (gene_inherit gene.f r) (gene.children ++ [tx])) with
          transcript_id := dict_assign_value G.transcript_id r.transcript_id.toNat
            (p.1, p.2, gene.children.length) } : gtf_spec).gene_id i = some q →
        ∃ g, get_gene ({ set_gene G p (.mk (gene_inherit gene.f r) (gene.children ++ [tx])) with
          transcript_id := dict_assign_value G.transcript_id r.transcript_id.toNat
            (p.1, p.2, gene.children.length) } : gtf_spec) q = some g := by
      intro tx i q hi
      rw [get_gene_with_tid]
      have hi1 : dict_query_value G.gene_id i = some q := by
        rw [← (set_gene_ids G p (.mk (gene_inherit gene.f r) (gene.children ++ [tx]))).1]
        exact hi
      obtain ⟨g, hg⟩ := hwf.1 i q hi1
      exact hga_gene _ q g hg
    have hb2 : ∀ tx t1 tq, t1 ≠ r.transcript_id.toNat →
        dict_query_value ({ set_gene G p (.mk (gene_inherit gene.f r) (gene.children ++ [tx])) with
          transcript_id := dict_assign_value G.transcript_id r.transcript_id.toNat
            (p.1, p.2, gene.children.length) } : gtf_spec).transcript_id t1 = some tq →
        (∃ x, get_tx ({ set_gene G p (.mk (gene_inherit gene.f r) (gene.children ++ [tx])) with
          transcript_id := dict_assign_value G.transcript_id r.transcript_id.toNat
            (p.1, p.2, gene.children.length) } : gtf_spec) tq = some x ∧ tx_of own t1 x) ∧
          tq ≠ (p.1, p.2, gene.children.length) := by
      intro tx t1 tq hne1 ht1
      rw [get_tx_with_tid]
      have ht2 : dict_query_value G.transcript_id t1 = some tq := by
        have : dict_query_value (dict_assign_value G.transcript_id r.transcript_id.toNat
            (p.1, p.2, gene.children.length)) t1 = some tq := ht1
        rw [qv_assign, if_neg hne1] at this
        exact this
      obtain ⟨x, hx, hxof⟩ := hwf.2 t1 tq ht2
      refine ⟨⟨x, hga_tx [tx] tq x hx, hxof⟩, fun heq => ?_⟩
      rw [heq, hnone] at hx
      cases hx
    have hb3 : ∀ tx tq,
        dict_query_value ({ set_gene G p (.mk (gene_inherit gene.f r) (gene.children ++ [tx])) with
          transcript_id := dict_assign_value G.transcript_id r.transcript_id.toNat
            (p.1, p.2, gene.children.length) } : gtf_spec).transcript_id
          r.transcript_id.toNat = some tq → tq = (p.1, p.2, gene.children.length) := by
      intro tx tq htq
      have : dict_query_value (dict_assign_value G.transcript_id r.transcript_id.toNat
          (p.1, p.2, gene.children.length)) r.transcript_id.toNat = some tq := htq
      rw [qv_assign, if_pos rfl] at this
      split at this
      · cases this
        rfl
      · cases this
    have hb4 : ∀ tx,
        get_tx ({ set_gene G p (.mk (gene_inherit gene.f r) (gene.children ++ [tx])) with
          transcript_id := dict_assign_value G.transcript_id r.transcript_id.toNat
            (p.1, p.2, gene.children.length) } : gtf_spec) (p.1, p.2, gene.children.length) =
          some tx := by
      intro tx
      rw [get_tx_with_tid, get_tx_set_gene G p gene _ _ hgene, if_pos rfl, children_mk,
        get_concat, if_pos rfl]
    by_cases hft : feature = h.feature_transcript
    · rw [if_pos hft]
      refine ⟨_, rfl, hb1 _, fun t1 tq ht1 => ?_⟩
      by_cases h1 : t1 = r.transcript_id.toNat
      · subst h1
        rw [hb3 _ tq ht1, hb4]
        refine ⟨_, rfl, ?_⟩
        rw [tx_of, copy_f, ← htn]
        exact ⟨rfl, hown⟩
      · exact (hb2 _ t1 tq h1 ht1).1
    · rw [if_neg hft]
      have hin := tx_inherit_of own r _ (gtf_synth h.feature_transcript).f htn hown
        (Or.inl ⟨rfl, rfl, rfl⟩)
      rw [gtf_push_sub_total _ _ r (gtf_synth h.feature_transcript) (hb4 _) hin]
      refine ⟨_, rfl, wf_set_tx own _ _ _ _ r.transcript_id.toNat (hb1 _) (hb2 _) (hb3 _)
        (hb4 _) ?_⟩
      rw [tx_of, f_mk, hin.2.2, ← htn, hin.1, hin.2.1]
      exact ⟨rfl, hown⟩

theorem same_slots_refl (G : gtf_spec) : same_slots G G := ⟨fun _ => rfl, fun _ => rfl⟩

theorem same_slots_trans (G G1 G2 : gtf_spec) (h1 : same_slots G G1) (h2 : same_slots G1 G2) :
    same_slots G G2 :=
  ⟨fun i => (h2.1 i).trans (h1.1 i), fun i => (h2.2 i).trans (h1.2 i)⟩

theorem push_valid {α : Type} (d : dict α) (v : String) :
    (0 : Int) ≤ ((dict_push d v).1 : Int) ∧
      ((dict_push d v).1 : Int).toNat < dict_size (dict_push d v).2 := by
  refine ⟨Int.ofNat_nonneg _, ?_⟩
  rw [Int.toNat_ofNat]
  exact (dict_push_size d v).2

/-- One round of the loop of `parse_str` over the attribute pairs gets through
when the pair has the value it needs. -/
theorem parse_attr_total (filter : Int) (s : gtf_spec × gtf_fields) (pp : attr_pair)
    (hv : attr_valued pp) (hs : rec_valid s) :
    ∃ s1, parse_attr filter s pp = some s1 ∧ rec_valid s1 ∧ s1.1.name = s.1.name ∧
      s1.2.seqname = s.2.seqname ∧ same_slots s.1 s1.1 := by
  unfold parse_attr
  unfold attr_valued at hv
  obtain ⟨hs1, hs2, hs3⟩ := hs
  by_cases h1 : pp.key = "gene_id"
  · obtain ⟨v, hval⟩ := Option.isSome_iff_exists.1 (hv (Or.inl h1))
    rw [if_pos h1, hval]
    exact ⟨_, rfl, ⟨Or.inr (push_valid _ v), hs2, hs3⟩, rfl, rfl, fun i => qv_push _ v i,
      fun _ => rfl⟩
  · rw [if_neg h1]
    by_cases h2 : pp.key = "gene_name"
    · obtain ⟨v, hval⟩ := Option.isSome_iff_exists.1 (hv (Or.inr (Or.inl h2)))
      rw [if_pos h2, hval]
      exact ⟨_, rfl, ⟨hs1, Or.inr (push_valid _ v), hs3⟩, rfl, rfl, fun _ => rfl, fun _ => rfl⟩
    · rw [if_neg h2]
      by_cases h3 : pp.key = "gene"
      · obtain ⟨v, hval⟩ := Option.isSome_iff_exists.1 (hv (Or.inr (Or.inr (Or.inl h3))))
        rw [if_pos h3, hval]
        exact ⟨_, rfl, ⟨hs1, Or.inr (push_valid _ v), hs3⟩, rfl, rfl, fun _ => rfl, fun _ => rfl⟩
      · rw [if_neg h3]
        by_cases h4 : pp.key = "transcript_id"
        · obtain ⟨v, hval⟩ := Option.isSome_iff_exists.1 (hv (Or.inr (Or.inr (Or.inr h4))))
          rw [if_pos h4, hval]
          exact ⟨_, rfl, ⟨hs1, hs2, Or.inr (Int.ofNat_nonneg _)⟩, rfl, rfl, fun _ => rfl,
            fun i => qv_push _ v i⟩
        · rw [if_neg h4]
          by_cases h5 : filter ≠ FILTER_ATTRS
          · rw [if_pos h5]
            exact ⟨_, rfl, ⟨hs1, hs2, hs3⟩, rfl, rfl, fun _ => rfl, fun _ => rfl⟩
          · rw [if_neg h5]
            exact ⟨_, rfl, ⟨hs1, hs2, hs3⟩, rfl, rfl, fun _ => rfl, fun _ => rfl⟩

/-- The loop of `parse_str` over the attribute pairs gets through when the
pairs have the values they need. -/
theorem parse_attrs_total (filter : Int) : ∀ (attr : List attr_pair) (s : gtf_spec × gtf_fields),
    (∀ pp ∈ attr, attr_valued pp) → rec_valid s →
    ∃ s1, parse_attrs filter s attr = some s1 ∧ rec_valid s1 ∧ s1.1.name = s.1.name ∧
      s1.2.seqname = s.2.seqname ∧ same_slots s.1 s1.1
  | [], s, _, hs => ⟨s, rfl, hs, rfl, rfl, same_slots_refl _⟩
  | pp :: t, s, hv, hs => by
    obtain ⟨s1, h1, hv1, hn1, hq1, hsl1⟩ :=
      parse_attr_total filter s pp (hv pp (List.mem_cons_self _ _)) hs
    obtain ⟨s2, h2, hv2, hn2, hq2, hsl2⟩ :=
      parse_attrs_total filter t s1 (fun x hx => hv x (List.mem_cons_of_mem _ hx)) hv1
    refine ⟨s2, ?_, hv2, hn2.trans hn1, hq2.trans hq1, same_slots_trans _ _ _ hsl1 hsl2⟩
    simp only [parse_attrs, h1, h2]

theorem dict_name_lt {α : Type} (d : dict α) (i : Nat) (h : i < dict_size d) :
    ∃ s, dict_name d i = some s := by
  unfold dict_name
  unfold dict_size at h
  rw [List.get?_eq_get h]
  exact ⟨_, rfl⟩

/-- The fill of the missing gene id or gene name gets through for a record
whose ids are ids of the tables. -/
theorem parse_fill_total (G : gtf_spec) (r : gtf_fields) (hs : rec_valid (G, r))
    (hne : ¬ (r.gene_id = -1 ∧ r.gene_name = -1)) :
    ∃ G2 r2, parse_fill G r = some (G2, r2) ∧ G2.name = G.name ∧ r2.seqname = r.seqname ∧
      r2.transcript_id = r.transcript_id ∧ same_slots G G2 := by
  obtain ⟨hs1, hs2, _⟩ := hs
  simp only at hs1 hs2
  unfold parse_fill
  by_cases h1 : r.gene_id = -1
  · have h2 : r.gene_name ≠ -1 := fun h2 => hne ⟨h1, h2⟩
    rcases hs2 with hs2 | ⟨_, hs2⟩
    · exact absurd hs2 h2
    · obtain ⟨s, hname⟩ := dict_name_lt _ _ hs2
      simp only [h1, if_true, hname, Option.map_some', h2, if_false]
      exact ⟨_, _, rfl, rfl, rfl, rfl, fun i => qv_push _ s i, fun _ => rfl⟩
  · simp only [h1, if_false]
    by_cases h2 : r.gene_name = -1
    · rcases hs1 with hs1 | ⟨_, hs1⟩
      · exact absurd hs1 h1
      · obtain ⟨s, hname⟩ := dict_name_lt _ _ hs1
        simp only [h2, if_true, hname, Option.map_some']
        exact ⟨_, _, rfl, rfl, rfl, rfl, fun _ => rfl, fun _ => rfl⟩
    · simp only [h2, if_false]
      exact ⟨_, _, rfl, rfl, rfl, rfl, fun _ => rfl, fun _ => rfl⟩

/-- The head of `parse_str` leaves a record for the contig of the line. -/
theorem parse_head_ctg (G : gtf_spec) (l : gtf_line) (qry : Int) :
    (dict_query_value (parse_head G l qry).1.name (parse_head G l qry).2.seqname.toNat).isSome
      = true ∧ rec_valid (parse_head G l qry) ∧ same_slots G (parse_head G l qry).1 := by
  refine ⟨?_, ⟨Or.inl rfl, Or.inl rfl, Or.inl rfl⟩, fun _ => rfl, fun _ => rfl⟩
  have hlt := (dict_push_size G.name l.seqname).2
  unfold dict_size at hlt
  simp only [parse_head, Int.toNat_ofNat]
  cases hq : dict_query_value (dict_push G.name l.seqname).2 (dict_push G.name l.seqname).1 with
  | none =>
    simp only [qv_assign, if_true]
    rw [if_pos hlt]
    rfl
  | some c =>
    simp only [hq]
    rfl

/-- The `parse_str` of the source gets as far as the call of `gtf_push`, or
returns before, when the attribute pairs of the line have the values they
need; the record it hands over has a contig and a transcript id that is unset
or an id. -/
theorem parse_rec_total (h : gtf_h) (G : gtf_spec) (l : gtf_line) (filter : Int)
    (hv : ∀ pp ∈ l.attr, attr_valued pp) :
    ∃ pr, parse_rec h G l filter = some pr ∧
      ((∃ code G1, pr = .ret code G1 ∧ name_ext G.name G1.name ∧ same_slots G G1) ∨
       (∃ G1 r qry, pr = .record G1 r qry ∧ name_ext G.name G1.name ∧ same_slots G G1 ∧
          (dict_query_value G1.name r.seqname.toNat).isSome = true ∧
          (r.transcript_id = -1 ∨ 0 ≤ r.transcript_id))) := by
  unfold parse_rec
  cases hq : dict_query G.features l.feature with
  | none => exact ⟨_, rfl, Or.inl ⟨1, G, rfl, name_ext_refl _, same_slots_refl _⟩⟩
  | some q =>
    simp only
    split
    · exact ⟨_, rfl, Or.inl ⟨0, G, rfl, name_ext_refl _, same_slots_refl _⟩⟩
    · obtain ⟨hc, hval, hsl⟩ := parse_head_ctg G l q
      obtain ⟨s, hs, hv1, hn1, hq1, hsl1⟩ := parse_attrs_total filter l.attr _ hv hval
      have hext : name_ext G.name s.1.name := by
        rw [hn1]
        exact parse_head_name G l q
      rw [hs]
      simp only
      split
      · exact ⟨_, rfl, Or.inl ⟨1, s.1, rfl, hext, same_slots_trans _ _ _ hsl hsl1⟩⟩
      · rename_i hne
        obtain ⟨G2, r2, hf, hn2, hq2, ht2, hsl2⟩ := parse_fill_total s.1 s.2 hv1 hne
        rw [hf]
        refine ⟨_, rfl, Or.inr ⟨G2, r2, q, rfl, ?_, ?_, ?_, ?_⟩⟩
        · rw [hn2]
          exact hext
        · exact same_slots_trans _ _ _ (same_slots_trans _ _ _ hsl hsl1) hsl2
        · rw [hn2, hq2, hn1, hq1]
          exact hc
        · rw [ht2]
          exact hv1.2.2

theorem get_gene_ext (G G1 : gtf_spec) (h : name_ext G.name G1.name) (p : Nat × Nat) (g : gtf)
    (hg : get_gene G p = some g) : get_gene G1 p = some g := by
  unfold get_gene at hg ⊢
  rcases h p.1 with h1 | ⟨h0, _⟩
  · rw [h1]
    exact hg
  · rw [h0] at hg
    cases hg

theorem wf_ext (own : Int → Int × Int) (G G1 : gtf_spec) (h : name_ext G.name G1.name)
    (hs : same_slots G G1) (hwf : wf_model own G) : wf_model own G1 := by
  constructor
  · intro i p hi
    rw [hs.1] at hi
    obtain ⟨g, hg⟩ := hwf.1 i p hi
    exact ⟨g, get_gene_ext G G1 h p g hg⟩
  · intro t tp ht
    rw [hs.2] at ht
    obtain ⟨x, hx, hxof⟩ := hwf.2 t tp ht
    obtain ⟨g, hg, hc⟩ := get_tx_gene G tp x hx
    refine ⟨x, ?_, hxof⟩
    unfold get_tx
    rw [get_gene_ext G G1 h _ g hg]
    exact hc

/-- The `gtf_push` of the source gets through and keeps the pointers sound:
none of its three assertions fails for a record that has the gene ids that go
with its transcript id. -/
theorem gtf_push_wf (own : Int → Int × Int) (h : gtf_h) (G : gtf_spec) (ctg : Nat)
    (r : gtf_fields) (feature : Int) (hwf : wf_model own G)
    (hc : (dict_query_value G.name ctg).isSome = true)
    (ht : r.transcript_id = -1 ∨ 0 ≤ r.transcript_id)
    (htx : feature ≠ h.feature_gene → r.transcript_id ≠ -1)
    (hown : r.transcript_id ≠ -1 → (r.gene_id, r.gene_name) = own r.transcript_id) :
    ∃ res, gtf_push h G ctg r feature = some res ∧ wf_model own res.2 := by
  obtain ⟨c, hq⟩ := Option.isSome_iff_exists.1 hc
  unfold gtf_push
  cases hs : dict_value_of G.gene_id r.gene_id with
  | some p =>
    simp only
    by_cases hf : feature = h.feature_gene
    · rw [if_pos hf]
      exact ⟨_, rfl, hwf⟩
    · rw [if_neg hf]
      have hne := htx hf
      have h0 : 0 ≤ r.transcript_id := by
        rcases ht with ht | ht
        · exact absurd ht hne
        · exact ht
      have hsl : dict_query_value G.gene_id r.gene_id.toNat = some p := by
        unfold dict_value_of at hs
        split at hs
        · cases hs
        · exact hs
      obtain ⟨gene, hgene⟩ := hwf.1 _ p hsl
      exact gtf_push_tx_wf own h G p r feature gene hwf hgene h0 (hown hne)
  | none =>
    simp only
    rw [hq]
    simp only
    have hnone : get_gene G (ctg, c.gtf.length) = none := by
      unfold get_gene
      rw [hq]
      exact List.get?_eq_none.2 (le_refl _)
    have hwf1 : ∀ gene : gtf, wf_model own
        { G with
          name := dict_assign_value G.name ctg { c with gtf := c.gtf ++ [gene] }
          gene_id := dict_assign_value G.gene_id r.gene_id.toNat (ctg, c.gtf.length)
          gene_name := dict_assign_value G.gene_name r.gene_name.toNat (ctg, c.gtf.length) } := by
      intro gene
      constructor
      · intro i q hi
        rw [get_gene_app G _ ctg c gene q hq rfl]
        by_cases hqp : q = (ctg, c.gtf.length)
        · rw [if_pos hqp]
          exact ⟨gene, rfl⟩
        · rw [if_neg hqp]
          have hi1 : dict_query_value (dict_assign_value G.gene_id r.gene_id.toNat
              (ctg, c.gtf.length)) i = some q := hi
          rw [qv_assign] at hi1
          split at hi1
          · split at hi1
            · cases hi1
              exact absurd rfl hqp
            · cases hi1
          · exact hwf.1 i q hi1
      · intro t tq ht1
        have ht2 : dict_query_value G.transcript_id t = some tq := ht1
        obtain ⟨x, hx, hxof⟩ := hwf.2 t tq ht2
        refine ⟨x, ?_, hxof⟩
        rw [get_tx_app G _ ctg c gene tq hq rfl]
        obtain ⟨g, hg, _⟩ := get_tx_gene G tq x hx
        have hqp : (tq.1, tq.2.1) ≠ (ctg, c.gtf.length) := by
          intro heq
          rw [heq, hnone] at hg
          cases hg
        rw [if_neg hqp, hx]
    by_cases hf : feature = h.feature_gene
    · rw [if_pos hf]
      exact ⟨_, rfl, hwf1 _⟩
    · rw [if_neg hf]
      have hne := htx hf
      have h0 : 0 ≤ r.transcript_id := by
        rcases ht with ht | ht
        · exact absurd ht hne
        · exact ht
      exact gtf_push_tx_wf own h _ _ r feature (gtf_synth h.feature_gene) (hwf1 _)
        (get_gene_append _ G.name ctg c _ hq rfl) h0 (hown hne)

/-- The reading loop gets through when every record that reaches `gtf_push`
has a transcript id, unless it is a `gene` record, and the gene ids that go
with its transcript id. -/
theorem gtf_read_lines_total (own : Int → Int × Int) (h : gtf_h) (f : Int) :
    ∀ (lines : List gtf_line) (G : gtf_spec), wf_model own G →
      (∀ l ∈ lines, ∀ pp ∈ l.attr, attr_valued pp) →
      (∀ x ∈ pushed h f G lines, (x.2 ≠ h.feature_gene → x.1.transcript_id ≠ -1) ∧
        (x.1.transcript_id ≠ -1 → (x.1.gene_id, x.1.gene_name) = own x.1.transcript_id)) →
      ∃ G1, gtf_read_lines h f G lines = some G1 ∧ wf_model own G1
  | [], G, hwf, _, _ => ⟨G, rfl, hwf⟩
  | l :: t, G, hwf, hv, hp => by
    obtain ⟨pr, hpr, hcase⟩ := parse_rec_total h G l f (hv l (List.mem_cons_self _ _))
    have hvt : ∀ l ∈ t, ∀ pp ∈ l.attr, attr_valued pp :=
      fun x hx => hv x (List.mem_cons_of_mem _ hx)
    rcases hcase with ⟨code, G1, rfl, hext, hsl⟩ | ⟨G1, r, qry, rfl, hext, hsl, hctg, htid⟩
    · have hp1 : pushed h f G (l :: t) = pushed h f G1 t := by
        simp only [pushed, hpr]
      rw [hp1] at hp
      obtain ⟨G2, hG2, hwf2⟩ := gtf_read_lines_total own h f t G1 (wf_ext own G G1 hext hsl hwf)
        hvt hp
      refine ⟨G2, ?_, hwf2⟩
      simp only [gtf_read_lines, parse_str, hpr]
      exact hG2
    · have hmem : (r, qry) ∈ pushed h f G (l :: t) := by
        simp only [pushed, hpr]
        exact List.mem_cons_self _ _
      obtain ⟨hr1, hr2⟩ := hp (r, qry) hmem
      obtain ⟨res, hres, hwfr⟩ := gtf_push_wf own h G1 r.seqname.toNat r qry
        (wf_ext own G G1 hext hsl hwf) hctg htid hr1 hr2
      have hp1 : pushed h f G (l :: t) = (r, qry) :: pushed h f res.2 t := by
        simp only [pushed, hpr, hres]
      rw [hp1] at hp
      obtain ⟨G2, hG2, hwf2⟩ := gtf_read_lines_total own h f t res.2 hwfr hvt
        (fun x hx => hp x (List.mem_cons_of_mem _ hx))
      refine ⟨G2, ?_, hwf2⟩
      simp only [gtf_read_lines, parse_str, hpr, hres, Option.map_some']
      exact hG2

theorem wf_init (own : Int → Int × Int) (h : gtf_h) : wf_model own (gtf_spec_init h) := by
  constructor
  · intro i p hi
    simp [gtf_spec_init, dict_init, dict_query_value] at hi
  · intro t tp ht
    simp [gtf_spec_init, dict_init, dict_query_value] at ht

theorem owner_spec (l : List (gtf_fields × Int))
    (hsame : ∀ x ∈ l, ∀ y ∈ l, x.1.transcript_id ≠ -1 →
      x.1.transcript_id = y.1.transcript_id →
      x.1.gene_id = y.1.gene_id ∧ x.1.gene_name = y.1.gene_name)
    (x : gtf_fields × Int) (hx : x ∈ l) (hne : x.1.transcript_id ≠ -1) :
    (x.1.gene_id, x.1.gene_name) = owner l x.1.transcript_id := by
  unfold owner
  cases hf : l.find? (fun y => y.1.transcript_id = x.1.transcript_id) with
  | none =>
    have := List.find?_eq_none.1 hf x hx
    simp at this
  | some y =>
    have hy := List.find?_some hf
    have hym := List.mem_of_find?_eq_some hf
    simp only [decide_eq_true_eq] at hy
    obtain ⟨h1, h2⟩ := hsame x hx y hym hne hy.symm
    simp only [h1, h2]

/-- C29: when every record that reaches `gtf_push` has the gene id and the
gene name of every other such record with its transcript id (the ids as
`parse_str` hands them over, after the fill of a missing one), every record but
a `gene` record has a transcript id, and the attribute pairs that `parse_str`
interns have values, the reading loop gets through every line: none of the
three assertions of `gtf_push` fails, in any state reached.  The transcript a
record is checked against is the one in the slot of its transcript id in the
table of the whole file: when that transcript has another gene id than the
record, `gtf_push` stops, whatever the gene of the record is. -/
theorem C29_assertions_hold (h : gtf_h) (f : Int) (lines : List gtf_line)
    (hv : ∀ l ∈ lines, ∀ pp ∈ l.attr, attr_valued pp)
    (htx : ∀ x ∈ pushed h f (gtf_spec_init h) lines,
      x.2 ≠ h.feature_gene → x.1.transcript_id ≠ -1)
    (hsame : ∀ x ∈ pushed h f (gtf_spec_init h) lines,
      ∀ y ∈ pushed h f (gtf_spec_init h) lines, x.1.transcript_id ≠ -1 →
      x.1.transcript_id = y.1.transcript_id →
      x.1.gene_id = y.1.gene_id ∧ x.1.gene_name = y.1.gene_name) :
    (∃ G, gtf_read_lines h f (gtf_spec_init h) lines = some G) ∧
    (∀ (G : gtf_spec) (tp : Nat × Nat × Nat) (r : gtf_fields) (tx : gtf),
      get_tx G tp = some tx → tx.f.gene_id ≠ -1 → tx.f.gene_id ≠ r.gene_id →
      gtf_push_sub G tp r = none) := by
  constructor
  · obtain ⟨G, hG, _⟩ := gtf_read_lines_total (owner (pushed h f (gtf_spec_init h) lines)) h f
      lines (gtf_spec_init h) (wf_init _ h) hv
      (fun x hx => ⟨htx x hx, owner_spec _ hsame x hx⟩)
    exact ⟨G, hG⟩
  · intro G tp r tx hget h1 h2
    rw [gtf_push_sub_eq G tp r tx hget, if_neg]
    rintro ⟨h3, _⟩
    simp only [tx_inherit, h1, if_false] at h3
    exact h2 h3

/-- C29, witness: a `gene`, a `transcript` and an `exon` line of `G1`, and an
`exon` line of a second gene and transcript; the loop gets through.  When the
last line names the transcript `T1` of `G1` under the gene `G2` the loop
stops. -/
theorem C29_assertions_hold_witness :
    ((pushed demo_gtf_h 0 (gtf_spec_init demo_gtf_h)
        [gene_line "G1" 1 100, tx_line "G1" "T1" 1 100, exon_line "G1" "T1" 10 20,
          exon_line "G2" "T2" 30 40]).map
      (fun x => [x.1.gene_id, x.1.gene_name, x.1.transcript_id, x.2]) =
      [[0, 0, -1, 0], [0, 0, 0, 1], [0, 0, 0, 5], [1, 1, 1, 5]]) ∧
    (gtf_read_lines demo_gtf_h 0 (gtf_spec_init demo_gtf_h)
        [gene_line "G1" 1 100, tx_line "G1" "T1" 1 100, exon_line "G1" "T1" 10 20,
          exon_line "G2" "T1" 30 40]).isSome = false ∧
    ((∃ G, gtf_read_lines demo_gtf_h 0 (gtf_spec_init demo_gtf_h)
        [gene_line "G1" 1 100, tx_line "G1" "T1" 1 100, exon_line "G1" "T1" 10 20,
          exon_line "G2" "T2" 30 40] = some G) ∧
      (∀ (G : gtf_spec) (tp : Nat × Nat × Nat) (r : gtf_fields) (tx : gtf),
        get_tx G tp = some tx → tx.f.gene_id ≠ -1 → tx.f.gene_id ≠ r.gene_id →
        gtf_push_sub G tp r = none)) :=
  ⟨by decide!, by decide!,
    C29_assertions_hold demo_gtf_h 0
      [gene_line "G1" 1 100, tx_line "G1" "T1" 1 100, exon_line "G1" "T1" 10 20,
        exon_line "G2" "T2" 30 40]
      (by decide) (by decide!) (by decide!)⟩

end PISA
